import Mathlib

/-!
# LbmSplicerExecStream: a shallow embedding

The bitmap-index splicer of `fennel/lbm/LbmSplicerExecStream.cpp`, translated
function by function into explicit state passing.  A tuple of the bitmap index is
`TupleData`; the stream object is `Splicer`; every member function `f` becomes
`f : Params → ... → Splicer → Except Fatal (result × Splicer)`.

Collaborators whose code lives outside the translation unit (the B-tree writer,
the bitmap entry codec, the segment helpers, the input and output accessors) are
modelled from their documented contracts; each such definition says so.
-/

namespace LbmSplicer

/-! ## Tuples -/

/-- Row of the bitmap index: `nIdxKeys` key columns (a null column is `none`),
the start row-id column, and the two trailing bitmap columns (segment descriptor
and segments), both null for a singleton. -/
structure TupleData where
  keys : List (Option Nat)
  startRid : Nat
  segDesc : Option (List Nat)
  segments : Option (List Nat)
deriving DecidableEq, Repr

/-- Width of the row-id type `LcsRid` (an unsigned 64-bit integer). -/
def ridModulus : Nat := 2 ^ 64

/-- Modelled from the spec: `LbmSegment::LbmOneByteSize`, the number of rows
described by one bitmap byte (the alignment unit). -/
def LbmOneByteSize : Nat := 8

/-- Modelled from the spec: `LbmSegment::roundToByteBoundary`, the row-id rounded
down to its alignment boundary. -/
def roundToByteBoundary (rid : Nat) : Nat := rid / LbmOneByteSize * LbmOneByteSize

/-- Whether column `i` of the tuple is null (`TupleDatum::isNull`); the columns
are the keys, then the start row-id, then the two bitmap columns. -/
def TupleData.isNull (t : TupleData) (i : Nat) : Bool :=
  if i < t.keys.length then (t.keys.getD i none).isNone
  else if i = t.keys.length then false
  else if i = t.keys.length + 1 then t.segDesc.isNone
  else t.segments.isNone

/-- Modelled from the spec: `LbmEntry::isSingleton`, a tuple whose two bitmap
columns are null. -/
def isSingleton (t : TupleData) : Bool := t.segDesc.isNone && t.segments.isNone

/-- Comparison of two datums, null lowest: negative, zero or positive. -/
def compareDatum : Option Nat → Option Nat → Int
  | none, none => 0
  | none, some _ => -1
  | some _, none => 1
  | some a, some b => if a < b then -1 else if a = b then 0 else 1

/-- Lexicographic comparison of the first `n` columns of two column lists. -/
def compareCols : List (Option Nat) → List (Option Nat) → Nat → Int
  | x :: xs, y :: ys, n + 1 =>
      let c := compareDatum x y
      if c ≠ 0 then c else compareCols xs ys n
  | _, _, _ => 0

/-- The key and start row-id columns of a tuple, in column order. -/
def TupleData.cols (t : TupleData) : List (Option Nat) := t.keys ++ [some t.startRid]

/-- Modelled from the spec: `TupleDescriptor::compareTuplesKey`, comparing the
first `nKeys` columns of two tuples. -/
def compareTuplesKey (a b : TupleData) (nKeys : Nat) : Int :=
  compareCols a.cols b.cols nKeys

/-! ## Parameters and collaborators -/

/-- Modelled from the spec: the bitmap payload codec (`LbmEntry`,
`LbmTupleRidReader`), whose encoding is not part of this unit.  `getRowCount` is
the row count of an entry, `mergeEntry acc frag` is `some merged` when the codec
accepts the merge and `none` when it refuses, `rids` enumerates the row-ids of a
tuple in reader order. -/
structure Codec where
  getRowCount : TupleData → Nat
  mergeEntry : TupleData → TupleData → Option TupleData
  rids : TupleData → List Nat

/-- What `prepare` fixes for the lifetime of the stream.  `checkAsserts` says
whether the C `assert` macro is compiled in (it is a no-op under `NDEBUG`);
`permAssert` is always checked.  `hasViolationOutput` is
`violationTuple.size() != 0`; `deleted` is the content of the deletion index. -/
structure Params where
  nIdxKeys : Nat
  computeRowCount : Bool
  uniqueKey : Bool
  createNewIndex : Bool
  hasViolationOutput : Bool
  writeRowCountParam : Bool
  checkAsserts : Bool
  deleted : List Nat
  codec : Codec

/-- Fatal outcomes: a failed `assert`, a failed `permAssert`, a duplicate key
refused by `insertTupleData(.., DUP_FAIL)`, a delete on an unpositioned writer,
a read past the end of the row-id reader. -/
inductive Fatal where
  | assertFailed
  | permAssertFailed
  | duplicateKey
  | notPositioned
  | readerExhausted
deriving DecidableEq, Repr

/-- Calls made on the collaborators, in program order. -/
inductive Event where
  | searchFirst
  | searchForKey (key : TupleData) (leastUpper : Bool)
  | searchNext
  | endSearch
  | deleteCurrent (t : TupleData)
  | insertTuple (t : TupleData)
  | deletionSearch (rid : Nat)
  | violationOut (rid : Nat)
  | violationFull (rid : Nat)
  | postError (keys : List (Option Nat)) (rid : Nat)
  | createEmptyRoot
  | readTuple (t : TupleData)
  | consumeTuple
  | writeParam (n : Nat)
  | outputTuple (n : Nat)
  | versionPage (orig new : Nat)
  | markEOS
deriving DecidableEq, Repr

/-- Scheduling results of `execute` and `getValidatedTuple`. -/
inductive ExecStreamResult where
  | EXECRC_BUF_UNDERFLOW
  | EXECRC_BUF_OVERFLOW
  | EXECRC_EOS
  | EXECRC_QUANTUM_EXPIRED
  | EXECRC_YIELD
deriving DecidableEq, Repr

/-- The members of the stream object together with the state of its
collaborators: the on-disk index (`index`, ordered by key then start row-id) and
the writer's position (`cursor`, `none` when singular), the input buffer, the
free slots of the violation output, the shared row-count parameter, and the
trace of collaborator calls. -/
structure Splicer where
  isDone : Bool
  currEntry : Bool
  currExistingEntry : Bool
  numRowsLoaded : Nat
  currValidation : Bool
  firstValidation : Bool
  emptyTable : Bool
  emptyTableUnknown : Bool
  newIndexCreated : Bool
  bTreeWriterMoved : Bool
  pCurrentEntry : TupleData
  currBTreeStartRid : Nat
  bTreeTupleData : TupleData
  tempBTreeTupleData : TupleData
  inputTuple : TupleData
  currUniqueKey : List (Option Nat)
  nKeyRows : Nat
  inputRidReader : List Nat
  upsertRid : Option Nat
  index : List TupleData
  cursor : Option Nat
  writerMonotonic : Bool
  rootPageId : Nat
  origRootPageId : Nat
  nextPageId : Nat
  inBuf : List TupleData
  inEOS : Bool
  violationRoom : Nat
  insertRowCountParam : Nat
  trace : List Event
deriving DecidableEq

/-! ## Row-id overlap -/

/-- `LbmSplicerExecStream::ridOverlaps`: the start row-id is rounded down to the
byte boundary, the row count is one byte for a first-byte probe and otherwise the
entry's row count with a singleton widened to one byte; the sum is taken in
`LcsRid` arithmetic. -/
def ridOverlaps (p : Params) (rid : Nat) (bitmapTupleData : TupleData) (firstByte : Bool) :
    Bool :=
  let startRid := roundToByteBoundary bitmapTupleData.startRid
  let rowCount :=
    if firstByte then LbmOneByteSize
    else
      let rc := p.codec.getRowCount bitmapTupleData
      if rc = 1 then LbmOneByteSize else rc
  if rid ≥ startRid ∧ rid < (startRid + rowCount) % ridModulus then true else false

/-- `LbmSplicerExecStream::uniqueRequired`. -/
def uniqueRequired (p : Params) (tuple : TupleData) : Bool :=
  if p.uniqueKey then
    (List.range p.nIdxKeys).all (fun i => !tuple.isNull i)
  else false

/-! ## The B-tree writer -/

/-- Append a collaborator call to the trace. -/
def Splicer.emit (s : Splicer) (e : Event) : Splicer := { s with trace := s.trace ++ [e] }

/-- Position of the least upper bound of `key` in the index: the first entry that
compares greater than or equal to it on the key columns and the start row-id. -/
def lubIdx (p : Params) (index : List TupleData) (key : TupleData) : Nat :=
  index.findIdx (fun e => decide (0 ≤ compareTuplesKey e key (p.nIdxKeys + 1)))

/-- Modelled from the spec: `BTreeWriter::searchForKey(key, DUP_SEEK_BEGIN,
leastUpper)`.  Returns whether an entry equal to the key exists and positions on
it; otherwise positions on the least upper bound (singular when the key is above
every entry) or on the greatest lower bound (the first entry when the key is
below every entry). -/
def searchForKey (p : Params) (key : TupleData) (leastUpper : Bool) (s : Splicer) :
    Bool × Splicer :=
  let i := lubIdx p s.index key
  let found :=
    match s.index.get? i with
    | some e => decide (compareTuplesKey e key (p.nIdxKeys + 1) = 0)
    | none => false
  let s1 := s.emit (.searchForKey key leastUpper)
  if found then (true, { s1 with cursor := some i })
  else if leastUpper then
    (false, { s1 with cursor := if i < s.index.length then some i else none })
  else
    (false, { s1 with cursor := if s.index.length = 0 then none else some (i - 1) })

/-- The entry under the writer's cursor, if the writer is positioned. -/
def Splicer.current (s : Splicer) : Option TupleData :=
  match s.cursor with
  | some i => s.index.get? i
  | none => none

/-- Modelled from the spec: `BTreeWriter::isSingular`. -/
def isSingular (s : Splicer) : Bool := s.current.isNone

/-- Modelled from the spec: `getTupleAccessorForRead().unmarshal(dst)`: the entry
under the cursor; an unpositioned writer leaves `dst` as it was. -/
def unmarshal (s : Splicer) (dst : TupleData) : TupleData :=
  match s.current with
  | some t => t
  | none => dst

/-- Modelled from the spec: `BTreeWriter::searchFirst`. -/
def searchFirst (s : Splicer) : Bool × Splicer :=
  let s1 := s.emit .searchFirst
  if s.index.length = 0 then (false, { s1 with cursor := none })
  else (true, { s1 with cursor := some 0 })

/-- Modelled from the spec: `BTreeWriter::searchNext`: steps to the following
entry, or becomes singular at the end of the index. -/
def searchNext (s : Splicer) : Bool × Splicer :=
  let s1 := s.emit .searchNext
  match s.cursor with
  | some i =>
      if i + 1 < s.index.length then (true, { s1 with cursor := some (i + 1) })
      else (false, { s1 with cursor := none })
  | none => (false, s1)

/-- Modelled from the spec: `BTreeWriter::endSearch`. -/
def endSearch (s : Splicer) : Splicer := { s.emit .endSearch with cursor := none }

/-- Modelled from the spec: `BTreeWriter::deleteCurrent`: removes the entry under
the cursor. -/
def deleteCurrent (s : Splicer) : Except Fatal Splicer :=
  match s.cursor with
  | some i =>
      match s.index.get? i with
      | some t => .ok { s.emit (.deleteCurrent t) with index := s.index.eraseIdx i }
      | none => .error .notPositioned
  | none => .error .notPositioned

/-- Modelled from the spec: `BTreeWriter::insertTupleData(t, DUP_FAIL)`: fails on
an entry with the same key columns and start row-id, otherwise inserts in key
order and stays positioned on the new entry. -/
def insertTupleData (p : Params) (t : TupleData) (s : Splicer) : Except Fatal Splicer :=
  let i := lubIdx p s.index t
  match s.index.get? i with
  | some e =>
      if compareTuplesKey e t (p.nIdxKeys + 1) = 0 then .error .duplicateKey
      else .ok { s.emit (.insertTuple t) with
                  index := s.index.take i ++ t :: s.index.drop i, cursor := some i }
  | none =>
      .ok { s.emit (.insertTuple t) with
              index := s.index.take i ++ t :: s.index.drop i, cursor := some i }

/-- Modelled from the spec: `DeletionIndexReader::searchForRid`. -/
def searchForRid (p : Params) (rid : Nat) (s : Splicer) : Bool × Splicer :=
  (decide (rid ∈ p.deleted), s.emit (.deletionSearch rid))

/-- The C `assert` macro: fatal only when assertions are compiled in. -/
def cAssert (p : Params) (c : Bool) : Except Fatal Unit :=
  if p.checkAsserts && !c then .error .assertFailed else .ok ()

/-- The `permAssert` macro: always checked. -/
def permAssert (c : Bool) : Except Fatal Unit :=
  if c then .ok () else .error .permAssertFailed

/-! ## Positioning -/

/-- `LbmSplicerExecStream::isEmpty`. -/
def isEmpty (s : Splicer) : Bool × Splicer :=
  if s.emptyTableUnknown then
    let (found, s1) := searchFirst s
    let s2 :=
      if found = false then
        let s3 := endSearch s1
        { s3 with emptyTable := true, cursor := none, writerMonotonic := true }
      else { s1 with emptyTable := false }
    let s4 := { s2 with emptyTableUnknown := false }
    (s4.emptyTable, s4)
  else (s.emptyTable, s)

/-- `LbmSplicerExecStream::findMatchingBTreeEntry`: the search result, the new
content of the output tuple `dst`, and the new state. -/
def findMatchingBTreeEntry (p : Params) (bitmapEntry dst : TupleData) (leastUpper : Bool)
    (s : Splicer) : Bool × TupleData × Splicer :=
  let (m, s1) := searchForKey p bitmapEntry leastUpper s
  (m, unmarshal s1 dst, s1)

/-- `LbmSplicerExecStream::findBTreeEntry`, with the member `bTreeTupleData` as
the output tuple (every caller passes it). -/
def findBTreeEntry (p : Params) (bitmapEntry : TupleData) (s : Splicer) :
    Except Fatal (Bool × Splicer) :=
  let (m, d, s0) := findMatchingBTreeEntry p bitmapEntry s.bTreeTupleData (decide (p.nIdxKeys > 0)) s
  let s1 := { s0 with bTreeTupleData := d }
  if m = false then
    if p.nIdxKeys = 0 then
      let newRid := bitmapEntry.startRid
      if !ridOverlaps p newRid s1.bTreeTupleData false then
        let (m1, s2) := searchNext s1
        if m1 then
          let s3 := { s2 with bTreeTupleData := unmarshal s2 s2.bTreeTupleData }
          if !ridOverlaps p newRid s3.bTreeTupleData true then
            let (m2, s4) := searchForKey p bitmapEntry false s3
            do
              cAssert p (m2 == false)
              pure (true, { s4 with bTreeTupleData := unmarshal s4 s4.bTreeTupleData })
          else pure (true, s3)
        else pure (true, s2)
      else pure (true, s1)
    else
      let keyMatch :=
        !isSingular s1 && decide (compareTuplesKey s1.bTreeTupleData bitmapEntry p.nIdxKeys = 0)
      if keyMatch then do
        cAssert p (decide (roundToByteBoundary s1.bTreeTupleData.startRid
          = roundToByteBoundary bitmapEntry.startRid))
        pure (true, s1)
      else
        let (m2, s2) := searchForKey p bitmapEntry false s1
        do
          cAssert p (m2 == false)
          let s3 := { s2 with bTreeTupleData := unmarshal s2 s2.bTreeTupleData }
          if compareTuplesKey s3.bTreeTupleData bitmapEntry p.nIdxKeys = 0 then pure (true, s3)
          else pure (m2, s3)
  else pure (m, s1)

/-- `LbmSplicerExecStream::createNewBitmapEntry`. -/
def createNewBitmapEntry (bitmapEntry : TupleData) (s : Splicer) : Splicer :=
  { s with pCurrentEntry := bitmapEntry, currBTreeStartRid := bitmapEntry.startRid,
           currEntry := true }

/-- The search key `insertBitmapEntry` builds in `tempBTreeTupleData`: the key
columns of the accumulator are copied over when the writer is flagged as moved,
and the start row-id column is pointed at `currBTreeStartRid`. -/
def relocateKey (p : Params) (s : Splicer) : TupleData :=
  let indexTuple := s.pCurrentEntry
  let t :=
    if s.bTreeWriterMoved then
      { s.tempBTreeTupleData with
        keys := indexTuple.keys.take p.nIdxKeys ++ s.tempBTreeTupleData.keys.drop p.nIdxKeys }
    else s.tempBTreeTupleData
  { t with startRid := s.currBTreeStartRid }

/-- The re-location step of `insertBitmapEntry` (the block under
`if (currExistingEntry)` that precedes `deleteCurrent`): when the row count is
computed locally or the writer is flagged as moved, the entry starting at
`currBTreeStartRid` is searched for and must be found. -/
def relocateEntry (p : Params) (s : Splicer) : Except Fatal Splicer :=
  if p.computeRowCount || s.bTreeWriterMoved then
    let key := relocateKey p s
    let (m, d, s3) := findMatchingBTreeEntry p key key false s
    if m then pure { s3 with tempBTreeTupleData := d } else .error .permAssertFailed
  else pure s

/-- `LbmSplicerExecStream::insertBitmapEntry`. -/
def insertBitmapEntry (p : Params) (s : Splicer) : Except Fatal Splicer :=
  let indexTuple := s.pCurrentEntry
  if s.currExistingEntry then do
    let s2 ← relocateEntry p s
    let s4 ← deleteCurrent s2
    insertTupleData p indexTuple { s4 with currExistingEntry := false }
  else insertTupleData p indexTuple s

/-- `LbmSplicerExecStream::existingEntry`. -/
def existingEntry (p : Params) (bitmapEntry : TupleData) (s : Splicer) :
    Except Fatal (Bool × Splicer) :=
  let (e, s1) := isEmpty s
  if !e then do
    let (found, s2) ← findBTreeEntry p bitmapEntry s1
    if found then
      let s3 := createNewBitmapEntry s2.bTreeTupleData { s2 with currExistingEntry := true }
      pure (true, { s3 with bTreeWriterMoved := false })
    else pure (false, createNewBitmapEntry bitmapEntry { s2 with currExistingEntry := false })
  else pure (false, createNewBitmapEntry bitmapEntry { s1 with currExistingEntry := false })

/-! ## Splicing -/

/-- `LbmSplicerExecStream::spliceEntry`. -/
def spliceEntry (p : Params) (bitmapEntry : TupleData) (s : Splicer) : Except Fatal Splicer :=
  match p.codec.mergeEntry s.pCurrentEntry bitmapEntry with
  | some merged => pure { s with pCurrentEntry := merged }
  | none => do
      let s1 ← insertBitmapEntry p s
      pure (createNewBitmapEntry bitmapEntry s1)

/-- `LbmSplicerExecStream::findBetterEntry`. -/
def findBetterEntry (p : Params) (bitmapEntry : TupleData) (s : Splicer) :
    Except Fatal Splicer := do
  cAssert p p.computeRowCount
  let (e, s1) := isEmpty s
  if !e then
    let (found, s2) ← findBTreeEntry p bitmapEntry s1
    if found then
      let bTreeRid := roundToByteBoundary s2.bTreeTupleData.startRid
      let newRid := bitmapEntry.startRid
      let currRid := roundToByteBoundary s2.pCurrentEntry.startRid
      if (currRid > newRid ∧ currRid > bTreeRid) ∨ (newRid ≥ bTreeRid ∧ bTreeRid > currRid) then
        let rc := p.codec.getRowCount s2.pCurrentEntry
        let rowCount := if rc = 1 then LbmOneByteSize else rc
        if bTreeRid ≥ currRid ∧ bTreeRid < (currRid + rowCount) % ridModulus then pure s2
        else
          let s3 ← insertBitmapEntry p s2
          pure (createNewBitmapEntry s3.bTreeTupleData { s3 with currExistingEntry := true })
      else pure s2
    else pure s2
  else pure s1

/-- `LbmSplicerExecStream::upsertSingleton`. -/
def upsertSingleton (p : Params) (bitmapEntry : TupleData) (s : Splicer) :
    Except Fatal Splicer := do
  let (e, s1) := isEmpty s
  let s2 ←
    if !e then do
      let (found, s3) ← findBTreeEntry p bitmapEntry s1
      if found then do
        cAssert p (isSingleton s3.bTreeTupleData)
        deleteCurrent s3
      else pure s3
    else pure s1
  insertTupleData p bitmapEntry s2

/-! ## Uniqueness validation -/

/-- `LbmSplicerExecStream::countKeyRows`. -/
def countKeyRows (p : Params) (s : Splicer) : Except Fatal (Nat × Splicer) := do
  cAssert p p.uniqueKey
  let (e, s1) := isEmpty s
  if e then pure (0, s1)
  else
    let (found, s2) ← findBTreeEntry p s1.inputTuple s1
    if !found then pure (0, s2)
    else do
      cAssert p (isSingleton s2.bTreeTupleData)
      let rid := s2.bTreeTupleData.startRid
      let (del, s3) := searchForRid p rid s2
      if del then pure (0, s3) else pure (1, s3)

/-- `LbmSplicerExecStream::postViolation`: the row error carries the key columns
of the input and the violating row-id. -/
def postViolation (p : Params) (input : TupleData) (rid : Nat) (s : Splicer) : Splicer :=
  s.emit (.postError (input.keys.take p.nIdxKeys) rid)

/-- Modelled from the spec: `ExecStreamBufAccessor::consumeTuple`. -/
def consumeTuple (s : Splicer) : Splicer := { s.emit .consumeTuple with inBuf := s.inBuf.tail }

/-- The loop of `getValidatedTuple` that looks for a non-deleted row-id when
rebuilding: `rid` is the row-id just returned by `getNext`, `rest` what the
reader still holds. -/
def survivorLoop (p : Params) (rid : Nat) (rest : List Nat) (s : Splicer) : Splicer :=
  let (del, s1) := searchForRid p rid s
  if !del then
    { s1 with upsertRid := some rid, nKeyRows := s1.nKeyRows + 1, inputRidReader := rest }
  else
    match rest with
    | [] => { s1 with inputRidReader := [] }
    | r :: rs => survivorLoop p r rs s1

/-- The loop of `getValidatedTuple` that rejects the remaining row-ids of the
input tuple; `false` means the violation output was full and the loop stopped
before the row-id at the head of the reader. -/
def violationLoop (p : Params) : List Nat → Splicer → Except Fatal (Bool × Splicer)
  | [], s => pure (true, { s with inputRidReader := [] })
  | rid :: rest, s => do
      permAssert p.hasViolationOutput
      let (del, s1) := if p.createNewIndex then searchForRid p rid s else (false, s)
      if del then violationLoop p rest { s1 with inputRidReader := rest }
      else if s1.violationRoom = 0 then
        pure (false, { s1.emit (.violationFull rid) with inputRidReader := rid :: rest })
      else
        let s2 := { s1.emit (.violationOut rid) with violationRoom := s1.violationRoom - 1 }
        let s3 := postViolation p s2.inputTuple rid s2
        violationLoop p rest { s3 with inputRidReader := rest }

/-- The unmarshalling step of `getValidatedTuple`: a singleton row-id is widened
to a bitmap tuple with null bitmap columns and counted when the row count is
computed locally, any other input is taken as it is. -/
def unmarshalInput (p : Params) (t : TupleData) (s : Splicer) : Splicer :=
  if p.computeRowCount then
    { s.emit (.readTuple t) with
      inputTuple := { keys := [], startRid := t.startRid, segDesc := none, segments := none },
      numRowsLoaded := (s.numRowsLoaded + 1) % 2 ^ 64 }
  else { s.emit (.readTuple t) with inputTuple := t }

/-- The deferred creation step of `getValidatedTuple`: on the first tuple of a
build, an empty root is created and the writer is reopened on it, known empty. -/
def createDeferred (p : Params) (s : Splicer) : Splicer :=
  if p.createNewIndex && !s.newIndexCreated then
    { s.emit .createEmptyRoot with
      newIndexCreated := true, rootPageId := s.nextPageId, nextPageId := s.nextPageId + 1,
      index := [], cursor := none, emptyTable := true, emptyTableUnknown := false,
      writerMonotonic := true }
  else s

/-- The step of `getValidatedTuple` that counts the rows of the key when the key
has not been seen yet. -/
def beginGroup (p : Params) (s : Splicer) : Except Fatal Splicer :=
  if s.firstValidation
      || decide (compareCols s.inputTuple.cols s.currUniqueKey p.nIdxKeys ≠ 0) then do
    let s4 := { s with firstValidation := false,
                       currUniqueKey := s.inputTuple.keys.take p.nIdxKeys }
    let (n, s5) ← countKeyRows p s4
    pure { s5 with nKeyRows := n }
  else pure s

/-- The part of `getValidatedTuple` run when no validation is pending: read the
next input tuple, create the index if that was deferred, and either yield the
tuple or open a validation group.  `some rc` is an early return. -/
def readInput (p : Params) (s : Splicer) : Except Fatal (Option ExecStreamResult × Splicer) :=
  match s.inBuf with
  | [] => pure (some .EXECRC_BUF_UNDERFLOW, s)
  | t :: _ =>
      let s2 := createDeferred p (unmarshalInput p t s)
      if !uniqueRequired p s2.inputTuple then pure (some .EXECRC_YIELD, s2)
      else do
        let s3 ← beginGroup p s2
        pure (none, { s3 with inputRidReader := p.codec.rids s3.inputTuple, upsertRid := none,
                              currValidation := true })

/-- The part of `getValidatedTuple` that picks the row-id to upsert when the key
has no undeleted row yet. -/
def chooseUpsertRid (p : Params) (s : Splicer) : Except Fatal Splicer :=
  if s.nKeyRows = 0 then do
    cAssert p s.upsertRid.isNone
    match s.inputRidReader with
    | [] => .error .readerExhausted
    | rid :: rest =>
        if !p.createNewIndex then
          pure { s with upsertRid := some rid, nKeyRows := s.nKeyRows + 1, inputRidReader := rest }
        else pure (survivorLoop p rid rest s)
  else pure s

/-- The part of `getValidatedTuple` that validates the row-ids of the current
input tuple: one row-id is accepted when the key has none, the others are
rejected; the result is an overflow of the violation output, the yield of the
accepted row-id as a singleton, or (`none`) the consumption of a tuple that
yielded nothing. -/
def validateCurrent (p : Params) (s : Splicer) :
    Except Fatal (Option ExecStreamResult × Splicer) := do
  let s2 ← chooseUpsertRid p s
  let (done, s3) ← violationLoop p s2.inputRidReader s2
  if !done then pure (some .EXECRC_BUF_OVERFLOW, s3)
  else
    let s4 := { s3 with currValidation := false }
    match s4.upsertRid with
    | some rid =>
        pure (some .EXECRC_YIELD,
          { s4 with inputTuple :=
              { s4.inputTuple with startRid := rid, segDesc := none, segments := none } })
    | none => pure (none, consumeTuple s4)

/-- The `while (true)` loop of `getValidatedTuple`; every iteration that does not
return consumes one input tuple, so `fuel` above the number of buffered tuples is
never exhausted. -/
def getValidatedTupleLoop (p : Params) :
    Nat → Splicer → Except Fatal (ExecStreamResult × Splicer)
  | 0, s => pure (.EXECRC_BUF_UNDERFLOW, s)
  | fuel + 1, s => do
      let (early, s1) ← if !s.currValidation then readInput p s else pure (none, s)
      match early with
      | some rc => pure (rc, s1)
      | none =>
          let (res, s2) ← validateCurrent p s1
          match res with
          | some rc => pure (rc, s2)
          | none => getValidatedTupleLoop p fuel s2

/-- `LbmSplicerExecStream::getValidatedTuple`. -/
def getValidatedTuple (p : Params) (s : Splicer) : Except Fatal (ExecStreamResult × Splicer) :=
  getValidatedTupleLoop p (s.inBuf.length + 1) s

/-! ## The scheduler entry point -/

/-- The routing of a validated tuple in the `for` loop of `execute`: upsert of a
unique key, start of an accumulator, or splice into the current one. -/
def routeTuple (p : Params) (s : Splicer) : Except Fatal Splicer :=
  if uniqueRequired p s.inputTuple then do
    let s2 ←
      if s.currEntry then do
        let s3 ← insertBitmapEntry p s
        pure { s3 with currEntry := false }
      else pure s
    upsertSingleton p s2.inputTuple s2
  else if !s.currEntry then do
    let (found, s2) ← existingEntry p s.inputTuple s
    if found then spliceEntry p s2.inputTuple s2 else pure s2
  else do
    let keyComp := compareTuplesKey s.pCurrentEntry s.inputTuple s.pCurrentEntry.keys.length
    cAssert p (decide (keyComp ≤ 0))
    if keyComp = 0 then do
      let s2 ← if p.computeRowCount then findBetterEntry p s.inputTuple s else pure s
      spliceEntry p s2.inputTuple s2
    else do
      let s2 ← insertBitmapEntry p s
      let (found, s3) ← existingEntry p s2.inputTuple s2
      if found then spliceEntry p s3.inputTuple s3 else pure s3

/-- The body of the `for` loop of `execute` after a tuple was validated: the
tuple is routed and then consumed. -/
def processTuple (p : Params) (s : Splicer) : Except Fatal Splicer := do
  let s1 ← routeTuple p s
  pure (consumeTuple s1)

/-- The `for` loop of `execute` over the quantum. -/
def executeLoop (p : Params) : Nat → Splicer → Except Fatal (ExecStreamResult × Splicer)
  | 0, s => pure (.EXECRC_QUANTUM_EXPIRED, s)
  | n + 1, s => do
      let (rc, s1) ← getValidatedTuple p s
      if rc ≠ .EXECRC_YIELD then pure (rc, s1)
      else do
        let s2 ← processTuple p s1
        executeLoop p n s2

/-- `LbmSplicerExecStream::execute` with `quantum.nTuplesMax = quantum`.  The
input accessor is in state `EXECBUF_EOS` when its buffer is drained and the
producer has finished. -/
def execute (p : Params) (quantum : Nat) (s : Splicer) :
    Except Fatal (ExecStreamResult × Splicer) :=
  if s.isDone then
    let s1 := if s.newIndexCreated then s.emit (.versionPage s.origRootPageId s.rootPageId) else s
    pure (.EXECRC_EOS, s1.emit .markEOS)
  else if s.inBuf.length = 0 ∧ s.inEOS = true then do
    let s1 ← if s.currEntry then insertBitmapEntry p s else pure s
    let s2 := if !p.computeRowCount then { s1 with numRowsLoaded := s1.insertRowCountParam } else s1
    let s3 := if p.writeRowCountParam then s2.emit (.writeParam s2.numRowsLoaded) else s2
    pure (.EXECRC_BUF_OVERFLOW, { s3.emit (.outputTuple s3.numRowsLoaded) with isDone := true })
  else executeLoop p quantum s

/-- `LbmSplicerExecStream::open(false)` followed by the scheduler handing over an
index, an input buffer and room in the violation output. -/
def openStream (index : List TupleData) (rootPageId : Nat) (inBuf : List TupleData)
    (inEOS : Bool) (violationRoom insertRowCountParam : Nat) : Splicer :=
  let nullTuple : TupleData := { keys := [], startRid := 0, segDesc := none, segments := none }
  { isDone := false, currEntry := false, currExistingEntry := false, numRowsLoaded := 0,
    currValidation := false, firstValidation := true, emptyTable := false,
    emptyTableUnknown := true, newIndexCreated := false, bTreeWriterMoved := true,
    pCurrentEntry := nullTuple, currBTreeStartRid := 0, bTreeTupleData := nullTuple,
    tempBTreeTupleData := nullTuple, inputTuple := nullTuple, currUniqueKey := [],
    nKeyRows := 0, inputRidReader := [], upsertRid := none, index := index, cursor := none,
    writerMonotonic := false, rootPageId := rootPageId, origRootPageId := rootPageId,
    nextPageId := rootPageId + 1, inBuf := inBuf, inEOS := inEOS,
    violationRoom := violationRoom, insertRowCountParam := insertRowCountParam, trace := [] }

/-! ## A concrete codec for evaluation -/

/-- A codec whose payload lists the row-ids of the entry after the first: a
singleton holds its start row-id only, a merge concatenates and is refused above
`maxRids` row-ids, and the row count is the span from the start row-id to the
last row-id, rounded up to whole bytes. -/
def listCodec (maxRids : Nat) : Codec where
  rids t := t.startRid :: (t.segments.getD [])
  getRowCount t :=
    match t.segments with
    | none => 1
    | some l => ((l.foldl max t.startRid - roundToByteBoundary t.startRid) / 8 + 1) * 8
  mergeEntry acc frag :=
    let l := acc.segments.getD [] ++ frag.startRid :: frag.segments.getD []
    if l.length + 1 ≤ maxRids then some { acc with segDesc := some [], segments := some l }
    else none

/-- A singleton tuple. -/
def singleton (keys : List (Option Nat)) (rid : Nat) : TupleData :=
  { keys := keys, startRid := rid, segDesc := none, segments := none }

/-- A bitmap tuple holding `rid` and the row-ids `more`. -/
def bitmap (keys : List (Option Nat)) (rid : Nat) (more : List Nat) : TupleData :=
  { keys := keys, startRid := rid, segDesc := some [], segments := some more }


/-! ## Fixtures -/

/-- A codec that reports the exact span of an entry as its row count: the
distance from the start row-id to the last row-id, plus one. -/
def spanCodec : Codec :=
  { listCodec 100 with
    getRowCount := fun t => (t.segments.getD []).foldl max t.startRid - t.startRid + 1 }

/-- Parameters of a keyless index fed with bitmap fragments. -/
def keylessParams (codec : Codec) : Params :=
  { nIdxKeys := 0, computeRowCount := false, uniqueKey := false, createNewIndex := false,
    hasViolationOutput := false, writeRowCountParam := false, checkAsserts := true,
    deleted := [], codec := codec }

/-- Parameters of a unique index on one key column, appended to (`rebuild =
false`) or rebuilt (`rebuild = true`) with the given deletion index. -/
def uniqueParams (rebuild : Bool) (deleted : List Nat) : Params :=
  { nIdxKeys := 1, computeRowCount := false, uniqueKey := true, createNewIndex := rebuild,
    hasViolationOutput := true, writeRowCountParam := false, checkAsserts := true,
    deleted := deleted, codec := listCodec 100 }

/-- The input tuple as `getValidatedTuple` reads it: a singleton row-id is
widened to a bitmap tuple with null bitmap columns when the row count is
computed locally, any other input is taken as it is. -/
def tupleAsRead (p : Params) (t : TupleData) : TupleData :=
  if p.computeRowCount then
    { keys := [], startRid := t.startRid, segDesc := none, segments := none }
  else t

/-- The span `ridOverlaps` gives an entry: one byte for a first-byte probe or a
row count of one, the row count otherwise. -/
def overlapSpan (p : Params) (t : TupleData) (firstByte : Bool) : Nat :=
  if firstByte then 8 else if p.codec.getRowCount t = 1 then 8 else p.codec.getRowCount t

/-- A stream opened on an empty unique index whose input holds one tuple with a
null key column. -/
def nullKeyStream : Splicer := openStream [] 0 [bitmap [none] 7 [9]] false 0 0

/-! ## Frames -/

/-- The state `s'` differs from `s` at most in what a search may touch: the
writer's position and mode, the trace, the tuple the search unmarshals into,
and the cached emptiness. -/
def SearchOnly (s s' : Splicer) : Prop :=
  s' = { s with cursor := s'.cursor, trace := s'.trace, bTreeTupleData := s'.bTreeTupleData,
                emptyTable := s'.emptyTable, emptyTableUnknown := s'.emptyTableUnknown,
                writerMonotonic := s'.writerMonotonic }

/-- The state `s'` differs from `s` at most in what a write to the index may
touch: the index and the writer's position, the trace, the scratch tuple used to
re-locate an entry, and the flag saying the accumulator is on disk. -/
def WriteOnly (s s' : Splicer) : Prop :=
  s' = { s with cursor := s'.cursor, trace := s'.trace, index := s'.index,
                tempBTreeTupleData := s'.tempBTreeTupleData,
                currExistingEntry := s'.currExistingEntry }

/-- Parameters of a keyless index fed with singleton row-ids in arbitrary order
(the row count is computed by the splicer). -/
def randomRidParams : Params :=
  { nIdxKeys := 0, computeRowCount := true, uniqueKey := false, createNewIndex := false,
    hasViolationOutput := false, writeRowCountParam := false, checkAsserts := true,
    deleted := [], codec := listCodec 100 }

/-- The state a run returns in, or the state it started from when it failed. -/
def stateAfter (r : Except Fatal (ExecStreamResult × Splicer)) (s : Splicer) : Splicer :=
  match r with
  | .ok (_, s') => s'
  | .error _ => s

/-- The state after one tuple of a run over an index holding the entries at rows
0 and 64: row 2 was spliced into the entry at row 0, row 70 is next. -/
def betterEntryStream : Splicer :=
  stateAfter
    (execute randomRidParams 1
      (openStream [bitmap [] 0 [1], singleton [] 64] 0 [singleton [] 2, singleton [] 70] false 0 0))
    (openStream [] 0 [] false 0 0)

/-- The state after the first tuple of a load into an empty keyless index: the
accumulator holds rows 0 and 1, row 9 is next. -/
def firstFragmentStream : Splicer :=
  stateAfter
    (execute (keylessParams (listCodec 2)) 1
      (openStream [] 0 [bitmap [] 0 [1], singleton [] 9] false 0 0))
    (openStream [] 0 [] false 0 0)

/-- A run appending to a unique index that holds an entry with a null key at
row 0 and the key 5 at row 3; the input is a fragment with a null key followed by
the new key 7. -/
def nullThenUniqueRun : Splicer :=
  openStream [bitmap [none] 0 [1], singleton [some 5] 3] 0
    [bitmap [none] 16 [17], singleton [some 7] 20] true 10 0

/-- The state of `nullThenUniqueRun` when `execute` is about to flush the
accumulator for the unique key 7: the null-key fragment was merged into the
accumulator adopted from the entry at row 0, and key 7 has been validated. -/
def nullThenUniqueBeforeFlush : Splicer :=
  stateAfter
    (getValidatedTuple (uniqueParams false [])
      (stateAfter (execute (uniqueParams false []) 1 nullThenUniqueRun) nullThenUniqueRun))
    nullThenUniqueRun

/-! ## Ordered indexes -/

/-- A tuple with exactly `nIdxKeys` key columns. -/
def WellFormed (p : Params) (t : TupleData) : Prop := t.keys.length = p.nIdxKeys

/-- An index ordered by key columns and start row-id, without duplicates, all of
whose entries are well formed. -/
def IndexOrdered (p : Params) (index : List TupleData) : Prop :=
  index.Pairwise (fun a b => compareTuplesKey a b (p.nIdxKeys + 1) < 0) ∧
  ∀ e ∈ index, WellFormed p e

/-- Position `searchForKey` settles on for a greatest-lower-bound search: the
entry equal to the key when there is one, otherwise the entry just before the
least upper bound (the first entry when the key is below every entry). -/
def glbIdx (p : Params) (index : List TupleData) (key : TupleData) : Nat :=
  let i := lubIdx p index key
  match index.get? i with
  | some e => if compareTuplesKey e key (p.nIdxKeys + 1) = 0 then i else i - 1
  | none => i - 1

/-! ## A reference run

What a whole run does to an index that starts empty, as a fold over the input
tuples: the tuples inserted, the accumulator pending, and the violations
reported.  The stream is later shown to follow it under every schedule. -/

/-- Whether the validator skips a row-id: it is marked deleted and the index is
being rebuilt. -/
def skipRid (p : Params) (rid : Nat) : Bool := p.createNewIndex && decide (rid ∈ p.deleted)

/-- What validation makes of the row-ids `c` of one input tuple: the row-id
accepted for the key, if any, and the row-ids left for the rejection loop.
`haveRow` says that the key already has an accepted row. -/
def tupleOutcome (p : Params) (haveRow : Bool) (c : List Nat) : Option Nat × List Nat :=
  if haveRow then (none, c)
  else
    match c.dropWhile (skipRid p) with
    | [] => (none, [])
    | r :: rest => (some r, rest)

/-- The reference state: the key last validated and whether it has an accepted
row, the violations reported so far (key columns and row-id), the tuples
inserted so far in insertion order, and the pending accumulator. -/
structure Ref where
  lastKey : Option (List (Option Nat))
  haveRow : Bool
  viol : List (List (Option Nat) × Nat)
  inserted : List TupleData
  acc : Option TupleData
deriving DecidableEq

/-- The reference state of a freshly opened stream. -/
def Ref.init : Ref := { lastKey := none, haveRow := false, viol := [], inserted := [], acc := none }

/-- Insert with `DUP_FAIL`: refused when a tuple with the same key columns and
start row-id was inserted before. -/
def refInsert (p : Params) (t : TupleData) (ins : List TupleData) :
    Except Fatal (List TupleData) :=
  if ins.any (fun e => decide (compareTuplesKey e t (p.nIdxKeys + 1) = 0)) then
    .error .duplicateKey
  else .ok (ins ++ [t])

/-- Flush of the pending accumulator, if there is one. -/
def refFlush (p : Params) (r : Ref) : Except Fatal Ref :=
  match r.acc with
  | none => .ok r
  | some a =>
      match refInsert p a r.inserted with
      | .ok ins => .ok { r with inserted := ins, acc := none }
      | .error e => .error e

/-- The tuple `getValidatedTuple` yields for an accepted row-id. -/
def validatedTuple (t : TupleData) (rid : Nat) : TupleData :=
  { t with startRid := rid, segDesc := none, segments := none }

/-- Whether a unique-key tuple opens a new key group: no key was validated yet,
or its key columns differ from the key last validated. -/
def refFresh (p : Params) (r : Ref) (t : TupleData) : Bool :=
  match r.lastKey with
  | none => true
  | some k => decide (compareCols t.cols k p.nIdxKeys ≠ 0)

/-- Whether the key of the tuple already has an accepted row when the tuple is
read. -/
def refHave (p : Params) (r : Ref) (t : TupleData) : Bool := !refFresh p r t && r.haveRow

/-- The row-id accepted from the tuple and the row-ids left for rejection. -/
def refOutcome (p : Params) (r : Ref) (t : TupleData) : Option Nat × List Nat :=
  tupleOutcome p (refHave p r t) (p.codec.rids t)

/-- The reference state once a unique-key tuple went through validation: the key
last validated is replaced when the tuple opened a new key group, and every
row-id left for rejection that is not skipped is a violation. -/
def refValidated (p : Params) (r : Ref) (t : TupleData) : Ref :=
  { r with lastKey := if refFresh p r t then some (t.keys.take p.nIdxKeys) else r.lastKey,
           haveRow := refHave p r t || (refOutcome p r t).1.isSome,
           viol := r.viol ++ ((refOutcome p r t).2.filter (fun x => !skipRid p x)).map
             (fun x => (t.keys.take p.nIdxKeys, x)) }

/-- What `execute` does with a validated tuple: a unique-key tuple is upserted
after the pending accumulator is flushed, any other tuple starts the accumulator
or is spliced into it. -/
def refProcess (p : Params) (r : Ref) (x : TupleData) : Except Fatal Ref :=
  if uniqueRequired p x then
    match refFlush p r with
    | .ok r2 =>
        match refInsert p x r2.inserted with
        | .ok ins => .ok { r2 with inserted := ins }
        | .error e => .error e
    | .error e => .error e
  else
    match r.acc with
    | none => .ok { r with acc := some x }
    | some a =>
        let keyComp := compareTuplesKey a x a.keys.length
        if p.checkAsserts && !decide (keyComp ≤ 0) then .error .assertFailed
        else if keyComp = 0 then
          match p.codec.mergeEntry a x with
          | some m => .ok { r with acc := some m }
          | none =>
              match refFlush p r with
              | .ok r1 => .ok { r1 with acc := some x }
              | .error e => .error e
        else
          match refFlush p r with
          | .ok r1 => .ok { r1 with acc := some x }
          | .error e => .error e

/-- One input tuple (as read) in the reference run. -/
def refTuple (p : Params) (r : Ref) (t : TupleData) : Except Fatal Ref :=
  if uniqueRequired p t then
    if !refHave p r t && (p.codec.rids t).isEmpty then .error .readerExhausted
    else if !(refOutcome p r t).2.isEmpty && !p.hasViolationOutput then .error .permAssertFailed
    else
      match (refOutcome p r t).1 with
      | none => .ok (refValidated p r t)
      | some rid => refProcess p (refValidated p r t) (validatedTuple t rid)
  else refProcess p r t

/-- The reference run over a list of tuples as read. -/
def refRun (p : Params) : Ref → List TupleData → Except Fatal Ref
  | r, [] => .ok r
  | r, t :: ts =>
      match refTuple p r t with
      | .ok r1 => refRun p r1 ts
      | .error e => .error e

/-- The violation records of a trace: key columns and row-id of every row error
posted. -/
def violationRecords (tr : List Event) : List (List (Option Nat) × Nat) :=
  tr.filterMap (fun e => match e with
    | .postError k r => some (k, r)
    | _ => none)

/-- The row-ids written to the violation output, in order. -/
def violationRids (tr : List Event) : List Nat :=
  tr.filterMap (fun e => match e with
    | .violationOut r => some r
    | _ => none)

/-! ## Schedules -/

/-- One scheduling step: how many more input tuples the producer delivers before
the call, whether it signals end-of-stream once everything is delivered, how
many violation slots the consumer frees, and the quantum of the call. -/
structure Slice where
  deliver : Nat
  eos : Bool
  room : Nat
  quantum : Nat

/-- The state the scheduler hands to `execute` for a slice. -/
def deliverSlice (sl : Slice) (pending : List TupleData) (s : Splicer) : Splicer :=
  { s with inBuf := s.inBuf ++ pending.take sl.deliver,
           inEOS := s.inEOS || (sl.eos && (pending.drop sl.deliver).isEmpty),
           violationRoom := s.violationRoom + sl.room }

/-- A run of the stream under a schedule: `pending` is the input the producer
has not delivered yet. -/
def runSched (p : Params) : List Slice → List TupleData → Splicer → Except Fatal Splicer
  | [], _, s => .ok s
  | sl :: rest, pending, s =>
      match execute p sl.quantum (deliverSlice sl pending s) with
      | .ok (_, s1) => runSched p rest (pending.drop sl.deliver) s1
      | .error e => .error e

/-! ## The stream follows the reference run -/

/-- The index of the stream holds the tuples `ins`; it started empty, so its
emptiness is either not yet queried (and it is still empty) or cached as true. -/
structure Idx (p : Params) (ins : List TupleData) (s : Splicer) : Prop where
  notDone : s.isDone = false
  emp : (s.emptyTableUnknown = true ∧ s.index = []) ∨
    (s.emptyTableUnknown = false ∧ s.emptyTable = true)
  deferred : p.createNewIndex = true → s.newIndexCreated = false → s.emptyTableUnknown = true
  perm : s.index.Perm ins
  notExisting : s.currExistingEntry = false

/-- The accumulator of the stream is the pending accumulator `acc`. -/
structure Acc (acc : Option TupleData) (s : Splicer) : Prop where
  accFlag : s.currEntry = acc.isSome
  accTuple : ∀ a, acc = some a → s.pCurrentEntry = a
  accKnown : s.currEntry = true → s.emptyTableUnknown = false

/-- The index and accumulator of the stream agree with the reference state. -/
structure Core (p : Params) (r : Ref) (s : Splicer) : Prop where
  idx : Idx p r.inserted s
  acc : Acc r.acc s

/-- The validation state of the stream agrees with the reference state, and the
violations in the trace are the reference violations. -/
structure Val (r : Ref) (s : Splicer) : Prop where
  firstVal : s.firstValidation = r.lastKey.isNone
  curKey : ∀ k, r.lastKey = some k → s.currUniqueKey = k ∧
    s.nKeyRows = (if r.haveRow then 1 else 0)
  violRec : violationRecords s.trace = r.viol
  violOut : violationRids s.trace = r.viol.map Prod.snd

/-- The stream between two input tuples. -/
structure SimT (p : Params) (r : Ref) (s : Splicer) : Prop where
  core : Core p r s
  val : Val r s
  noVal : s.currValidation = false

/-- The stream in the middle of the rejection loop for the head tuple `t` of the
input buffer: `r` is the reference state before `t`; the row-ids left for
rejection split into those already handled and those still in the reader. -/
structure SimV (p : Params) (r : Ref) (t : TupleData) (s : Splicer) : Prop where
  core : Core p r s
  head : s.inBuf.head? = some t
  inTuple : s.inputTuple = tupleAsRead p t
  uniq : uniqueRequired p (tupleAsRead p t) = true
  isVal : s.currValidation = true
  created : p.createNewIndex = true → s.newIndexCreated = true
  firstVal : s.firstValidation = false
  curKey : (refValidated p r (tupleAsRead p t)).lastKey = some s.currUniqueKey
  upsert : s.upsertRid = (refOutcome p r (tupleAsRead p t)).1
  nKey : s.nKeyRows = (if refHave p r (tupleAsRead p t)
    || (refOutcome p r (tupleAsRead p t)).1.isSome then 1 else 0)
  progress : ∃ pre, (refOutcome p r (tupleAsRead p t)).2 = pre ++ s.inputRidReader ∧
    violationRecords s.trace = r.viol ++ (pre.filter (fun x => !skipRid p x)).map
      (fun x => ((tupleAsRead p t).keys.take p.nIdxKeys, x)) ∧
    violationRids s.trace = r.viol.map Prod.snd ++ pre.filter (fun x => !skipRid p x)

/-- The violations in the trace of `s'` are those in the trace of `s`. -/
def SameViol (s s' : Splicer) : Prop :=
  violationRecords s'.trace = violationRecords s.trace ∧
  violationRids s'.trace = violationRids s.trace

/-- The state `s'` differs from `s` at most in what the processing of a
validated tuple may touch: the index and the writer, the accumulator, the
scratch tuples, the cached emptiness and the trace. -/
def ProcOnly (s s' : Splicer) : Prop :=
  s' = { s with cursor := s'.cursor, trace := s'.trace, index := s'.index,
                bTreeTupleData := s'.bTreeTupleData,
                tempBTreeTupleData := s'.tempBTreeTupleData,
                emptyTable := s'.emptyTable, emptyTableUnknown := s'.emptyTableUnknown,
                writerMonotonic := s'.writerMonotonic,
                currExistingEntry := s'.currExistingEntry, currEntry := s'.currEntry,
                pCurrentEntry := s'.pCurrentEntry, currBTreeStartRid := s'.currBTreeStartRid,
                bTreeWriterMoved := s'.bTreeWriterMoved }

/-- The state `s'` differs from `s` at most in what the validation of the
current tuple may touch: the row-id reader, the accepted row-id, the row count
of the key, the room in the violation output and the trace. -/
def ValOnly (s s' : Splicer) : Prop :=
  s' = { s with trace := s'.trace, violationRoom := s'.violationRoom,
                inputRidReader := s'.inputRidReader, upsertRid := s'.upsertRid,
                nKeyRows := s'.nKeyRows }

/-- The stream is between two input tuples, or suspended in the rejection loop
of the head tuple after an overflow of the violation output. -/
def Suspended (p : Params) (r : Ref) (s : Splicer) : Prop :=
  SimT p r s ∨ ∃ t, SimV p r t s ∧ s.inputRidReader ≠ []

/-- What a call of `getValidatedTuple` from state `s0` leaves behind, for a
reference run that ends in `rEnd` once the buffered tuples and the tuples `pend`
not yet delivered are processed. -/
def GvPost (p : Params) (rEnd : Ref) (pend : List TupleData) (s0 : Splicer)
    (rc : ExecStreamResult) (s : Splicer) : Prop :=
  s.inEOS = s0.inEOS ∧ (∃ k, s.inBuf = s0.inBuf.drop k) ∧
  ((rc = .EXECRC_BUF_UNDERFLOW ∧ s.inBuf = [] ∧
      ∃ r, SimT p r s ∧ refRun p r (pend.map (tupleAsRead p)) = .ok rEnd) ∨
   (rc = .EXECRC_BUF_OVERFLOW ∧
      ∃ r, Suspended p r s ∧ s.currValidation = true ∧
        refRun p r ((s.inBuf ++ pend).map (tupleAsRead p)) = .ok rEnd) ∨
   (rc = .EXECRC_YIELD ∧ s.inBuf ≠ [] ∧
      (p.createNewIndex = true → s.newIndexCreated = true) ∧
      ∃ r1 r2, SimT p r1 s ∧ refProcess p r1 s.inputTuple = .ok r2 ∧
        refRun p r2 ((s.inBuf.tail ++ pend).map (tupleAsRead p)) = .ok rEnd))

/-- The invariant of a run between two calls of `execute`, before the stream is
done: the stream is suspended at a reference state from which the tuples still
buffered and the tuples `pend` not yet delivered lead to `rEnd`. -/
def Inv (p : Params) (rEnd : Ref) (pend : List TupleData) (s : Splicer) : Prop :=
  ∃ r, Suspended p r s ∧ refRun p r ((s.inBuf ++ pend).map (tupleAsRead p)) = .ok rEnd
/-- The stream is done and what it leaves agrees with the reference state `rF`:
the index holds the tuples inserted, and the violations reported are the
reference violations. -/
def Final (rF : Ref) (s : Splicer) : Prop :=
  s.isDone = true ∧ s.index.Perm rF.inserted ∧ violationRecords s.trace = rF.viol ∧
    violationRids s.trace = rF.viol.map Prod.snd

/-- The invariant of a run under a schedule: before the stream is done the
invariant `Inv` holds and end-of-stream is signalled only once every tuple is
delivered; afterwards the stream is done with the final reference state. -/
def RunInv (p : Params) (rEnd rF : Ref) (pend : List TupleData) (s : Splicer) : Prop :=
  (Inv p rEnd pend s ∧ (s.inEOS = true → pend = [])) ∨ Final rF s

/-! ## What a run leaves, in terms of its input -/

/-- Whether key columns are subject to the uniqueness constraint: the index is
unique, and the columns are the key columns of the index, none of them null. -/
def uniqueKeyCols (p : Params) (K : List (Option Nat)) : Bool :=
  p.uniqueKey && decide (K.length = p.nIdxKeys) && K.all Option.isSome

/-- The candidate row-ids of the key columns `K`: the row-ids of the input tuples
with these key columns, in input order. -/
def candidates (p : Params) (K : List (Option Nat)) (xs : List TupleData) : List Nat :=
  (xs.filter (fun t => decide (t.keys = K))).flatMap p.codec.rids

/-- The candidates of `K` that validation does not skip: in a rebuild, those not
marked deleted. -/
def eligible (p : Params) (K : List (Option Nat)) (xs : List TupleData) : List Nat :=
  (candidates p K xs).filter (fun x => !skipRid p x)

/-- The rows covered by a list of tuples: key columns and row-id, with
multiplicity. -/
def pairs (p : Params) (l : List TupleData) : List (List (Option Nat) × Nat) :=
  l.flatMap (fun e => (p.codec.rids e).map (fun x => (e.keys, x)))

/-- Modelled from the spec: what a merge accepted by the codec produces, an
entry with the key columns and start row-id of the accumulator that covers the
rows of both. -/
structure CodecOk (p : Params) : Prop where
  mergeCols : ∀ a x m, p.codec.mergeEntry a x = some m →
    m.keys = a.keys ∧ m.startRid = a.startRid
  mergeRids : ∀ a x m, p.codec.mergeEntry a x = some m →
    (p.codec.rids m).Perm (p.codec.rids a ++ p.codec.rids x)

/-- The input the stream expects, as read: every tuple has the key columns of
the index; the tuples are sorted by key; those not subject to the uniqueness
constraint are sorted strictly by key and start row-id; a tuple subject to the
constraint holds a row-id; and a unique index has a violation output. -/
structure InputOk (p : Params) (xs : List TupleData) : Prop where
  wf : ∀ t ∈ xs, WellFormed p t
  sorted : xs.Pairwise (fun a b => compareTuplesKey a b p.nIdxKeys ≤ 0)
  strict : (xs.filter (fun t => !uniqueRequired p t)).Pairwise
    (fun a b => compareTuplesKey a b (p.nIdxKeys + 1) < 0)
  ridsNe : ∀ t ∈ xs, uniqueRequired p t = true → p.codec.rids t ≠ []
  violOut : p.uniqueKey = true → p.hasViolationOutput = true

/-- The invariant of the reference run once the tuples `done` are processed, for
the keys subject to the uniqueness constraint: the key last validated is the
greatest seen, the key has an accepted row when it has an eligible candidate,
the index holds the first eligible candidate of every such key as a singleton,
and the other eligible candidates are its violations. -/
structure UInv (p : Params) (done : List TupleData) (r : Ref) : Prop where
  lastGe : ∀ d ∈ done, uniqueRequired p d = true →
    ∃ k, r.lastKey = some k ∧ compareCols d.keys k p.nIdxKeys ≤ 0
  lastMem : ∀ k, r.lastKey = some k → ∃ d ∈ done, d.keys = k ∧ uniqueRequired p d = true
  haveIff : ∀ k, r.lastKey = some k → (r.haveRow = true ↔ eligible p k done ≠ [])
  surv : ∀ K, uniqueKeyCols p K = true →
    r.inserted.filter (fun e => decide (e.keys = K)) =
      ((eligible p K done).head?).toList.map (singleton K)
  viol : ∀ K, uniqueKeyCols p K = true →
    r.viol.filter (fun v => decide (v.1 = K)) = (eligible p K done).tail.map (fun x => (K, x))

/-- The invariant of the reference run once the tuples `done` are processed, for
the tuples not subject to the uniqueness constraint: the accumulator starts at
a tuple processed, above every such tuple inserted, and the rows covered by the
index and the accumulator are the rows of the tuples processed. -/
structure NInv (p : Params) (done : List TupleData) (r : Ref) : Prop where
  accNon : ∀ a, r.acc = some a → uniqueRequired p a = false ∧ WellFormed p a ∧
    (∃ d ∈ done, uniqueRequired p d = false ∧ d.keys = a.keys ∧ d.startRid = a.startRid) ∧
    ∀ e ∈ r.inserted, uniqueRequired p e = false → compareTuplesKey e a (p.nIdxKeys + 1) < 0
  insWf : ∀ e ∈ r.inserted, WellFormed p e
  insLe : ∀ e ∈ r.inserted, uniqueRequired p e = false →
    ∃ d ∈ done, uniqueRequired p d = false ∧ compareTuplesKey e d (p.nIdxKeys + 1) ≤ 0
  prs : (pairs p (r.inserted.filter (fun e => !uniqueRequired p e) ++ r.acc.toList)).Perm
    (pairs p (done.filter (fun t => !uniqueRequired p t)))

/-- A schedule of two calls: the first is handed the whole input (at most one
tuple) with end-of-stream and ten free violation slots, the second finds the
input exhausted. -/
def twoCalls : List Slice :=
  [{ deliver := 1, eos := true, room := 10, quantum := 10 },
   { deliver := 0, eos := true, room := 0, quantum := 10 }]

/-- Parameters of a unique index on one key column without a violation output. -/
def noViolationParams : Params := { uniqueParams false [] with hasViolationOutput := false }

/-- A stream opened on an empty index whose input holds one tuple of key 5 with
the candidate row-ids 10 and 11. -/
def twoCandidateStream : Splicer := openStream [] 0 [bitmap [some 5] 10 [11]] false 0 0

/-- The stream `twoCandidateStream` once its tuple is read. -/
def twoCandidateRead : Splicer :=
  match readInput noViolationParams twoCandidateStream with
  | .ok (_, s) => s
  | .error _ => twoCandidateStream

/-- The stream `twoCandidateRead` once the row-id to accept is chosen. -/
def twoCandidateChosen : Splicer :=
  match chooseUpsertRid noViolationParams twoCandidateRead with
  | .ok s => s
  | .error _ => twoCandidateRead

/-! ## Classes of collaborator calls -/

/-- The calls that position the writer. -/
def Event.isSearch : Event → Bool
  | .searchFirst => true
  | .searchForKey _ _ => true
  | .searchNext => true
  | .endSearch => true
  | _ => false

/-- The calls that change the index. -/
def Event.isWrite : Event → Bool
  | .deleteCurrent _ => true
  | .insertTuple _ => true
  | _ => false

/-- The calls made on the index: searches and writes. -/
def Event.isIndexOp (e : Event) : Bool := e.isSearch || e.isWrite

/-- The calls `execute` makes outside its loop: the row-count parameter, the
summary tuple, the versioning of the root and the end-of-stream mark. -/
def Event.isControl : Event → Bool
  | .writeParam _ => true
  | .outputTuple _ => true
  | .versionPage _ _ => true
  | .markEOS => true
  | _ => false

/-- The calls made inside the loop of `execute`. -/
def Event.inLoop (e : Event) : Bool := !e.isControl

/-- From `s` to `s'` the trace grows by calls of class `c` only, and the members
that only `execute` and `getValidatedTuple` themselves set, or that nothing sets
after `open`, are as before. -/
structure Step (c : Event → Bool) (s s' : Splicer) : Prop where
  ext : ∃ tr, s'.trace = s.trace ++ tr ∧ ∀ e ∈ tr, c e = true
  done : s'.isDone = s.isDone
  eos : s'.inEOS = s.inEOS
  orig : s'.origRootPageId = s.origRootPageId
  param : s'.insertRowCountParam = s.insertRowCountParam
  rows : s'.numRowsLoaded = s.numRowsLoaded
  created : s'.newIndexCreated = s.newIndexCreated
  root : s'.rootPageId = s.rootPageId
  val : s'.currValidation = s.currValidation
  buf : s'.inBuf = s.inBuf

/-- The index writes recorded in a trace. -/
def writeEvents (tr : List Event) : List Event := tr.filter Event.isWrite

/-- The calls recorded in a trace that `execute` makes outside its loop. -/
def controlEvents (tr : List Event) : List Event := tr.filter Event.isControl

/-- The reading of an input tuple. -/
def Event.isRead : Event → Bool
  | .readTuple _ => true
  | _ => false

/-- The calls made inside the loop of `execute` other than the reading of an
input tuple. -/
def Event.isQuiet (e : Event) : Bool := !e.isControl && !e.isRead

/-- The input tuples read, in the order of a trace. -/
def readEvents (tr : List Event) : List TupleData :=
  tr.filterMap (fun e => match e with
    | .readTuple t => some t
    | _ => none)

/-- The row counts of the summary tuples produced, in the order of a trace. -/
def summaries (tr : List Event) : List Nat :=
  tr.filterMap (fun e => match e with
    | .outputTuple n => some n
    | _ => none)

/-- The calls of `versionPage`, in the order of a trace. -/
def versionCalls (tr : List Event) : List (Nat × Nat) :=
  tr.filterMap (fun e => match e with
    | .versionPage a b => some (a, b)
    | _ => none)

/-- From `s` to `s'` the trace grows by calls made inside the loop of `execute`
other than reads of the input, and the members that only `execute` or the
reading of a tuple set are as before. -/
structure Tick (s s' : Splicer) : Prop where
  ext : ∃ tr, s'.trace = s.trace ++ tr ∧ ∀ e ∈ tr, e.isQuiet = true
  done : s'.isDone = s.isDone
  eos : s'.inEOS = s.inEOS
  orig : s'.origRootPageId = s.origRootPageId
  param : s'.insertRowCountParam = s.insertRowCountParam
  rows : s'.numRowsLoaded = s.numRowsLoaded

/-- The buffered input tuples not read yet: all of them, or all but the head
while the head is being validated. -/
def unread (s : Splicer) : List TupleData :=
  if s.currValidation then s.inBuf.tail else s.inBuf

/-- From `s` to `s'` the trace grows by calls made inside the loop of `execute`,
and the members that only `execute` sets outside its loop are as before. -/
structure Run (s s' : Splicer) : Prop where
  ext : ∃ tr, s'.trace = s.trace ++ tr ∧ ∀ e ∈ tr, e.inLoop = true
  done : s'.isDone = s.isDone
  eos : s'.inEOS = s.inEOS
  orig : s'.origRootPageId = s.origRootPageId
  param : s'.insertRowCountParam = s.insertRowCountParam

/-- The bookkeeping of the input between two tuples, or while the validation of
the head tuple is suspended: the tuples read so far, those still buffered and
those not delivered yet (`pend`) make up the input; and `numRowsLoaded` counts
the tuples read when the row count is computed locally, and is 0 otherwise. -/
structure Rest (p : Params) (input pend : List TupleData) (s : Splicer) : Prop where
  reads : readEvents s.trace ++ unread s ++ pend = input
  head : s.currValidation = true → s.inBuf ≠ []
  rows : s.numRowsLoaded =
    if p.computeRowCount then (readEvents s.trace).length % 2 ^ 64 else 0

/-- The bookkeeping of the input when `getValidatedTuple` has yielded the head
tuple of the buffer. -/
structure Yielded (p : Params) (input pend : List TupleData) (s : Splicer) : Prop where
  reads : readEvents s.trace ++ s.inBuf.tail ++ pend = input
  head : s.inBuf ≠ []
  noVal : s.currValidation = false
  rows : s.numRowsLoaded =
    if p.computeRowCount then (readEvents s.trace).length % 2 ^ 64 else 0

/-- The guard of `findBetterEntry` on the byte-aligned start row-id of the
on-disk entry (`bTreeRid`), the new row-id and the byte-aligned start row-id of
the accumulator (`currRid`). -/
def betterGuard (bTreeRid newRid currRid : Nat) : Prop :=
  (currRid > newRid ∧ currRid > bTreeRid) ∨ (newRid ≥ bTreeRid ∧ bTreeRid > currRid)

instance (bTreeRid newRid currRid : Nat) : Decidable (betterGuard bTreeRid newRid currRid) :=
  inferInstanceAs (Decidable ((currRid > newRid ∧ currRid > bTreeRid) ∨
    (newRid ≥ bTreeRid ∧ bTreeRid > currRid)))

/-- The three conditions listed in the comment above `findBetterEntry`, one of
which makes the on-disk entry the better one. -/
def betterCases (bTreeRid newRid currRid : Nat) : Prop :=
  (bTreeRid ≤ newRid ∧ newRid < currRid) ∨ (currRid < bTreeRid ∧ bTreeRid ≤ newRid) ∨
    (newRid ≤ bTreeRid ∧ bTreeRid < currRid)

/-- A stream opened on a unique index that holds the key 5 at row 3, after
`getValidatedTuple` has unmarshalled the input tuple of key 5 and row 10. -/
def keyFiveRead : Splicer :=
  createDeferred (uniqueParams false [])
    (unmarshalInput (uniqueParams false []) (singleton [some 5] 10)
      (openStream [singleton [some 5] 3] 0 [singleton [some 5] 10] false 0 0))

/-- The state of `keyFiveRead` once the rows of its key are counted. -/
def keyFiveCounted : Splicer :=
  match countKeyRows (uniqueParams false []) keyFiveRead with
  | .ok r => r.2
  | .error _ => keyFiveRead

/-- The writer's cursor is on the entry held in `bTreeTupleData`. -/
def OnReturned (s : Splicer) : Prop := s.current = some s.bTreeTupleData

/-- A stream opened on a keyless index that holds one entry, rows 0 and 1. -/
def lastEntryStream : Splicer := openStream [bitmap [] 0 [1]] 0 [] false 0 0

/-- The state of a run whose input stream is empty: nothing is buffered or
pending, no root was allocated, the index and the root are as at `open`, no
root was versioned, and the summary tuple, produced when the stream is done,
carries the row count `0` computed locally or the shared parameter `cnt`. -/
structure EmptyRun (p : Params) (index : List TupleData) (root cnt : Nat) (s : Splicer) :
    Prop where
  buf : s.inBuf = []
  noVal : s.currValidation = false
  noAcc : s.currEntry = false
  notCreated : s.newIndexCreated = false
  rootId : s.rootPageId = root
  idx : s.index = index
  versions : versionCalls s.trace = []
  param : s.insertRowCountParam = cnt
  rows : s.isDone = false → s.numRowsLoaded = 0
  eos : s.isDone = false → s.inEOS = false
  summary : summaries s.trace = if s.isDone then [if p.computeRowCount then 0 else cnt] else []

/-- A schedule of four calls: the first is handed the whole input (at most two
tuples) with end-of-stream and ten free violation slots, the others find the
input exhausted. -/
def fourCalls : List Slice :=
  [{ deliver := 2, eos := true, room := 10, quantum := 10 },
   { deliver := 0, eos := true, room := 0, quantum := 10 },
   { deliver := 0, eos := true, room := 0, quantum := 10 },
   { deliver := 0, eos := true, room := 0, quantum := 10 }]

/-- The state of a rebuild of one tuple once the summary tuple is produced. -/
def rebuiltDone : Splicer :=
  match runSched (uniqueParams true []) twoCalls [singleton [some 5] 10]
      (openStream [] 0 [] false 0 0) with
  | .ok s => s
  | .error _ => openStream [] 0 [] false 0 0

/-- The state after a load of two fragments of a keyless index, whose merge the
codec refuses, under the schedule `fourCalls`. -/
def flushedRun : Splicer :=
  match runSched (keylessParams (listCodec 2)) fourCalls [bitmap [] 0 [1], singleton [] 2]
      (openStream [] 0 [] false 0 0) with
  | .ok s => s
  | .error _ => openStream [] 0 [] false 0 0

/-- A stream opened on an empty unique index whose input holds three tuples of
key 5, with room for ten violations. -/
def threeOfKeyFive : Splicer :=
  openStream [] 0 [singleton [some 5] 10, singleton [some 5] 11, singleton [some 5] 12]
    false 10 0

/-- A stream opened on an empty keyless index whose input holds three
fragments. -/
def threeFragments : Splicer :=
  openStream [] 0 [singleton [] 0, singleton [] 100, singleton [] 200] false 0 0

/-- The bookkeeping of a run over `input` of which `pend` is not delivered yet,
with the shared row-count parameter at `cnt`: until the stream is done the input
is accounted for, no summary tuple was produced, and an input at end-of-stream
has nothing left to deliver; once it is done the one summary tuple carries the
number of input tuples (in 64-bit arithmetic) or the parameter. -/
structure Book (p : Params) (input : List TupleData) (cnt : Nat) (pend : List TupleData)
    (s : Splicer) : Prop where
  param : s.insertRowCountParam = cnt
  rest : s.isDone = false → Rest p input pend s
  none : s.isDone = false → summaries s.trace = []
  eos : s.isDone = false → s.inEOS = true → pend = []
  summary : s.isDone = true →
    summaries s.trace = [if p.computeRowCount then input.length % 2 ^ 64 else cnt]
  rows : s.isDone = true →
    s.numRowsLoaded = if p.computeRowCount then input.length % 2 ^ 64 else cnt

/-- Parameters of a keyless index with a uniqueness constraint, fed with
singleton row-ids that the splicer counts. -/
def countingUniqueParams : Params :=
  { nIdxKeys := 0, computeRowCount := true, uniqueKey := true, createNewIndex := false,
    hasViolationOutput := true, writeRowCountParam := false, checkAsserts := true,
    deleted := [], codec := listCodec 100 }

/-- The state after a load of two row-ids into a keyless index, counted by the
splicer, under the schedule `fourCalls`. -/
def countedRun : Splicer :=
  match runSched randomRidParams fourCalls [singleton [] 10, singleton [] 300]
      (openStream [] 0 [] false 0 0) with
  | .ok s => s
  | .error _ => openStream [] 0 [] false 0 0

/-- Equality of results is decidable, so that concrete runs can be compared. -/
instance instDecidableEqExcept {ε α : Type} [DecidableEq ε] [DecidableEq α] :
    DecidableEq (Except ε α)
  | .ok a, .ok b =>
      if h : a = b then isTrue (by rw [h]) else isFalse (fun h2 => h (Except.ok.inj h2))
  | .error a, .error b =>
      if h : a = b then isTrue (by rw [h]) else isFalse (fun h2 => h (Except.error.inj h2))
  | .ok _, .error _ => isFalse (fun h => by cases h)
  | .error _, .ok _ => isFalse (fun h => by cases h)

/-- The uniqueness constraint on an index: every key whose columns are subject
to it has at most one entry, and that entry is a singleton. -/
def UniqueIdx (p : Params) (index : List TupleData) : Prop :=
  ∀ K, uniqueKeyCols p K = true →
    (index.filter (fun e => decide (e.keys = K))).length ≤ 1 ∧
    ∀ e ∈ index, e.keys = K → isSingleton e = true

/-- The state `s` with the index replaced by `i`. -/
def withIndex (i : List TupleData) (s : Splicer) : Splicer := { s with index := i }

/-- A rebuild before its first input tuple is read: the new root is not created
yet, no validation is pending and there is no accumulator. -/
structure PreCreate (p : Params) (s : Splicer) : Prop where
  rebuild : p.createNewIndex = true
  notCreated : s.newIndexCreated = false
  noVal : s.currValidation = false
  noAcc : s.currEntry = false
  noExisting : s.currExistingEntry = false

/-- The cached emptiness of the index is the same in `s'` as in `s`. -/
def SameEmptiness (s s' : Splicer) : Prop :=
  s'.emptyTable = s.emptyTable ∧ s'.emptyTableUnknown = s.emptyTableUnknown

/-- The invariant of an append to an index that is not empty: the index stays
ordered, non-empty and unique on the keys subject to the constraint; its
emptiness, once queried, is cached as false; the accumulator, when there is
one, is well formed and not subject to the constraint, and it is on disk only
when there is one; the buffered input is well formed as read, and so is the
input tuple whose validation is pending. -/
structure App (p : Params) (s : Splicer) : Prop where
  ordered : IndexOrdered p s.index
  unique : UniqueIdx p s.index
  nonEmpty : s.index ≠ []
  cached : s.emptyTableUnknown = false → s.emptyTable = false
  accWf : s.currEntry = true → WellFormed p s.pCurrentEntry
  accNon : s.currEntry = true → uniqueRequired p s.pCurrentEntry = false
  existing : s.currExistingEntry = true → s.currEntry = true
  bufWf : ∀ t ∈ s.inBuf, WellFormed p (tupleAsRead p t)
  valWf : s.currValidation = true → WellFormed p s.inputTuple

/-- The state after an append of one bitmap tuple of key 5 to a unique index
that holds key 5 on a deleted row, under the schedule `twoCalls`. -/
def appendedRun : Splicer :=
  match runSched (uniqueParams false [3]) twoCalls [bitmap [some 5] 10 [11, 12]]
      (openStream [singleton [some 5] 3] 0 [] false 0 0) with
  | .ok s => s
  | .error _ => openStream [] 0 [] false 0 0

/-! # Theorems -/

/-! ## C8: row-id overlap -/

/-- C8, as stated, fails: an entry starting at row 0 whose row count is 3 does
not overlap row 5, although 0 <= 5 < 0 + max 3 8. -/
theorem ridOverlaps_max_span_fails :
    spanCodec.getRowCount (bitmap [] 0 [1, 2]) = 3 ∧
    ridOverlaps (keylessParams spanCodec) 5 (bitmap [] 0 [1, 2]) false = false ∧
    (roundToByteBoundary (bitmap [] 0 [1, 2]).startRid ≤ 5 ∧
      5 < roundToByteBoundary (bitmap [] 0 [1, 2]).startRid
            + max (spanCodec.getRowCount (bitmap [] 0 [1, 2])) 8) := by
  decide

/-- C8, amended: `ridOverlaps` holds exactly when the row-id lies in
`[aligned_start, aligned_start + span)`, the upper end taken in 64-bit row-id
arithmetic, where the span is 8 for a first-byte probe or a row count of 1 and
the row count itself otherwise; that span is `max rowCount 8` whenever the row
count is 1 or at least 8. -/
theorem ridOverlaps_iff (p : Params) (rid : Nat) (t : TupleData) (firstByte : Bool) :
    (ridOverlaps p rid t firstByte = true ↔
      roundToByteBoundary t.startRid ≤ rid ∧
      rid < (roundToByteBoundary t.startRid + overlapSpan p t firstByte) % 2 ^ 64) ∧
    (roundToByteBoundary t.startRid = t.startRid / 8 * 8) ∧
    (firstByte = false → (p.codec.getRowCount t = 1 ∨ 8 ≤ p.codec.getRowCount t) →
      overlapSpan p t firstByte = max (p.codec.getRowCount t) 8) := by
  refine ⟨?_, rfl, ?_⟩
  · unfold ridOverlaps overlapSpan
    cases firstByte <;> simp [LbmOneByteSize, ridModulus]
  · intro hf hrc
    subst hf
    unfold overlapSpan
    rcases hrc with h | h
    · simp [h]
    · have h1 : p.codec.getRowCount t ≠ 1 := by omega
      simp [h1, Nat.max_eq_left h]

/-- C8 at a concrete entry: a three-byte entry starting at row 19 covers rows
16 to 39. -/
theorem ridOverlaps_iff_witness :
    ridOverlaps (keylessParams (listCodec 100)) 39 (bitmap [] 19 [35]) false = true ∧
    ridOverlaps (keylessParams (listCodec 100)) 40 (bitmap [] 19 [35]) false = false ∧
    ridOverlaps (keylessParams (listCodec 100)) 15 (bitmap [] 19 [35]) false = false ∧
    overlapSpan (keylessParams (listCodec 100)) (bitmap [] 19 [35]) false
      = max ((listCodec 100).getRowCount (bitmap [] 19 [35])) 8 :=
  ⟨by decide, by decide, by decide,
    (ridOverlaps_iff (keylessParams (listCodec 100)) 39 (bitmap [] 19 [35]) false).2.2 rfl
      (by decide)⟩

/-! ## C10: the uniqueness bypass -/

/-- C10: `uniqueRequired` holds exactly when the index enforces a unique key and
none of the first `nIdxKeys` columns is null; and a tuple for which it fails is
yielded by `getValidatedTuple` as it was read, the only collaborator calls being
the read itself and, when creation was deferred, the creation of the empty
root: no search of the index or of the deletion index, no violation, and the
tuple stays in the input buffer. -/
theorem uniqueRequired_bypass (p : Params) (t : TupleData) :
    (uniqueRequired p t = true ↔
      p.uniqueKey = true ∧ ∀ i, i < p.nIdxKeys → t.isNull i = false) ∧
    (∀ (fuel : Nat) (s : Splicer) (rest : List TupleData),
      s.currValidation = false → s.inBuf = t :: rest →
      uniqueRequired p (tupleAsRead p t) = false →
      ∃ s', getValidatedTupleLoop p (fuel + 1) s = .ok (.EXECRC_YIELD, s') ∧
        s'.inputTuple = tupleAsRead p t ∧
        s'.trace = s.trace ++ .readTuple t ::
          (if p.createNewIndex && !s.newIndexCreated then [.createEmptyRoot] else []) ∧
        s'.index = (if p.createNewIndex && !s.newIndexCreated then [] else s.index) ∧
        s'.inBuf = s.inBuf ∧ s'.violationRoom = s.violationRoom ∧
        s'.currValidation = false ∧ s'.nKeyRows = s.nKeyRows ∧
        s'.currEntry = s.currEntry ∧ s'.pCurrentEntry = s.pCurrentEntry) := by
  constructor
  · unfold uniqueRequired
    cases hu : p.uniqueKey <;> simp [List.all_eq_true]
  · intro fuel s rest hv hb hu
    unfold tupleAsRead at hu
    unfold getValidatedTupleLoop readInput createDeferred unmarshalInput
    cases hc : p.computeRowCount <;> cases hn : (p.createNewIndex && !s.newIndexCreated) <;>
      simp [hv, hb, hc, hn, hu, tupleAsRead, Splicer.emit, bind, Except.bind, pure, Except.pure] <;>
      simp_all [Splicer.emit]

/-- C10 at a concrete input: a tuple with a null key column passes through an
append to a unique index untouched. -/
theorem uniqueRequired_bypass_witness :
    uniqueRequired (uniqueParams false []) (bitmap [none] 7 [9]) = false ∧
    uniqueRequired (uniqueParams false []) (bitmap [some 4] 7 [9]) = true ∧
    ∃ s', getValidatedTuple (uniqueParams false []) nullKeyStream = .ok (.EXECRC_YIELD, s') ∧
      s'.inputTuple = bitmap [none] 7 [9] ∧
      s'.trace = [.readTuple (bitmap [none] 7 [9])] := by
  refine ⟨by decide, by decide, ?_⟩
  obtain ⟨s', h1, h2, h3, _⟩ :=
    (uniqueRequired_bypass (uniqueParams false []) (bitmap [none] 7 [9])).2 1 nullKeyStream []
      rfl rfl (by decide)
  exact ⟨s', h1, h2, h3⟩

/-! ## Searches leave the accumulator and the index alone -/

theorem SearchOnly.search_refl (s : Splicer) : SearchOnly s s := by
  cases s; simp [SearchOnly]

theorem SearchOnly.search_trans {a b c : Splicer} (h1 : SearchOnly a b) (h2 : SearchOnly b c) :
    SearchOnly a c := by
  unfold SearchOnly at *
  rw [h2, h1]

theorem SearchOnly.setTuple {s s1 : Splicer} (h : SearchOnly s s1) (d : TupleData) :
    SearchOnly s { s1 with bTreeTupleData := d } := by
  unfold SearchOnly at *
  rw [h]

theorem SearchOnly.search_fields {s s' : Splicer} (h : SearchOnly s s') :
    s'.pCurrentEntry = s.pCurrentEntry ∧ s'.currExistingEntry = s.currExistingEntry ∧
    s'.currBTreeStartRid = s.currBTreeStartRid ∧ s'.currEntry = s.currEntry ∧
    s'.index = s.index ∧ s'.inBuf = s.inBuf ∧ s'.inputTuple = s.inputTuple := by
  unfold SearchOnly at h
  rw [h]
  simp

theorem searchForKey_searchOnly (p : Params) (key : TupleData) (lu : Bool) (s : Splicer) :
    SearchOnly s (searchForKey p key lu s).2 := by
  unfold searchForKey
  cases s
  simp only [Splicer.emit]
  split_ifs <;> simp [SearchOnly]

theorem searchNext_searchOnly (s : Splicer) : SearchOnly s (searchNext s).2 := by
  unfold searchNext
  cases s
  simp only [Splicer.emit]
  split <;> [split_ifs; skip] <;> simp [SearchOnly]

theorem isEmpty_searchOnly (s : Splicer) : SearchOnly s (isEmpty s).2 := by
  unfold isEmpty searchFirst endSearch
  cases s
  simp only [Splicer.emit]
  split_ifs <;> simp [SearchOnly]

theorem findBTreeEntry_searchOnly (p : Params) (e : TupleData) (s s' : Splicer) (b : Bool)
    (h : findBTreeEntry p e s = .ok (b, s')) : SearchOnly s s' := by
  have k1 := searchForKey_searchOnly p e (decide (p.nIdxKeys > 0)) s
  generalize hs1 : searchForKey p e (decide (p.nIdxKeys > 0)) s = r1 at k1
  obtain ⟨m, s1⟩ := r1
  simp only [findBTreeEntry, findMatchingBTreeEntry, hs1, cAssert, bind, Except.bind, pure, Except.pure] at h
  have k2 : SearchOnly s { s1 with bTreeTupleData := unmarshal s1 s.bTreeTupleData } :=
    k1.setTuple _
  generalize hs2 : ({ s1 with bTreeTupleData := unmarshal s1 s.bTreeTupleData } : Splicer) = s2
    at h k2
  have k3 : SearchOnly s (searchNext s2).2 := k2.search_trans (searchNext_searchOnly s2)
  generalize hs3 : searchNext s2 = r3 at h k3
  obtain ⟨m3, s3⟩ := r3
  have k4 : SearchOnly s { s3 with bTreeTupleData := unmarshal s3 s3.bTreeTupleData } :=
    k3.setTuple _
  generalize hs4 : ({ s3 with bTreeTupleData := unmarshal s3 s3.bTreeTupleData } : Splicer) = s4
    at h k4
  have k5 : SearchOnly s (searchForKey p e false s4).2 :=
    k4.search_trans (searchForKey_searchOnly p e false s4)
  generalize hs5 : searchForKey p e false s4 = r5 at h k5
  obtain ⟨m5, s5⟩ := r5
  have k6 : SearchOnly s (searchForKey p e false s2).2 :=
    k2.search_trans (searchForKey_searchOnly p e false s2)
  generalize hs6 : searchForKey p e false s2 = r6 at h k6
  obtain ⟨m6, s6⟩ := r6
  have k7 := k6.setTuple (unmarshal s6 s6.bTreeTupleData)
  have k8 := k5.setTuple (unmarshal s5 s5.bTreeTupleData)
  split_ifs at h <;>
    (simp only [Except.ok.injEq, Prod.mk.injEq] at h
     obtain ⟨-, rfl⟩ := h
     assumption)

/-! ## Writes leave the accumulator's tuple and the input alone -/

theorem WriteOnly.write_refl (s : Splicer) : WriteOnly s s := by
  cases s; simp [WriteOnly]

theorem WriteOnly.write_trans {a b c : Splicer} (h1 : WriteOnly a b) (h2 : WriteOnly b c) :
    WriteOnly a c := by
  unfold WriteOnly at *
  rw [h2, h1]

theorem WriteOnly.write_fields {s s' : Splicer} (h : WriteOnly s s') :
    s'.pCurrentEntry = s.pCurrentEntry ∧ s'.bTreeTupleData = s.bTreeTupleData ∧
    s'.currBTreeStartRid = s.currBTreeStartRid ∧ s'.currEntry = s.currEntry ∧
    s'.inBuf = s.inBuf ∧ s'.inputTuple = s.inputTuple ∧
    s'.emptyTable = s.emptyTable ∧ s'.emptyTableUnknown = s.emptyTableUnknown := by
  unfold WriteOnly at h
  rw [h]
  simp

theorem deleteCurrent_writeOnly (s s' : Splicer) (h : deleteCurrent s = .ok s') :
    WriteOnly s s' := by
  unfold deleteCurrent at h
  split at h
  · split at h
    · simp only [Except.ok.injEq] at h
      subst h
      cases s
      simp [WriteOnly, Splicer.emit]
    · cases h
  · cases h

theorem insertTupleData_writeOnly (p : Params) (t : TupleData) (s s' : Splicer)
    (h : insertTupleData p t s = .ok s') : WriteOnly s s' := by
  simp only [insertTupleData] at h
  split at h
  · split_ifs at h
    simp only [Except.ok.injEq] at h
    subst h
    cases s
    simp [WriteOnly, Splicer.emit]
  · simp only [Except.ok.injEq] at h
    subst h
    cases s
    simp [WriteOnly, Splicer.emit]

theorem findMatchingBTreeEntry_searchOnly (p : Params) (e d : TupleData) (lu : Bool)
    (s : Splicer) : SearchOnly s (findMatchingBTreeEntry p e d lu s).2.2 :=
  searchForKey_searchOnly p e lu s

theorem SearchOnly.writeOnly_of_tuple {s s' : Splicer} (h : SearchOnly s s')
    (ht : s'.bTreeTupleData = s.bTreeTupleData) (he : s'.emptyTable = s.emptyTable)
    (hu : s'.emptyTableUnknown = s.emptyTableUnknown)
    (hm : s'.writerMonotonic = s.writerMonotonic) : WriteOnly s s' := by
  cases s
  cases s'
  simp_all [SearchOnly, WriteOnly]

theorem bind_ok_inv {ε α β : Type} {x : Except ε α} {f : α → Except ε β} {b : β}
    (h : (x >>= f) = .ok b) : ∃ a, x = .ok a ∧ f a = .ok b := by
  cases x with
  | error e => cases h
  | ok a => exact ⟨a, rfl, h⟩

theorem relocateEntry_writeOnly (p : Params) (s s' : Splicer)
    (h : relocateEntry p s = .ok s') :
    WriteOnly s s' ∧ s'.index = s.index ∧ s'.currExistingEntry = s.currExistingEntry := by
  unfold relocateEntry findMatchingBTreeEntry searchForKey at h
  cases s
  simp only [Splicer.emit, pure, Except.pure] at h
  split_ifs at h <;>
    (simp only [Except.ok.injEq] at h
     subst h
     simp [WriteOnly])

theorem WriteOnly.clearExisting {s s' : Splicer} (h : WriteOnly s s') (b : Bool) :
    WriteOnly s { s' with currExistingEntry := b } := by
  unfold WriteOnly at *
  rw [h]

theorem insertBitmapEntry_writeOnly (p : Params) (s s' : Splicer)
    (h : insertBitmapEntry p s = .ok s') : WriteOnly s s' := by
  unfold insertBitmapEntry at h
  dsimp only at h
  split_ifs at h
  · obtain ⟨s2, h2, h⟩ := bind_ok_inv h
    obtain ⟨s4, h4, h⟩ := bind_ok_inv h
    have k2 := (relocateEntry_writeOnly p s s2 h2).1
    have k4 := (k2.write_trans (deleteCurrent_writeOnly s2 s4 h4)).clearExisting false
    exact k4.write_trans (insertTupleData_writeOnly p _ _ _ h)
  · exact insertTupleData_writeOnly p _ _ _ h

/-! ## C9: switching to a better entry -/

/-- C9: in best-effort singleton mode over a non-empty index with an on-disk
match, `findBetterEntry` flushes the accumulator and adopts the on-disk entry
(marked existing, `currBTreeStartRid` its start row-id) exactly when
`(c > n ∧ c > b) ∨ (n ≥ b ∧ b > c)` holds and `b` does not lie in
`[c, c + rowCount)`, a row count of 1 counting as 8 and the sum taken in 64-bit
arithmetic; otherwise the accumulator, `currExistingEntry` and the index are as
before the call.  The positioning itself never touches them. -/
theorem findBetterEntry_switch (p : Params) (frag : TupleData) (s s1 s2 : Splicer)
    (hc : p.computeRowCount = true) (hE : isEmpty s = (false, s1))
    (hF : findBTreeEntry p frag s1 = .ok (true, s2)) :
    let b := roundToByteBoundary s2.bTreeTupleData.startRid
    let n := frag.startRid
    let c := roundToByteBoundary s.pCurrentEntry.startRid
    let rc := if p.codec.getRowCount s.pCurrentEntry = 1 then 8
              else p.codec.getRowCount s.pCurrentEntry
    let better := ((c > n ∧ c > b) ∨ (n ≥ b ∧ b > c)) ∧ ¬ (c ≤ b ∧ b < (c + rc) % 2 ^ 64)
    (s2.pCurrentEntry = s.pCurrentEntry ∧ s2.currExistingEntry = s.currExistingEntry ∧
      s2.currBTreeStartRid = s.currBTreeStartRid ∧ s2.currEntry = s.currEntry ∧
      s2.index = s.index) ∧
    (better →
      findBetterEntry p frag s =
        (insertBitmapEntry p s2).map
          (fun s3 => createNewBitmapEntry s3.bTreeTupleData { s3 with currExistingEntry := true })) ∧
    (better → ∀ s3, insertBitmapEntry p s2 = .ok s3 →
      ∃ s4, findBetterEntry p frag s = .ok s4 ∧ s4.pCurrentEntry = s2.bTreeTupleData ∧
        s4.currExistingEntry = true ∧ s4.currEntry = true ∧
        s4.currBTreeStartRid = s2.bTreeTupleData.startRid ∧ s4.index = s3.index) ∧
    (¬ better → findBetterEntry p frag s = .ok s2) ∧
    (c + rc < 2 ^ 64 → (c + rc) % 2 ^ 64 = c + rc) := by
  intro b n c rc better
  have f1 := (isEmpty_searchOnly s)
  rw [hE] at f1
  have f2 := f1.search_trans (findBTreeEntry_searchOnly p frag s1 s2 true hF)
  obtain ⟨g1, g2, g3, g4, g5, -, -⟩ := f2.search_fields
  have key : findBetterEntry p frag s =
      if better then
        (insertBitmapEntry p s2).map
          (fun s3 => createNewBitmapEntry s3.bTreeTupleData { s3 with currExistingEntry := true })
      else .ok s2 := by
    simp only [findBetterEntry, cAssert, hc, hE, hF, bind, Except.bind, pure, Except.pure,
      Bool.not_true, Bool.and_false, Bool.false_eq_true, if_false, Bool.not_false, if_true, g1,
      LbmOneByteSize, ridModulus]
    by_cases hb : better
    · rw [if_pos hb]
      obtain ⟨h1, h2⟩ := hb
      rw [if_pos h1, if_neg h2]
      cases insertBitmapEntry p s2 <;> rfl
    · rw [if_neg hb]
      by_cases h1 : (c > n ∧ c > b) ∨ (n ≥ b ∧ b > c)
      · rw [if_pos h1]
        have h2 : c ≤ b ∧ b < (c + rc) % 2 ^ 64 := by
          by_contra h2
          exact hb ⟨h1, h2⟩
        rw [if_pos h2]
      · rw [if_neg h1]
  refine ⟨⟨g1, g2, g3, g4, g5⟩, ?_, ?_, ?_, ?_⟩
  · intro hb
    rw [key, if_pos hb]
  · intro hb s3 h3
    rw [key, if_pos hb, h3]
    obtain ⟨-, w2, -⟩ := (insertBitmapEntry_writeOnly p s2 s3 h3).write_fields
    refine ⟨_, rfl, ?_, rfl, rfl, ?_, rfl⟩
    · exact w2
    · show s3.bTreeTupleData.startRid = _
      rw [w2]
  · intro hb
    rw [key, if_neg hb]
  · intro h
    exact Nat.mod_eq_of_lt h
/-- C9 at a concrete state: with the accumulator at row 0 and an on-disk
singleton at row 64, row 70 makes the splicer flush the accumulator and adopt
the entry at row 64. -/
theorem findBetterEntry_switch_witness :
    betterEntryStream.pCurrentEntry = bitmap [] 0 [1, 2] ∧
    betterEntryStream.currExistingEntry = true ∧
    ∃ s4, findBetterEntry randomRidParams (singleton [] 70) betterEntryStream = .ok s4 ∧
      s4.pCurrentEntry = singleton [] 64 ∧ s4.currExistingEntry = true ∧ s4.currEntry = true ∧
      s4.currBTreeStartRid = 64 ∧
      s4.index = [bitmap [] 0 [1, 2], singleton [] 64] := by
  refine ⟨by decide, by decide, ?_⟩
  have hE : isEmpty betterEntryStream = (false, betterEntryStream) := by decide
  have hF : findBTreeEntry randomRidParams (singleton [] 70) betterEntryStream
      = .ok (true, stateAfter (findBTreeEntry randomRidParams (singleton [] 70)
          betterEntryStream |>.map fun r => (.EXECRC_YIELD, r.2)) betterEntryStream) := by
    rfl
  have h3 : insertBitmapEntry randomRidParams
        (stateAfter (findBTreeEntry randomRidParams (singleton [] 70)
          betterEntryStream |>.map fun r => (.EXECRC_YIELD, r.2)) betterEntryStream)
      = .ok (stateAfter (insertBitmapEntry randomRidParams
        (stateAfter (findBTreeEntry randomRidParams (singleton [] 70)
          betterEntryStream |>.map fun r => (.EXECRC_YIELD, r.2)) betterEntryStream)
          |>.map fun r => (.EXECRC_YIELD, r)) betterEntryStream) := by
    rfl
  obtain ⟨s4, e1, e2, e3, e4, e5, e6⟩ :=
    (findBetterEntry_switch randomRidParams (singleton [] 70) betterEntryStream betterEntryStream
      _ rfl hE hF).2.2.1 (by decide) _ h3
  refine ⟨s4, e1, ?_, e3, e4, ?_, ?_⟩
  · rw [e2]; decide
  · rw [e5]; decide
  · rw [e6]; decide

/-! ## What the writes do -/

theorem insertTupleData_ok (p : Params) (t : TupleData) (s s' : Splicer)
    (h : insertTupleData p t s = .ok s') :
    s'.trace = s.trace ++ [.insertTuple t] ∧
    s'.index = s.index.take (lubIdx p s.index t) ++ t :: s.index.drop (lubIdx p s.index t) ∧
    s'.currExistingEntry = s.currExistingEntry ∧
    (∀ e ∈ s.index, compareTuplesKey e t (p.nIdxKeys + 1) ≠ 0 ∨
      s.index.get? (lubIdx p s.index t) ≠ some e) := by
  simp only [insertTupleData] at h
  split at h
  · rename_i e he
    split_ifs at h with hc
    simp only [Except.ok.injEq] at h
    subst h
    refine ⟨rfl, rfl, rfl, ?_⟩
    intro e' _
    by_cases h1 : s.index.get? (lubIdx p s.index t) = some e'
    · left
      rw [he] at h1
      cases h1
      exact hc
    · right
      exact h1
  · rename_i he
    simp only [Except.ok.injEq] at h
    subst h
    refine ⟨rfl, rfl, rfl, ?_⟩
    intro e' _
    right
    rw [he]
    simp

theorem deleteCurrent_ok (s s' : Splicer) (h : deleteCurrent s = .ok s') :
    ∃ i t, s.cursor = some i ∧ s.index.get? i = some t ∧
      s'.trace = s.trace ++ [.deleteCurrent t] ∧ s'.index = s.index.eraseIdx i ∧
      s'.currExistingEntry = s.currExistingEntry := by
  unfold deleteCurrent at h
  split at h
  · rename_i i hi
    split at h
    · rename_i t ht
      simp only [Except.ok.injEq] at h
      subst h
      exact ⟨i, t, hi, ht, rfl, rfl, rfl⟩
    · cases h
  · cases h

theorem searchForKey_spec (p : Params) (key : TupleData) (lu : Bool) (s : Splicer) :
    (searchForKey p key lu s).2.index = s.index ∧
    (searchForKey p key lu s).2.trace = s.trace ++ [.searchForKey key lu] ∧
    ((searchForKey p key lu s).1 = true →
      ∃ e, (searchForKey p key lu s).2.current = some e ∧
        compareTuplesKey e key (p.nIdxKeys + 1) = 0) := by
  unfold searchForKey
  dsimp only
  cases hg : s.index.get? (lubIdx p s.index key) with
  | none =>
      simp only [Bool.false_eq_true, if_false]
      split_ifs <;> simp [Splicer.emit]
  | some e =>
      dsimp only
      by_cases hc : compareTuplesKey e key (p.nIdxKeys + 1) = 0
      · simp only [hc, decide_True, if_true]
        refine ⟨rfl, rfl, fun _ => ⟨e, ?_, hc⟩⟩
        simp only [Splicer.current, Splicer.emit]
        exact hg
      · simp only [hc, decide_False, Bool.false_eq_true, if_false]
        split_ifs <;> simp [Splicer.emit]

/-- What the re-location step of `insertBitmapEntry` does when it succeeds. -/
theorem relocateEntry_ok (p : Params) (s s' : Splicer) (h : relocateEntry p s = .ok s') :
    s'.index = s.index ∧
    (((p.computeRowCount || s.bTreeWriterMoved) = false ∧ s'.trace = s.trace ∧
        s'.cursor = s.cursor) ∨
     ((p.computeRowCount || s.bTreeWriterMoved) = true ∧
        s'.trace = s.trace ++ [.searchForKey (relocateKey p s) false] ∧
        ∃ e, s'.current = some e ∧
          compareTuplesKey e (relocateKey p s) (p.nIdxKeys + 1) = 0)) := by
  unfold relocateEntry findMatchingBTreeEntry at h
  by_cases hm : (p.computeRowCount || s.bTreeWriterMoved) = true
  · simp only [hm, if_true] at h
    have sp := searchForKey_spec p (relocateKey p s) false s
    generalize searchForKey p (relocateKey p s) false s = r at h sp
    obtain ⟨m, s3⟩ := r
    dsimp only at h sp
    split_ifs at h with hf
    simp only [pure, Except.pure, Except.ok.injEq] at h
    subst h
    obtain ⟨e, he, hc⟩ := sp.2.2 hf
    exact ⟨sp.1, Or.inr ⟨hm, sp.2.1, e, he, hc⟩⟩
  · simp only [hm, if_false, pure, Except.pure, Except.ok.injEq, Bool.false_eq_true] at h
    subst h
    exact ⟨rfl, Or.inl ⟨by simpa using hm, rfl, rfl⟩⟩

/-- What a successful flush does: without an on-disk origin it is one insert of
the accumulator; with one it is an optional re-location search, the delete of the
entry under the cursor, and one insert of the accumulator. -/
theorem insertBitmapEntry_ok (p : Params) (s s' : Splicer)
    (h : insertBitmapEntry p s = .ok s') :
    s'.currExistingEntry = false ∧
    (s.currExistingEntry = false →
      s'.trace = s.trace ++ [.insertTuple s.pCurrentEntry] ∧
      s'.index = s.index.take (lubIdx p s.index s.pCurrentEntry)
        ++ s.pCurrentEntry :: s.index.drop (lubIdx p s.index s.pCurrentEntry)) ∧
    (s.currExistingEntry = true →
      ∃ pre i d, s'.trace = s.trace ++ pre ++ [.deleteCurrent d, .insertTuple s.pCurrentEntry] ∧
        s.index.get? i = some d ∧
        s'.index = (s.index.eraseIdx i).take (lubIdx p (s.index.eraseIdx i) s.pCurrentEntry)
          ++ s.pCurrentEntry :: (s.index.eraseIdx i).drop
              (lubIdx p (s.index.eraseIdx i) s.pCurrentEntry) ∧
        (((p.computeRowCount || s.bTreeWriterMoved) = false ∧ pre = [] ∧ s.cursor = some i) ∨
         ((p.computeRowCount || s.bTreeWriterMoved) = true ∧
            pre = [.searchForKey (relocateKey p s) false] ∧
            compareTuplesKey d (relocateKey p s) (p.nIdxKeys + 1) = 0))) := by
  unfold insertBitmapEntry at h
  dsimp only at h
  by_cases hce : s.currExistingEntry = true
  · simp only [hce, if_true] at h
    obtain ⟨s2, h2, h⟩ := bind_ok_inv h
    obtain ⟨s4, h4, h⟩ := bind_ok_inv h
    obtain ⟨r1, r2⟩ := relocateEntry_ok p s s2 h2
    obtain ⟨i, d, d1, d2, d3, d4, -⟩ := deleteCurrent_ok s2 s4 h4
    obtain ⟨t1, t2, t3, -⟩ := insertTupleData_ok p _ _ _ h
    refine ⟨t3, fun hh => absurd hce (by simp [hh]), fun _ => ?_⟩
    rcases r2 with ⟨c1, c2, c3⟩ | ⟨c1, c2, e, c3, c4⟩
    · refine ⟨[], i, d, ?_, ?_, ?_, Or.inl ⟨c1, rfl, ?_⟩⟩
      · rw [t1]
        show s4.trace ++ _ = _
        rw [d3, c2]
        simp
      · rw [← r1]; exact d2
      · rw [t2]
        show List.take _ s4.index ++ _ :: List.drop _ s4.index = _
        rw [d4, r1]
      · rw [← c3]; exact d1
    · refine ⟨[.searchForKey (relocateKey p s) false], i, d, ?_, ?_, ?_, Or.inr ⟨c1, rfl, ?_⟩⟩
      · rw [t1]
        show s4.trace ++ _ = _
        rw [d3, c2]
        simp
      · rw [← r1]; exact d2
      · rw [t2]
        show List.take _ s4.index ++ _ :: List.drop _ s4.index = _
        rw [d4, r1]
      · have : s2.current = some d := by
          simp only [Splicer.current, d1]
          exact d2
        rw [this] at c3
        cases c3
        exact c4
  · have hf : s.currExistingEntry = false := by simpa using hce
    simp only [hf, Bool.false_eq_true, if_false] at h
    obtain ⟨t1, t2, t3, -⟩ := insertTupleData_ok p _ _ _ h
    exact ⟨by rw [t3, hf], fun _ => ⟨t1, t2⟩, fun hh => absurd hh hce⟩

/-! ## C5: merge or flush -/

/-- C5: when the codec accepts the merge, `spliceEntry` only replaces the
accumulator's tuple by the merged one (no call on the index, `currEntry`,
`currExistingEntry` and `currBTreeStartRid` as before); when the codec refuses,
`spliceEntry` is one flush of the previous accumulator followed by the
accumulator becoming the fragment, not on disk.  A same-key fragment outside
best-effort singleton mode goes through `spliceEntry` and nothing else, so the
flush between two such fragments happens exactly when the codec refuses. -/
theorem spliceEntry_merge_or_flush (p : Params) (frag : TupleData) (s : Splicer) :
    (∀ m, p.codec.mergeEntry s.pCurrentEntry frag = some m →
      spliceEntry p frag s = .ok { s with pCurrentEntry := m }) ∧
    (p.codec.mergeEntry s.pCurrentEntry frag = none →
      spliceEntry p frag s = (insertBitmapEntry p s).map (createNewBitmapEntry frag) ∧
      ∀ s', spliceEntry p frag s = .ok s' →
        s'.pCurrentEntry = frag ∧ s'.currExistingEntry = false ∧ s'.currEntry = true ∧
        s'.currBTreeStartRid = frag.startRid ∧
        ∃ pre, s'.trace = s.trace ++ pre ++ [.insertTuple s.pCurrentEntry] ∧
          ∀ e ∈ pre, ∀ t, e ≠ .insertTuple t) ∧
    (s.currEntry = true → uniqueRequired p s.inputTuple = false → p.computeRowCount = false →
      compareTuplesKey s.pCurrentEntry s.inputTuple s.pCurrentEntry.keys.length = 0 →
      processTuple p s = (spliceEntry p s.inputTuple s).map consumeTuple) := by
  refine ⟨?_, ?_, ?_⟩
  · intro m hm
    simp only [spliceEntry, hm, pure, Except.pure]
  · intro hm
    have e1 : spliceEntry p frag s = (insertBitmapEntry p s).map (createNewBitmapEntry frag) := by
      simp only [spliceEntry, hm]
      cases insertBitmapEntry p s <;> rfl
    refine ⟨e1, ?_⟩
    intro s' hs'
    rw [e1] at hs'
    cases hf : insertBitmapEntry p s with
    | error e => rw [hf] at hs'; cases hs'
    | ok s1 =>
      rw [hf] at hs'
      simp only [Except.map, Except.ok.injEq] at hs'
      subst hs'
      obtain ⟨k1, k2, k3⟩ := insertBitmapEntry_ok p s s1 hf
      refine ⟨rfl, k1, rfl, rfl, ?_⟩
      cases hce : s.currExistingEntry with
      | false =>
        refine ⟨[], ?_, by simp⟩
        show s1.trace = _
        rw [(k2 hce).1]
        simp
      | true =>
        obtain ⟨pre, i, d, t1, -, -, t4⟩ := k3 hce
        refine ⟨pre ++ [.deleteCurrent d], ?_, ?_⟩
        · show s1.trace = _
          rw [t1]
          simp
        · intro e he t
          rcases t4 with ⟨-, rfl, -⟩ | ⟨-, rfl, -⟩ <;> simp at he <;> rcases he with rfl | rfl <;> simp
  · intro h1 h2 h3 h4
    simp only [processTuple, routeTuple, h1, h2, h3, h4, cAssert, bind, Except.bind, pure, Except.pure,
      Bool.false_eq_true, if_false, Bool.not_true, le_refl, decide_True, Bool.not_true,
      Bool.and_false, if_true]
    cases spliceEntry p s.inputTuple s <;> rfl
/-- C5 at a concrete state: a codec with room merges row 9 into the accumulator
without touching the index; a codec limited to two rows refuses, and the
accumulator is flushed once and restarted from row 9. -/
theorem spliceEntry_merge_or_flush_witness :
    firstFragmentStream.pCurrentEntry = bitmap [] 0 [1] ∧ firstFragmentStream.index = [] ∧
    spliceEntry (keylessParams (listCodec 100)) (singleton [] 9) firstFragmentStream
      = .ok { firstFragmentStream with pCurrentEntry := bitmap [] 0 [1, 9] } ∧
    spliceEntry (keylessParams (listCodec 2)) (singleton [] 9) firstFragmentStream
      = (insertBitmapEntry (keylessParams (listCodec 2)) firstFragmentStream).map
          (createNewBitmapEntry (singleton [] 9)) ∧
    (stateAfter ((spliceEntry (keylessParams (listCodec 2)) (singleton [] 9)
        firstFragmentStream).map fun r => (.EXECRC_YIELD, r)) firstFragmentStream).index
      = [bitmap [] 0 [1]] :=
  ⟨by decide, by decide,
    (spliceEntry_merge_or_flush (keylessParams (listCodec 100)) (singleton [] 9)
      firstFragmentStream).1 _ rfl,
    ((spliceEntry_merge_or_flush (keylessParams (listCodec 2)) (singleton [] 9)
      firstFragmentStream).2.1 rfl).1,
    by decide⟩

/-! ## C4: the flush of an adopted accumulator -/

/-- C4 fails on the code: in a run that adopts the on-disk entry with the null
key at row 0 and then validates the unique key 7, the validation leaves the
writer on the entry of key 5; `bTreeWriterMoved` is still false, so the flush
does not re-locate, deletes the entry of key 5 instead of the adopted one, and
then fails on the duplicate of the adopted entry. -/
theorem insertBitmapEntry_deletes_other_entry :
    nullThenUniqueBeforeFlush.currExistingEntry = true ∧
    nullThenUniqueBeforeFlush.pCurrentEntry = bitmap [none] 0 [1, 16, 17] ∧
    nullThenUniqueBeforeFlush.currBTreeStartRid = 0 ∧
    nullThenUniqueBeforeFlush.bTreeWriterMoved = false ∧
    nullThenUniqueBeforeFlush.index = [bitmap [none] 0 [1], singleton [some 5] 3] ∧
    relocateEntry (uniqueParams false []) nullThenUniqueBeforeFlush
      = .ok nullThenUniqueBeforeFlush ∧
    (deleteCurrent nullThenUniqueBeforeFlush).map (fun s => (s.index, s.trace.getLast?))
      = .ok ([bitmap [none] 0 [1]], some (.deleteCurrent (singleton [some 5] 3))) ∧
    insertBitmapEntry (uniqueParams false []) nullThenUniqueBeforeFlush = .error .duplicateKey ∧
    (execute (uniqueParams false []) 2 nullThenUniqueRun).map Prod.fst = .error .duplicateKey := by
  refine ⟨by decide, by decide, by decide, by decide, by decide, by rfl, by rfl, by rfl, by rfl⟩

/-! ## The column order -/

theorem compareDatum_eq_zero (x y : Option Nat) : compareDatum x y = 0 ↔ x = y := by
  rcases x with _ | x <;> rcases y with _ | y <;> simp [compareDatum]
  split_ifs <;> simp <;> omega

theorem compareDatum_swap (x y : Option Nat) : compareDatum x y < 0 ↔ 0 < compareDatum y x := by
  rcases x with _ | x <;> rcases y with _ | y <;> simp [compareDatum]
  split_ifs <;> simp <;> omega

theorem compareDatum_trans (x y z : Option Nat) (h1 : compareDatum x y ≤ 0)
    (h2 : compareDatum y z ≤ 0) :
    compareDatum x z ≤ 0 ∧ (compareDatum x y < 0 ∨ compareDatum y z < 0 → compareDatum x z < 0) := by
  rcases x with _ | x <;> rcases y with _ | y <;> rcases z with _ | z <;>
    simp [compareDatum] at h1 h2 ⊢
  split_ifs at h1 h2 ⊢ <;> simp at h1 h2 ⊢ <;> omega

theorem compareCols_self (a : List (Option Nat)) (n : Nat) : compareCols a a n = 0 := by
  induction a generalizing n with
  | nil => cases n <;> simp [compareCols]
  | cons x xs ih =>
    cases n with
    | zero => simp [compareCols]
    | succ n => simp [compareCols, (compareDatum_eq_zero x x).2 rfl, ih]

theorem compareCols_eq_zero (a b : List (Option Nat)) (n : Nat) (ha : n ≤ a.length)
    (hb : n ≤ b.length) : compareCols a b n = 0 ↔ a.take n = b.take n := by
  induction n generalizing a b with
  | zero => cases a <;> cases b <;> simp [compareCols]
  | succ n ih =>
    rcases a with _ | ⟨x, xs⟩
    · simp at ha
    rcases b with _ | ⟨y, ys⟩
    · simp at hb
    simp only [List.length_cons, Nat.add_le_add_iff_right] at ha hb
    simp only [compareCols, List.take_succ_cons, List.cons.injEq]
    by_cases hxy : compareDatum x y = 0
    · have exy := (compareDatum_eq_zero x y).1 hxy
      subst exy
      simp [hxy, ih xs ys ha hb]
    · simp only [ne_eq, hxy, not_false_eq_true, if_true, false_iff, not_and]
      intro h
      exact absurd ((compareDatum_eq_zero x y).2 h) hxy

theorem compareCols_swap (a b : List (Option Nat)) (n : Nat) :
    compareCols a b n < 0 ↔ 0 < compareCols b a n := by
  induction n generalizing a b with
  | zero => cases a <;> cases b <;> simp [compareCols]
  | succ n ih =>
    rcases a with _ | ⟨x, xs⟩
    · cases b <;> simp [compareCols]
    rcases b with _ | ⟨y, ys⟩
    · simp [compareCols]
    simp only [compareCols]
    by_cases hxy : compareDatum x y = 0
    · have hyx : compareDatum y x = 0 :=
        (compareDatum_eq_zero y x).2 ((compareDatum_eq_zero x y).1 hxy).symm
      simp [hxy, hyx, ih xs ys]
    · have hyx : compareDatum y x ≠ 0 := fun h =>
        hxy ((compareDatum_eq_zero x y).2 ((compareDatum_eq_zero y x).1 h).symm)
      simp only [ne_eq, hxy, not_false_eq_true, if_true, hyx]
      exact compareDatum_swap x y

theorem compareCols_trans (a b c : List (Option Nat)) (n : Nat) (ha : n ≤ a.length)
    (hb : n ≤ b.length) (hc : n ≤ c.length) (h1 : compareCols a b n ≤ 0)
    (h2 : compareCols b c n ≤ 0) :
    compareCols a c n ≤ 0 ∧
    (compareCols a b n < 0 ∨ compareCols b c n < 0 → compareCols a c n < 0) := by
  induction n generalizing a b c with
  | zero => cases a <;> cases c <;> cases b <;> simp [compareCols]
  | succ n ih =>
    rcases a with _ | ⟨x, xs⟩
    · simp at ha
    rcases b with _ | ⟨y, ys⟩
    · simp at hb
    rcases c with _ | ⟨z, zs⟩
    · simp at hc
    simp only [List.length_cons, Nat.add_le_add_iff_right] at ha hb hc
    simp only [compareCols] at h1 h2 ⊢
    by_cases hxy : compareDatum x y = 0
    · have exy := (compareDatum_eq_zero x y).1 hxy
      subst exy
      simp only [ne_eq, hxy, not_true_eq_false, if_false] at h1 ⊢
      by_cases hxz : compareDatum x z = 0
      · simp only [ne_eq, hxz, not_true_eq_false, if_false] at h2 ⊢
        exact ih xs ys zs ha hb hc h1 h2
      · simp only [ne_eq, hxz, not_false_eq_true, if_true] at h2 ⊢
        have : compareDatum x z < 0 := lt_of_le_of_ne h2 hxz
        exact ⟨h2, fun _ => this⟩
    · simp only [ne_eq, hxy, not_false_eq_true, if_true] at h1 ⊢
      have hlt : compareDatum x y < 0 := lt_of_le_of_ne h1 hxy
      by_cases hyz : compareDatum y z = 0
      · have eyz := (compareDatum_eq_zero y z).1 hyz
        subst eyz
        simp only [ne_eq, hxy, not_false_eq_true, if_true]
        exact ⟨h1, fun _ => hlt⟩
      · simp only [ne_eq, hyz, not_false_eq_true, if_true] at h2
        have t := compareDatum_trans x y z h1 h2
        have hxz : compareDatum x z < 0 := t.2 (Or.inl hlt)
        have hne : compareDatum x z ≠ 0 := ne_of_lt hxz
        simp only [ne_eq, hne, not_false_eq_true, if_true]
        exact ⟨t.1, fun _ => hxz⟩

theorem compareCols_succ_le (a b : List (Option Nat)) (n : Nat)
    (h : compareCols a b (n + 1) ≤ 0) : compareCols a b n ≤ 0 := by
  induction n generalizing a b with
  | zero => cases a <;> cases b <;> simp [compareCols]
  | succ n ih =>
    rcases a with _ | ⟨x, xs⟩
    · simp [compareCols]
    rcases b with _ | ⟨y, ys⟩
    · simp [compareCols]
    simp only [compareCols] at h ⊢
    by_cases hxy : compareDatum x y = 0
    · simp only [ne_eq, hxy, not_true_eq_false, if_false] at h ⊢
      exact ih xs ys h
    · simp only [ne_eq, hxy, not_false_eq_true, if_true] at h ⊢
      exact h

/-! ## Keyed positioning -/

theorem cols_length (t : TupleData) : t.cols.length = t.keys.length + 1 := by
  simp [TupleData.cols]

theorem compareTuplesKey_keys (p : Params) (a b : TupleData) (ha : WellFormed p a)
    (hb : WellFormed p b) : compareTuplesKey a b p.nIdxKeys = 0 ↔ a.keys = b.keys := by
  unfold WellFormed at ha hb
  unfold compareTuplesKey
  rw [compareCols_eq_zero _ _ _ (by rw [cols_length]; omega) (by rw [cols_length]; omega)]
  unfold TupleData.cols
  rw [List.take_left' ha, List.take_left' hb]

theorem lubIdx_lt (p : Params) (index : List TupleData) (key : TupleData) (j : Nat) (e : TupleData)
    (hj : j < lubIdx p index key) (he : index.get? j = some e) :
    compareTuplesKey e key (p.nIdxKeys + 1) < 0 := by
  have h := List.not_of_lt_findIdx hj
  have hlt : j < index.length := lt_of_lt_of_le hj (List.findIdx_le_length _)
  rw [List.get?_eq_get hlt] at he
  cases he
  simpa using h

theorem lubIdx_ge (p : Params) (index : List TupleData) (key : TupleData) (e : TupleData)
    (he : index.get? (lubIdx p index key) = some e) :
    0 ≤ compareTuplesKey e key (p.nIdxKeys + 1) := by
  rw [List.get?_eq_getElem?] at he
  have h := List.findIdx_of_getElem?_eq_some he
  simpa using h
theorem findBTreeEntry_exact (p : Params) (frag : TupleData) (s : Splicer) (e : TupleData)
    (he : s.index.get? (lubIdx p s.index frag) = some e)
    (hc : compareTuplesKey e frag (p.nIdxKeys + 1) = 0) :
    ∃ s', findBTreeEntry p frag s = .ok (true, s') ∧ s'.bTreeTupleData = e ∧
      s'.cursor = some (lubIdx p s.index frag) := by
  unfold findBTreeEntry findMatchingBTreeEntry searchForKey
  simp only [he, hc, decide_True, if_true, unmarshal, Splicer.current, Splicer.emit, pure,
    Except.pure, Bool.true_eq_false, if_false]
  exact ⟨_, rfl, rfl, rfl⟩

theorem findBTreeEntry_lub_key (p : Params) (frag : TupleData) (s : Splicer) (e : TupleData)
    (hn : 0 < p.nIdxKeys)
    (he : s.index.get? (lubIdx p s.index frag) = some e)
    (hc : compareTuplesKey e frag (p.nIdxKeys + 1) ≠ 0)
    (hk : compareTuplesKey e frag p.nIdxKeys = 0) :
    ((p.checkAsserts = false ∨ roundToByteBoundary e.startRid = roundToByteBoundary frag.startRid) →
      ∃ s', findBTreeEntry p frag s = .ok (true, s') ∧ s'.bTreeTupleData = e ∧
        s'.cursor = some (lubIdx p s.index frag)) ∧
    (p.checkAsserts = true →
      roundToByteBoundary e.startRid ≠ roundToByteBoundary frag.startRid →
      findBTreeEntry p frag s = .error .assertFailed) := by
  have hn0 : p.nIdxKeys ≠ 0 := by omega
  have hlt : lubIdx p s.index frag < s.index.length := by
    by_contra hh
    rw [List.get?_eq_none.2 (by omega)] at he
    cases he
  unfold findBTreeEntry findMatchingBTreeEntry searchForKey
  simp only [he, hc, hn, hn0, hlt, hk, decide_True, decide_False, if_true, if_false, unmarshal,
    Splicer.current, Splicer.emit, pure, Except.pure, isSingular, Option.isNone_some,
    Bool.not_false, Bool.and_self, bind, Except.bind, cAssert, gt_iff_lt, Bool.false_eq_true]
  constructor
  · rintro (h | h)
    · simp only [h, Bool.false_and, Bool.false_eq_true, if_false]
      exact ⟨_, rfl, rfl, rfl⟩
    · simp only [h, decide_True, Bool.not_true, Bool.and_false, Bool.false_eq_true, if_false]
      exact ⟨_, rfl, rfl, rfl⟩
  · intro h1 h2
    simp [h1, h2]

theorem findBTreeEntry_glb (p : Params) (frag : TupleData) (s : Splicer) (g : TupleData)
    (hn : 0 < p.nIdxKeys)
    (hx : ∀ e, s.index.get? (lubIdx p s.index frag) = some e →
      compareTuplesKey e frag (p.nIdxKeys + 1) ≠ 0 ∧ compareTuplesKey e frag p.nIdxKeys ≠ 0)
    (hg : s.index.get? (lubIdx p s.index frag - 1) = some g) :
    ∃ s', findBTreeEntry p frag s
        = .ok (decide (compareTuplesKey g frag p.nIdxKeys = 0), s') ∧
      s'.bTreeTupleData = g ∧ s'.cursor = some (lubIdx p s.index frag - 1) := by
  have hn0 : p.nIdxKeys ≠ 0 := by omega
  have hlen : s.index.length ≠ 0 := by
    intro h0
    rw [List.get?_eq_none.2 (by omega)] at hg
    cases hg
  unfold findBTreeEntry findMatchingBTreeEntry searchForKey
  cases he : s.index.get? (lubIdx p s.index frag) with
  | none =>
    have hlt : ¬ lubIdx p s.index frag < s.index.length := by
      intro hh
      rw [List.get?_eq_get hh] at he
      cases he
    simp only [he, hn, hn0, hlt, hlen, hg, decide_True, if_true, if_false, unmarshal,
      Splicer.current, Splicer.emit, pure, Except.pure, isSingular, Option.isNone_none,
      Bool.not_true, Bool.false_and, bind, Except.bind, cAssert, gt_iff_lt, Bool.false_eq_true,
      BEq.refl, Bool.and_false]
    by_cases hk : compareTuplesKey g frag p.nIdxKeys = 0
    · simp only [hk, if_true, decide_True]
      exact ⟨_, rfl, rfl, rfl⟩
    · simp only [hk, if_false, decide_False]
      exact ⟨_, rfl, rfl, rfl⟩
  | some e =>
    obtain ⟨h1, h2⟩ := hx e he
    have hlt : lubIdx p s.index frag < s.index.length := by
      by_contra hh
      rw [List.get?_eq_none.2 (by omega)] at he
      cases he
    simp only [he, hn, hn0, hlt, hlen, hg, h1, h2, decide_True, decide_False, if_true, if_false,
      unmarshal, Splicer.current, Splicer.emit, pure, Except.pure, isSingular,
      Option.isNone_some, Bool.not_false, Bool.and_false, bind, Except.bind, cAssert, gt_iff_lt,
      Bool.false_eq_true, BEq.refl, Bool.not_true]
    by_cases hk : compareTuplesKey g frag p.nIdxKeys = 0
    · simp only [hk, if_true, decide_True]
      exact ⟨_, rfl, rfl, rfl⟩
    · simp only [hk, if_false, decide_False]
      exact ⟨_, rfl, rfl, rfl⟩

theorem ordered_get_lt (p : Params) (index : List TupleData) (j k : Nat) (a b : TupleData)
    (ho : IndexOrdered p index) (hjk : j < k) (ha : index.get? j = some a)
    (hb : index.get? k = some b) : compareTuplesKey a b (p.nIdxKeys + 1) < 0 := by
  have hk : k < index.length := by
    by_contra hh
    rw [List.get?_eq_none.2 (by omega)] at hb
    cases hb
  have hj : j < index.length := by omega
  rw [List.get?_eq_get hj] at ha
  rw [List.get?_eq_get hk] at hb
  cases ha
  cases hb
  exact (List.pairwise_iff_getElem.1 ho.1) j k hj hk hjk

theorem ordered_get_le (p : Params) (index : List TupleData) (j k : Nat) (a b : TupleData)
    (ho : IndexOrdered p index) (hjk : j ≤ k) (ha : index.get? j = some a)
    (hb : index.get? k = some b) : compareTuplesKey a b (p.nIdxKeys + 1) ≤ 0 := by
  rcases Nat.lt_or_eq_of_le hjk with h | h
  · exact le_of_lt (ordered_get_lt p index j k a b ho h ha hb)
  · subst h
    rw [ha] at hb
    cases hb
    exact le_of_eq (compareCols_self _ _)

theorem keys_sandwich (p : Params) (a m b : TupleData) (ha : WellFormed p a)
    (hm : WellFormed p m) (hb : WellFormed p b)
    (h1 : compareTuplesKey a m (p.nIdxKeys + 1) ≤ 0)
    (h2 : compareTuplesKey m b (p.nIdxKeys + 1) ≤ 0) (hab : a.keys = b.keys) :
    m.keys = a.keys := by
  have la : p.nIdxKeys ≤ a.cols.length := by rw [cols_length, ha]; omega
  have lm : p.nIdxKeys ≤ m.cols.length := by rw [cols_length, hm]; omega
  have lb : p.nIdxKeys ≤ b.cols.length := by rw [cols_length, hb]; omega
  have k1 : compareTuplesKey a m p.nIdxKeys ≤ 0 := compareCols_succ_le _ _ _ h1
  have k2 : compareTuplesKey m b p.nIdxKeys ≤ 0 := compareCols_succ_le _ _ _ h2
  have k3 : compareTuplesKey b a p.nIdxKeys = 0 :=
    (compareTuplesKey_keys p b a hb ha).2 hab.symm
  have k4 : compareTuplesKey m a p.nIdxKeys ≤ 0 :=
    (compareCols_trans _ _ _ _ lm lb la k2 (le_of_eq k3)).1
  have k5 : compareTuplesKey a m p.nIdxKeys = 0 := by
    rcases lt_or_eq_of_le k1 with h | h
    · have := (compareCols_swap _ _ _).1 h
      unfold compareTuplesKey at k4
      omega
    · exact h
  exact ((compareTuplesKey_keys p a m ha hm).1 k5).symm

theorem compareTuplesKey_full (p : Params) (a b : TupleData) (ha : WellFormed p a)
    (hb : WellFormed p b) :
    compareTuplesKey a b (p.nIdxKeys + 1) = 0 ↔ a.keys = b.keys ∧ a.startRid = b.startRid := by
  unfold WellFormed at ha hb
  unfold compareTuplesKey
  rw [compareCols_eq_zero _ _ _ (by rw [cols_length]; omega) (by rw [cols_length]; omega)]
  rw [List.take_of_length_le (by rw [cols_length]; omega),
    List.take_of_length_le (by rw [cols_length]; omega)]
  unfold TupleData.cols
  constructor
  · intro h
    have h1 := List.append_inj h (by omega)
    exact ⟨h1.1, by simpa using h1.2⟩
  · rintro ⟨h1, h2⟩
    rw [h1, h2]

/-- Below the least upper bound of a fragment, an entry with the fragment's key
columns forces the greatest lower bound entry to have them too. -/
theorem glb_keys_of_mem_before (p : Params) (index : List TupleData) (frag e g : TupleData)
    (ho : IndexOrdered p index) (hw : WellFormed p frag) (j : Nat)
    (hj : j < lubIdx p index frag) (he : index.get? j = some e)
    (hg : index.get? (lubIdx p index frag - 1) = some g) (hk : e.keys = frag.keys) :
    g.keys = frag.keys := by
  have we : WellFormed p e := ho.2 e (List.get?_mem he)
  have wg : WellFormed p g := ho.2 g (List.get?_mem hg)
  have h1 : compareTuplesKey e g (p.nIdxKeys + 1) ≤ 0 :=
    ordered_get_le p index j _ e g ho (by omega) he hg
  have h2 : compareTuplesKey g frag (p.nIdxKeys + 1) ≤ 0 :=
    le_of_lt (lubIdx_lt p index frag _ g (by omega) hg)
  rw [keys_sandwich p e g frag we wg hw h1 h2 hk, hk]

/-- At or above the least upper bound of a fragment, an entry with the
fragment's key columns forces the least upper bound entry to have them too. -/
theorem lub_keys_of_mem_after (p : Params) (index : List TupleData) (frag e u : TupleData)
    (ho : IndexOrdered p index) (hw : WellFormed p frag) (j : Nat)
    (hj : lubIdx p index frag ≤ j) (he : index.get? j = some e)
    (hu : index.get? (lubIdx p index frag) = some u) (hk : e.keys = frag.keys) :
    u.keys = frag.keys := by
  have we : WellFormed p e := ho.2 e (List.get?_mem he)
  have wu : WellFormed p u := ho.2 u (List.get?_mem hu)
  have h1 : compareTuplesKey u e (p.nIdxKeys + 1) ≤ 0 :=
    ordered_get_le p index _ j u e ho hj hu he
  have h0 := lubIdx_ge p index frag u hu
  have h2 : compareTuplesKey frag u (p.nIdxKeys + 1) ≤ 0 := by
    by_contra hh
    have := (compareCols_swap u.cols frag.cols (p.nIdxKeys + 1)).2 (by
      unfold compareTuplesKey at hh; omega)
    unfold compareTuplesKey at h0
    omega
  exact keys_sandwich p frag u e hw wu we h2 h1 hk.symm

/-! ## C6: keyed positioning -/

/-- C6, as stated, fails in a build with assertions: the index holds key 4 at
row 100, the fragment is key 4 at row 0, and `findBTreeEntry` stops in the
assertion that the two rows share a byte instead of returning true. -/
theorem findBTreeEntry_keyed_aborts :
    (∃ e ∈ (openStream [singleton [some 4] 100] 0 [] false 0 0).index,
      e.keys = (singleton [some 4] 0).keys) ∧
    findBTreeEntry (uniqueParams false []) (singleton [some 4] 0)
      (openStream [singleton [some 4] 100] 0 [] false 0 0) = .error .assertFailed := by
  refine ⟨⟨singleton [some 4] 100, by decide, rfl⟩, by rfl⟩

/-- Keyed positioning over a non-empty ordered index: the assertion case, and
otherwise the result in terms of the entries with the fragment's key columns. -/
theorem findBTreeEntry_keyed_aux (p : Params) (frag : TupleData) (s : Splicer)
    (hn : 0 < p.nIdxKeys) (hne : s.index ≠ []) (ho : IndexOrdered p s.index)
    (hw : WellFormed p frag) :
    let i := lubIdx p s.index frag
    let lubMatches := ∃ e, s.index.get? i = some e ∧ e.keys = frag.keys
    let aborts := p.checkAsserts = true ∧ ∃ e, s.index.get? i = some e ∧ e.keys = frag.keys ∧
      roundToByteBoundary e.startRid ≠ roundToByteBoundary frag.startRid
    (aborts → findBTreeEntry p frag s = .error .assertFailed) ∧
    (¬ aborts → ∃ b s', findBTreeEntry p frag s = .ok (b, s') ∧
      (b = true ↔ ∃ e ∈ s.index, e.keys = frag.keys) ∧
      (b = true → s'.bTreeTupleData.keys = frag.keys ∧ s'.bTreeTupleData ∈ s.index ∧
        (lubMatches → s.index.get? i = some s'.bTreeTupleData) ∧
        (¬ lubMatches → s.index.get? (i - 1) = some s'.bTreeTupleData))) := by
  intro i lubMatches aborts
  have hlen : 0 < s.index.length := List.length_pos.2 hne
  have hile : i ≤ s.index.length := List.findIdx_le_length _
  have hg : ∃ g, s.index.get? (i - 1) = some g :=
    ⟨_, List.get?_eq_get (by omega : i - 1 < s.index.length)⟩
  obtain ⟨g, hg⟩ := hg
  have wg : WellFormed p g := ho.2 g (List.get?_mem hg)
  -- the case where the search ends on the greatest lower bound
  have glbCase : (∀ e, s.index.get? i = some e → e.keys ≠ frag.keys) →
      ¬ aborts ∧ ∃ b s', findBTreeEntry p frag s = .ok (b, s') ∧
      (b = true ↔ ∃ e ∈ s.index, e.keys = frag.keys) ∧
      (b = true → s'.bTreeTupleData.keys = frag.keys ∧ s'.bTreeTupleData ∈ s.index ∧
        (lubMatches → s.index.get? i = some s'.bTreeTupleData) ∧
        (¬ lubMatches → s.index.get? (i - 1) = some s'.bTreeTupleData)) := by
    intro hx
    have hnl : ¬ lubMatches := fun ⟨e, h1, h2⟩ => hx e h1 h2
    refine ⟨fun ⟨_, e, h1, h2, _⟩ => hx e h1 h2, ?_⟩
    have hx' : ∀ e, s.index.get? i = some e →
        compareTuplesKey e frag (p.nIdxKeys + 1) ≠ 0 ∧ compareTuplesKey e frag p.nIdxKeys ≠ 0 := by
      intro e he
      have we : WellFormed p e := ho.2 e (List.get?_mem he)
      refine ⟨fun h => hx e he ((compareTuplesKey_full p e frag we hw).1 h).1, fun h => ?_⟩
      exact hx e he ((compareTuplesKey_keys p e frag we hw).1 h)
    obtain ⟨s', r1, r2, -⟩ := findBTreeEntry_glb p frag s g hn hx' hg
    refine ⟨_, s', r1, ?_, ?_⟩
    · rw [decide_eq_true_iff, compareTuplesKey_keys p g frag wg hw]
      constructor
      · intro h
        exact ⟨g, List.get?_mem hg, h⟩
      · rintro ⟨e, hmem, hk⟩
        obtain ⟨j, hj⟩ := List.mem_iff_get?.1 hmem
        by_cases hji : j < i
        · exact glb_keys_of_mem_before p s.index frag e g ho hw j hji hj hg hk
        · have hjl : j < s.index.length := by
            by_contra hh
            rw [List.get?_eq_none.2 (by omega)] at hj
            cases hj
          have hu : s.index.get? i = some (s.index.get ⟨i, by omega⟩) :=
            List.get?_eq_get (by omega)
          exact absurd
            (lub_keys_of_mem_after p s.index frag e _ ho hw j (by omega) hj hu hk) (hx _ hu)
    · intro hb
      rw [decide_eq_true_iff, compareTuplesKey_keys p g frag wg hw] at hb
      rw [r2]
      exact ⟨hb, List.get?_mem hg, fun h => absurd h hnl, fun _ => hg⟩
  obtain ⟨o, he⟩ : ∃ o, s.index.get? i = o := ⟨_, rfl⟩
  cases o with
  | none =>
    have := glbCase (fun e h => by rw [he] at h; cases h)
    exact ⟨fun h => absurd h this.1, fun _ => this.2⟩
  | some e =>
    have we : WellFormed p e := ho.2 e (List.get?_mem he)
    by_cases hk : e.keys = frag.keys
    · have hlm : lubMatches := ⟨e, he, hk⟩
      have good : ∀ s', findBTreeEntry p frag s = .ok (true, s') → s'.bTreeTupleData = e →
          ∃ b s', findBTreeEntry p frag s = .ok (b, s') ∧
          (b = true ↔ ∃ e ∈ s.index, e.keys = frag.keys) ∧
          (b = true → s'.bTreeTupleData.keys = frag.keys ∧ s'.bTreeTupleData ∈ s.index ∧
            (lubMatches → s.index.get? i = some s'.bTreeTupleData) ∧
            (¬ lubMatches → s.index.get? (i - 1) = some s'.bTreeTupleData)) := by
        intro s' r1 r2
        refine ⟨true, s', r1, ⟨fun _ => ⟨e, List.get?_mem he, hk⟩, fun _ => rfl⟩, fun _ => ?_⟩
        rw [r2]
        exact ⟨hk, List.get?_mem he, fun _ => he, fun h => absurd hlm h⟩
      by_cases hc : compareTuplesKey e frag (p.nIdxKeys + 1) = 0
      · have hr := ((compareTuplesKey_full p e frag we hw).1 hc).2
        obtain ⟨s', r1, r2, -⟩ := findBTreeEntry_exact p frag s e he hc
        refine ⟨?_, fun _ => good s' r1 r2⟩
        rintro ⟨-, e', h1, -, h3⟩
        rw [he] at h1
        cases h1
        exact absurd (by rw [hr]) h3
      · obtain ⟨k1, k2⟩ := findBTreeEntry_lub_key p frag s e hn he hc
          ((compareTuplesKey_keys p e frag we hw).2 hk)
        constructor
        · rintro ⟨a1, e', h1, -, h3⟩
          rw [he] at h1
          cases h1
          exact k2 a1 h3
        · intro hna
          have hcond : p.checkAsserts = false ∨
              roundToByteBoundary e.startRid = roundToByteBoundary frag.startRid := by
            by_contra hh
            push_neg at hh
            exact hna ⟨by simpa using hh.1, e, he, hk, hh.2⟩
          obtain ⟨s', r1, r2, -⟩ := k1 hcond
          exact good s' r1 r2
    · have := glbCase (fun e' h => by rw [he] at h; cases h; exact hk)
      exact ⟨fun h => absurd h this.1, fun _ => this.2⟩

/-- C6, amended: over a non-empty ordered index with key columns,
`findBTreeEntry` either stops in its byte assertion (only when assertions are
compiled in and the least upper bound entry has the fragment's key columns but
starts in another byte) or returns, and then it returns true exactly when some
entry has the fragment's key columns; the entry returned is then an entry of the
index with those key columns, the least upper bound entry when its key columns
match and the greatest lower bound entry otherwise. -/
theorem findBTreeEntry_keyed (p : Params) (frag : TupleData) (s : Splicer)
    (hn : 0 < p.nIdxKeys) (hne : s.index ≠ []) (ho : IndexOrdered p s.index)
    (hw : WellFormed p frag) :
    let i := lubIdx p s.index frag
    let lubMatches := ∃ e, s.index.get? i = some e ∧ e.keys = frag.keys
    let aborts := p.checkAsserts = true ∧ ∃ e, s.index.get? i = some e ∧ e.keys = frag.keys ∧
      roundToByteBoundary e.startRid ≠ roundToByteBoundary frag.startRid
    (aborts → findBTreeEntry p frag s = .error .assertFailed) ∧
    (¬ aborts → ∃ b s', findBTreeEntry p frag s = .ok (b, s') ∧
      (b = true ↔ ∃ e ∈ s.index, e.keys = frag.keys) ∧
      (b = true → s'.bTreeTupleData.keys = frag.keys ∧ s'.bTreeTupleData ∈ s.index ∧
        (lubMatches → s.index.get? i = some s'.bTreeTupleData) ∧
        (¬ lubMatches → s.index.get? (i - 1) = some s'.bTreeTupleData))) :=
  findBTreeEntry_keyed_aux p frag s hn hne ho hw

/-- C6 at a concrete index: with keys 3, 4 and 6 on disk, a fragment of key 4
past the last row of key 4 is positioned on the greatest lower bound, the entry
of key 4. -/
theorem findBTreeEntry_keyed_witness :
    ∃ b s', findBTreeEntry (uniqueParams false []) (singleton [some 4] 200)
        (openStream [singleton [some 3] 5, singleton [some 4] 100, singleton [some 6] 2]
          0 [] false 0 0) = .ok (b, s') ∧
      b = true ∧ s'.bTreeTupleData = singleton [some 4] 100 := by
  have h := (findBTreeEntry_keyed (uniqueParams false []) (singleton [some 4] 200)
    (openStream [singleton [some 3] 5, singleton [some 4] 100, singleton [some 6] 2]
      0 [] false 0 0) (by decide) (by decide)
    ⟨by decide, by unfold WellFormed; decide⟩ rfl).2
  have hl : (openStream [singleton [some 3] 5, singleton [some 4] 100, singleton [some 6] 2]
      0 [] false 0 0).index.get? (lubIdx (uniqueParams false [])
        (openStream [singleton [some 3] 5, singleton [some 4] 100, singleton [some 6] 2]
          0 [] false 0 0).index (singleton [some 4] 200)) = some (singleton [some 6] 2) := by
    decide
  obtain ⟨b, s', h1, h2, h3⟩ := h (by
    rintro ⟨-, e, e1, e2, -⟩
    rw [hl] at e1
    cases e1
    exact absurd e2 (by decide))
  have hb : b = true := h2.2 ⟨singleton [some 4] 100, by decide, rfl⟩
  refine ⟨b, s', h1, hb, ?_⟩
  have h4 := (h3 hb).2.2.2 (by
    rintro ⟨e, e1, e2⟩
    rw [hl] at e1
    cases e1
    exact absurd e2 (by decide))
  have hg : (openStream [singleton [some 3] 5, singleton [some 4] 100, singleton [some 6] 2]
      0 [] false 0 0).index.get? (lubIdx (uniqueParams false [])
        (openStream [singleton [some 3] 5, singleton [some 4] 100, singleton [some 6] 2]
          0 [] false 0 0).index (singleton [some 4] 200) - 1) = some (singleton [some 4] 100) := by
    decide
  rw [hg] at h4
  exact (Option.some.inj h4).symm

/-! ## C7: positioning without key columns -/

theorem searchForKey_glb (p : Params) (key : TupleData) (s : Splicer) (hne : s.index ≠ []) :
    (searchForKey p key false s).2.cursor = some (glbIdx p s.index key) ∧
    (searchForKey p key false s).2.index = s.index ∧
    (searchForKey p key false s).2.bTreeTupleData = s.bTreeTupleData ∧
    ((searchForKey p key false s).1 = true ↔
      ∃ e, s.index.get? (lubIdx p s.index key) = some e ∧
        compareTuplesKey e key (p.nIdxKeys + 1) = 0) := by
  have hlen : s.index.length ≠ 0 := fun h => hne (List.length_eq_zero.1 h)
  unfold searchForKey glbIdx
  dsimp only
  cases he : s.index.get? (lubIdx p s.index key) with
  | none => simp [hlen, Splicer.emit]
  | some e =>
    by_cases hc : compareTuplesKey e key (p.nIdxKeys + 1) = 0
    · simp [hc, Splicer.emit]
    · simp [hc, hlen, Splicer.emit]

theorem sameViol_refl (s : Splicer) : SameViol s s := ⟨rfl, rfl⟩

theorem sameViol_trans {a b c : Splicer} (h1 : SameViol a b) (h2 : SameViol b c) :
    SameViol a c := ⟨h2.1.trans h1.1, h2.2.trans h1.2⟩

theorem sameViol_of_trace {s s' : Splicer} (h : s'.trace = s.trace) : SameViol s s' := by
  unfold SameViol
  rw [h]
  exact ⟨rfl, rfl⟩

theorem sameViol_emit (s s' : Splicer) (e : Event) (h : s'.trace = s.trace ++ [e])
    (h1 : ∀ k r, e ≠ .postError k r) (h2 : ∀ r, e ≠ .violationOut r) : SameViol s s' := by
  unfold SameViol violationRecords violationRids
  rw [h, List.filterMap_append, List.filterMap_append]
  cases e <;> simp at h1 h2 ⊢

theorem isEmpty_sameViol (s : Splicer) : SameViol s (isEmpty s).2 := by
  unfold isEmpty searchFirst endSearch SameViol violationRecords violationRids
  simp only [Splicer.emit]
  split_ifs <;> simp [List.filterMap_append]

theorem isEmpty_emp (s : Splicer)
    (h : (s.emptyTableUnknown = true ∧ s.index = []) ∨
      (s.emptyTableUnknown = false ∧ s.emptyTable = true)) :
    (isEmpty s).1 = true ∧ (isEmpty s).2.emptyTableUnknown = false ∧
    (isEmpty s).2.emptyTable = true := by
  unfold isEmpty searchFirst endSearch
  rcases h with ⟨h1, h2⟩ | ⟨h1, h2⟩
  · simp [h1, h2, Splicer.emit]
  · simp [h1, h2]

theorem searchOnly_more {s s' : Splicer} (h : SearchOnly s s') :
    s'.isDone = s.isDone ∧ s'.newIndexCreated = s.newIndexCreated ∧
    s'.firstValidation = s.firstValidation ∧ s'.currValidation = s.currValidation ∧
    s'.currUniqueKey = s.currUniqueKey ∧ s'.nKeyRows = s.nKeyRows ∧
    s'.inputRidReader = s.inputRidReader ∧ s'.upsertRid = s.upsertRid ∧
    s'.inEOS = s.inEOS ∧ s'.violationRoom = s.violationRoom ∧
    s'.numRowsLoaded = s.numRowsLoaded := by
  unfold SearchOnly at h
  rw [h]
  simp

theorem writeOnly_more {s s' : Splicer} (h : WriteOnly s s') :
    s'.isDone = s.isDone ∧ s'.newIndexCreated = s.newIndexCreated ∧
    s'.firstValidation = s.firstValidation ∧ s'.currValidation = s.currValidation ∧
    s'.currUniqueKey = s.currUniqueKey ∧ s'.nKeyRows = s.nKeyRows ∧
    s'.inputRidReader = s.inputRidReader ∧ s'.upsertRid = s.upsertRid ∧
    s'.inEOS = s.inEOS ∧ s'.violationRoom = s.violationRoom ∧
    s'.numRowsLoaded = s.numRowsLoaded := by
  unfold WriteOnly at h
  rw [h]
  simp

/-- Querying emptiness keeps the index in step with the reference state once
the deferred creation is behind. -/
theorem isEmpty_idx (p : Params) (ins : List TupleData) (s : Splicer) (h : Idx p ins s)
    (hc : p.createNewIndex = true → s.newIndexCreated = true) :
    (isEmpty s).1 = true ∧ Idx p ins (isEmpty s).2 ∧ (isEmpty s).2.emptyTableUnknown = false ∧
    SearchOnly s (isEmpty s).2 ∧ SameViol s (isEmpty s).2 := by
  obtain ⟨e1, e2, e3⟩ := isEmpty_emp s h.emp
  have f := isEmpty_searchOnly s
  obtain ⟨f1, f2, f3, f4, f5, -, -⟩ := f.search_fields
  obtain ⟨g1, g2, -⟩ := searchOnly_more f
  refine ⟨e1, ⟨?_, Or.inr ⟨e2, e3⟩, ?_, ?_, ?_⟩, e2, f, isEmpty_sameViol s⟩
  · rw [g1]; exact h.notDone
  · intro h1 h2
    rw [g2, hc h1] at h2
    cases h2
  · rw [f5]; exact h.perm
  · rw [f2]; exact h.notExisting

theorem refInsert_ok (p : Params) (t : TupleData) (ins ins' : List TupleData)
    (h : refInsert p t ins = .ok ins') :
    ins' = ins ++ [t] ∧ ∀ e ∈ ins, compareTuplesKey e t (p.nIdxKeys + 1) ≠ 0 := by
  unfold refInsert at h
  split_ifs at h with hc
  simp only [Except.ok.injEq] at h
  refine ⟨h.symm, ?_⟩
  intro e he hz
  apply hc
  rw [List.any_eq_true]
  exact ⟨e, he, by simpa using hz⟩

/-- An insert the reference run accepts is accepted by the writer, and the index
stays a permutation of the tuples inserted. -/
theorem insertTupleData_sim (p : Params) (t : TupleData) (ins ins' : List TupleData)
    (s : Splicer) (hp : s.index.Perm ins) (h : refInsert p t ins = .ok ins') :
    ∃ s1, insertTupleData p t s = .ok s1 ∧ WriteOnly s s1 ∧ s1.index.Perm ins' ∧
      SameViol s s1 ∧ s1.currExistingEntry = s.currExistingEntry := by
  obtain ⟨h1, h2⟩ := refInsert_ok p t ins ins' h
  have hno : ∀ e, s.index.get? (lubIdx p s.index t) = some e →
      compareTuplesKey e t (p.nIdxKeys + 1) ≠ 0 := by
    intro e he
    exact h2 e (hp.subset (List.get?_mem he))
  have hres : ∃ s1, insertTupleData p t s = .ok s1 := by
    simp only [insertTupleData]
    split
    · rename_i e he
      rw [if_neg (hno e he)]
      exact ⟨_, rfl⟩
    · exact ⟨_, rfl⟩
  obtain ⟨s1, hs1⟩ := hres
  obtain ⟨t1, t2, t3, -⟩ := insertTupleData_ok p t s s1 hs1
  refine ⟨s1, hs1, insertTupleData_writeOnly p t s s1 hs1, ?_, ?_, t3⟩
  · rw [t2, h1]
    have : (List.take (lubIdx p s.index t) s.index ++ t :: List.drop (lubIdx p s.index t) s.index).Perm
        (t :: s.index) := by
      have h3 := @List.perm_middle _ t (List.take (lubIdx p s.index t) s.index)
        (List.drop (lubIdx p s.index t) s.index)
      rw [List.take_append_drop] at h3
      exact h3
    refine this.trans ?_
    refine (List.Perm.cons t hp).trans ?_
    exact (List.perm_append_singleton t ins).symm
  · exact sameViol_emit s s1 _ t1 (by intro k r hh; cases hh) (by intro r hh; cases hh)

/-- An insert the reference run accepts keeps the index in step. -/
theorem insertTupleData_idx (p : Params) (t : TupleData) (ins ins' : List TupleData)
    (s : Splicer) (hi : Idx p ins s) (hu : s.emptyTableUnknown = false)
    (h : refInsert p t ins = .ok ins') :
    ∃ s1, insertTupleData p t s = .ok s1 ∧ Idx p ins' s1 ∧ WriteOnly s s1 ∧ SameViol s s1 ∧
      s1.emptyTableUnknown = false := by
  obtain ⟨s1, k1, k2, k3, k4, k5⟩ := insertTupleData_sim p t ins ins' s hi.perm h
  obtain ⟨-, -, -, -, -, -, w7, w8⟩ := k2.write_fields
  obtain ⟨m1, m2, -⟩ := writeOnly_more k2
  have he : s.emptyTable = true := by
    rcases hi.emp with ⟨e1, -⟩ | ⟨-, e2⟩
    · rw [hu] at e1; cases e1
    · exact e2
  refine ⟨s1, k1, ⟨?_, Or.inr ⟨by rw [w8]; exact hu, by rw [w7]; exact he⟩, ?_, k3, ?_⟩, k2, k4,
    by rw [w8]; exact hu⟩
  · rw [m1]; exact hi.notDone
  · intro _ _
    have := hi.deferred
    rw [w8, hu]
    rw [m2] at *
    rename_i h1 h2
    have h3 := hi.deferred h1 h2
    rw [hu] at h3
    cases h3
  · rw [k5]; exact hi.notExisting

/-- The flush of an accumulator that was never on disk is one insert. -/
theorem insertBitmapEntry_idx (p : Params) (ins ins' : List TupleData) (s : Splicer)
    (hi : Idx p ins s) (hu : s.emptyTableUnknown = false)
    (h : refInsert p s.pCurrentEntry ins = .ok ins') :
    ∃ s1, insertBitmapEntry p s = .ok s1 ∧ Idx p ins' s1 ∧ WriteOnly s s1 ∧ SameViol s s1 ∧
      s1.emptyTableUnknown = false := by
  obtain ⟨s1, k⟩ := insertTupleData_idx p s.pCurrentEntry ins ins' s hi hu h
  refine ⟨s1, ?_, k.2⟩
  unfold insertBitmapEntry
  simp only [hi.notExisting, Bool.false_eq_true, if_false]
  exact k.1

theorem refFlush_none (p : Params) (r : Ref) (h : r.acc = none) : refFlush p r = .ok r := by
  unfold refFlush
  rw [h]

theorem procOnly_refl (s : Splicer) : ProcOnly s s := by
  cases s; simp [ProcOnly]

theorem procOnly_trans {a b c : Splicer} (h1 : ProcOnly a b) (h2 : ProcOnly b c) :
    ProcOnly a c := by
  unfold ProcOnly at *
  rw [h2, h1]

theorem procOnly_of_search {s s' : Splicer} (h : SearchOnly s s') : ProcOnly s s' := by
  unfold SearchOnly at h
  unfold ProcOnly
  rw [h]

theorem procOnly_of_write {s s' : Splicer} (h : WriteOnly s s') : ProcOnly s s' := by
  unfold WriteOnly at h
  unfold ProcOnly
  rw [h]

theorem procOnly_acc {s s' : Splicer} (h : ProcOnly s s') (b1 b2 b3 : Bool) (t : TupleData)
    (n : Nat) :
    ProcOnly s { s' with currEntry := b1, currExistingEntry := b2, pCurrentEntry := t,
                         currBTreeStartRid := n, bTreeWriterMoved := b3 } := by
  unfold ProcOnly at *
  rw [h]

theorem procOnly_fields {s s' : Splicer} (h : ProcOnly s s') :
    s'.isDone = s.isDone ∧ s'.newIndexCreated = s.newIndexCreated ∧
    s'.firstValidation = s.firstValidation ∧ s'.currValidation = s.currValidation ∧
    s'.currUniqueKey = s.currUniqueKey ∧ s'.nKeyRows = s.nKeyRows ∧
    s'.inputRidReader = s.inputRidReader ∧ s'.upsertRid = s.upsertRid ∧
    s'.inEOS = s.inEOS ∧ s'.violationRoom = s.violationRoom ∧
    s'.numRowsLoaded = s.numRowsLoaded ∧ s'.inBuf = s.inBuf ∧ s'.inputTuple = s.inputTuple ∧
    s'.insertRowCountParam = s.insertRowCountParam ∧ s'.rootPageId = s.rootPageId ∧
    s'.origRootPageId = s.origRootPageId := by
  unfold ProcOnly at h
  rw [h]
  simp

theorem val_of_procOnly {r : Ref} {s s' : Splicer} (hv : Val r s) (h : ProcOnly s s')
    (hs : SameViol s s') : Val r s' := by
  obtain ⟨-, -, f3, -, f5, f6, -⟩ := procOnly_fields h
  refine ⟨?_, ?_, ?_, ?_⟩
  · rw [f3]; exact hv.firstVal
  · intro k hk
    rw [f5, f6]
    exact hv.curKey k hk
  · rw [hs.1]; exact hv.violRec
  · rw [hs.2]; exact hv.violOut

theorem val_congr {r r' : Ref} {s : Splicer} (hv : Val r s) (h1 : r'.lastKey = r.lastKey)
    (h2 : r'.haveRow = r.haveRow) (h3 : r'.viol = r.viol) : Val r' s := by
  refine ⟨?_, ?_, ?_, ?_⟩
  · rw [h1]; exact hv.firstVal
  · intro k hk
    rw [h1] at hk
    rw [h2]
    exact hv.curKey k hk
  · rw [h3]; exact hv.violRec
  · rw [h3]; exact hv.violOut

theorem upsertSingleton_idx (p : Params) (x : TupleData) (ins ins' : List TupleData)
    (s : Splicer) (hi : Idx p ins s)
    (hc : p.createNewIndex = true → s.newIndexCreated = true)
    (h : refInsert p x ins = .ok ins') :
    ∃ s1, upsertSingleton p x s = .ok s1 ∧ Idx p ins' s1 ∧ ProcOnly s s1 ∧ SameViol s s1 ∧
      s1.emptyTableUnknown = false ∧ s1.currEntry = s.currEntry := by
  obtain ⟨e1, e2, e3, e4, e5⟩ := isEmpty_idx p ins s hi hc
  obtain ⟨s1, k1, k2, k3, k4, k5⟩ := insertTupleData_idx p x ins ins' _ e2 e3 h
  refine ⟨s1, ?_, k2, procOnly_trans (procOnly_of_search e4) (procOnly_of_write k3),
    sameViol_trans e5 k4, k5, ?_⟩
  · unfold upsertSingleton
    generalize isEmpty s = r0 at e1 k1
    obtain ⟨b, s0⟩ := r0
    dsimp only at e1 k1 ⊢
    subst e1
    simp only [Bool.not_true, Bool.false_eq_true, if_false, bind, Except.bind, pure, Except.pure]
    exact k1
  · rw [k3.write_fields.2.2.2.1, e4.search_fields.2.2.2.1]

theorem existingEntry_idx (p : Params) (x : TupleData) (ins : List TupleData)
    (s : Splicer) (hi : Idx p ins s)
    (hc : p.createNewIndex = true → s.newIndexCreated = true) :
    ∃ s1, existingEntry p x s = .ok (false, s1) ∧ Idx p ins s1 ∧ Acc (some x) s1 ∧
      ProcOnly s s1 ∧ SameViol s s1 := by
  obtain ⟨e1, e2, e3, e4, e5⟩ := isEmpty_idx p ins s hi hc
  refine ⟨createNewBitmapEntry x { (isEmpty s).2 with currExistingEntry := false }, ?_, ?_, ?_,
    ?_, ?_⟩
  · unfold existingEntry
    generalize isEmpty s = r0 at e1
    obtain ⟨b, s0⟩ := r0
    dsimp only at e1 ⊢
    subst e1
    simp only [Bool.not_true, Bool.false_eq_true, if_false, pure, Except.pure]
  · exact ⟨e2.notDone, e2.emp, e2.deferred, e2.perm, rfl⟩
  · exact ⟨rfl, fun a ha => by cases ha; rfl, fun _ => e3⟩
  · exact procOnly_acc (procOnly_of_search e4) true false (isEmpty s).2.bTreeWriterMoved x x.startRid
  · exact e5

theorem findBetterEntry_idx (p : Params) (x : TupleData) (ins : List TupleData)
    (s : Splicer) (hi : Idx p ins s)
    (hc : p.createNewIndex = true → s.newIndexCreated = true)
    (hr : p.computeRowCount = true) :
    findBetterEntry p x s = .ok (isEmpty s).2 := by
  obtain ⟨e1, -⟩ := isEmpty_idx p ins s hi hc
  unfold findBetterEntry
  generalize isEmpty s = r0 at e1
  obtain ⟨b, s0⟩ := r0
  dsimp only at e1 ⊢
  subst e1
  simp [cAssert, hr, bind, Except.bind, pure, Except.pure]

theorem idx_setEntry {p : Params} {ins : List TupleData} {s : Splicer} (h : Idx p ins s)
    (b : Bool) : Idx p ins { s with currEntry := b } :=
  ⟨h.notDone, h.emp, h.deferred, h.perm, h.notExisting⟩

theorem idx_setTuple {p : Params} {ins : List TupleData} {s : Splicer} (h : Idx p ins s)
    (t : TupleData) : Idx p ins { s with pCurrentEntry := t } :=
  ⟨h.notDone, h.emp, h.deferred, h.perm, h.notExisting⟩

theorem refFlush_some (p : Params) (r r1 : Ref) (a : TupleData) (ha : r.acc = some a)
    (h : refFlush p r = .ok r1) :
    ∃ ins, refInsert p a r.inserted = .ok ins ∧ r1 = { r with inserted := ins, acc := none } := by
  unfold refFlush at h
  rw [ha] at h
  dsimp only at h
  cases hi : refInsert p a r.inserted with
  | error e => rw [hi] at h; cases h
  | ok ins =>
    rw [hi] at h
    simp only [Except.ok.injEq] at h
    exact ⟨ins, rfl, h.symm⟩

/-- The flush step of `execute` (flush, then the accumulator is either dropped
or restarted by the caller) follows the reference flush. -/
theorem flush_sim (p : Params) (r r1 : Ref) (a : TupleData) (s : Splicer) (hc : Core p r s)
    (ha : r.acc = some a) (h : refFlush p r = .ok r1) :
    ∃ s1, insertBitmapEntry p s = .ok s1 ∧ Idx p r1.inserted s1 ∧ WriteOnly s s1 ∧
      SameViol s s1 ∧ s1.emptyTableUnknown = false ∧ r1.acc = none ∧
      r1.lastKey = r.lastKey ∧ r1.haveRow = r.haveRow ∧ r1.viol = r.viol := by
  obtain ⟨ins, h1, h2⟩ := refFlush_some p r r1 a ha h
  have hce : s.currEntry = true := by rw [hc.acc.accFlag, ha]; rfl
  have hu := hc.acc.accKnown hce
  rw [← hc.acc.accTuple a ha] at h1
  obtain ⟨s1, k1, k2, k3, k4, k5⟩ := insertBitmapEntry_idx p r.inserted ins s hc.idx hu h1
  subst h2
  exact ⟨s1, k1, k2, k3, k4, k5, rfl, rfl, rfl, rfl⟩

theorem core_isEmpty (p : Params) (r : Ref) (s : Splicer) (hc : Core p r s)
    (hcr : p.createNewIndex = true → s.newIndexCreated = true) :
    Core p r (isEmpty s).2 ∧ SearchOnly s (isEmpty s).2 ∧ SameViol s (isEmpty s).2 := by
  obtain ⟨-, e2, e3, e4, e5⟩ := isEmpty_idx p r.inserted s hc.idx hcr
  obtain ⟨f1, -, -, f4, -⟩ := e4.search_fields
  refine ⟨⟨e2, ?_, ?_, ?_⟩, e4, e5⟩
  · rw [f4]; exact hc.acc.accFlag
  · intro a ha
    rw [f1]; exact hc.acc.accTuple a ha
  · intro _
    exact e3

/-- The splice of a same-key fragment follows the reference run: merge, or flush
and restart from the fragment. -/
theorem spliceEntry_sim (p : Params) (r r2 : Ref) (a x : TupleData) (s : Splicer)
    (hc : Core p r s) (ha : r.acc = some a)
    (h : (match p.codec.mergeEntry a x with
          | some m => Except.ok { r with acc := some m }
          | none =>
              match refFlush p r with
              | .ok r1 => .ok { r1 with acc := some x }
              | .error e => .error e) = Except.ok r2) :
    ∃ s1, spliceEntry p x s = .ok s1 ∧ Core p r2 s1 ∧ ProcOnly s s1 ∧ SameViol s s1 ∧
      r2.lastKey = r.lastKey ∧ r2.haveRow = r.haveRow ∧ r2.viol = r.viol := by
  have hce : s.currEntry = true := by rw [hc.acc.accFlag, ha]; rfl
  have hpe := hc.acc.accTuple a ha
  unfold spliceEntry
  rw [hpe]
  cases hm : p.codec.mergeEntry a x with
  | some m =>
    rw [hm] at h
    simp only [Except.ok.injEq] at h
    subst h
    refine ⟨_, rfl, ⟨idx_setTuple hc.idx m, ⟨hce, fun a' ha' => by cases ha'; rfl,
      hc.acc.accKnown⟩⟩, ?_, sameViol_refl _, rfl, rfl, rfl⟩
    have := procOnly_acc (procOnly_refl s) s.currEntry s.currExistingEntry s.bTreeWriterMoved m
      s.currBTreeStartRid
    exact this
  | none =>
    rw [hm] at h
    dsimp only at h
    cases hf : refFlush p r with
    | error e => rw [hf] at h; cases h
    | ok r1 =>
      rw [hf] at h
      simp only [Except.ok.injEq] at h
      subst h
      obtain ⟨s3, f1, f2, f3, f4, f5, f6, f7, f8, f9⟩ := flush_sim p r r1 a s hc ha hf
      refine ⟨createNewBitmapEntry x s3, ?_, ⟨?_, ?_⟩, ?_, f4, f7, f8, f9⟩
      · simp only [f1, bind, Except.bind, pure, Except.pure]
      · exact ⟨f2.notDone, f2.emp, f2.deferred, f2.perm, f2.notExisting⟩
      · exact ⟨rfl, fun a' ha' => by cases ha'; rfl, fun _ => f5⟩
      · exact procOnly_acc (procOnly_of_write f3) true s3.currExistingEntry s3.bTreeWriterMoved x
          x.startRid

/-- Flush and restart from a fragment of another key. -/
theorem restart_sim (p : Params) (r r2 : Ref) (a x : TupleData) (s : Splicer)
    (hc : Core p r s) (ha : r.acc = some a)
    (hcr : p.createNewIndex = true → s.newIndexCreated = true)
    (h : (match refFlush p r with
          | .ok r1 => Except.ok { r1 with acc := some x }
          | .error e => .error e) = Except.ok r2) :
    ∃ s2 s1, insertBitmapEntry p s = .ok s2 ∧ s2.inputTuple = s.inputTuple ∧
      existingEntry p x s2 = .ok (false, s1) ∧ Core p r2 s1 ∧ ProcOnly s s1 ∧ SameViol s s1 ∧
      r2.lastKey = r.lastKey ∧ r2.haveRow = r.haveRow ∧ r2.viol = r.viol := by
  cases hf : refFlush p r with
  | error e => rw [hf] at h; cases h
  | ok r1 =>
    rw [hf] at h
    simp only [Except.ok.injEq] at h
    subst h
    obtain ⟨s2, f1, f2, f3, f4, f5, f6, f7, f8, f9⟩ := flush_sim p r r1 a s hc ha hf
    have hcr2 : p.createNewIndex = true → s2.newIndexCreated = true := by
      intro h1
      rw [(writeOnly_more f3).2.1]
      exact hcr h1
    obtain ⟨s1, k1, k2, k3, k4, k5⟩ := existingEntry_idx p x r1.inserted s2 f2 hcr2
    exact ⟨s2, s1, f1, f3.write_fields.2.2.2.2.2.1, k1, ⟨k2, k3⟩,
      procOnly_trans (procOnly_of_write f3) k4, sameViol_trans f4 k5, f7, f8, f9⟩

/-- The routing of a validated tuple follows the reference run. -/
theorem routeTuple_sim (p : Params) (r r2 : Ref) (s : Splicer) (hc : Core p r s)
    (hcr : p.createNewIndex = true → s.newIndexCreated = true)
    (h : refProcess p r s.inputTuple = .ok r2) :
    ∃ s1, routeTuple p s = .ok s1 ∧ Core p r2 s1 ∧ ProcOnly s s1 ∧ SameViol s s1 ∧
      r2.lastKey = r.lastKey ∧ r2.haveRow = r.haveRow ∧ r2.viol = r.viol := by
  unfold refProcess at h
  unfold routeTuple
  by_cases hu : uniqueRequired p s.inputTuple = true
  · simp only [hu, if_true] at h ⊢
    cases hacc : r.acc with
    | none =>
      rw [refFlush_none p r hacc] at h
      dsimp only at h
      cases hi : refInsert p s.inputTuple r.inserted with
      | error e => rw [hi] at h; cases h
      | ok ins =>
        rw [hi] at h
        simp only [Except.ok.injEq] at h
        subst h
        have hce : s.currEntry = false := by rw [hc.acc.accFlag, hacc]; rfl
        obtain ⟨s1, k1, k2, k3, k4, k5, k6⟩ :=
          upsertSingleton_idx p s.inputTuple r.inserted ins s hc.idx hcr hi
        refine ⟨s1, ?_, ⟨k2, ?_⟩, k3, k4, rfl, rfl, rfl⟩
        · simp only [hce, Bool.false_eq_true, if_false, bind, Except.bind, pure, Except.pure]
          exact k1
        · refine ⟨?_, ?_, ?_⟩
          · rw [k6, hce, hacc]; rfl
          · intro a ha
            rw [hacc] at ha
            cases ha
          · intro _
            exact k5
    | some a =>
      cases hf : refFlush p r with
      | error e => rw [hf] at h; cases h
      | ok r1 =>
        rw [hf] at h
        dsimp only at h
        obtain ⟨s3, f1, f2, f3, f4, f5, f6, f7, f8, f9⟩ := flush_sim p r r1 a s hc hacc hf
        cases hi : refInsert p s.inputTuple r1.inserted with
        | error e => rw [hi] at h; cases h
        | ok ins =>
          rw [hi] at h
          simp only [Except.ok.injEq] at h
          subst h
          have hce : s.currEntry = true := by rw [hc.acc.accFlag, hacc]; rfl
          have hin : s3.inputTuple = s.inputTuple := f3.write_fields.2.2.2.2.2.1
          have hcr3 : p.createNewIndex = true →
              ({ s3 with currEntry := false } : Splicer).newIndexCreated = true := by
            intro h1
            show s3.newIndexCreated = true
            rw [(writeOnly_more f3).2.1]
            exact hcr h1
          rw [← hin] at hi
          obtain ⟨s1, k1, k2, k3, k4, k5, k6⟩ :=
            upsertSingleton_idx p s3.inputTuple r1.inserted ins _ (idx_setEntry f2 false) hcr3 hi
          refine ⟨s1, ?_, ⟨k2, ?_⟩, ?_, sameViol_trans f4 k4, f7, f8, f9⟩
          · simp only [hce, if_true, bind, Except.bind, pure, Except.pure, f1]
            exact k1
          · refine ⟨?_, ?_, ?_⟩
            · rw [k6, f6]; rfl
            · intro a' ha'
              rw [f6] at ha'
              cases ha'
            · intro _
              exact k5
          · refine procOnly_trans ?_ k3
            have := procOnly_of_write f3
            unfold ProcOnly at this ⊢
            rw [this]
  · have hu' : uniqueRequired p s.inputTuple = false := by simpa using hu
    simp only [hu', Bool.false_eq_true, if_false] at h ⊢
    cases hacc : r.acc with
    | none =>
      rw [hacc] at h
      simp only [Except.ok.injEq] at h
      subst h
      have hce : s.currEntry = false := by rw [hc.acc.accFlag, hacc]; rfl
      obtain ⟨s1, k1, k2, k3, k4, k5⟩ := existingEntry_idx p s.inputTuple r.inserted s hc.idx hcr
      refine ⟨s1, ?_, ⟨k2, k3⟩, k4, k5, rfl, rfl, rfl⟩
      simp only [hce, Bool.not_false, if_true, bind, Except.bind, pure, Except.pure, k1,
        Bool.false_eq_true, if_false]
    | some a =>
      rw [hacc] at h
      dsimp only at h
      have hce : s.currEntry = true := by rw [hc.acc.accFlag, hacc]; rfl
      have hpe := hc.acc.accTuple a hacc
      simp only [hce, Bool.not_true, Bool.false_eq_true, if_false, hpe, cAssert, bind,
        Except.bind]
      split_ifs at h with h1 h2
      · rw [if_neg h1]
        dsimp only
        rw [if_pos h2]
        by_cases hr : p.computeRowCount = true
        · simp only [hr, if_true]
          rw [findBetterEntry_idx p s.inputTuple r.inserted s hc.idx hcr hr]
          dsimp only
          obtain ⟨c1, c2, c3⟩ := core_isEmpty p r s hc hcr
          have hin : (isEmpty s).2.inputTuple = s.inputTuple := c2.search_fields.2.2.2.2.2.2
          rw [hin]
          obtain ⟨s1, k1, k2, k3, k4, k5⟩ := spliceEntry_sim p r r2 a s.inputTuple _ c1 hacc h
          exact ⟨s1, k1, k2, procOnly_trans (procOnly_of_search c2) k3, sameViol_trans c3 k4, k5⟩
        · simp only [hr, Bool.false_eq_true, if_false, pure, Except.pure]
          exact spliceEntry_sim p r r2 a s.inputTuple s hc hacc h
      · rw [if_neg h1]
        dsimp only
        rw [if_neg h2]
        obtain ⟨s2, s1, f1, f2, f3, f4, f5, f6, f7⟩ :=
          restart_sim p r r2 a s.inputTuple s hc hacc hcr h
        refine ⟨s1, ?_, f4, f5, f6, f7⟩
        simp only [f1, f2, f3, Bool.false_eq_true, if_false, pure, Except.pure]

theorem consumeTuple_sameViol (s : Splicer) : SameViol s (consumeTuple s) :=
  sameViol_emit s (consumeTuple s) .consumeTuple rfl (by intro k r hh; cases hh)
    (by intro r hh; cases hh)

theorem consumeTuple_core {p : Params} {r : Ref} {s : Splicer} (h : Core p r s) :
    Core p r (consumeTuple s) :=
  ⟨⟨h.idx.notDone, h.idx.emp, h.idx.deferred, h.idx.perm, h.idx.notExisting⟩,
    ⟨h.acc.accFlag, h.acc.accTuple, h.acc.accKnown⟩⟩

theorem consumeTuple_val {r : Ref} {s : Splicer} (h : Val r s) : Val r (consumeTuple s) := by
  have hs := consumeTuple_sameViol s
  refine ⟨h.firstVal, h.curKey, ?_, ?_⟩
  · rw [hs.1]; exact h.violRec
  · rw [hs.2]; exact h.violOut

/-- One iteration of the `for` loop of `execute` after validation follows the
reference run and consumes the head of the input buffer. -/
theorem processTuple_sim (p : Params) (r r2 : Ref) (s : Splicer) (hs : SimT p r s)
    (hcr : p.createNewIndex = true → s.newIndexCreated = true)
    (h : refProcess p r s.inputTuple = .ok r2) :
    ∃ s2, processTuple p s = .ok s2 ∧ SimT p r2 s2 ∧ s2.inBuf = s.inBuf.tail ∧
      s2.inEOS = s.inEOS ∧ s2.violationRoom = s.violationRoom ∧
      s2.numRowsLoaded = s.numRowsLoaded ∧
      (p.createNewIndex = true → s2.newIndexCreated = true) := by
  obtain ⟨s1, k1, k2, k3, k4, k5, k6, k7⟩ := routeTuple_sim p r r2 s hs.core hcr h
  obtain ⟨g1, g2, g3, g4, g5, g6, g7, g8, g9, g10, g11, g12, -⟩ := procOnly_fields k3
  refine ⟨consumeTuple s1, ?_, ⟨consumeTuple_core k2, consumeTuple_val ?_, ?_⟩, ?_, g9, g10, g11,
    ?_⟩
  · unfold processTuple
    simp only [k1, bind, Except.bind, pure, Except.pure]
  · exact val_congr (val_of_procOnly hs.val k3 k4) k5 k6 k7
  · show s1.currValidation = false
    rw [g4]; exact hs.noVal
  · show s1.inBuf.tail = _
    rw [g12]
  · intro h1
    show s1.newIndexCreated = true
    rw [g2]; exact hcr h1

/-! ## Validation follows the reference run -/

theorem valOnly_refl (s : Splicer) : ValOnly s s := by
  cases s; simp [ValOnly]

theorem valOnly_trans {a b c : Splicer} (h1 : ValOnly a b) (h2 : ValOnly b c) :
    ValOnly a c := by
  unfold ValOnly at *
  rw [h2, h1]

theorem valOnly_fields {s s' : Splicer} (h : ValOnly s s') :
    s'.isDone = s.isDone ∧ s'.newIndexCreated = s.newIndexCreated ∧
    s'.firstValidation = s.firstValidation ∧ s'.currValidation = s.currValidation ∧
    s'.currUniqueKey = s.currUniqueKey ∧ s'.inEOS = s.inEOS ∧
    s'.numRowsLoaded = s.numRowsLoaded ∧ s'.inBuf = s.inBuf ∧ s'.inputTuple = s.inputTuple ∧
    s'.index = s.index ∧ s'.currEntry = s.currEntry ∧ s'.pCurrentEntry = s.pCurrentEntry ∧
    s'.currExistingEntry = s.currExistingEntry ∧ s'.emptyTable = s.emptyTable ∧
    s'.emptyTableUnknown = s.emptyTableUnknown := by
  unfold ValOnly at h
  rw [h]
  simp

theorem core_of_valOnly {p : Params} {r : Ref} {s s' : Splicer} (hc : Core p r s)
    (h : ValOnly s s') : Core p r s' := by
  obtain ⟨f1, f2, -, -, -, -, -, -, -, f10, f11, f12, f13, f14, f15⟩ := valOnly_fields h
  refine ⟨⟨?_, ?_, ?_, ?_, ?_⟩, ⟨?_, ?_, ?_⟩⟩
  · rw [f1]; exact hc.idx.notDone
  · rw [f14, f15, f10]; exact hc.idx.emp
  · rw [f2, f15]; exact hc.idx.deferred
  · rw [f10]; exact hc.idx.perm
  · rw [f13]; exact hc.idx.notExisting
  · rw [f11]; exact hc.acc.accFlag
  · rw [f12]; exact hc.acc.accTuple
  · rw [f11, f15]; exact hc.acc.accKnown

theorem survivorLoop_spec (p : Params) (hn : p.createNewIndex = true) (rest : List Nat) :
    ∀ (rid : Nat) (s : Splicer),
      ValOnly s (survivorLoop p rid rest s) ∧ SameViol s (survivorLoop p rid rest s) ∧
      (survivorLoop p rid rest s).violationRoom = s.violationRoom ∧
      (match (rid :: rest).dropWhile (skipRid p) with
       | [] => (survivorLoop p rid rest s).upsertRid = s.upsertRid ∧
           (survivorLoop p rid rest s).nKeyRows = s.nKeyRows ∧
           (survivorLoop p rid rest s).inputRidReader = []
       | x :: xs => (survivorLoop p rid rest s).upsertRid = some x ∧
           (survivorLoop p rid rest s).nKeyRows = s.nKeyRows + 1 ∧
           (survivorLoop p rid rest s).inputRidReader = xs) := by
  induction rest with
  | nil =>
    intro rid s
    unfold survivorLoop searchForRid
    by_cases hd : rid ∈ p.deleted
    · simp only [hd, decide_True, Bool.not_true, Bool.false_eq_true, if_false, List.dropWhile,
        skipRid, hn, Bool.and_self]
      refine ⟨?_, sameViol_emit _ _ (.deletionSearch rid) rfl (by intro k r hh; cases hh)
        (by intro r hh; cases hh), rfl, ?_⟩
      · cases s; simp [ValOnly, Splicer.emit]
      · first
          | exact ⟨rfl, rfl, rfl⟩
          | simp [Splicer.emit]
    · simp only [hd, decide_False, Bool.not_false, if_true, List.dropWhile, skipRid, hn,
        Bool.and_false]
      refine ⟨?_, sameViol_emit _ _ (.deletionSearch rid) rfl (by intro k r hh; cases hh)
        (by intro r hh; cases hh), rfl, ?_⟩
      · cases s; simp [ValOnly, Splicer.emit]
      · first
          | exact ⟨rfl, rfl, rfl⟩
          | simp [Splicer.emit]
  | cons r rs ih =>
    intro rid s
    unfold survivorLoop searchForRid
    by_cases hd : rid ∈ p.deleted
    · simp only [hd, decide_True, Bool.not_true, Bool.false_eq_true, if_false]
      have hsk : skipRid p rid = true := by simp [skipRid, hn, hd]
      rw [List.dropWhile_cons_of_pos hsk]
      obtain ⟨i1, i2, i3, i4⟩ := ih r (s.emit (.deletionSearch rid))
      have e1 : ValOnly s (s.emit (.deletionSearch rid)) := by
        cases s; simp [ValOnly, Splicer.emit]
      have e2 : SameViol s (s.emit (.deletionSearch rid)) :=
        sameViol_emit _ _ (.deletionSearch rid) rfl (by intro k r hh; cases hh)
          (by intro r hh; cases hh)
      exact ⟨valOnly_trans e1 i1, sameViol_trans e2 i2, i3, i4⟩
    · simp only [hd, decide_False, Bool.not_false, if_true]
      have hsk : ¬ skipRid p rid = true := by simp [skipRid, hn, hd]
      rw [List.dropWhile_cons_of_neg hsk]
      refine ⟨?_, sameViol_emit _ _ (.deletionSearch rid) rfl (by intro k r hh; cases hh)
        (by intro r hh; cases hh), rfl, ?_⟩
      · cases s; simp [ValOnly, Splicer.emit]
      · exact ⟨rfl, rfl, rfl⟩

theorem chooseUpsertRid_spec (p : Params) (s : Splicer) (have0 : Bool) (c : List Nat)
    (hk : s.nKeyRows = if have0 then 1 else 0) (hu : s.upsertRid = none)
    (hr : s.inputRidReader = c) (hne : ¬ (have0 = false ∧ c = [])) :
    ∃ s', chooseUpsertRid p s = .ok s' ∧ ValOnly s s' ∧ SameViol s s' ∧
      s'.violationRoom = s.violationRoom ∧
      s'.upsertRid = (tupleOutcome p have0 c).1 ∧
      s'.inputRidReader = (tupleOutcome p have0 c).2 ∧
      s'.nKeyRows = (if have0 || (tupleOutcome p have0 c).1.isSome then 1 else 0) := by
  unfold chooseUpsertRid tupleOutcome
  cases have0 with
  | true =>
    simp only [if_true] at hk
    simp only [hk, one_ne_zero, if_false, pure, Except.pure, if_true, Bool.true_or]
    exact ⟨s, rfl, valOnly_refl s, sameViol_refl s, rfl, hu, hr, hk⟩
  | false =>
    simp only [Bool.false_eq_true, if_false] at hk
    cases c with
    | nil => exact absurd ⟨rfl, rfl⟩ hne
    | cons rid rest =>
      simp only [hk, if_true, cAssert, hu, Option.isNone_none, Bool.not_true, Bool.and_false,
        Bool.false_eq_true, if_false, bind, Except.bind, hr, pure, Except.pure, Bool.false_or]
      by_cases hn : p.createNewIndex = true
      · simp only [hn, Bool.not_true, Bool.false_eq_true, if_false]
        obtain ⟨i1, i2, i3, i4⟩ := survivorLoop_spec p hn rest rid s
        refine ⟨_, rfl, i1, i2, i3, ?_⟩
        generalize List.dropWhile (skipRid p) (rid :: rest) = d at i4
        cases d with
        | nil =>
          dsimp only at i4 ⊢
          obtain ⟨j1, j2, j3⟩ := i4
          refine ⟨by rw [j1, hu], j3, ?_⟩
          rw [j2, hk]
          simp
        | cons x xs =>
          dsimp only at i4 ⊢
          obtain ⟨j1, j2, j3⟩ := i4
          refine ⟨j1, j3, ?_⟩
          rw [j2, hk]
          simp
      · have hn' : p.createNewIndex = false := by simpa using hn
        have hd : List.dropWhile (skipRid p) (rid :: rest) = rid :: rest := by
          rw [List.dropWhile_cons_of_neg]
          simp [skipRid, hn']
        simp only [hn', Bool.not_false, if_true, hd]
        refine ⟨_, rfl, ?_, sameViol_of_trace rfl, rfl, rfl, rfl, ?_⟩
        · cases s; simp [ValOnly]
        · simp

theorem violationLoop_spec (p : Params) :
    ∀ (L : List Nat) (s : Splicer), (L ≠ [] → p.hasViolationOutput = true) →
      ∃ done s' pre post, violationLoop p L s = .ok (done, s') ∧ L = pre ++ post ∧
        s'.inputRidReader = post ∧ (done = true → post = []) ∧ (done = false → post ≠ []) ∧
        ValOnly s s' ∧ s'.upsertRid = s.upsertRid ∧ s'.nKeyRows = s.nKeyRows ∧
        violationRecords s'.trace = violationRecords s.trace ++
          (pre.filter (fun x => !skipRid p x)).map
            (fun x => (s.inputTuple.keys.take p.nIdxKeys, x)) ∧
        violationRids s'.trace = violationRids s.trace ++
          pre.filter (fun x => !skipRid p x) := by
  intro L
  induction L with
  | nil =>
    intro s _
    refine ⟨true, { s with inputRidReader := [] }, [], [], rfl, rfl, rfl, ?_, ?_, ?_, rfl, rfl,
      ?_, ?_⟩
    · intro _; rfl
    · intro h; cases h
    · cases s; simp [ValOnly]
    · simp
    · simp
  | cons rid rest ih =>
    intro s hv
    have hv' := hv (by simp)
    have hrest : rest ≠ [] → p.hasViolationOutput = true := fun _ => hv'
    unfold violationLoop
    simp only [permAssert, hv', if_true, bind, Except.bind]
    by_cases hsk : skipRid p rid = true
    · -- the row-id is deleted and skipped
      have hn : p.createNewIndex = true := by
        unfold skipRid at hsk
        simp only [Bool.and_eq_true] at hsk
        exact hsk.1
      have hd : rid ∈ p.deleted := by
        unfold skipRid at hsk
        simp only [Bool.and_eq_true, decide_eq_true_eq] at hsk
        exact hsk.2
      simp only [hn, if_true, searchForRid, hd, decide_True]
      obtain ⟨done, s', pre, post, i1, i2, i3, i4, i5, i6, i7, i8, i9, i10⟩ :=
        ih ({ s.emit (.deletionSearch rid) with inputRidReader := rest }) hrest
      refine ⟨done, s', rid :: pre, post, i1, by rw [i2]; rfl, i3, i4, i5, ?_, i7, i8, ?_, ?_⟩
      · refine valOnly_trans ?_ i6
        cases s; simp [ValOnly, Splicer.emit]
      · rw [i9]
        simp [violationRecords, Splicer.emit, List.filterMap_append, hsk]
      · rw [i10]
        simp [violationRids, Splicer.emit, List.filterMap_append, hsk]
    · have hsk' : skipRid p rid = false := by simpa using hsk
      have hdel : (if p.createNewIndex = true then searchForRid p rid s else (false, s)).1
          = false := by
        unfold skipRid at hsk'
        by_cases hn : p.createNewIndex = true
        · simp only [hn, if_true, searchForRid]
          simpa [hn] using hsk'
        · simp [hn]
      have hfr : ValOnly s (if p.createNewIndex = true then searchForRid p rid s else (false, s)).2
          ∧ SameViol s (if p.createNewIndex = true then searchForRid p rid s else (false, s)).2
          ∧ (if p.createNewIndex = true then searchForRid p rid s else (false, s)).2.inputTuple
              = s.inputTuple
          ∧ (if p.createNewIndex = true then searchForRid p rid s else (false, s)).2.upsertRid
              = s.upsertRid
          ∧ (if p.createNewIndex = true then searchForRid p rid s else (false, s)).2.nKeyRows
              = s.nKeyRows := by
        by_cases hn : p.createNewIndex = true
        · simp only [hn, if_true, searchForRid]
          refine ⟨?_, sameViol_emit _ _ (.deletionSearch rid) rfl (by intro k r hh; cases hh)
            (by intro r hh; cases hh), rfl, rfl, rfl⟩
          cases s; simp [ValOnly, Splicer.emit]
        · have hn' : p.createNewIndex = false := by simpa using hn
          simp only [hn', Bool.false_eq_true, if_false]
          exact ⟨valOnly_refl s, sameViol_refl s, trivial, trivial, trivial⟩
      generalize (if p.createNewIndex = true then searchForRid p rid s else (false, s)) = q
        at hdel hfr
      obtain ⟨del, s1⟩ := q
      dsimp only at hdel hfr ⊢
      subst hdel
      obtain ⟨f1, f2, f3, f4, f5⟩ := hfr
      simp only [Bool.false_eq_true, if_false]
      by_cases hroom : s1.violationRoom = 0
      · simp only [hroom, if_true, pure, Except.pure]
        refine ⟨false, _, [], rid :: rest, rfl, rfl, rfl, ?_, ?_, ?_, f4, f5, ?_, ?_⟩
        · intro h; cases h
        · intro _; simp
        · refine valOnly_trans f1 ?_
          cases s1; simp [ValOnly, Splicer.emit]
        · simp [violationRecords, Splicer.emit, List.filterMap_append]
          exact f2.1
        · simp [violationRids, Splicer.emit, List.filterMap_append]
          exact f2.2
      · simp only [hroom, if_false]
        obtain ⟨done, s', pre, post, i1, i2, i3, i4, i5, i6, i7, i8, i9, i10⟩ :=
          ih ({ postViolation p
                  ({ s1.emit (.violationOut rid) with
                     violationRoom := s1.violationRoom - 1 } : Splicer).inputTuple rid
                  { s1.emit (.violationOut rid) with violationRoom := s1.violationRoom - 1 } with
                inputRidReader := rest }) hrest
        refine ⟨done, s', rid :: pre, post, i1, by rw [i2]; rfl, i3, i4, i5, ?_, ?_, ?_, ?_, ?_⟩
        · refine valOnly_trans f1 (valOnly_trans ?_ i6)
          cases s1; simp [ValOnly, Splicer.emit, postViolation]
        · rw [i7]; exact f4
        · rw [i8]; exact f5
        · rw [i9]
          have := f2.1
          simp only [violationRecords] at this ⊢
          simp [postViolation, Splicer.emit, List.filterMap_append, hsk', this, f3]
        · rw [i10]
          have := f2.2
          simp only [violationRids] at this ⊢
          simp [postViolation, Splicer.emit, List.filterMap_append, hsk', this]

/-- Reading the next tuple and creating the deferred index keep the stream in
step with the reference state. -/
theorem read_sim (p : Params) (r : Ref) (t : TupleData) (s : Splicer) (hs : SimT p r s) :
    SimT p r (createDeferred p (unmarshalInput p t s)) ∧
    (createDeferred p (unmarshalInput p t s)).inputTuple = tupleAsRead p t ∧
    (createDeferred p (unmarshalInput p t s)).inBuf = s.inBuf ∧
    (createDeferred p (unmarshalInput p t s)).inEOS = s.inEOS ∧
    (createDeferred p (unmarshalInput p t s)).violationRoom = s.violationRoom ∧
    (p.createNewIndex = true →
      (createDeferred p (unmarshalInput p t s)).newIndexCreated = true) := by
  obtain ⟨⟨⟨a1, a2, a3, a4, a5⟩, ⟨b1, b2, b3⟩⟩, ⟨c1, c2, c3, c4⟩, d⟩ := hs
  have hsv : SameViol s (createDeferred p (unmarshalInput p t s)) := by
    unfold SameViol violationRecords violationRids createDeferred unmarshalInput
    split_ifs <;> simp [Splicer.emit, List.filterMap_append]
  have hidx : (createDeferred p (unmarshalInput p t s)).index = s.index := by
    unfold createDeferred unmarshalInput
    by_cases hn : p.createNewIndex = true
    · by_cases hc : s.newIndexCreated = true
      · split_ifs <;> simp_all [Splicer.emit]
      · have hc' : s.newIndexCreated = false := by simpa using hc
        have hu := a3 hn hc'
        rcases a2 with ⟨-, e2⟩ | ⟨e1, -⟩
        · split_ifs <;> simp_all [Splicer.emit]
        · rw [hu] at e1; cases e1
    · split_ifs <;> simp_all [Splicer.emit]
  have hf : (createDeferred p (unmarshalInput p t s)).isDone = s.isDone ∧
      (createDeferred p (unmarshalInput p t s)).currExistingEntry = s.currExistingEntry ∧
      (createDeferred p (unmarshalInput p t s)).currEntry = s.currEntry ∧
      (createDeferred p (unmarshalInput p t s)).pCurrentEntry = s.pCurrentEntry ∧
      (createDeferred p (unmarshalInput p t s)).firstValidation = s.firstValidation ∧
      (createDeferred p (unmarshalInput p t s)).currUniqueKey = s.currUniqueKey ∧
      (createDeferred p (unmarshalInput p t s)).nKeyRows = s.nKeyRows ∧
      (createDeferred p (unmarshalInput p t s)).currValidation = s.currValidation ∧
      (createDeferred p (unmarshalInput p t s)).inBuf = s.inBuf ∧
      (createDeferred p (unmarshalInput p t s)).inEOS = s.inEOS ∧
      (createDeferred p (unmarshalInput p t s)).violationRoom = s.violationRoom := by
    unfold createDeferred unmarshalInput
    split_ifs <;> simp [Splicer.emit]
  obtain ⟨f1, f2, f3, f4, f5, f6, f7, f8, f9, f10, f11⟩ := hf
  refine ⟨⟨⟨⟨?_, ?_, ?_, ?_, ?_⟩, ⟨?_, ?_, ?_⟩⟩, ⟨?_, ?_, ?_, ?_⟩, ?_⟩, ?_, f9, f10, f11, ?_⟩
  · rw [f1]; exact a1
  · rw [hidx]
    unfold createDeferred unmarshalInput
    split_ifs <;> simp_all [Splicer.emit]
  · unfold createDeferred unmarshalInput
    split_ifs <;> simp_all [Splicer.emit]
  · rw [hidx]; exact a4
  · rw [f2]; exact a5
  · rw [f3]; exact b1
  · rw [f4]; exact b2
  · rw [f3]
    intro hce
    have := b3 hce
    unfold createDeferred unmarshalInput
    split_ifs <;> simp_all [Splicer.emit]
  · rw [f5]; exact c1
  · rw [f6, f7]; exact c2
  · rw [hsv.1]; exact c3
  · rw [hsv.2]; exact c4
  · rw [f8]; exact d
  · unfold createDeferred unmarshalInput tupleAsRead
    split_ifs <;> simp_all [Splicer.emit]
  · intro hn
    unfold createDeferred unmarshalInput
    split_ifs <;> simp_all [Splicer.emit]

theorem uniqueKey_of_required (p : Params) (x : TupleData) (h : uniqueRequired p x = true) :
    p.uniqueKey = true := by
  unfold uniqueRequired at h
  by_contra hh
  simp [hh] at h

theorem refFresh_eq (p : Params) (r : Ref) (s : Splicer) (hv : Val r s) :
    (s.firstValidation || decide (compareCols s.inputTuple.cols s.currUniqueKey p.nIdxKeys ≠ 0))
      = refFresh p r s.inputTuple := by
  unfold refFresh
  cases hk : r.lastKey with
  | none =>
    have := hv.firstVal
    rw [hk] at this
    simp [this]
  | some k =>
    have h1 := hv.firstVal
    rw [hk] at h1
    have h2 := (hv.curKey k hk).1
    simp only [Option.isNone_some] at h1
    simp [h1, h2]

/-- Opening a key group keeps the stream in step: over an index that started
empty the key has no row yet. -/
theorem beginGroup_sim (p : Params) (r : Ref) (s : Splicer) (hs : SimT p r s)
    (hcr : p.createNewIndex = true → s.newIndexCreated = true)
    (hu : uniqueRequired p s.inputTuple = true) :
    ∃ s3, beginGroup p s = .ok s3 ∧ Core p r s3 ∧ s3.firstValidation = false ∧
      (refValidated p r s.inputTuple).lastKey = some s3.currUniqueKey ∧
      s3.nKeyRows = (if refHave p r s.inputTuple then 1 else 0) ∧
      SameViol s s3 ∧ s3.inputTuple = s.inputTuple ∧ s3.inBuf = s.inBuf ∧
      s3.inEOS = s.inEOS ∧ s3.violationRoom = s.violationRoom ∧
      s3.currValidation = false ∧ s3.upsertRid = s.upsertRid ∧
      (p.createNewIndex = true → s3.newIndexCreated = true) := by
  have hfr := refFresh_eq p r s hs.val
  have huk := uniqueKey_of_required p _ hu
  unfold beginGroup
  rw [hfr]
  by_cases hf : refFresh p r s.inputTuple = true
  · simp only [hf, if_true, bind, Except.bind, pure, Except.pure]
    have hc4 : Core p r ({ s with firstValidation := false, currUniqueKey := s.inputTuple.keys.take p.nIdxKeys } : Splicer) :=
      ⟨⟨hs.core.idx.notDone, hs.core.idx.emp, hs.core.idx.deferred, hs.core.idx.perm,
        hs.core.idx.notExisting⟩, ⟨hs.core.acc.accFlag, hs.core.acc.accTuple,
        hs.core.acc.accKnown⟩⟩
    obtain ⟨c1, c2, c3⟩ := core_isEmpty p r _ hc4 hcr
    obtain ⟨e1, -⟩ := isEmpty_idx p r.inserted _ hc4.idx hcr
    obtain ⟨g1, g2, g3, g4, g5, g6, g7, g8, g9, g10, g11⟩ := searchOnly_more c2
    obtain ⟨q1, q2, q3, q4, q5, q6, q7⟩ := c2.search_fields
    unfold countKeyRows
    simp only [cAssert, huk, Bool.not_true, Bool.and_false, Bool.false_eq_true, if_false, bind,
      Except.bind, pure, Except.pure]
    generalize isEmpty ({ s with firstValidation := false, currUniqueKey := s.inputTuple.keys.take p.nIdxKeys } : Splicer) = q
      at c1 c2 c3 e1 g1 g2 g3 g4 g5 g6 g7 g8 g9 g10 g11 q1 q2 q3 q4 q5 q6 q7
    obtain ⟨b, s5⟩ := q
    dsimp only at c1 c2 c3 e1 g1 g2 g3 g4 g5 g6 g7 g8 g9 g10 g11 q1 q2 q3 q4 q5 q6 q7 ⊢
    subst e1
    simp only [if_true]
    refine ⟨_, rfl, ?_, g3, ?_, ?_, c3, q7, q6, g9, g10, ?_, g8, ?_⟩
    · exact ⟨⟨c1.idx.notDone, c1.idx.emp, c1.idx.deferred, c1.idx.perm, c1.idx.notExisting⟩,
        ⟨c1.acc.accFlag, c1.acc.accTuple, c1.acc.accKnown⟩⟩
    · show _ = some s5.currUniqueKey
      rw [g5]
      simp [refValidated, hf]
    · simp [refHave, hf]
    · show s5.currValidation = false
      rw [g4]; exact hs.noVal
    · intro h1
      show s5.newIndexCreated = true
      rw [g2]; exact hcr h1
  · have hf' : refFresh p r s.inputTuple = false := by simpa using hf
    simp only [hf', Bool.false_eq_true, if_false, pure, Except.pure]
    have hk : ∃ k, r.lastKey = some k := by
      unfold refFresh at hf'
      cases hk : r.lastKey with
      | none => rw [hk] at hf'; cases hf'
      | some k => exact ⟨k, rfl⟩
    obtain ⟨k, hk⟩ := hk
    have h1 := hs.val.firstVal
    rw [hk] at h1
    obtain ⟨h2, h3⟩ := hs.val.curKey k hk
    refine ⟨s, rfl, hs.core, h1, ?_, ?_, sameViol_refl s, rfl, rfl, rfl, rfl, hs.noVal, rfl, hcr⟩
    · simp [refValidated, hf', hk, h2]
    · rw [h3]
      simp [refHave, hf']

theorem core_congr {p : Params} {r r' : Ref} {s : Splicer} (h : Core p r s)
    (h1 : r'.inserted = r.inserted) (h2 : r'.acc = r.acc) : Core p r' s := by
  refine ⟨?_, ?_⟩
  · rw [h1]; exact h.idx
  · rw [h2]; exact h.acc

theorem core_setVal {p : Params} {r : Ref} {s : Splicer} (h : Core p r s) (b : Bool) :
    Core p r { s with currValidation := b } :=
  ⟨⟨h.idx.notDone, h.idx.emp, h.idx.deferred, h.idx.perm, h.idx.notExisting⟩,
    ⟨h.acc.accFlag, h.acc.accTuple, h.acc.accKnown⟩⟩

theorem core_setInput {p : Params} {r : Ref} {s : Splicer} (h : Core p r s) (t : TupleData) :
    Core p r { s with inputTuple := t } :=
  ⟨⟨h.idx.notDone, h.idx.emp, h.idx.deferred, h.idx.perm, h.idx.notExisting⟩,
    ⟨h.acc.accFlag, h.acc.accTuple, h.acc.accKnown⟩⟩

/-- The rejection loop and the end of the validation of the current tuple: the
loop stops on a full violation output with the stream still in the middle of the
tuple, or the tuple is validated, and then it is either yielded as a singleton
of the accepted row-id or consumed. -/
theorem validate_tail (p : Params) (r : Ref) (t : TupleData) (s : Splicer)
    (hs : SimV p r t s)
    (hva : (refOutcome p r (tupleAsRead p t)).2 ≠ [] → p.hasViolationOutput = true) :
    ∃ done s3, violationLoop p s.inputRidReader s = .ok (done, s3) ∧
      s3.inBuf = s.inBuf ∧ s3.inEOS = s.inEOS ∧
      (done = false → SimV p r t s3 ∧ s3.inputRidReader ≠ []) ∧
      (done = true →
        s3.upsertRid = (refOutcome p r (tupleAsRead p t)).1 ∧
        s3.inputTuple = tupleAsRead p t ∧
        (p.createNewIndex = true → s3.newIndexCreated = true) ∧
        Core p (refValidated p r (tupleAsRead p t)) s3 ∧
        Val (refValidated p r (tupleAsRead p t)) s3) := by
  obtain ⟨pre, g1, g2, g3⟩ := hs.progress
  have hv : s.inputRidReader ≠ [] → p.hasViolationOutput = true := by
    intro h
    apply hva
    rw [g1]
    intro h0
    exact h (List.append_eq_nil.1 h0).2
  obtain ⟨done, s3, pre2, post, i1, i2, i3, i4, i5, i6, i7, i8, i9, i10⟩ :=
    violationLoop_spec p s.inputRidReader s hv
  obtain ⟨f1, f2, f3, f4, f5, f6, f7, f8, f9, f10, f11, f12, f13, f14, f15⟩ := valOnly_fields i6
  have hc3 : Core p r s3 := core_of_valOnly hs.core i6
  have hrec : violationRecords s3.trace = r.viol ++
      ((pre ++ pre2).filter (fun x => !skipRid p x)).map
        (fun x => ((tupleAsRead p t).keys.take p.nIdxKeys, x)) := by
    rw [i9, g2, hs.inTuple, List.filter_append, List.map_append, List.append_assoc]
  have hrid : violationRids s3.trace = r.viol.map Prod.snd ++
      (pre ++ pre2).filter (fun x => !skipRid p x) := by
    rw [i10, g3, List.filter_append, List.append_assoc]
  have hsplit : (refOutcome p r (tupleAsRead p t)).2 = (pre ++ pre2) ++ post := by
    rw [g1, i2, List.append_assoc]
  refine ⟨done, s3, i1, f8, f6, ?_, ?_⟩
  · intro hd
    refine ⟨⟨hc3, ?_, ?_, hs.uniq, ?_, ?_, ?_, ?_, ?_, ?_, ⟨pre ++ pre2, ?_, hrec, hrid⟩⟩, ?_⟩
    · rw [f8]; exact hs.head
    · rw [f9]; exact hs.inTuple
    · rw [f4]; exact hs.isVal
    · intro h1
      rw [f2]; exact hs.created h1
    · rw [f3]; exact hs.firstVal
    · rw [f5]; exact hs.curKey
    · rw [i7]; exact hs.upsert
    · rw [i8]; exact hs.nKey
    · rw [i3]; exact hsplit
    · rw [i3]; exact i5 hd
  · intro hd
    have hpost := i4 hd
    subst hpost
    rw [List.append_nil] at hsplit
    refine ⟨by rw [i7]; exact hs.upsert, by rw [f9]; exact hs.inTuple,
      fun h1 => by rw [f2]; exact hs.created h1, core_congr hc3 rfl rfl, ?_, ?_, ?_, ?_⟩
    · rw [f3, hs.firstVal, hs.curKey]; rfl
    · intro k hk
      rw [hs.curKey] at hk
      rw [f5, i8, hs.nKey]
      exact ⟨Option.some.inj hk, rfl⟩
    · rw [hrec, ← hsplit]; rfl
    · rw [hrid, ← hsplit]
      simp [refValidated, List.map_map, Function.comp]

theorem refTuple_unique_ok (p : Params) (r r' : Ref) (t : TupleData)
    (hu : uniqueRequired p t = true) (h : refTuple p r t = .ok r') :
    ¬ (refHave p r t = false ∧ p.codec.rids t = []) ∧
    ((refOutcome p r t).2 ≠ [] → p.hasViolationOutput = true) ∧
    ((refOutcome p r t).1 = none → r' = refValidated p r t) ∧
    (∀ rid, (refOutcome p r t).1 = some rid →
      refProcess p (refValidated p r t) (validatedTuple t rid) = .ok r') := by
  unfold refTuple at h
  simp only [hu, if_true] at h
  split_ifs at h with h1 h2
  refine ⟨?_, ?_, ?_, ?_⟩
  · rintro ⟨a, b⟩
    apply h1
    simp [a, b]
  · intro hne
    by_contra hv
    apply h2
    have : p.hasViolationOutput = false := by simpa using hv
    simp [this, hne]
  · intro hn
    rw [hn] at h
    simp only [Except.ok.injEq] at h
    exact h.symm
  · intro rid hr
    rw [hr] at h
    exact h

theorem refTuple_other (p : Params) (r : Ref) (t : TupleData)
    (hu : uniqueRequired p t = false) : refTuple p r t = refProcess p r t := by
  unfold refTuple
  simp [hu]

/-- The validation of the current tuple, from the state in which the rejection
loop is about to start or resume. -/
theorem validateCurrent_of_simV (p : Params) (r r' : Ref) (t : TupleData) (s s2 : Splicer)
    (hch : chooseUpsertRid p s = .ok s2) (hs : SimV p r t s2)
    (href : refTuple p r (tupleAsRead p t) = .ok r') :
    ∃ res s', validateCurrent p s = .ok (res, s') ∧ s'.inEOS = s2.inEOS ∧
      ((res = some .EXECRC_BUF_OVERFLOW ∧ SimV p r t s' ∧ s'.inputRidReader ≠ [] ∧
          s'.inBuf = s2.inBuf) ∨
       (res = some .EXECRC_YIELD ∧ s'.inBuf = s2.inBuf ∧
          (p.createNewIndex = true → s'.newIndexCreated = true) ∧
          SimT p (refValidated p r (tupleAsRead p t)) s' ∧
          refProcess p (refValidated p r (tupleAsRead p t)) s'.inputTuple = .ok r') ∨
       (res = none ∧ s'.inBuf = s2.inBuf.tail ∧
          (p.createNewIndex = true → s'.newIndexCreated = true) ∧
          SimT p r' s')) := by
  obtain ⟨k1, k2, k3, k4⟩ := refTuple_unique_ok p r r' _ hs.uniq href
  obtain ⟨done, s3, v1, v2, v3, v4, v5⟩ := validate_tail p r t s2 hs k2
  unfold validateCurrent
  simp only [hch, v1, bind, Except.bind, pure, Except.pure]
  cases done with
  | false =>
    obtain ⟨w1, w2⟩ := v4 rfl
    simp only [Bool.not_false, if_true]
    exact ⟨_, _, rfl, v3, Or.inl ⟨rfl, w1, w2, v2⟩⟩
  | true =>
    obtain ⟨w1, w2, w3, w4, w5⟩ := v5 rfl
    simp only [Bool.not_true, Bool.false_eq_true, if_false]
    split
    · rename_i rid hup
      have hup' : s3.upsertRid = some rid := hup
      have ho : (refOutcome p r (tupleAsRead p t)).1 = some rid := by rw [← w1, hup']
      refine ⟨_, _, rfl, v3, Or.inr (Or.inl ⟨rfl, v2, w3, ?_, ?_⟩)⟩
      · exact ⟨⟨⟨w4.idx.notDone, w4.idx.emp, w4.idx.deferred, w4.idx.perm, w4.idx.notExisting⟩,
          ⟨w4.acc.accFlag, w4.acc.accTuple, w4.acc.accKnown⟩⟩,
          ⟨w5.firstVal, w5.curKey, w5.violRec, w5.violOut⟩, rfl⟩
      · have := k4 rid ho
        unfold validatedTuple at this
        show refProcess p _ ({ s3.inputTuple with
          startRid := rid, segDesc := none, segments := none } : TupleData) = _
        rw [w2]
        exact this
    · rename_i hup
      have hup' : s3.upsertRid = none := hup
      have ho : (refOutcome p r (tupleAsRead p t)).1 = none := by rw [← w1, hup']
      have hr' := k3 ho
      refine ⟨_, _, rfl, v3, Or.inr (Or.inr ⟨rfl, ?_, w3, ?_⟩)⟩
      · show s3.inBuf.tail = _
        rw [v2]
      · rw [hr']
        exact ⟨consumeTuple_core (core_setVal w4 false),
          consumeTuple_val ⟨w5.firstVal, w5.curKey, w5.violRec, w5.violOut⟩, rfl⟩

theorem resume_choose (p : Params) (r : Ref) (t : TupleData) (s : Splicer)
    (hs : SimV p r t s) (hne : s.inputRidReader ≠ []) : chooseUpsertRid p s = .ok s := by
  obtain ⟨pre, g1, -, -⟩ := hs.progress
  have hout : (refOutcome p r (tupleAsRead p t)).2 ≠ [] := by
    rw [g1]
    intro h0
    exact hne (List.append_eq_nil.1 h0).2
  have h1 : s.nKeyRows = 1 := by
    rw [hs.nKey]
    unfold refOutcome tupleOutcome at hout ⊢
    cases hh : refHave p r (tupleAsRead p t) with
    | true => simp
    | false =>
      rw [hh] at hout
      simp only [Bool.false_eq_true, if_false] at hout ⊢
      cases hd : List.dropWhile (skipRid p) (p.codec.rids (tupleAsRead p t)) with
      | nil => rw [hd] at hout; exact absurd rfl hout
      | cons x xs => simp
  unfold chooseUpsertRid
  simp [h1, pure, Except.pure]

/-- Reading a unique-key tuple and choosing the row-id to accept leave the
stream at the start of the rejection loop of that tuple. -/
theorem readInput_unique_sim (p : Params) (r : Ref) (t : TupleData) (rest : List TupleData)
    (s : Splicer) (hs : SimT p r s) (hb : s.inBuf = t :: rest)
    (hu : uniqueRequired p (tupleAsRead p t) = true)
    (hne : ¬ (refHave p r (tupleAsRead p t) = false ∧ p.codec.rids (tupleAsRead p t) = [])) :
    ∃ s1 s2, readInput p s = .ok (none, s1) ∧ chooseUpsertRid p s1 = .ok s2 ∧
      SimV p r t s2 ∧ s2.inBuf = s.inBuf ∧ s2.inEOS = s.inEOS := by
  obtain ⟨a1, a2, a3, a4, a5, a6⟩ := read_sim p r t s hs
  rw [← a2] at hu
  obtain ⟨s3, b1, b2, b3, b4, b5, b6, b7, b8, b9, b10, b11, b12, b13⟩ :=
    beginGroup_sim p r _ a1 a6 hu
  rw [a2] at b4 b5 b7 hu
  have hread : readInput p s = .ok (none, { s3 with inputRidReader := p.codec.rids s3.inputTuple, upsertRid := none, currValidation := true }) := by
    unfold readInput
    rw [hb]
    simp only [a2, hu, Bool.not_true, Bool.false_eq_true, if_false, b1, bind, Except.bind, pure,
      Except.pure]
  obtain ⟨s4, c1, c2, c3, c4, c5, c6, c7⟩ :=
    chooseUpsertRid_spec p ({ s3 with inputRidReader := p.codec.rids s3.inputTuple, upsertRid := none, currValidation := true }) (refHave p r (tupleAsRead p t))
      (p.codec.rids (tupleAsRead p t)) b5 rfl (by show p.codec.rids s3.inputTuple = _; rw [b7]) hne
  obtain ⟨f1, f2, f3, f4, f5, f6, f7, f8, f9, f10, f11, f12, f13, f14, f15⟩ := valOnly_fields c2
  have hcore : Core p r s4 := by
    refine core_of_valOnly ?_ c2
    exact ⟨⟨b2.idx.notDone, b2.idx.emp, b2.idx.deferred, b2.idx.perm, b2.idx.notExisting⟩,
      ⟨b2.acc.accFlag, b2.acc.accTuple, b2.acc.accKnown⟩⟩
  refine ⟨_, s4, hread, c1, ⟨hcore, ?_, ?_, hu, ?_, ?_, ?_, ?_, c5, c7, ⟨[], ?_, ?_, ?_⟩⟩, ?_, ?_⟩
  · rw [f8]
    show s3.inBuf.head? = _
    rw [b8, a3, hb]; rfl
  · rw [f9]; exact b7
  · rw [f4]
  · intro h1
    rw [f2]; exact b13 h1
  · rw [f3]; exact b3
  · rw [f5]; exact b4
  · rw [c6]; rfl
  · rw [c3.1]
    show violationRecords s3.trace = _
    rw [b6.1, a1.val.violRec]
    simp
  · rw [c3.2]
    show violationRids s3.trace = _
    rw [b6.2, a1.val.violOut]
    simp
  · rw [f8]
    show s3.inBuf = _
    rw [b8, a3]
  · rw [f6]
    show s3.inEOS = _
    rw [b9, a4]

theorem gvLoop_early (p : Params) (fuel : Nat) (s s1 : Splicer) (rc : ExecStreamResult)
    (hv : s.currValidation = false) (hr : readInput p s = .ok (some rc, s1)) :
    getValidatedTupleLoop p (fuel + 1) s = .ok (rc, s1) := by
  unfold getValidatedTupleLoop
  rw [hv]
  simp only [Bool.not_false, if_true, hr, bind, Except.bind, pure, Except.pure]

theorem gvLoop_read (p : Params) (fuel : Nat) (s s1 : Splicer)
    (hv : s.currValidation = false) (hr : readInput p s = .ok (none, s1)) :
    getValidatedTupleLoop p (fuel + 1) s =
      (match validateCurrent p s1 with
       | .ok (some rc, s2) => .ok (rc, s2)
       | .ok (none, s2) => getValidatedTupleLoop p fuel s2
       | .error e => .error e) := by
  rw [getValidatedTupleLoop]
  rw [hv]
  simp only [Bool.not_false, if_true, hr, bind, Except.bind, pure, Except.pure]
  cases hvc : validateCurrent p s1 with
  | error e => rfl
  | ok x =>
    obtain ⟨res, s2⟩ := x
    cases res <;> rfl

theorem gvLoop_resume (p : Params) (fuel : Nat) (s : Splicer)
    (hv : s.currValidation = true) :
    getValidatedTupleLoop p (fuel + 1) s =
      (match validateCurrent p s with
       | .ok (some rc, s2) => .ok (rc, s2)
       | .ok (none, s2) => getValidatedTupleLoop p fuel s2
       | .error e => .error e) := by
  rw [getValidatedTupleLoop]
  rw [hv]
  simp only [Bool.not_true, Bool.false_eq_true, if_false, bind, Except.bind, pure, Except.pure]
  cases hvc : validateCurrent p s with
  | error e => rfl
  | ok x =>
    obtain ⟨res, s2⟩ := x
    cases res <;> rfl

theorem refRun_cons_inv (p : Params) (r rEnd : Ref) (x : TupleData) (xs : List TupleData)
    (h : refRun p r (x :: xs) = .ok rEnd) :
    ∃ r1, refTuple p r x = .ok r1 ∧ refRun p r1 xs = .ok rEnd := by
  rw [refRun] at h
  cases ht : refTuple p r x with
  | error e => rw [ht] at h; cases h
  | ok r1 => rw [ht] at h; exact ⟨r1, rfl, h⟩

theorem refTuple_unique_ne (p : Params) (r r1 : Ref) (x : TupleData)
    (hu : uniqueRequired p x = true) (h : refTuple p r x = .ok r1) :
    ¬ (refHave p r x = false ∧ p.codec.rids x = []) := by
  rintro ⟨h1, h2⟩
  unfold refTuple at h
  rw [hu, h1, h2] at h
  simp at h

theorem gvPost_step (p : Params) (rEnd : Ref) (pend : List TupleData) (s s2 s3 : Splicer)
    (rc : ExecStreamResult) (he : s2.inEOS = s.inEOS) (hb : ∃ k, s2.inBuf = s.inBuf.drop k)
    (h : GvPost p rEnd pend s2 rc s3) : GvPost p rEnd pend s rc s3 := by
  obtain ⟨h1, ⟨k, h2⟩, h3⟩ := h
  obtain ⟨k2, hb⟩ := hb
  refine ⟨h1.trans he, ⟨k2 + k, ?_⟩, h3⟩
  rw [h2, hb, List.drop_drop]

/-- The outcome of the validation of the head tuple `t`, inside the loop of
`getValidatedTuple`. -/
theorem gvLoop_validate (p : Params) (fuel : Nat) (r rEnd : Ref) (t : TupleData)
    (rest pend : List TupleData) (s s1 s2 : Splicer)
    (ih : ∀ (s' : Splicer) (r' : Ref), SimT p r' s' →
      refRun p r' ((s'.inBuf ++ pend).map (tupleAsRead p)) = .ok rEnd →
      s'.inBuf.length < fuel →
      ∃ rc s3, getValidatedTupleLoop p fuel s' = .ok (rc, s3) ∧ GvPost p rEnd pend s' rc s3)
    (hloop : getValidatedTupleLoop p (fuel + 1) s =
      (match validateCurrent p s1 with
       | .ok (some rc, s2) => .ok (rc, s2)
       | .ok (none, s2) => getValidatedTupleLoop p fuel s2
       | .error e => .error e))
    (hch : chooseUpsertRid p s1 = .ok s2) (hs : SimV p r t s2)
    (hb : s2.inBuf = t :: rest) (hb0 : s2.inBuf = s.inBuf) (he0 : s2.inEOS = s.inEOS)
    (href : refRun p r ((s.inBuf ++ pend).map (tupleAsRead p)) = .ok rEnd)
    (hlen : s.inBuf.length < fuel + 1) :
    ∃ rc s3, getValidatedTupleLoop p (fuel + 1) s = .ok (rc, s3) ∧ GvPost p rEnd pend s rc s3 := by
  rw [← hb0, hb] at href hlen
  obtain ⟨r1, k1, k2⟩ := refRun_cons_inv p r rEnd _ _ href
  obtain ⟨res, s', v1, v2, v3⟩ := validateCurrent_of_simV p r r1 t s1 s2 hch hs k1
  rw [hloop, v1]
  rcases v3 with ⟨e1, e2, e3, e4⟩ | ⟨e1, e2, e3, e4, e5⟩ | ⟨e1, e2, e3, e4⟩
  · subst e1
    refine ⟨_, s', rfl, v2.trans he0, ⟨0, ?_⟩, Or.inr (Or.inl ⟨rfl, r, Or.inr ⟨t, e2, e3⟩, e2.isVal, ?_⟩)⟩
    · rw [e4, hb0]; rfl
    · rw [e4, hb]; exact href
  · subst e1
    refine ⟨_, s', rfl, v2.trans he0, ⟨0, ?_⟩, Or.inr (Or.inr ⟨rfl, ?_, e3, _, r1, e4, e5, ?_⟩)⟩
    · rw [e2, hb0]; rfl
    · rw [e2, hb]; simp
    · rw [e2, hb]; exact k2
  · subst e1
    have hl : s'.inBuf.length < fuel := by
      rw [e2, hb]
      simp only [List.length_cons, List.tail_cons] at hlen ⊢
      omega
    have hr : refRun p r1 ((s'.inBuf ++ pend).map (tupleAsRead p)) = .ok rEnd := by
      rw [e2, hb]; exact k2
    obtain ⟨rc, s3, g1, g2⟩ := ih s' r1 e4 hr hl
    refine ⟨rc, s3, g1, gvPost_step p rEnd pend s s' s3 rc (v2.trans he0) ⟨1, ?_⟩ g2⟩
    rw [e2, hb0]
    simp

/-- The loop of `getValidatedTuple` follows the reference run: with fuel above
the number of buffered tuples it returns, and what it leaves is described by
`GvPost`. -/
theorem getValidatedTupleLoop_sim (p : Params) (rEnd : Ref) (pend : List TupleData) :
    ∀ (fuel : Nat) (s : Splicer) (r : Ref), Suspended p r s →
      refRun p r ((s.inBuf ++ pend).map (tupleAsRead p)) = .ok rEnd →
      s.inBuf.length < fuel →
      ∃ rc s3, getValidatedTupleLoop p fuel s = .ok (rc, s3) ∧ GvPost p rEnd pend s rc s3 := by
  intro fuel
  induction fuel with
  | zero => intro s r _ _ hl; omega
  | succ fuel ih =>
    intro s r hS href hlen
    have ih2 : ∀ (s' : Splicer) (r' : Ref), SimT p r' s' →
        refRun p r' ((s'.inBuf ++ pend).map (tupleAsRead p)) = .ok rEnd →
        s'.inBuf.length < fuel →
        ∃ rc s3, getValidatedTupleLoop p fuel s' = .ok (rc, s3) ∧ GvPost p rEnd pend s' rc s3 :=
      fun s' r' h1 h2 h3 => ih s' r' (Or.inl h1) h2 h3
    rcases hS with hT | ⟨t, hV, hne⟩
    · cases hb : s.inBuf with
      | nil =>
        have hr : readInput p s = .ok (some .EXECRC_BUF_UNDERFLOW, s) := by
          unfold readInput
          rw [hb]; rfl
        refine ⟨_, s, gvLoop_early p fuel s s _ hT.noVal hr, rfl, ⟨0, rfl⟩,
          Or.inl ⟨rfl, hb, r, hT, ?_⟩⟩
        rw [hb] at href
        exact href
      | cons t rest =>
        obtain ⟨a1, a2, a3, a4, a5, a6⟩ := read_sim p r t s hT
        have href2 := href
        rw [hb] at href2
        obtain ⟨r1, k1, k2⟩ := refRun_cons_inv p r rEnd _ _ href2
        cases hu : uniqueRequired p (tupleAsRead p t) with
        | false =>
          have hr : readInput p s =
              .ok (some .EXECRC_YIELD, createDeferred p (unmarshalInput p t s)) := by
            unfold readInput
            rw [hb]
            simp only [a2, hu, Bool.not_false, if_true]
            rfl
          refine ⟨_, _, gvLoop_early p fuel s _ _ hT.noVal hr, a4, ⟨0, a3⟩,
            Or.inr (Or.inr ⟨rfl, ?_, a6, r, r1, a1, ?_, ?_⟩)⟩
          · rw [a3, hb]; simp
          · rw [a2, ← refTuple_other p r _ hu]; exact k1
          · rw [a3, hb]; exact k2
        | true =>
          have hne := refTuple_unique_ne p r r1 _ hu k1
          obtain ⟨s1, s2, b1, b2, b3, b4, b5⟩ := readInput_unique_sim p r t rest s hT hb hu hne
          exact gvLoop_validate p fuel r rEnd t rest pend s s1 s2 ih2
            (gvLoop_read p fuel s s1 hT.noVal b1) b2 b3 (b4.trans hb) b4 b5 href hlen
    · have hh := hV.head
      cases hb : s.inBuf with
      | nil => rw [hb] at hh; cases hh
      | cons t0 rest =>
        rw [hb] at hh
        simp only [List.head?_cons, Option.some.injEq] at hh
        subst hh
        exact gvLoop_validate p fuel r rEnd t0 rest pend s s s ih2
          (gvLoop_resume p fuel s hV.isVal) (resume_choose p r t0 s hV hne) hV hb rfl rfl href hlen

theorem getValidatedTuple_sim (p : Params) (rEnd : Ref) (pend : List TupleData)
    (s : Splicer) (r : Ref) (hS : Suspended p r s)
    (href : refRun p r ((s.inBuf ++ pend).map (tupleAsRead p)) = .ok rEnd) :
    ∃ rc s3, getValidatedTuple p s = .ok (rc, s3) ∧ GvPost p rEnd pend s rc s3 :=
  getValidatedTupleLoop_sim p rEnd pend _ s r hS href (Nat.lt_succ_self _)

theorem executeLoop_stop (p : Params) (n : Nat) (s s1 : Splicer) (rc : ExecStreamResult)
    (h : getValidatedTuple p s = .ok (rc, s1)) (hrc : rc ≠ .EXECRC_YIELD) :
    executeLoop p (n + 1) s = .ok (rc, s1) := by
  rw [executeLoop]
  simp only [h, bind, Except.bind, pure, Except.pure, hrc, ne_eq, not_false_eq_true, if_true]

theorem executeLoop_yield (p : Params) (n : Nat) (s s1 s2 : Splicer)
    (h : getValidatedTuple p s = .ok (.EXECRC_YIELD, s1)) (hp : processTuple p s1 = .ok s2) :
    executeLoop p (n + 1) s = executeLoop p n s2 := by
  rw [executeLoop]
  simp only [h, bind, Except.bind, pure, Except.pure, ne_eq, not_true_eq_false, if_false, hp]

/-- The `for` loop of `execute` returns and keeps the invariant of the run. -/
theorem executeLoop_sim (p : Params) (rEnd : Ref) (pend : List TupleData) :
    ∀ (n : Nat) (s : Splicer), Inv p rEnd pend s →
      ∃ rc s', executeLoop p n s = .ok (rc, s') ∧ Inv p rEnd pend s' ∧ s'.inEOS = s.inEOS := by
  intro n
  induction n with
  | zero => intro s h; exact ⟨_, s, rfl, h, rfl⟩
  | succ n ih =>
    intro s ⟨r, hS, href⟩
    obtain ⟨rc, s3, g1, g2, g3, g4⟩ := getValidatedTuple_sim p rEnd pend s r hS href
    rcases g4 with ⟨e1, e2, r', e3, e4⟩ | ⟨e1, r', e2, e3, e4⟩ | ⟨e1, e2, e3, r1, r2, e4, e5, e6⟩
    · subst e1
      refine ⟨_, s3, executeLoop_stop p n s s3 _ g1 (by decide), ⟨r', Or.inl e3, ?_⟩, g2⟩
      rw [e2]; exact e4
    · subst e1
      exact ⟨_, s3, executeLoop_stop p n s s3 _ g1 (by decide), ⟨r', e2, e4⟩, g2⟩
    · subst e1
      obtain ⟨s4, k1, k2, k3, k4, -, -, -⟩ := processTuple_sim p r1 r2 s3 e4 e3 e5
      have hi : Inv p rEnd pend s4 := ⟨r2, Or.inl k2, by rw [k3]; exact e6⟩
      obtain ⟨rc, s5, m1, m2, m3⟩ := ih s4 hi
      refine ⟨rc, s5, ?_, m2, ?_⟩
      · rw [executeLoop_yield p n s s3 s4 g1 k1]; exact m1
      · rw [m3, k4, g2]

theorem sameViol_emit_other (s : Splicer) (e : Event) (h1 : ∀ k r, e ≠ .postError k r)
    (h2 : ∀ r, e ≠ .violationOut r) : SameViol s (s.emit e) :=
  sameViol_emit s (s.emit e) e rfl h1 h2

/-- Once the stream is done, `execute` returns end-of-stream and leaves the
index and the violations alone. -/
theorem execute_done (p : Params) (q : Nat) (rF : Ref) (s : Splicer) (h : Final rF s) :
    ∃ s', execute p q s = .ok (.EXECRC_EOS, s') ∧ Final rF s' := by
  obtain ⟨h1, h2, h3, h4⟩ := h
  unfold execute
  rw [h1]
  simp only [if_true]
  refine ⟨_, rfl, ?_⟩
  cases hn : s.newIndexCreated
  · simp only [Bool.false_eq_true, if_false]
    have hv := sameViol_emit_other s .markEOS (by intro k r; simp) (by intro r; simp)
    exact ⟨h1, h2, hv.1.trans h3, hv.2.trans h4⟩
  · simp only [if_true]
    have hv1 := sameViol_emit_other s (.versionPage s.origRootPageId s.rootPageId)
      (by intro k r; simp) (by intro r; simp)
    have hv := sameViol_trans hv1 (sameViol_emit_other _ .markEOS (by intro k r; simp)
      (by intro r; simp))
    exact ⟨h1, h2, hv.1.trans h3, hv.2.trans h4⟩

theorem eos_tail (p : Params) (rF : Ref) (s1 : Splicer) (hp : s1.index.Perm rF.inserted)
    (h3 : violationRecords s1.trace = rF.viol)
    (h4 : violationRids s1.trace = rF.viol.map Prod.snd) (s2 s3 : Splicer)
    (e2 : s2 = if (!p.computeRowCount) = true then
      { s1 with numRowsLoaded := s1.insertRowCountParam } else s1)
    (e3 : s3 = if p.writeRowCountParam = true then s2.emit (.writeParam s2.numRowsLoaded)
      else s2) :
    Final rF { s3.emit (.outputTuple s3.numRowsLoaded) with isDone := true } := by
  have a2 : s2.index = s1.index ∧ s2.trace = s1.trace := by
    rw [e2]; split_ifs <;> exact ⟨rfl, rfl⟩
  have a3 : s3.index = s2.index ∧ SameViol s2 s3 := by
    rw [e3]; split_ifs
    · exact ⟨rfl, sameViol_emit_other _ _ (by intro k r; simp) (by intro r; simp)⟩
    · exact ⟨rfl, sameViol_refl _⟩
  have a4 : SameViol s3 (s3.emit (.outputTuple s3.numRowsLoaded)) :=
    sameViol_emit_other _ _ (by intro k r; simp) (by intro r; simp)
  have hv := sameViol_trans (sameViol_trans (sameViol_of_trace a2.2) a3.2) a4
  refine ⟨rfl, ?_, hv.1.trans h3, hv.2.trans h4⟩
  show s3.index.Perm _
  rw [a3.1, a2.1]; exact hp

/-- At end of input `execute` flushes the pending accumulator and is done. -/
theorem execute_eos (p : Params) (q : Nat) (r rF : Ref) (s : Splicer) (hs : SimT p r s)
    (hb : s.inBuf = []) (he : s.inEOS = true) (hf : refFlush p r = .ok rF) :
    ∃ s', execute p q s = .ok (.EXECRC_BUF_OVERFLOW, s') ∧ Final rF s' := by
  have hflush : ∃ s1, (s.currEntry = true → insertBitmapEntry p s = .ok s1) ∧
      (s.currEntry = false → s1 = s) ∧
      s1.index.Perm rF.inserted ∧ violationRecords s1.trace = rF.viol ∧
      violationRids s1.trace = rF.viol.map Prod.snd := by
    cases ha : r.acc with
    | none =>
      have hc : s.currEntry = false := by rw [hs.core.acc.accFlag, ha]; rfl
      rw [refFlush_none p r ha] at hf
      cases hf
      refine ⟨s, ?_, fun _ => rfl, hs.core.idx.perm, hs.val.violRec, hs.val.violOut⟩
      intro h; rw [hc] at h; cases h
    | some a =>
      have hc : s.currEntry = true := by rw [hs.core.acc.accFlag, ha]; rfl
      obtain ⟨s1, k1, k2, -, k4, -, -, -, -, k9⟩ := flush_sim p r rF a s hs.core ha hf
      refine ⟨s1, fun _ => k1, ?_, k2.perm, ?_, ?_⟩
      · intro h; rw [hc] at h; cases h
      · rw [k4.1, hs.val.violRec, k9]
      · rw [k4.2, hs.val.violOut, k9]
  obtain ⟨s1, f0, f1, f2, f3, f4⟩ := hflush
  have hcond : s.inBuf.length = 0 ∧ s.inEOS = true := ⟨by rw [hb]; rfl, he⟩
  unfold execute
  rw [hs.core.idx.notDone, if_neg Bool.false_ne_true, if_pos hcond]
  cases hce : s.currEntry
  · have := f1 hce
    subst this
    simp only [Bool.false_eq_true, if_false, bind, Except.bind, pure, Except.pure]
    exact ⟨_, rfl, eos_tail p rF s1 f2 f3 f4 _ _ rfl rfl⟩
  · simp only [if_true, bind, Except.bind, pure, Except.pure, f0 hce]
    exact ⟨_, rfl, eos_tail p rF s1 f2 f3 f4 _ _ rfl rfl⟩

theorem suspended_notDone (p : Params) (r : Ref) (s : Splicer) (h : Suspended p r s) :
    s.isDone = false := by
  rcases h with h | ⟨t, h, -⟩
  · exact h.core.idx.notDone
  · exact h.core.idx.notDone

theorem suspended_empty (p : Params) (r : Ref) (s : Splicer) (h : Suspended p r s)
    (hb : s.inBuf = []) : SimT p r s := by
  rcases h with h | ⟨t, h, -⟩
  · exact h
  · have := h.head
    rw [hb] at this
    cases this

/-- One call of `execute` before the stream is done: it returns, and either the
invariant of the run holds again or the stream is done with the flushed final
reference state. -/
theorem execute_sim (p : Params) (q : Nat) (rEnd rF : Ref) (pend : List TupleData)
    (s : Splicer) (hi : Inv p rEnd pend s) (hp : s.inEOS = true → pend = [])
    (hf : refFlush p rEnd = .ok rF) :
    ∃ rc s', execute p q s = .ok (rc, s') ∧
      ((Inv p rEnd pend s' ∧ s'.inEOS = s.inEOS) ∨ Final rF s') := by
  by_cases hc : s.inBuf.length = 0 ∧ s.inEOS = true
  · obtain ⟨r, hS, href⟩ := hi
    have hb : s.inBuf = [] := List.length_eq_zero.1 hc.1
    have hT := suspended_empty p r s hS hb
    rw [hb, hp hc.2] at href
    cases href
    obtain ⟨s', k1, k2⟩ := execute_eos p q rEnd rF s hT hb hc.2 hf
    exact ⟨_, s', k1, Or.inr k2⟩
  · obtain ⟨r, hS, href⟩ := hi
    have hd := suspended_notDone p r s hS
    obtain ⟨rc, s', k1, k2, k3⟩ := executeLoop_sim p rEnd pend q s ⟨r, hS, href⟩
    refine ⟨rc, s', ?_, Or.inl ⟨k2, k3⟩⟩
    unfold execute
    rw [hd]
    simp only [Bool.false_eq_true, if_false, hc]
    exact k1

theorem suspended_deliver (p : Params) (r : Ref) (sl : Slice) (pend : List TupleData)
    (s : Splicer) (h : Suspended p r s) : Suspended p r (deliverSlice sl pend s) := by
  rcases h with h | ⟨t, h, hne⟩
  · left
    obtain ⟨⟨⟨a1, a2, a3, a4, a5⟩, ⟨b1, b2, b3⟩⟩, ⟨c1, c2, c3, c4⟩, d⟩ := h
    exact ⟨⟨⟨a1, a2, a3, a4, a5⟩, ⟨b1, b2, b3⟩⟩, ⟨c1, c2, c3, c4⟩, d⟩
  · right
    obtain ⟨⟨⟨a1, a2, a3, a4, a5⟩, ⟨b1, b2, b3⟩⟩, c1, c2, c3, c4, c5, c6, c7, c8, c9, c10⟩ := h
    refine ⟨t, ⟨⟨⟨a1, a2, a3, a4, a5⟩, ⟨b1, b2, b3⟩⟩, ?_, c2, c3, c4, c5, c6, c7, c8, c9, c10⟩, hne⟩
    show (s.inBuf ++ pend.take sl.deliver).head? = some t
    cases hb : s.inBuf with
    | nil => rw [hb] at c1; cases c1
    | cons x xs => rw [hb] at c1; exact c1

theorem runInv_deliver (p : Params) (rEnd rF : Ref) (sl : Slice) (pend : List TupleData)
    (s : Splicer) (h : RunInv p rEnd rF pend s) :
    RunInv p rEnd rF (pend.drop sl.deliver) (deliverSlice sl pend s) := by
  rcases h with ⟨⟨r, hS, href⟩, he⟩ | ⟨f1, f2, f3, f4⟩
  · left
    refine ⟨⟨r, suspended_deliver p r sl pend s hS, ?_⟩, ?_⟩
    · show refRun p r (((s.inBuf ++ pend.take sl.deliver) ++ pend.drop sl.deliver).map
        (tupleAsRead p)) = _
      rw [List.append_assoc, List.take_append_drop]
      exact href
    · intro h
      have h2 : (s.inEOS || (sl.eos && (pend.drop sl.deliver).isEmpty)) = true := h
      cases hE : s.inEOS with
      | true => rw [he hE]; simp
      | false =>
        rw [hE] at h2
        simp only [Bool.false_or, Bool.and_eq_true, List.isEmpty_iff] at h2
        exact h2.2
  · right
    exact ⟨f1, f2, f3, f4⟩

/-- Under every schedule the run returns and keeps the invariant. -/
theorem runSched_inv (p : Params) (rEnd rF : Ref) (hf : refFlush p rEnd = .ok rF) :
    ∀ (sched : List Slice) (pend : List TupleData) (s : Splicer), RunInv p rEnd rF pend s →
      ∃ sF pend', runSched p sched pend s = .ok sF ∧ RunInv p rEnd rF pend' sF := by
  intro sched
  induction sched with
  | nil => intro pend s h; exact ⟨s, pend, rfl, h⟩
  | cons sl rest ih =>
    intro pend s h
    have hd := runInv_deliver p rEnd rF sl pend s h
    have hstep : ∃ rc s1, execute p sl.quantum (deliverSlice sl pend s) = .ok (rc, s1) ∧
        RunInv p rEnd rF (pend.drop sl.deliver) s1 := by
      rcases hd with ⟨hi, he⟩ | hfin
      · obtain ⟨rc, s1, k1, k2⟩ := execute_sim p sl.quantum rEnd rF _ _ hi he hf
        refine ⟨rc, s1, k1, ?_⟩
        rcases k2 with ⟨k2, k3⟩ | k2
        · left
          refine ⟨k2, ?_⟩
          rw [k3]; exact he
        · right; exact k2
      · obtain ⟨s1, k1, k2⟩ := execute_done p sl.quantum rF _ hfin
        exact ⟨_, s1, k1, Or.inr k2⟩
    obtain ⟨rc, s1, k1, k2⟩ := hstep
    obtain ⟨sF, pend', m1, m2⟩ := ih _ s1 k2
    refine ⟨sF, pend', ?_, m2⟩
    rw [runSched, k1]
    exact m1

theorem simT_open (p : Params) (root : Nat) (inBuf : List TupleData) (inEOS : Bool)
    (room cnt : Nat) : SimT p Ref.init (openStream [] root inBuf inEOS room cnt) := by
  refine ⟨⟨⟨rfl, Or.inl ⟨rfl, rfl⟩, fun _ _ => rfl, List.Perm.nil, rfl⟩, ⟨rfl, ?_, ?_⟩⟩,
    ⟨rfl, ?_, rfl, rfl⟩, rfl⟩
  · intro a h; cases h
  · intro h; cases h
  · intro k h; cases h

/-- Under every schedule, a run over an index that starts empty returns, and
once it is done the index holds the tuples the reference run inserts and the
violations reported are those of the reference run. -/
theorem runSched_follows (p : Params) (sched : List Slice) (input : List TupleData)
    (rEnd rF : Ref) (root room cnt : Nat)
    (h1 : refRun p Ref.init (input.map (tupleAsRead p)) = .ok rEnd)
    (h2 : refFlush p rEnd = .ok rF) :
    ∃ sF, runSched p sched input (openStream [] root [] false room cnt) = .ok sF ∧
      (sF.isDone = true → Final rF sF) := by
  have h0 : RunInv p rEnd rF input (openStream [] root [] false room cnt) := by
    left
    refine ⟨⟨Ref.init, Or.inl (simT_open p root [] false room cnt), h1⟩, ?_⟩
    intro h; cases h
  obtain ⟨sF, pend', k1, k2⟩ := runSched_inv p rEnd rF h2 sched input _ h0
  refine ⟨sF, k1, ?_⟩
  intro hd
  rcases k2 with ⟨⟨r, hS, -⟩, -⟩ | k2
  · rw [suspended_notDone p r sF hS] at hd; cases hd
  · exact k2

theorem uniqueRequired_wf (p : Params) (t : TupleData) (h : WellFormed p t) :
    uniqueRequired p t = uniqueKeyCols p t.keys := by
  unfold WellFormed at h
  unfold uniqueRequired uniqueKeyCols
  cases p.uniqueKey with
  | false => simp
  | true =>
    simp only [if_true, Bool.true_and, h, decide_True]
    rw [Bool.eq_iff_iff]
    simp only [List.all_eq_true, List.mem_range, Bool.not_eq_true', TupleData.isNull]
    constructor
    · intro hh x hx
      obtain ⟨i, hi, rfl⟩ := List.getElem_of_mem hx
      have := hh i (by omega)
      rw [if_pos hi] at this
      rw [List.getD_eq_getElem _ _ hi] at this
      cases hx2 : t.keys[i] with
      | none => rw [hx2] at this; simp at this
      | some v => rfl
    · intro hh i hi
      rw [if_pos (by omega)]
      rw [List.getD_eq_getElem _ _ (by omega)]
      have := hh _ (List.getElem_mem (by omega : i < t.keys.length))
      cases hx2 : t.keys[i] with
      | none => rw [hx2] at this; simp at this
      | some v => rfl

theorem uniqueRequired_congr (p : Params) (a b : TupleData) (ha : WellFormed p a)
    (hb : WellFormed p b) (h : a.keys = b.keys) : uniqueRequired p a = uniqueRequired p b := by
  rw [uniqueRequired_wf p a ha, uniqueRequired_wf p b hb, h]

theorem compareTuplesKey_eq_keys (p : Params) (a b : TupleData) (ha : WellFormed p a)
    (hb : WellFormed p b) : compareTuplesKey a b p.nIdxKeys = compareCols a.keys b.keys p.nIdxKeys := by
  unfold WellFormed at ha hb
  unfold compareTuplesKey TupleData.cols
  have key : ∀ (n : Nat) (x y u v : List (Option Nat)), x.length = n → y.length = n →
      compareCols (x ++ u) (y ++ v) n = compareCols x y n := by
    intro n
    induction n with
    | zero =>
      intro x y u v hx hy
      rw [List.length_eq_zero.1 hx, List.length_eq_zero.1 hy]
      cases u <;> cases v <;> simp [compareCols]
    | succ n ih =>
      intro x y u v hx hy
      rcases x with _ | ⟨x0, x⟩
      · simp at hx
      rcases y with _ | ⟨y0, y⟩
      · simp at hy
      simp only [List.length_cons, Nat.add_right_cancel_iff] at hx hy
      simp only [List.cons_append, compareCols]
      show (if compareDatum x0 y0 ≠ 0 then compareDatum x0 y0 else compareCols (x ++ u) (y ++ v) n) = _
      rw [ih x y u v hx hy]
  exact key _ _ _ _ _ ha hb

theorem compareTuplesKey_cols (a a2 b b2 : TupleData) (n : Nat) (h1 : a.keys = a2.keys)
    (h2 : a.startRid = a2.startRid) (h3 : b.keys = b2.keys) (h4 : b.startRid = b2.startRid) :
    compareTuplesKey a b n = compareTuplesKey a2 b2 n := by
  unfold compareTuplesKey TupleData.cols
  rw [h1, h2, h3, h4]

theorem candidates_append (p : Params) (K : List (Option Nat)) (a b : List TupleData) :
    candidates p K (a ++ b) = candidates p K a ++ candidates p K b := by
  unfold candidates
  rw [List.filter_append, List.flatMap_append]

theorem eligible_append (p : Params) (K : List (Option Nat)) (a b : List TupleData) :
    eligible p K (a ++ b) = eligible p K a ++ eligible p K b := by
  unfold eligible
  rw [candidates_append, List.filter_append]

theorem eligible_single_other (p : Params) (K : List (Option Nat)) (t : TupleData)
    (h : t.keys ≠ K) : eligible p K [t] = [] := by
  unfold eligible candidates
  simp [h]

theorem eligible_single_same (p : Params) (t : TupleData) :
    eligible p t.keys [t] = (p.codec.rids t).filter (fun x => !skipRid p x) := by
  unfold eligible candidates
  simp

theorem eligible_snoc_other (p : Params) (K : List (Option Nat)) (done : List TupleData)
    (t : TupleData) (h : t.keys ≠ K) : eligible p K (done ++ [t]) = eligible p K done := by
  rw [eligible_append, eligible_single_other p K t h, List.append_nil]

theorem eligible_nil_of_no_key (p : Params) (K : List (Option Nat)) (done : List TupleData)
    (h : ∀ d ∈ done, d.keys ≠ K) : eligible p K done = [] := by
  unfold eligible candidates
  have : done.filter (fun t => decide (t.keys = K)) = [] := by
    rw [List.filter_eq_nil_iff]
    intro d hd
    simp [h d hd]
  rw [this]
  rfl

theorem pairs_append (p : Params) (a b : List TupleData) :
    pairs p (a ++ b) = pairs p a ++ pairs p b := by
  unfold pairs
  rw [List.flatMap_append]

theorem pairs_single (p : Params) (t : TupleData) :
    pairs p [t] = (p.codec.rids t).map (fun x => (t.keys, x)) := by
  unfold pairs
  simp

/-- The part of the invariant about unique keys survives a step that leaves the
validation state alone and adds no tuple and no index entry of a unique key. -/
theorem uInv_frame (p : Params) (done done2 : List TupleData) (r r2 : Ref)
    (h : UInv p done r) (h1 : r2.lastKey = r.lastKey) (h2 : r2.haveRow = r.haveRow)
    (h3 : r2.viol = r.viol)
    (h4 : ∀ K, uniqueKeyCols p K = true →
      r2.inserted.filter (fun e => decide (e.keys = K)) =
        r.inserted.filter (fun e => decide (e.keys = K)))
    (h5 : ∀ K, uniqueKeyCols p K = true → eligible p K done2 = eligible p K done)
    (h6 : ∀ d ∈ done2, uniqueRequired p d = true → d ∈ done)
    (h7 : ∀ d ∈ done, d ∈ done2) (hwf : ∀ d ∈ done, WellFormed p d) : UInv p done2 r2 := by
  have hk : ∀ k, r.lastKey = some k → uniqueKeyCols p k = true := by
    intro k hk
    obtain ⟨d, hd, e1, e2⟩ := h.lastMem k hk
    rw [uniqueRequired_wf p d (hwf d hd), e1] at e2
    exact e2
  refine ⟨?_, ?_, ?_, ?_, ?_⟩
  · intro d hd hu
    rw [h1]; exact h.lastGe d (h6 d hd hu) hu
  · intro k hk1
    rw [h1] at hk1
    obtain ⟨d, hd, e⟩ := h.lastMem k hk1
    exact ⟨d, h7 d hd, e⟩
  · intro k hk1
    rw [h1] at hk1
    rw [h2, h5 k (hk k hk1)]
    exact h.haveIff k hk1
  · intro K hK
    rw [h4 K hK, h5 K hK]; exact h.surv K hK
  · intro K hK
    rw [h3, h5 K hK]; exact h.viol K hK

theorem refInsert_eq (p : Params) (t : TupleData) (ins : List TupleData)
    (h : ∀ e ∈ ins, compareTuplesKey e t (p.nIdxKeys + 1) ≠ 0) :
    refInsert p t ins = .ok (ins ++ [t]) := by
  unfold refInsert
  rw [if_neg]
  intro hh
  rw [List.any_eq_true] at hh
  obtain ⟨e, he, h2⟩ := hh
  exact h e he (of_decide_eq_true h2)

theorem keys_ne_of_nonunique (p : Params) (a : TupleData) (K : List (Option Nat))
    (ha : WellFormed p a) (hu : uniqueRequired p a = false) (hK : uniqueKeyCols p K = true) :
    a.keys ≠ K := by
  intro h
  rw [uniqueRequired_wf p a ha, h, hK] at hu
  cases hu

theorem compare_ne_of_mixed (p : Params) (e a : TupleData) (he : WellFormed p e)
    (ha : WellFormed p a) (h : uniqueRequired p e ≠ uniqueRequired p a) :
    compareTuplesKey e a (p.nIdxKeys + 1) ≠ 0 := by
  intro h0
  have := ((compareTuplesKey_full p e a he ha).1 h0).1
  exact h (uniqueRequired_congr p e a he ha this)

/-- The flush of the pending accumulator succeeds and keeps the invariants. -/
theorem refFlush_inv (p : Params) (done : List TupleData) (r : Ref) (hu : UInv p done r)
    (hn : NInv p done r) (hwf : ∀ d ∈ done, WellFormed p d) :
    ∃ r1, refFlush p r = .ok r1 ∧ r1.acc = none ∧ UInv p done r1 ∧ NInv p done r1 ∧
      r1.lastKey = r.lastKey ∧ r1.haveRow = r.haveRow ∧ r1.viol = r.viol := by
  cases ha : r.acc with
  | none => exact ⟨r, refFlush_none p r ha, ha, hu, hn, rfl, rfl, rfl⟩
  | some a =>
    obtain ⟨a1, a2, ⟨d, hd, d1, d2, d3⟩, a4⟩ := hn.accNon a ha
    have hins : refInsert p a r.inserted = .ok (r.inserted ++ [a]) := by
      apply refInsert_eq
      intro e he
      cases hue : uniqueRequired p e with
      | false => exact ne_of_lt (a4 e he hue)
      | true =>
        apply compare_ne_of_mixed p e a (hn.insWf e he) a2
        rw [hue, a1]; simp
    refine ⟨{ r with inserted := r.inserted ++ [a], acc := none }, ?_, rfl, ?_, ?_, rfl, rfl, rfl⟩
    · unfold refFlush
      rw [ha]
      simp only [hins]
    · refine uInv_frame p done done r _ hu rfl rfl rfl ?_ (fun _ _ => rfl) (fun _ h _ => h)
        (fun _ h => h) hwf
      intro K hK
      show (r.inserted ++ [a]).filter _ = _
      rw [List.filter_append]
      have : a.keys ≠ K := keys_ne_of_nonunique p a K a2 a1 hK
      simp [this]
    · refine ⟨?_, ?_, ?_, ?_⟩
      · intro a' h'; cases h'
      · intro e he
        have he2 : e ∈ r.inserted ++ [a] := he
        rcases List.mem_append.1 he2 with h | h
        · exact hn.insWf e h
        · rw [List.mem_singleton] at h; rw [h]; exact a2
      · intro e he hue
        have he2 : e ∈ r.inserted ++ [a] := he
        rcases List.mem_append.1 he2 with h | h
        · exact hn.insLe e h hue
        · rw [List.mem_singleton] at h
          refine ⟨d, hd, d1, ?_⟩
          rw [h, compareTuplesKey_cols a d d d _ d2.symm d3.symm rfl rfl]
          unfold compareTuplesKey
          rw [compareCols_self]
      · have := hn.prs
        rw [ha] at this
        show (pairs p ((r.inserted ++ [a]).filter _ ++ [])).Perm _
        rw [List.append_nil, List.filter_append]
        have h1 : [a].filter (fun e => !uniqueRequired p e) = [a] := by simp [a1]
        rw [h1]
        exact this

theorem compareTuplesKey_lt_of_le_of_lt (p : Params) (a b c : TupleData) (ha : WellFormed p a)
    (hb : WellFormed p b) (hc : WellFormed p c)
    (h1 : compareTuplesKey a b (p.nIdxKeys + 1) ≤ 0)
    (h2 : compareTuplesKey b c (p.nIdxKeys + 1) < 0) :
    compareTuplesKey a c (p.nIdxKeys + 1) < 0 := by
  unfold WellFormed at ha hb hc
  unfold compareTuplesKey at *
  exact (compareCols_trans a.cols b.cols c.cols _ (by rw [cols_length]; omega)
    (by rw [cols_length]; omega) (by rw [cols_length]; omega) h1 (le_of_lt h2)).2 (Or.inr h2)

/-- A tuple not subject to the uniqueness constraint becomes the accumulator. -/
theorem setAcc_inv (p : Params) (done : List TupleData) (r : Ref) (x : TupleData)
    (hu : UInv p done r) (hn : NInv p done r) (hacc : r.acc = none)
    (hwf : ∀ d ∈ done, WellFormed p d) (hx : WellFormed p x)
    (hux : uniqueRequired p x = false)
    (hlt : ∀ d ∈ done, uniqueRequired p d = false → compareTuplesKey d x (p.nIdxKeys + 1) < 0) :
    UInv p (done ++ [x]) { r with acc := some x } ∧
      NInv p (done ++ [x]) { r with acc := some x } := by
  refine ⟨?_, ?_, ?_, ?_, ?_⟩
  · refine uInv_frame p done (done ++ [x]) r _ hu rfl rfl rfl (fun _ _ => rfl) ?_ ?_
      (fun d h => List.mem_append_left _ h) hwf
    · intro K hK
      exact eligible_snoc_other p K done x (keys_ne_of_nonunique p x K hx hux hK)
    · intro d hd hud
      rcases List.mem_append.1 hd with h | h
      · exact h
      · rw [List.mem_singleton] at h
        rw [h, hux] at hud; cases hud
  · intro a ha
    have : x = a := by
      have h2 : some x = some a := ha
      exact Option.some.inj h2
    subst this
    refine ⟨hux, hx, ⟨x, List.mem_append_right _ (List.mem_singleton.2 rfl), hux, rfl, rfl⟩, ?_⟩
    intro e he hue
    obtain ⟨d, hd, d1, d2⟩ := hn.insLe e he hue
    exact compareTuplesKey_lt_of_le_of_lt p e d x (hn.insWf e he) (hwf d hd) hx d2 (hlt d hd d1)
  · exact hn.insWf
  · intro e he hue
    obtain ⟨d, hd, d1, d2⟩ := hn.insLe e he hue
    exact ⟨d, List.mem_append_left _ hd, d1, d2⟩
  · have := hn.prs
    rw [hacc] at this
    show (pairs p (r.inserted.filter _ ++ [x])).Perm _
    rw [List.filter_append, pairs_append, pairs_append]
    have h1 : [x].filter (fun e => !uniqueRequired p e) = [x] := by simp [hux]
    rw [h1]
    have h2 : pairs p (r.inserted.filter (fun e => !uniqueRequired p e)) =
        pairs p (r.inserted.filter (fun e => !uniqueRequired p e) ++ (none : Option TupleData).toList) := by
      simp
    rw [h2]
    exact List.Perm.append_right _ this

/-- A tuple not subject to the uniqueness constraint is merged into the
accumulator of the same key. -/
theorem merge_inv (p : Params) (hc : CodecOk p) (done : List TupleData) (r : Ref)
    (a x m : TupleData) (hu : UInv p done r) (hn : NInv p done r) (hacc : r.acc = some a)
    (hwf : ∀ d ∈ done, WellFormed p d) (hx : WellFormed p x)
    (hux : uniqueRequired p x = false) (hm : p.codec.mergeEntry a x = some m)
    (hk : a.keys = x.keys) :
    UInv p (done ++ [x]) { r with acc := some m } ∧
      NInv p (done ++ [x]) { r with acc := some m } := by
  obtain ⟨a1, a2, ⟨d, hd, d1, d2, d3⟩, a4⟩ := hn.accNon a hacc
  obtain ⟨m1, m2⟩ := hc.mergeCols a x m hm
  have hmw : WellFormed p m := by
    unfold WellFormed at a2 ⊢
    rw [m1]; exact a2
  refine ⟨?_, ?_, ?_, ?_, ?_⟩
  · refine uInv_frame p done (done ++ [x]) r _ hu rfl rfl rfl (fun _ _ => rfl) ?_ ?_
      (fun d h => List.mem_append_left _ h) hwf
    · intro K hK
      exact eligible_snoc_other p K done x (keys_ne_of_nonunique p x K hx hux hK)
    · intro d hd hud
      rcases List.mem_append.1 hd with h | h
      · exact h
      · rw [List.mem_singleton] at h
        rw [h, hux] at hud; cases hud
  · intro a' ha'
    have : m = a' := by
      have h2 : some m = some a' := ha'
      exact Option.some.inj h2
    subst this
    refine ⟨?_, hmw, ⟨d, List.mem_append_left _ hd, d1, d2.trans m1.symm, d3.trans m2.symm⟩, ?_⟩
    · rw [uniqueRequired_congr p m a hmw a2 m1]; exact a1
    · intro e he hue
      rw [compareTuplesKey_cols e e m a _ rfl rfl m1 m2]
      exact a4 e he hue
  · exact hn.insWf
  · intro e he hue
    obtain ⟨d, hd, d1, d2⟩ := hn.insLe e he hue
    exact ⟨d, List.mem_append_left _ hd, d1, d2⟩
  · have := hn.prs
    rw [hacc] at this
    show (pairs p (r.inserted.filter _ ++ [m])).Perm _
    rw [List.filter_append, pairs_append, pairs_append]
    have h1 : [x].filter (fun e => !uniqueRequired p e) = [x] := by simp [hux]
    rw [h1]
    have h3 : (pairs p [m]).Perm (pairs p [a] ++ pairs p [x]) := by
      rw [pairs_single, pairs_single, pairs_single, m1, ← hk, ← List.map_append]
      exact (hc.mergeRids a x m hm).map _
    have h4 : (pairs p (r.inserted.filter (fun e => !uniqueRequired p e)) ++ pairs p [m]).Perm
        (pairs p (r.inserted.filter (fun e => !uniqueRequired p e)) ++
          (pairs p [a] ++ pairs p [x])) := List.Perm.append_left _ h3
    refine h4.trans ?_
    rw [← List.append_assoc, ← pairs_append]
    exact List.Perm.append_right _ this

/-- A tuple not subject to the uniqueness constraint is processed without
failure, and the invariants hold again. -/
theorem refProcess_inv (p : Params) (hc : CodecOk p) (done : List TupleData) (r : Ref)
    (x : TupleData) (hu : UInv p done r) (hn : NInv p done r)
    (hwf : ∀ d ∈ done, WellFormed p d) (hx : WellFormed p x)
    (hux : uniqueRequired p x = false)
    (hle : ∀ d ∈ done, compareTuplesKey d x p.nIdxKeys ≤ 0)
    (hlt : ∀ d ∈ done, uniqueRequired p d = false → compareTuplesKey d x (p.nIdxKeys + 1) < 0) :
    ∃ r2, refProcess p r x = .ok r2 ∧ UInv p (done ++ [x]) r2 ∧ NInv p (done ++ [x]) r2 := by
  have hrestart : ∃ r2, (match refFlush p r with
        | .ok r1 => Except.ok { r1 with acc := some x }
        | .error e => .error e) = Except.ok r2 ∧
      UInv p (done ++ [x]) r2 ∧ NInv p (done ++ [x]) r2 := by
    obtain ⟨r1, f1, f2, f3, f4, -, -, -⟩ := refFlush_inv p done r hu hn hwf
    rw [f1]
    exact ⟨_, rfl, setAcc_inv p done r1 x f3 f4 f2 hwf hx hux hlt⟩
  unfold refProcess
  rw [hux]
  simp only [Bool.false_eq_true, if_false]
  cases hacc : r.acc with
  | none => exact ⟨_, rfl, setAcc_inv p done r x hu hn hacc hwf hx hux hlt⟩
  | some a =>
    obtain ⟨a1, a2, ⟨d, hd, d1, d2, d3⟩, a4⟩ := hn.accNon a hacc
    have hlen : a.keys.length = p.nIdxKeys := a2
    have hcmp : compareTuplesKey a x p.nIdxKeys ≤ 0 := by
      rw [compareTuplesKey_cols a d x x _ d2.symm d3.symm rfl rfl]
      exact hle d hd
    simp only [hlen]
    have hno : (p.checkAsserts && !decide (compareTuplesKey a x p.nIdxKeys ≤ 0)) = false := by
      simp [hcmp]
    rw [hno]
    simp only [Bool.false_eq_true, if_false]
    by_cases h0 : compareTuplesKey a x p.nIdxKeys = 0
    · rw [if_pos h0]
      cases hm : p.codec.mergeEntry a x with
      | none => exact hrestart
      | some m =>
        have hk := (compareTuplesKey_keys p a x a2 hx).1 h0
        exact ⟨_, rfl, merge_inv p hc done r a x m hu hn hacc hwf hx hux hm hk⟩
    · rw [if_neg h0]
      exact hrestart

theorem filter_of_dropWhile (p : Params) : ∀ (c : List Nat),
    (c.dropWhile (skipRid p) = [] → c.filter (fun x => !skipRid p x) = []) ∧
    (∀ r rest, c.dropWhile (skipRid p) = r :: rest →
      c.filter (fun x => !skipRid p x) = r :: rest.filter (fun x => !skipRid p x)) := by
  intro c
  induction c with
  | nil =>
    refine ⟨fun _ => rfl, ?_⟩
    intro r rest h
    cases h
  | cons x xs ih =>
    cases hx : skipRid p x with
    | true =>
      simp only [List.dropWhile_cons, hx, if_true, List.filter_cons, Bool.not_true,
        Bool.false_eq_true, if_false]
      exact ih
    | false =>
      simp only [List.dropWhile_cons, hx, Bool.false_eq_true, if_false, List.filter_cons,
        Bool.not_false, if_true]
      refine ⟨fun h => absurd h (List.cons_ne_nil _ _), ?_⟩
      intro r rest h
      cases h
      rfl

/-- What validation makes of the row-ids `c` of a tuple, in terms of the eligible
candidates `E` seen before it and the eligible candidates of the tuple. -/
theorem tupleOutcome_spec (p : Params) (hv : Bool) (E c : List Nat)
    (hE : hv = true ↔ E ≠ []) :
    (((hv || (tupleOutcome p hv c).1.isSome) = true) ↔
        E ++ c.filter (fun x => !skipRid p x) ≠ []) ∧
    (E.head?.toList ++ (tupleOutcome p hv c).1.toList =
        (E ++ c.filter (fun x => !skipRid p x)).head?.toList) ∧
    (E.tail ++ (tupleOutcome p hv c).2.filter (fun x => !skipRid p x) =
        (E ++ c.filter (fun x => !skipRid p x)).tail) ∧
    ((tupleOutcome p hv c).1.isSome = true → E = []) := by
  unfold tupleOutcome
  cases hv with
  | true =>
    have hne : E ≠ [] := hE.1 rfl
    obtain ⟨e, E2, rfl⟩ := List.exists_cons_of_ne_nil hne
    simp
  | false =>
    have he : E = [] := by
      by_contra h
      have := hE.2 h
      cases this
    subst he
    simp only [Bool.false_eq_true, if_false, Bool.false_or, List.nil_append, List.head?_nil,
      Option.toList_none, List.tail_nil, implies_true, and_true]
    cases hd : c.dropWhile (skipRid p) with
    | nil =>
      rw [(filter_of_dropWhile p c).1 hd]
      simp
    | cons r rest =>
      rw [(filter_of_dropWhile p c).2 r rest hd]
      simp

theorem compareCols_key_zero (p : Params) (t : TupleData) (k : List (Option Nat))
    (ht : WellFormed p t) (hk : k.length = p.nIdxKeys) :
    compareCols t.cols k p.nIdxKeys = 0 ↔ t.keys = k := by
  unfold WellFormed at ht
  rw [compareCols_eq_zero _ _ _ (by rw [cols_length]; omega) (by omega)]
  unfold TupleData.cols
  rw [List.take_left' ht, List.take_of_length_le (by omega)]

theorem keys_antisymm (p : Params) (a b : List (Option Nat)) (ha : a.length = p.nIdxKeys)
    (hb : b.length = p.nIdxKeys) (h1 : compareCols a b p.nIdxKeys ≤ 0)
    (h2 : compareCols b a p.nIdxKeys ≤ 0) : a = b := by
  have h0 : compareCols a b p.nIdxKeys = 0 := by
    by_contra hne
    have hlt : compareCols a b p.nIdxKeys < 0 := lt_of_le_of_ne h1 hne
    have := (compareCols_swap a b p.nIdxKeys).1 hlt
    omega
  have := (compareCols_eq_zero a b p.nIdxKeys (by omega) (by omega)).1 h0
  rw [List.take_of_length_le (by omega), List.take_of_length_le (by omega)] at this
  exact this

/-- What the reference state knows about the key of a tuple subject to the
uniqueness constraint, when the input is sorted by key. -/
theorem fresh_facts (p : Params) (done : List TupleData) (r : Ref) (t : TupleData)
    (hu : UInv p done r) (hwf : ∀ d ∈ done, WellFormed p d) (ht : WellFormed p t)
    (hut : uniqueRequired p t = true)
    (hle : ∀ d ∈ done, compareTuplesKey d t p.nIdxKeys ≤ 0) :
    (refFresh p r t = false → r.lastKey = some t.keys) ∧
    (refFresh p r t = true → eligible p t.keys done = []) ∧
    (refHave p r t = true ↔ eligible p t.keys done ≠ []) := by
  have hsame : ∀ d ∈ done, d.keys = t.keys → ∃ k, r.lastKey = some k ∧
      compareCols t.keys k p.nIdxKeys ≤ 0 := by
    intro d hd hk
    have hud : uniqueRequired p d = true := by
      rw [uniqueRequired_congr p d t (hwf d hd) ht hk]; exact hut
    obtain ⟨k, e1, e2⟩ := hu.lastGe d hd hud
    rw [hk] at e2
    exact ⟨k, e1, e2⟩
  have h12 : (refFresh p r t = false → r.lastKey = some t.keys) ∧
      (refFresh p r t = true → eligible p t.keys done = []) := by
    unfold refFresh
    cases hk : r.lastKey with
    | none =>
      refine ⟨fun h => (by cases h), fun _ => ?_⟩
      apply eligible_nil_of_no_key
      intro d hd hkd
      obtain ⟨k, e1, -⟩ := hsame d hd hkd
      rw [hk] at e1; cases e1
    | some k =>
      obtain ⟨l, hl, l1, l2⟩ := hu.lastMem k hk
      have hkl : k.length = p.nIdxKeys := by rw [← l1]; exact hwf l hl
      have hz := compareCols_key_zero p t k ht hkl
      simp only [ne_eq, decide_not, Bool.not_eq_false', decide_eq_true_eq, Bool.not_eq_true',
        decide_eq_false_iff_not]
      refine ⟨fun h => by rw [hz.1 h], fun h => ?_⟩
      apply eligible_nil_of_no_key
      intro d hd hkd
      obtain ⟨k2, e1, e2⟩ := hsame d hd hkd
      rw [hk] at e1
      have e3 : k = k2 := Option.some.inj e1
      subst e3
      have e4 := hle l hl
      rw [compareTuplesKey_eq_keys p l t (hwf l hl) ht, l1] at e4
      exact h (hz.2 (keys_antisymm p t.keys k ht hkl e2 e4))
  refine ⟨h12.1, h12.2, ?_⟩
  unfold refHave
  cases hf : refFresh p r t with
  | true =>
    simp only [Bool.not_true, Bool.false_and, Bool.false_eq_true, false_iff, ne_eq, not_not]
    exact h12.2 hf
  | false =>
    simp only [Bool.not_false, Bool.true_and]
    exact hu.haveIff _ (h12.1 hf)

/-- The part of the invariant about unique keys after a tuple subject to the
uniqueness constraint went through validation and its accepted row-id, if any,
was inserted as a singleton. -/
theorem uInv_unique_step (p : Params) (done : List TupleData) (r r2 : Ref) (t : TupleData)
    (hu : UInv p done r) (hwf : ∀ d ∈ done, WellFormed p d) (ht : WellFormed p t)
    (hut : uniqueRequired p t = true)
    (hle : ∀ d ∈ done, compareTuplesKey d t p.nIdxKeys ≤ 0)
    (h1 : r2.lastKey = (refValidated p r t).lastKey)
    (h2 : r2.haveRow = (refValidated p r t).haveRow)
    (h3 : r2.viol = (refValidated p r t).viol)
    (h4 : r2.inserted.filter (fun e => decide (e.keys = t.keys)) =
      r.inserted.filter (fun e => decide (e.keys = t.keys)) ++
        (refOutcome p r t).1.toList.map (singleton t.keys))
    (h5 : ∀ K, uniqueKeyCols p K = true → K ≠ t.keys →
      r2.inserted.filter (fun e => decide (e.keys = K)) =
        r.inserted.filter (fun e => decide (e.keys = K))) :
    UInv p (done ++ [t]) r2 := by
  obtain ⟨f1, f2, f3⟩ := fresh_facts p done r t hu hwf ht hut hle
  obtain ⟨o1, o2, o3, -⟩ := tupleOutcome_spec p (refHave p r t) (eligible p t.keys done)
    (p.codec.rids t) f3
  have htk : t.keys.take p.nIdxKeys = t.keys := List.take_of_length_le (le_of_eq ht)
  have hK : uniqueKeyCols p t.keys = true := by rw [← uniqueRequired_wf p t ht]; exact hut
  have hlast : r2.lastKey = some t.keys := by
    rw [h1]
    show (if refFresh p r t = true then some (t.keys.take p.nIdxKeys) else r.lastKey) = _
    cases hf : refFresh p r t with
    | true => rw [if_pos rfl, htk]
    | false => rw [if_neg Bool.false_ne_true]; exact f1 hf
  have hel : eligible p t.keys (done ++ [t]) =
      eligible p t.keys done ++ (p.codec.rids t).filter (fun x => !skipRid p x) := by
    rw [eligible_append, eligible_single_same]
  have hviol : r2.viol = r.viol ++ ((tupleOutcome p (refHave p r t) (p.codec.rids t)).2.filter
      (fun x => !skipRid p x)).map (fun x => (t.keys, x)) := by
    rw [h3]
    show r.viol ++ ((refOutcome p r t).2.filter (fun x => !skipRid p x)).map
      (fun x => (t.keys.take p.nIdxKeys, x)) = _
    rw [htk]
    rfl
  refine ⟨?_, ?_, ?_, ?_, ?_⟩
  · intro d hd hud
    refine ⟨t.keys, hlast, ?_⟩
    rcases List.mem_append.1 hd with h | h
    · rw [← compareTuplesKey_eq_keys p d t (hwf d h) ht]; exact hle d h
    · rw [List.mem_singleton] at h
      rw [h, compareCols_self]
  · intro k hk
    rw [hlast] at hk
    have := Option.some.inj hk
    exact ⟨t, List.mem_append_right _ (List.mem_singleton.2 rfl), this, hut⟩
  · intro k hk
    rw [hlast] at hk
    have hk2 := Option.some.inj hk
    subst hk2
    rw [h2, hel]
    exact o1
  · intro K hKK
    by_cases hKt : K = t.keys
    · subst hKt
      rw [h4, hu.surv _ hKK, hel, ← o2, List.map_append]
      rfl
    · rw [h5 K hKK hKt, eligible_snoc_other p K done t (fun h => hKt h.symm)]
      exact hu.surv K hKK
  · intro K hKK
    rw [hviol, List.filter_append, hu.viol K hKK]
    by_cases hKt : K = t.keys
    · subst hKt
      rw [hel, ← o3, List.map_append]
      congr 1
      rw [List.filter_eq_self]
      intro v hv
      obtain ⟨x, -, rfl⟩ := List.mem_map.1 hv
      simp
    · rw [eligible_snoc_other p K done t (fun h => hKt h.symm)]
      have : (((tupleOutcome p (refHave p r t) (p.codec.rids t)).2.filter
          (fun x => !skipRid p x)).map (fun x => (t.keys, x))).filter
            (fun v => decide (v.1 = K)) = [] := by
        rw [List.filter_eq_nil_iff]
        intro v hv
        obtain ⟨x, -, rfl⟩ := List.mem_map.1 hv
        simp only [decide_eq_true_eq]
        exact fun h => hKt h.symm
      rw [this, List.append_nil]

theorem filter_nonunique_snoc (p : Params) (l : List TupleData) (t : TupleData)
    (hut : uniqueRequired p t = true) :
    (l ++ [t]).filter (fun e => !uniqueRequired p e) = l.filter (fun e => !uniqueRequired p e) := by
  rw [List.filter_append]
  simp [hut]

theorem nInv_snoc_unique (p : Params) (done : List TupleData) (r : Ref) (t : TupleData)
    (hn : NInv p done r) (hut : uniqueRequired p t = true) : NInv p (done ++ [t]) r := by
  refine ⟨?_, hn.insWf, ?_, ?_⟩
  · intro a ha
    obtain ⟨a1, a2, ⟨d, hd, d1⟩, a4⟩ := hn.accNon a ha
    exact ⟨a1, a2, ⟨d, List.mem_append_left _ hd, d1⟩, a4⟩
  · intro e he hue
    obtain ⟨d, hd, d1⟩ := hn.insLe e he hue
    exact ⟨d, List.mem_append_left _ hd, d1⟩
  · rw [filter_nonunique_snoc p done t hut]
    exact hn.prs

theorem nInv_insert_unique (p : Params) (done : List TupleData) (r : Ref) (v : TupleData)
    (hn : NInv p done r) (hacc : r.acc = none) (hv : WellFormed p v)
    (huv : uniqueRequired p v = true) :
    NInv p done { r with inserted := r.inserted ++ [v] } := by
  refine ⟨?_, ?_, ?_, ?_⟩
  · intro a ha
    have : r.acc = some a := ha
    rw [hacc] at this; cases this
  · intro e he
    have he2 : e ∈ r.inserted ++ [v] := he
    rcases List.mem_append.1 he2 with h | h
    · exact hn.insWf e h
    · rw [List.mem_singleton] at h; rw [h]; exact hv
  · intro e he hue
    have he2 : e ∈ r.inserted ++ [v] := he
    rcases List.mem_append.1 he2 with h | h
    · exact hn.insLe e h hue
    · rw [List.mem_singleton] at h
      rw [h, huv] at hue; cases hue
  · show (pairs p ((r.inserted ++ [v]).filter _ ++ r.acc.toList)).Perm _
    rw [filter_nonunique_snoc p r.inserted v huv]
    exact hn.prs

/-- The flush of the pending accumulator, described by what it inserts. -/
theorem refFlush_shape (p : Params) (done : List TupleData) (r : Ref) (hn : NInv p done r) :
    ∃ l, refFlush p r = .ok { r with inserted := r.inserted ++ l, acc := none } ∧
      (∀ a ∈ l, uniqueRequired p a = false ∧ WellFormed p a) ∧
      NInv p done { r with inserted := r.inserted ++ l, acc := none } := by
  cases ha : r.acc with
  | none =>
    have hr : ({ r with inserted := r.inserted ++ [], acc := none } : Ref) = r := by
      cases r
      simp only [List.append_nil] at ha ⊢
      rw [← ha]
    refine ⟨[], ?_, ?_, ?_⟩
    · rw [hr]; exact refFlush_none p r ha
    · intro a h; cases h
    · rw [hr]; exact hn
  | some a =>
    obtain ⟨a1, a2, ⟨d, hd, d1, d2, d3⟩, a4⟩ := hn.accNon a ha
    have hins : refInsert p a r.inserted = .ok (r.inserted ++ [a]) := by
      apply refInsert_eq
      intro e he
      cases hue : uniqueRequired p e with
      | false => exact ne_of_lt (a4 e he hue)
      | true =>
        apply compare_ne_of_mixed p e a (hn.insWf e he) a2
        rw [hue, a1]; simp
    refine ⟨[a], ?_, ?_, ?_, ?_, ?_, ?_⟩
    · unfold refFlush
      rw [ha]
      simp only [hins]
    · intro a' h'
      rw [List.mem_singleton] at h'
      rw [h']
      exact ⟨a1, a2⟩
    · intro a' h'; cases h'
    · intro e he
      have he2 : e ∈ r.inserted ++ [a] := he
      rcases List.mem_append.1 he2 with h | h
      · exact hn.insWf e h
      · rw [List.mem_singleton] at h; rw [h]; exact a2
    · intro e he hue
      have he2 : e ∈ r.inserted ++ [a] := he
      rcases List.mem_append.1 he2 with h | h
      · exact hn.insLe e h hue
      · rw [List.mem_singleton] at h
        refine ⟨d, hd, d1, ?_⟩
        rw [h, compareTuplesKey_cols a d d d _ d2.symm d3.symm rfl rfl]
        unfold compareTuplesKey
        rw [compareCols_self]
    · have := hn.prs
      rw [ha] at this
      show (pairs p ((r.inserted ++ [a]).filter _ ++ [])).Perm _
      rw [List.append_nil, List.filter_append]
      have h1 : [a].filter (fun e => !uniqueRequired p e) = [a] := by simp [a1]
      rw [h1]
      exact this

theorem filter_keys_nonunique (p : Params) (l : List TupleData) (K : List (Option Nat))
    (hl : ∀ a ∈ l, uniqueRequired p a = false ∧ WellFormed p a)
    (hK : uniqueKeyCols p K = true) : l.filter (fun e => decide (e.keys = K)) = [] := by
  rw [List.filter_eq_nil_iff]
  intro a ha
  have := keys_ne_of_nonunique p a K (hl a ha).2 (hl a ha).1 hK
  simp [this]

/-- A tuple subject to the uniqueness constraint goes through the reference run
without failure, and the invariants hold again. -/
theorem refTuple_unique_inv (p : Params) (done : List TupleData) (r : Ref) (t : TupleData)
    (hu : UInv p done r) (hn : NInv p done r) (hwf : ∀ d ∈ done, WellFormed p d)
    (ht : WellFormed p t) (hut : uniqueRequired p t = true)
    (hle : ∀ d ∈ done, compareTuplesKey d t p.nIdxKeys ≤ 0)
    (hne : p.codec.rids t ≠ []) (hv : p.hasViolationOutput = true) :
    ∃ r2, refTuple p r t = .ok r2 ∧ UInv p (done ++ [t]) r2 ∧ NInv p (done ++ [t]) r2 := by
  obtain ⟨f1, f2, f3⟩ := fresh_facts p done r t hu hwf ht hut hle
  obtain ⟨-, -, -, o4⟩ := tupleOutcome_spec p (refHave p r t) (eligible p t.keys done)
    (p.codec.rids t) f3
  have hK : uniqueKeyCols p t.keys = true := by rw [← uniqueRequired_wf p t ht]; exact hut
  have hnv : NInv p done (refValidated p r t) := ⟨hn.accNon, hn.insWf, hn.insLe, hn.prs⟩
  have hg1 : (!refHave p r t && (p.codec.rids t).isEmpty) = false := by
    have : (p.codec.rids t).isEmpty = false := by
      cases hc : p.codec.rids t with
      | nil => exact absurd hc hne
      | cons x xs => rfl
    rw [this, Bool.and_false]
  have hg2 : (!(refOutcome p r t).2.isEmpty && !p.hasViolationOutput) = false := by
    rw [hv]; simp
  unfold refTuple
  rw [hut, hg1, hg2]
  simp only [if_true, Bool.false_eq_true, if_false]
  cases ho : (refOutcome p r t).1 with
  | none =>
    refine ⟨_, rfl, ?_, nInv_snoc_unique p done _ t hnv hut⟩
    refine uInv_unique_step p done r _ t hu hwf ht hut hle rfl rfl rfl ?_ (fun _ _ _ => rfl)
    rw [ho]
    simp
    rfl
  | some rid =>
    have hvt : WellFormed p (validatedTuple t rid) := ht
    have huvt : uniqueRequired p (validatedTuple t rid) = true := by
      rw [uniqueRequired_congr p (validatedTuple t rid) t hvt ht rfl]; exact hut
    obtain ⟨l, l1, l2, l3⟩ := refFlush_shape p done (refValidated p r t) hnv
    have hE : eligible p t.keys done = [] := by
      apply o4
      have : (tupleOutcome p (refHave p r t) (p.codec.rids t)).1 = some rid := ho
      rw [this]; rfl
    have hfil : r.inserted.filter (fun e => decide (e.keys = t.keys)) = [] := by
      rw [hu.surv _ hK, hE]; rfl
    have hins : refInsert p (validatedTuple t rid) (r.inserted ++ l) =
        .ok (r.inserted ++ l ++ [validatedTuple t rid]) := by
      apply refInsert_eq
      intro e he
      rcases List.mem_append.1 he with h | h
      · intro h0
        have hk := ((compareTuplesKey_full p e _ (hn.insWf e h) hvt).1 h0).1
        have : e ∈ r.inserted.filter (fun e => decide (e.keys = t.keys)) := by
          rw [List.mem_filter]
          exact ⟨h, decide_eq_true hk⟩
        rw [hfil] at this
        cases this
      · apply compare_ne_of_mixed p e _ (l2 e h).2 hvt
        rw [(l2 e h).1, huvt]; simp
    refine ⟨{ refValidated p r t with
      inserted := r.inserted ++ l ++ [validatedTuple t rid], acc := none }, ?_, ?_, ?_⟩
    · show refProcess p (refValidated p r t) (validatedTuple t rid) = _
      unfold refProcess
      rw [huvt, l1]
      simp only [if_true]
      show (match refInsert p (validatedTuple t rid) (r.inserted ++ l) with
        | .ok ins => Except.ok _
        | .error e => .error e) = _
      rw [hins]
    · refine uInv_unique_step p done r _ t hu hwf ht hut hle rfl rfl rfl ?_ ?_
      · rw [ho]
        show (r.inserted ++ l ++ [validatedTuple t rid]).filter _ = _
        rw [List.filter_append, List.filter_append, filter_keys_nonunique p l _ l2 hK]
        simp [validatedTuple, singleton]
      · intro K hKK hKt
        show (r.inserted ++ l ++ [validatedTuple t rid]).filter _ = _
        rw [List.filter_append, List.filter_append, filter_keys_nonunique p l _ l2 hKK]
        have : (validatedTuple t rid).keys ≠ K := fun h => hKt h.symm
        simp [this]
    · exact nInv_snoc_unique p done _ t
        (nInv_insert_unique p done _ (validatedTuple t rid) l3 rfl hvt huvt) hut

/-- One tuple of a well-formed sorted input goes through the reference run
without failure, and the invariants hold again. -/
theorem refTuple_inv (p : Params) (hc : CodecOk p) (done rest : List TupleData) (r : Ref)
    (t : TupleData) (hin : InputOk p (done ++ t :: rest)) (hu : UInv p done r)
    (hn : NInv p done r) :
    ∃ r2, refTuple p r t = .ok r2 ∧ UInv p (done ++ [t]) r2 ∧ NInv p (done ++ [t]) r2 := by
  have hwf : ∀ d ∈ done, WellFormed p d := fun d hd => hin.wf d (List.mem_append_left _ hd)
  have htm : t ∈ done ++ t :: rest := List.mem_append_right _ (List.mem_cons_self _ _)
  have ht : WellFormed p t := hin.wf t htm
  have hle : ∀ d ∈ done, compareTuplesKey d t p.nIdxKeys ≤ 0 := by
    intro d hd
    exact (List.pairwise_append.1 hin.sorted).2.2 d hd t (List.mem_cons_self _ _)
  cases hut : uniqueRequired p t with
  | true =>
    exact refTuple_unique_inv p done r t hu hn hwf ht hut hle (hin.ridsNe t htm hut)
      (hin.violOut (uniqueKey_of_required p t hut))
  | false =>
    have hlt : ∀ d ∈ done, uniqueRequired p d = false →
        compareTuplesKey d t (p.nIdxKeys + 1) < 0 := by
      intro d hd hud
      have hs := hin.strict
      rw [List.filter_append] at hs
      refine (List.pairwise_append.1 hs).2.2 d ?_ t ?_
      · rw [List.mem_filter]
        exact ⟨hd, by rw [hud]; rfl⟩
      · rw [List.mem_filter]
        exact ⟨List.mem_cons_self _ _, by rw [hut]; rfl⟩
    rw [refTuple_other p r t hut]
    exact refProcess_inv p hc done r t hu hn hwf ht hut hle hlt

/-- The reference run over a well-formed sorted input does not fail and keeps
the invariants. -/
theorem refRun_inv (p : Params) (hc : CodecOk p) : ∀ (rest done : List TupleData) (r : Ref),
    InputOk p (done ++ rest) → UInv p done r → NInv p done r →
    ∃ rEnd, refRun p r rest = .ok rEnd ∧ UInv p (done ++ rest) rEnd ∧
      NInv p (done ++ rest) rEnd := by
  intro rest
  induction rest with
  | nil =>
    intro done r _ hu hn
    rw [List.append_nil]
    exact ⟨r, rfl, hu, hn⟩
  | cons t rest ih =>
    intro done r hin hu hn
    obtain ⟨r2, k1, k2, k3⟩ := refTuple_inv p hc done rest r t hin hu hn
    have hin2 : InputOk p ((done ++ [t]) ++ rest) := by
      rw [List.append_assoc]; exact hin
    obtain ⟨rEnd, m1, m2, m3⟩ := ih (done ++ [t]) r2 hin2 k2 k3
    rw [List.append_assoc] at m2 m3
    refine ⟨rEnd, ?_, m2, m3⟩
    rw [refRun, k1]
    exact m1

theorem uInv_init (p : Params) : UInv p [] Ref.init := by
  refine ⟨?_, ?_, ?_, ?_, ?_⟩
  · intro d hd; cases hd
  · intro k hk; cases hk
  · intro k hk; cases hk
  · intro K _; rfl
  · intro K _; rfl

theorem nInv_init (p : Params) : NInv p [] Ref.init := by
  refine ⟨?_, ?_, ?_, ?_⟩
  · intro a ha; cases ha
  · intro e he; cases he
  · intro e he; cases he
  · exact List.Perm.refl _

/-- The reference run over a well-formed sorted input, followed by the final
flush, does not fail; the invariants describe what it leaves. -/
theorem refRun_total (p : Params) (hc : CodecOk p) (xs : List TupleData) (hin : InputOk p xs) :
    ∃ rEnd rF, refRun p Ref.init xs = .ok rEnd ∧ refFlush p rEnd = .ok rF ∧
      UInv p xs rF ∧ NInv p xs rF ∧ rF.acc = none := by
  obtain ⟨rEnd, k1, k2, k3⟩ := refRun_inv p hc xs [] Ref.init hin (uInv_init p) (nInv_init p)
  rw [List.nil_append] at k2 k3
  obtain ⟨rF, f1, f2, f3, f4, -, -, -⟩ := refFlush_inv p xs rEnd k2 k3 hin.wf
  exact ⟨rEnd, rF, k1, f1, f3, f4, f2⟩

theorem codecOk_list (p : Params) (n : Nat) (h : p.codec = listCodec n) : CodecOk p := by
  refine ⟨?_, ?_⟩
  · intro a x m hm
    rw [h] at hm
    simp only [listCodec] at hm
    split_ifs at hm
    cases hm
    exact ⟨rfl, rfl⟩
  · intro a x m hm
    rw [h] at hm ⊢
    simp only [listCodec] at hm ⊢
    split_ifs at hm
    cases hm
    simp

theorem perm_short {α : Type} (l m : List α) (h : l.Perm m) (hm : m.length ≤ 1) : l = m := by
  rcases m with _ | ⟨x, _ | ⟨y, m⟩⟩
  · exact List.Perm.eq_nil h
  · exact List.perm_singleton.1 h
  · simp at hm

/-- Under every schedule, a run over a well-formed sorted input into an index
that starts empty returns; once it is done, the index and the violations are
those of a reference state that satisfies the invariants for the whole input. -/
theorem runSched_total (p : Params) (hc : CodecOk p) (input : List TupleData)
    (hin : InputOk p (input.map (tupleAsRead p))) (sched : List Slice) (root room cnt : Nat) :
    ∃ sF rF, runSched p sched input (openStream [] root [] false room cnt) = .ok sF ∧
      UInv p (input.map (tupleAsRead p)) rF ∧ NInv p (input.map (tupleAsRead p)) rF ∧
      rF.acc = none ∧ (sF.isDone = true → Final rF sF) := by
  obtain ⟨rEnd, rF, k1, k2, k3, k4, k5⟩ := refRun_total p hc _ hin
  obtain ⟨sF, m1, m2⟩ := runSched_follows p sched input rEnd rF root room cnt k1 k2
  exact ⟨sF, rF, m1, k3, k4, k5, m2⟩

/-! ## C1: survivor selection -/

set_option maxHeartbeats 4000000 in
/-- C1, as stated, fails: in a rebuild whose deletion index marks row 10, the
key 5 has the single candidate row-id 10, the run completes, and no row-id of
the key is inserted (the index stays empty), so it is not the case that exactly
one candidate of every key is inserted. -/
theorem survivor_missing_when_all_deleted :
    candidates (uniqueParams true [10]) [some 5] [singleton [some 5] 10] = [10] ∧
    (runSched (uniqueParams true [10]) twoCalls [singleton [some 5] 10]
        (openStream [] 0 [] false 0 0)).map (fun s => (s.isDone, s.index)) = .ok (true, []) :=
  ⟨by decide!, by decide!⟩

/-- C1 (amended): for a unique index that is empty at the start of the run and
any well-formed input sorted by key, under every schedule the run returns, and
once it is done, for every key `K` whose key columns are all non-null, the index
entries of `K` are the singleton `(K, r, null payload)` for `r` the first
candidate row-id of `K` in input order that is not skipped (in rebuild mode,
not marked deleted in the deletion index), and none when every candidate of `K`
is skipped: at most one candidate is inserted, not exactly one. -/
theorem survivor_selection (p : Params) (input : List TupleData) (K : List (Option Nat))
    (sched : List Slice) (root room cnt : Nat) (hc : CodecOk p)
    (hin : InputOk p (input.map (tupleAsRead p))) (hK : uniqueKeyCols p K = true) :
    ∃ sF, runSched p sched input (openStream [] root [] false room cnt) = .ok sF ∧
      (sF.isDone = true →
        sF.index.filter (fun e => decide (e.keys = K)) =
          ((eligible p K (input.map (tupleAsRead p))).head?).toList.map (singleton K)) := by
  obtain ⟨sF, rF, k1, k2, -, -, k5⟩ := runSched_total p hc input hin sched root room cnt
  refine ⟨sF, k1, fun hd => ?_⟩
  obtain ⟨-, f2, -, -⟩ := k5 hd
  have hs := k2.surv K hK
  have hp : (sF.index.filter (fun e => decide (e.keys = K))).Perm
      (rF.inserted.filter (fun e => decide (e.keys = K))) := f2.filter _
  rw [hs] at hp
  apply perm_short _ _ hp
  cases (eligible p K (input.map (tupleAsRead p))).head? <;> simp

theorem inputOk_unique_one (rebuild : Bool) (deleted : List Nat) :
    InputOk (uniqueParams rebuild deleted)
      ([bitmap [some 5] 10 [11, 12]].map (tupleAsRead (uniqueParams rebuild deleted))) := by
  refine ⟨?_, ?_, ?_, ?_, fun _ => rfl⟩
  · intro t ht
    simp only [List.map_cons, List.map_nil, List.mem_singleton] at ht
    rw [ht]; rfl
  · simp
  · simp only [List.map_cons, List.map_nil]
    exact List.Pairwise.sublist (List.filter_sublist _) (List.pairwise_singleton _ _)
  · intro t ht _
    simp only [List.map_cons, List.map_nil, List.mem_singleton] at ht
    rw [ht]
    simp [tupleAsRead, uniqueParams, listCodec]

set_option maxHeartbeats 4000000 in
/-- C1 witness: a fresh load of key 5 with candidates 10, 11, 12 leaves the
singleton of row 10 in the index. -/
theorem survivor_selection_witness :
    CodecOk (uniqueParams false []) ∧
    InputOk (uniqueParams false [])
      ([bitmap [some 5] 10 [11, 12]].map (tupleAsRead (uniqueParams false []))) ∧
    uniqueKeyCols (uniqueParams false []) [some 5] = true ∧
    ∃ sF, runSched (uniqueParams false []) twoCalls [bitmap [some 5] 10 [11, 12]]
        (openStream [] 0 [] false 0 0) = .ok sF ∧ sF.isDone = true ∧
      sF.index.filter (fun e => decide (e.keys = [some 5])) = [singleton [some 5] 10] := by
  refine ⟨codecOk_list _ 100 rfl, inputOk_unique_one false [], by decide!, ?_⟩
  obtain ⟨sF, h1, h2⟩ := survivor_selection (uniqueParams false []) [bitmap [some 5] 10 [11, 12]]
    [some 5] twoCalls 0 0 0 (codecOk_list _ 100 rfl) (inputOk_unique_one false []) (by decide!)
  have hd : sF.isDone = true := by
    have e : (runSched (uniqueParams false []) twoCalls [bitmap [some 5] 10 [11, 12]]
        (openStream [] 0 [] false 0 0)).map (fun s => s.isDone) = .ok true := by decide!
    rw [h1] at e
    exact Except.ok.inj e
  refine ⟨sF, h1, hd, ?_⟩
  rw [h2 hd]
  decide!

/-! ## C2: violation reporting -/

theorem isEmpty_known (s : Splicer) (h : s.emptyTableUnknown = false) :
    isEmpty s = (s.emptyTable, s) := by
  unfold isEmpty
  rw [h]
  rfl

/-- C18: while the emptiness of the index is unknown (as `open` leaves it), a
call of `isEmpty` performs exactly one search of the index (`searchFirst`,
followed by `endSearch` when nothing is found), returns whether the index is
empty and caches the answer; after that, whatever inserts and deletes happen in
between, every call returns the cached answer and leaves the state, hence the
trace of collaborator calls, as it is; and once deferred creation has allocated
a new root, `isEmpty` returns true without any search. -/
theorem isEmpty_cached (p : Params) (s : Splicer) :
    (s.emptyTableUnknown = true →
      (isEmpty s).1 = decide (s.index.length = 0) ∧
      (isEmpty s).2.trace =
        s.trace ++ (if s.index.length = 0 then [.searchFirst, .endSearch] else [.searchFirst]) ∧
      (isEmpty s).2.index = s.index ∧
      ∀ s2, WriteOnly (isEmpty s).2 s2 → isEmpty s2 = ((isEmpty s).1, s2)) ∧
    (s.emptyTableUnknown = false → isEmpty s = (s.emptyTable, s)) ∧
    (p.createNewIndex = true → s.newIndexCreated = false →
      isEmpty (createDeferred p s) = (true, createDeferred p s)) := by
  refine ⟨?_, ?_, ?_⟩
  · intro hu
    have hall : (isEmpty s).2.emptyTableUnknown = false ∧
        (isEmpty s).2.emptyTable = (isEmpty s).1 ∧
        (isEmpty s).1 = decide (s.index.length = 0) ∧
        (isEmpty s).2.trace = s.trace ++
          (if s.index.length = 0 then [.searchFirst, .endSearch] else [.searchFirst]) := by
      by_cases h : s.index.length = 0
      · simp [isEmpty, searchFirst, endSearch, Splicer.emit, hu, h]
      · simp [isEmpty, searchFirst, endSearch, Splicer.emit, hu, h]
    obtain ⟨c1, c2, c3, c4⟩ := hall
    refine ⟨c3, c4, (isEmpty_searchOnly s).search_fields.2.2.2.2.1, ?_⟩
    intro s2 hw
    obtain ⟨-, -, -, -, -, -, e1, e2⟩ := hw.write_fields
    rw [isEmpty_known s2 (e2.trans c1), e1, c2]
  · exact isEmpty_known s
  · intro hc hn
    have h1 : (createDeferred p s).emptyTableUnknown = false ∧
        (createDeferred p s).emptyTable = true := by
      unfold createDeferred
      rw [hc, hn]
      exact ⟨rfl, rfl⟩
    rw [isEmpty_known _ h1.1, h1.2]

/-! ## C19: no violation output -/

/-- C19: when a tuple subject to the uniqueness constraint is being validated
(just read, or resumed), no violation output is configured, and after the choice
of the row-id to accept the reader still holds a row-id (a candidate that would
be rejected), the rejection loop fails with `permAssert` at once, before any
collaborator call for that row-id, and so do `getValidatedTuple`'s validation
step and its loop. -/
theorem missing_violation_output (p : Params) (fuel : Nat) (s s1 s2 : Splicer)
    (hv : p.hasViolationOutput = false)
    (hentry : (s.currValidation = true ∧ s1 = s) ∨
      (s.currValidation = false ∧ readInput p s = .ok (none, s1)))
    (hch : chooseUpsertRid p s1 = .ok s2) (hne : s2.inputRidReader ≠ []) :
    violationLoop p s2.inputRidReader s2 = .error .permAssertFailed ∧
    validateCurrent p s1 = .error .permAssertFailed ∧
    getValidatedTupleLoop p (fuel + 1) s = .error .permAssertFailed := by
  have h1 : violationLoop p s2.inputRidReader s2 = .error .permAssertFailed := by
    cases hr : s2.inputRidReader with
    | nil => exact absurd hr hne
    | cons rid rest =>
      unfold violationLoop
      rw [hv]
      rfl
  have h2 : validateCurrent p s1 = .error .permAssertFailed := by
    unfold validateCurrent
    rw [hch]
    simp only [bind, Except.bind, h1]
  refine ⟨h1, h2, ?_⟩
  rcases hentry with ⟨hc, rfl⟩ | ⟨hc, hr⟩
  · rw [gvLoop_resume p fuel s1 hc, h2]
  · rw [gvLoop_read p fuel s s1 hc hr, h2]

set_option maxHeartbeats 4000000 in
/-- C19 witness: a unique index without violation output, key 5 with the
candidate row-ids 10 and 11: row 10 is accepted, row 11 is left in the reader,
and `getValidatedTuple` fails with `permAssert`. -/
theorem missing_violation_output_witness :
    noViolationParams.hasViolationOutput = false ∧
    twoCandidateStream.currValidation = false ∧
    readInput noViolationParams twoCandidateStream = .ok (none, twoCandidateRead) ∧
    chooseUpsertRid noViolationParams twoCandidateRead = .ok twoCandidateChosen ∧
    twoCandidateChosen.upsertRid = some 10 ∧ twoCandidateChosen.inputRidReader = [11] ∧
    getValidatedTuple noViolationParams twoCandidateStream = .error .permAssertFailed :=
  ⟨rfl, rfl, by decide!, by decide!, by decide!, by decide!,
    (missing_violation_output noViolationParams 1 twoCandidateStream twoCandidateRead
      twoCandidateChosen rfl (Or.inr ⟨rfl, by decide!⟩) (by decide!) (by decide!)).2.2⟩

/-! ## C12: adopting an on-disk entry -/

/-- C12: `existingEntry` first asks `isEmpty` (which answers whether the index is
empty when the emptiness is still unknown, and the cached answer afterwards).
If the answer is non-empty and `findBTreeEntry` reports a match, the accumulator
is set to the matched on-disk entry returned in `bTreeTupleData`,
`currExistingEntry` becomes true and the result is true; if `findBTreeEntry`
reports no match, or the answer is empty, the accumulator is set to the input
fragment, `currExistingEntry` becomes false and the result is false; in all
these cases `currEntry` is true afterwards and the index is unchanged.  The call
fails only when `findBTreeEntry` does. -/
theorem existingEntry_adopts (p : Params) (frag : TupleData) (s : Splicer) :
    (s.emptyTableUnknown = true → ((isEmpty s).1 = false ↔ s.index ≠ [])) ∧
    (∀ s2, (isEmpty s).1 = false → findBTreeEntry p frag (isEmpty s).2 = .ok (true, s2) →
      ∃ s', existingEntry p frag s = .ok (true, s') ∧
        s'.pCurrentEntry = s2.bTreeTupleData ∧
        s'.currBTreeStartRid = s2.bTreeTupleData.startRid ∧
        s'.currExistingEntry = true ∧ s'.currEntry = true ∧ s'.index = s.index) ∧
    (∀ s2, (isEmpty s).1 = false → findBTreeEntry p frag (isEmpty s).2 = .ok (false, s2) →
      ∃ s', existingEntry p frag s = .ok (false, s') ∧
        s'.pCurrentEntry = frag ∧ s'.currBTreeStartRid = frag.startRid ∧
        s'.currExistingEntry = false ∧ s'.currEntry = true ∧ s'.index = s.index) ∧
    ((isEmpty s).1 = true →
      ∃ s', existingEntry p frag s = .ok (false, s') ∧
        s'.pCurrentEntry = frag ∧ s'.currBTreeStartRid = frag.startRid ∧
        s'.currExistingEntry = false ∧ s'.currEntry = true ∧ s'.index = s.index) ∧
    (∀ e, (isEmpty s).1 = false → findBTreeEntry p frag (isEmpty s).2 = .error e →
      existingEntry p frag s = .error e) := by
  have hi := (isEmpty_searchOnly s).search_fields.2.2.2.2.1
  refine ⟨?_, ?_, ?_, ?_, ?_⟩
  · intro hu
    by_cases h : s.index.length = 0
    · have h2 : s.index = [] := List.length_eq_zero.1 h
      simp [isEmpty, searchFirst, endSearch, Splicer.emit, hu, h, h2]
    · have h2 : s.index ≠ [] := fun h3 => h (by rw [h3]; rfl)
      simp [isEmpty, searchFirst, endSearch, Splicer.emit, hu, h, h2]
  · intro s2 he hf
    have hi2 := (findBTreeEntry_searchOnly p frag _ s2 true hf).search_fields.2.2.2.2.1
    refine ⟨{ createNewBitmapEntry s2.bTreeTupleData { s2 with currExistingEntry := true } with bTreeWriterMoved := false }, ?_, rfl, rfl, rfl, rfl, ?_⟩
    · unfold existingEntry
      simp only [he, Bool.not_false, if_true, hf, bind, Except.bind, pure, Except.pure]
    · exact hi2.trans hi
  · intro s2 he hf
    have hi2 := (findBTreeEntry_searchOnly p frag _ s2 false hf).search_fields.2.2.2.2.1
    refine ⟨createNewBitmapEntry frag { s2 with currExistingEntry := false }, ?_, rfl, rfl, rfl, rfl, ?_⟩
    · unfold existingEntry
      simp only [he, Bool.not_false, if_true, hf, bind, Except.bind, pure, Except.pure,
        Bool.false_eq_true, if_false]
    · exact hi2.trans hi
  · intro he
    refine ⟨createNewBitmapEntry frag { (isEmpty s).2 with currExistingEntry := false }, ?_, rfl, rfl, rfl, rfl, ?_⟩
    · unfold existingEntry
      simp only [he, Bool.not_true, Bool.false_eq_true, if_false, pure, Except.pure]
    · exact hi
  · intro e he hf
    unfold existingEntry
    simp only [he, Bool.not_false, if_true, hf, bind, Except.bind]

/-! ## What each step may call -/

theorem step_same (c : Event → Bool) {s s' : Splicer} (h1 : s'.trace = s.trace)
    (h2 : s'.isDone = s.isDone) (h3 : s'.inEOS = s.inEOS)
    (h4 : s'.origRootPageId = s.origRootPageId)
    (h5 : s'.insertRowCountParam = s.insertRowCountParam)
    (h6 : s'.numRowsLoaded = s.numRowsLoaded) (h7 : s'.newIndexCreated = s.newIndexCreated)
    (h8 : s'.rootPageId = s.rootPageId) (h9 : s'.currValidation = s.currValidation)
    (h10 : s'.inBuf = s.inBuf) : Step c s s' :=
  ⟨⟨[], by rw [h1, List.append_nil], fun _ h => by cases h⟩, h2, h3, h4, h5, h6, h7, h8, h9, h10⟩

theorem step_refl (c : Event → Bool) (s : Splicer) : Step c s s :=
  step_same c rfl rfl rfl rfl rfl rfl rfl rfl rfl rfl

theorem step_trans {c : Event → Bool} {a b d : Splicer} (h1 : Step c a b) (h2 : Step c b d) :
    Step c a d := by
  obtain ⟨⟨t1, e1, q1⟩, a2, a3, a4, a5, a6, a7, a8, a9, a10⟩ := h1
  obtain ⟨⟨t2, e2, q2⟩, b2, b3, b4, b5, b6, b7, b8, b9, b10⟩ := h2
  refine ⟨⟨t1 ++ t2, by rw [e2, e1, List.append_assoc], ?_⟩, b2.trans a2, b3.trans a3,
    b4.trans a4, b5.trans a5, b6.trans a6, b7.trans a7, b8.trans a8, b9.trans a9,
    b10.trans a10⟩
  intro e he
  rcases List.mem_append.1 he with h | h
  · exact q1 e h
  · exact q2 e h

theorem step_mono {c c2 : Event → Bool} {s s' : Splicer} (hc : ∀ e, c e = true → c2 e = true)
    (h : Step c s s') : Step c2 s s' := by
  obtain ⟨⟨t1, e1, q1⟩, a2, a3, a4, a5, a6, a7, a8, a9, a10⟩ := h
  exact ⟨⟨t1, e1, fun e he => hc e (q1 e he)⟩, a2, a3, a4, a5, a6, a7, a8, a9, a10⟩

theorem step_emit (c : Event → Bool) (s : Splicer) (e : Event) (h : c e = true) :
    Step c s (s.emit e) :=
  ⟨⟨[e], rfl, fun x hx => by rw [List.mem_singleton.1 hx]; exact h⟩, rfl, rfl, rfl, rfl, rfl, rfl,
    rfl, rfl, rfl⟩

theorem step_emit_then (c : Event → Bool) (s s' : Splicer) (e : Event) (h : c e = true)
    (h1 : s'.trace = s.trace ++ [e]) (h2 : s'.isDone = s.isDone) (h3 : s'.inEOS = s.inEOS)
    (h4 : s'.origRootPageId = s.origRootPageId)
    (h5 : s'.insertRowCountParam = s.insertRowCountParam)
    (h6 : s'.numRowsLoaded = s.numRowsLoaded) (h7 : s'.newIndexCreated = s.newIndexCreated)
    (h8 : s'.rootPageId = s.rootPageId) (h9 : s'.currValidation = s.currValidation)
    (h10 : s'.inBuf = s.inBuf) : Step c s s' :=
  ⟨⟨[e], h1, fun x hx => by rw [List.mem_singleton.1 hx]; exact h⟩, h2, h3, h4, h5, h6, h7, h8,
    h9, h10⟩

theorem search_isIndexOp (e : Event) (h : e.isSearch = true) : e.isIndexOp = true := by
  unfold Event.isIndexOp
  rw [h]; rfl

theorem write_isIndexOp (e : Event) (h : e.isWrite = true) : e.isIndexOp = true := by
  unfold Event.isIndexOp
  rw [h, Bool.or_true]

theorem indexOp_inLoop (e : Event) (h : e.isIndexOp = true) : e.inLoop = true := by
  cases e <;> simp [Event.isIndexOp, Event.isSearch, Event.isWrite] at h <;> rfl

theorem searchForKey_step (p : Params) (key : TupleData) (lu : Bool) (s : Splicer) :
    Step Event.isSearch s (searchForKey p key lu s).2 := by
  unfold searchForKey
  dsimp only
  split_ifs <;> exact step_emit_then _ _ _ (.searchForKey key lu) rfl rfl rfl rfl rfl rfl rfl rfl rfl rfl rfl

theorem searchNext_step (s : Splicer) : Step Event.isSearch s (searchNext s).2 := by
  unfold searchNext
  dsimp only
  split
  · split_ifs <;> exact step_emit_then _ _ _ .searchNext rfl rfl rfl rfl rfl rfl rfl rfl rfl rfl rfl
  · exact step_emit _ _ _ rfl

theorem isEmpty_step (s : Splicer) : Step Event.isSearch s (isEmpty s).2 := by
  by_cases hu : s.emptyTableUnknown = true
  · have hall : (isEmpty s).2.trace = s.trace ++
          (if s.index.length = 0 then [.searchFirst, .endSearch] else [.searchFirst]) ∧
        (isEmpty s).2.isDone = s.isDone ∧ (isEmpty s).2.inEOS = s.inEOS ∧
        (isEmpty s).2.origRootPageId = s.origRootPageId ∧
        (isEmpty s).2.insertRowCountParam = s.insertRowCountParam ∧
        (isEmpty s).2.numRowsLoaded = s.numRowsLoaded ∧
        (isEmpty s).2.newIndexCreated = s.newIndexCreated ∧
        (isEmpty s).2.rootPageId = s.rootPageId ∧
        (isEmpty s).2.currValidation = s.currValidation ∧
        (isEmpty s).2.inBuf = s.inBuf := by
      by_cases h : s.index.length = 0
      · simp [isEmpty, searchFirst, endSearch, Splicer.emit, hu, h]
      · simp [isEmpty, searchFirst, endSearch, Splicer.emit, hu, h]
    obtain ⟨g1, g2, g3, g4, g5, g6, g7, g8, g9, g10⟩ := hall
    refine ⟨⟨_, g1, ?_⟩, g2, g3, g4, g5, g6, g7, g8, g9, g10⟩
    intro e he
    split_ifs at he
    · simp only [List.mem_cons, List.mem_singleton, List.not_mem_nil, or_false] at he
      rcases he with h | h <;> rw [h] <;> rfl
    · rw [List.mem_singleton.1 he]; rfl
  · rw [isEmpty_known s (by simpa using hu)]
    exact step_refl _ _

theorem step_setTuple {c : Event → Bool} {s s1 : Splicer} (h : Step c s s1) (d : TupleData) :
    Step c s { s1 with bTreeTupleData := d } :=
  step_trans h (step_same c rfl rfl rfl rfl rfl rfl rfl rfl rfl rfl)

theorem findBTreeEntry_step (p : Params) (e : TupleData) (s s' : Splicer) (b : Bool)
    (h : findBTreeEntry p e s = .ok (b, s')) : Step Event.isSearch s s' := by
  have k1 := searchForKey_step p e (decide (p.nIdxKeys > 0)) s
  generalize hs1 : searchForKey p e (decide (p.nIdxKeys > 0)) s = r1 at k1
  obtain ⟨m, s1⟩ := r1
  simp only [findBTreeEntry, findMatchingBTreeEntry, hs1, cAssert, bind, Except.bind, pure,
    Except.pure] at h
  have k2 : Step Event.isSearch s { s1 with bTreeTupleData := unmarshal s1 s.bTreeTupleData } :=
    step_setTuple k1 _
  generalize hs2 : ({ s1 with bTreeTupleData := unmarshal s1 s.bTreeTupleData } : Splicer) = s2
    at h k2
  have k3 : Step Event.isSearch s (searchNext s2).2 := step_trans k2 (searchNext_step s2)
  generalize hs3 : searchNext s2 = r3 at h k3
  obtain ⟨m3, s3⟩ := r3
  have k4 : Step Event.isSearch s { s3 with bTreeTupleData := unmarshal s3 s3.bTreeTupleData } :=
    step_setTuple k3 _
  generalize hs4 : ({ s3 with bTreeTupleData := unmarshal s3 s3.bTreeTupleData } : Splicer) = s4
    at h k4
  have k5 : Step Event.isSearch s (searchForKey p e false s4).2 :=
    step_trans k4 (searchForKey_step p e false s4)
  generalize hs5 : searchForKey p e false s4 = r5 at h k5
  obtain ⟨m5, s5⟩ := r5
  have k6 : Step Event.isSearch s (searchForKey p e false s2).2 :=
    step_trans k2 (searchForKey_step p e false s2)
  generalize hs6 : searchForKey p e false s2 = r6 at h k6
  obtain ⟨m6, s6⟩ := r6
  have k7 := step_setTuple k6 (unmarshal s6 s6.bTreeTupleData)
  have k8 := step_setTuple k5 (unmarshal s5 s5.bTreeTupleData)
  split_ifs at h <;>
    (simp only [Except.ok.injEq, Prod.mk.injEq] at h
     obtain ⟨-, rfl⟩ := h
     assumption)

theorem deleteCurrent_step (s s' : Splicer) (h : deleteCurrent s = .ok s') :
    Step Event.isWrite s s' := by
  unfold deleteCurrent at h
  split at h
  · split at h
    · rename_i t _
      simp only [Except.ok.injEq] at h
      subst h
      exact step_emit_then _ _ _ (.deleteCurrent t) rfl rfl rfl rfl rfl rfl rfl rfl rfl rfl rfl
    · cases h
  · cases h

theorem insertTupleData_step (p : Params) (t : TupleData) (s s' : Splicer)
    (h : insertTupleData p t s = .ok s') : Step Event.isWrite s s' := by
  simp only [insertTupleData] at h
  split at h
  · split_ifs at h
    simp only [Except.ok.injEq] at h
    subst h
    exact step_emit_then _ _ _ (.insertTuple t) rfl rfl rfl rfl rfl rfl rfl rfl rfl rfl rfl
  · simp only [Except.ok.injEq] at h
    subst h
    exact step_emit_then _ _ _ (.insertTuple t) rfl rfl rfl rfl rfl rfl rfl rfl rfl rfl rfl

theorem relocateEntry_step (p : Params) (s s' : Splicer) (h : relocateEntry p s = .ok s') :
    Step Event.isSearch s s' := by
  unfold relocateEntry findMatchingBTreeEntry at h
  by_cases hm : (p.computeRowCount || s.bTreeWriterMoved) = true
  · simp only [hm, if_true] at h
    have k := searchForKey_step p (relocateKey p s) false s
    generalize searchForKey p (relocateKey p s) false s = r at h k
    obtain ⟨m, s3⟩ := r
    dsimp only at h k
    split_ifs at h with hf
    simp only [pure, Except.pure, Except.ok.injEq] at h
    subst h
    exact step_trans k (step_same _ rfl rfl rfl rfl rfl rfl rfl rfl rfl rfl)
  · simp only [hm, if_false, pure, Except.pure, Except.ok.injEq, Bool.false_eq_true] at h
    subst h
    exact step_refl _ _

theorem insertBitmapEntry_step (p : Params) (s s' : Splicer)
    (h : insertBitmapEntry p s = .ok s') : Step Event.isIndexOp s s' := by
  unfold insertBitmapEntry at h
  dsimp only at h
  split_ifs at h
  · obtain ⟨s2, h2, h⟩ := bind_ok_inv h
    obtain ⟨s4, h4, h⟩ := bind_ok_inv h
    have k2 := step_mono search_isIndexOp (relocateEntry_step p s s2 h2)
    have k4 := step_mono write_isIndexOp (deleteCurrent_step s2 s4 h4)
    have k5 := step_mono write_isIndexOp (insertTupleData_step p _ _ _ h)
    have k6 : Step Event.isIndexOp s4 { s4 with currExistingEntry := false } :=
      step_same _ rfl rfl rfl rfl rfl rfl rfl rfl rfl rfl
    exact step_trans (step_trans k2 k4) (step_trans k6 k5)
  · exact step_mono write_isIndexOp (insertTupleData_step p _ _ _ h)

theorem existingEntry_step (p : Params) (x : TupleData) (s s' : Splicer) (b : Bool)
    (h : existingEntry p x s = .ok (b, s')) : Step Event.isSearch s s' := by
  unfold existingEntry at h
  have k0 := isEmpty_step s
  generalize isEmpty s = r0 at h k0
  obtain ⟨e, s1⟩ := r0
  dsimp only at h k0
  split_ifs at h
  · obtain ⟨⟨found, s2⟩, hf, h⟩ := bind_ok_inv h
    have k1 := step_trans k0 (findBTreeEntry_step p x s1 s2 found hf)
    dsimp only at h
    split_ifs at h <;>
      (simp only [pure, Except.pure, Except.ok.injEq, Prod.mk.injEq] at h
       obtain ⟨-, rfl⟩ := h
       exact step_trans k1 (step_same _ rfl rfl rfl rfl rfl rfl rfl rfl rfl rfl))
  · simp only [pure, Except.pure, Except.ok.injEq, Prod.mk.injEq] at h
    obtain ⟨-, rfl⟩ := h
    exact step_trans k0 (step_same _ rfl rfl rfl rfl rfl rfl rfl rfl rfl rfl)

theorem upsertSingleton_step (p : Params) (x : TupleData) (s s' : Splicer)
    (h : upsertSingleton p x s = .ok s') : Step Event.isIndexOp s s' := by
  unfold upsertSingleton at h
  have k0 := step_mono search_isIndexOp (isEmpty_step s)
  generalize isEmpty s = r0 at h k0
  obtain ⟨e, s1⟩ := r0
  dsimp only at h k0
  split_ifs at h
  · obtain ⟨⟨found, s3⟩, hf, h⟩ := bind_ok_inv h
    have k1 := step_trans k0
      (step_mono search_isIndexOp (findBTreeEntry_step p x s1 s3 found hf))
    dsimp only at h
    split_ifs at h
    · obtain ⟨u, -, h⟩ := bind_ok_inv h
      obtain ⟨y, hd, h⟩ := bind_ok_inv h
      exact step_trans (step_trans k1 (step_mono write_isIndexOp (deleteCurrent_step s3 y hd)))
        (step_mono write_isIndexOp (insertTupleData_step p x y s' h))
    · obtain ⟨y, hy, h⟩ := bind_ok_inv h
      cases hy
      exact step_trans k1 (step_mono write_isIndexOp (insertTupleData_step p x _ s' h))
  · obtain ⟨y, hy, h⟩ := bind_ok_inv h
    cases hy
    exact step_trans k0 (step_mono write_isIndexOp (insertTupleData_step p x _ s' h))

theorem spliceEntry_step (p : Params) (x : TupleData) (s s' : Splicer)
    (h : spliceEntry p x s = .ok s') : Step Event.isIndexOp s s' := by
  unfold spliceEntry at h
  split at h
  · simp only [pure, Except.pure, Except.ok.injEq] at h
    subst h
    exact step_same _ rfl rfl rfl rfl rfl rfl rfl rfl rfl rfl
  · obtain ⟨s1, h1, h⟩ := bind_ok_inv h
    simp only [pure, Except.pure, Except.ok.injEq] at h
    subst h
    exact step_trans (insertBitmapEntry_step p s s1 h1) (step_same _ rfl rfl rfl rfl rfl rfl rfl rfl rfl rfl)

theorem findBetterEntry_step (p : Params) (x : TupleData) (s s' : Splicer)
    (h : findBetterEntry p x s = .ok s') : Step Event.isIndexOp s s' := by
  unfold findBetterEntry at h
  obtain ⟨u, -, h⟩ := bind_ok_inv h
  have k0 := step_mono search_isIndexOp (isEmpty_step s)
  generalize isEmpty s = r0 at h k0
  obtain ⟨e, s1⟩ := r0
  dsimp only at h k0
  split_ifs at h
  · obtain ⟨⟨found, s2⟩, hf, h⟩ := bind_ok_inv h
    have k1 := step_trans k0 (step_mono search_isIndexOp (findBTreeEntry_step p x s1 s2 found hf))
    dsimp only at h
    split_ifs at h <;> first
      | (simp only [pure, Except.pure, Except.ok.injEq] at h
         subst h
         exact k1)
      | (obtain ⟨s3, h3, h⟩ := bind_ok_inv h
         simp only [pure, Except.pure, Except.ok.injEq] at h
         subst h
         exact step_trans (step_trans k1 (insertBitmapEntry_step p s2 s3 h3))
           (step_same _ rfl rfl rfl rfl rfl rfl rfl rfl rfl rfl))
  · simp only [pure, Except.pure, Except.ok.injEq] at h
    subst h
    exact k0

theorem adoptOrSplice_step (p : Params) (s s' : Splicer)
    (h : (do
      let (found, s2) ← existingEntry p s.inputTuple s
      if found then spliceEntry p s2.inputTuple s2 else pure s2) = Except.ok s') :
    Step Event.isIndexOp s s' := by
  obtain ⟨⟨found, s2⟩, h1, h⟩ := bind_ok_inv h
  have k1 := step_mono search_isIndexOp (existingEntry_step p _ s s2 found h1)
  dsimp only at h
  split_ifs at h
  · exact step_trans k1 (spliceEntry_step p _ s2 s' h)
  · simp only [pure, Except.pure, Except.ok.injEq] at h
    subst h
    exact k1

theorem routeTuple_step (p : Params) (s s' : Splicer) (h : routeTuple p s = .ok s') :
    Step Event.isIndexOp s s' := by
  unfold routeTuple at h
  split_ifs at h with h1 h2
  · obtain ⟨s3, h3, h⟩ := bind_ok_inv h
    have k3 : Step Event.isIndexOp s3 { s3 with currEntry := false } :=
      step_same _ rfl rfl rfl rfl rfl rfl rfl rfl rfl rfl
    exact step_trans (step_trans (insertBitmapEntry_step p s s3 h3) k3)
      (upsertSingleton_step p _ _ s' h)
  · exact upsertSingleton_step p _ _ s' h
  · exact adoptOrSplice_step p s s' h
  · dsimp only at h
    obtain ⟨u, -, h⟩ := bind_ok_inv h
    split_ifs at h
    · obtain ⟨s2, hs2, h⟩ := bind_ok_inv h
      exact step_trans (findBetterEntry_step p _ s s2 hs2) (spliceEntry_step p _ s2 s' h)
    · obtain ⟨s2, hs2, h⟩ := bind_ok_inv h
      exact step_trans (insertBitmapEntry_step p s s2 hs2) (adoptOrSplice_step p s2 s' h)
  · dsimp only at h
    obtain ⟨u, -, h⟩ := bind_ok_inv h
    split_ifs at h
    · exact spliceEntry_step p _ s s' h
    · obtain ⟨s2, hs2, h⟩ := bind_ok_inv h
      exact step_trans (insertBitmapEntry_step p s s2 hs2) (adoptOrSplice_step p s2 s' h)

/-! ## C11: the step for a fragment subject to the uniqueness constraint -/

theorem step_filter {c q : Event → Bool} {s s' : Splicer} (h : Step c s s')
    (hq : ∀ e, c e = true → q e = false) : s'.trace.filter q = s.trace.filter q := by
  obtain ⟨tr, e1, e2⟩ := h.ext
  rw [e1, List.filter_append]
  have : tr.filter q = [] := by
    rw [List.filter_eq_nil_iff]
    intro e he
    rw [hq e (e2 e he)]
    simp
  rw [this, List.append_nil]

theorem search_not_write (e : Event) (h : e.isSearch = true) : e.isWrite = false := by
  cases e <;> simp [Event.isSearch] at h <;> rfl

theorem insert_perm (p : Params) (t : TupleData) (l : List TupleData) :
    (l.take (lubIdx p l t) ++ t :: l.drop (lubIdx p l t)).Perm (t :: l) := by
  have h3 := @List.perm_middle _ t (List.take (lubIdx p l t) l) (List.drop (lubIdx p l t) l)
  rw [List.take_append_drop] at h3
  exact h3

/-- What a successful `upsertSingleton` does: the accumulator and its flags are
left alone; the index writes are at most one delete, of the entry the writer is
positioned on after `findBTreeEntry` reported a match, followed by one insert
of the fragment. -/
theorem upsertSingleton_spec (p : Params) (x : TupleData) (s s' : Splicer)
    (h : upsertSingleton p x s = .ok s') :
    s'.currEntry = s.currEntry ∧ s'.currExistingEntry = s.currExistingEntry ∧
    s'.pCurrentEntry = s.pCurrentEntry ∧ s'.currBTreeStartRid = s.currBTreeStartRid ∧
    ∃ del : Option (Nat × TupleData),
      (∀ i d, del = some (i, d) → s.index.get? i = some d ∧ (isEmpty s).1 = false ∧
        ∃ s3, findBTreeEntry p x (isEmpty s).2 = .ok (true, s3) ∧ s3.cursor = some i) ∧
      writeEvents s'.trace = writeEvents s.trace ++
        (del.toList.map (fun d => Event.deleteCurrent d.2) ++ [.insertTuple x]) ∧
      s'.index.Perm (x :: (match del with
        | none => s.index
        | some (i, _) => s.index.eraseIdx i)) := by
  unfold upsertSingleton at h
  have k0 := isEmpty_step s
  have f0 := (isEmpty_searchOnly s).search_fields
  generalize isEmpty s = r0 at h k0 f0
  obtain ⟨e, s1⟩ := r0
  dsimp only at h k0 f0 ⊢
  obtain ⟨a1, a2, a3, a4, a5, -, -⟩ := f0
  have w0 : writeEvents s1.trace = writeEvents s.trace := step_filter k0 search_not_write
  have fin : ∀ (y : Splicer), insertTupleData p x y = .ok s' →
      s'.currEntry = y.currEntry ∧ s'.currExistingEntry = y.currExistingEntry ∧
      s'.pCurrentEntry = y.pCurrentEntry ∧ s'.currBTreeStartRid = y.currBTreeStartRid ∧
      writeEvents s'.trace = writeEvents y.trace ++ [.insertTuple x] ∧
      s'.index.Perm (x :: y.index) := by
    intro y hy
    obtain ⟨t1, t2, t3, -⟩ := insertTupleData_ok p x y s' hy
    obtain ⟨u1, -, u3, u4, -⟩ := (insertTupleData_writeOnly p x y s' hy).write_fields
    refine ⟨u4, t3, u1, u3, ?_, ?_⟩
    · unfold writeEvents
      rw [t1, List.filter_append]
      rfl
    · rw [t2]; exact insert_perm p x y.index
  split_ifs at h with he
  · have he2 : e = false := by simpa using he
    obtain ⟨⟨found, s3⟩, hf, h⟩ := bind_ok_inv h
    have k1 := findBTreeEntry_step p x s1 s3 found hf
    obtain ⟨b1, b2, b3, b4, b5, -, -⟩ := (findBTreeEntry_searchOnly p x s1 s3 found hf).search_fields
    have w1 : writeEvents s3.trace = writeEvents s1.trace := step_filter k1 search_not_write
    dsimp only at h
    split_ifs at h with hfound
    · obtain ⟨u, -, h⟩ := bind_ok_inv h
      obtain ⟨y, hd, h⟩ := bind_ok_inv h
      obtain ⟨i, d, d1, d2, d3, d4, d5⟩ := deleteCurrent_ok s3 y hd
      obtain ⟨v1, -, v3, v4, -⟩ := (deleteCurrent_writeOnly s3 y hd).write_fields
      obtain ⟨g1, g2, g3, g4, g5, g6⟩ := fin y h
      refine ⟨by rw [g1, v4, b4, a4], by rw [g2, d5, b2, a2], by rw [g3, v1, b1, a1],
        by rw [g4, v3, b3, a3], some (i, d), ?_, ?_, ?_⟩
      · intro i2 d0 hh
        cases hh
        refine ⟨by rw [← a5, ← b5]; exact d2, he2, s3, ?_, d1⟩
        rw [hf, hfound]
      · rw [g5]
        unfold writeEvents at w0 w1 ⊢
        rw [d3, List.filter_append, w1, w0, List.append_assoc]
        rfl
      · refine g6.trans ?_
        rw [d4, b5, a5]
    · obtain ⟨y, hy, h⟩ := bind_ok_inv h
      cases hy
      obtain ⟨g1, g2, g3, g4, g5, g6⟩ := fin s3 h
      refine ⟨by rw [g1, b4, a4], by rw [g2, b2, a2], by rw [g3, b1, a1],
        by rw [g4, b3, a3], none, ?_, ?_, ?_⟩
      · intro i d hh; cases hh
      · rw [g5, w1, w0]; rfl
      · refine g6.trans ?_
        rw [b5, a5]
  · obtain ⟨y, hy, h⟩ := bind_ok_inv h
    cases hy
    obtain ⟨g1, g2, g3, g4, g5, g6⟩ := fin s1 h
    refine ⟨by rw [g1, a4], by rw [g2, a2], by rw [g3, a1], by rw [g4, a3], none, ?_, ?_, ?_⟩
    · intro i d hh; cases hh
    · rw [g5, w0]; rfl
    · refine g6.trans ?_
      rw [a5]

theorem step_filterMap {α : Type} {c : Event → Bool} {f : Event → Option α} {s s' : Splicer}
    (h : Step c s s') (hq : ∀ e, c e = true → f e = none) :
    s'.trace.filterMap f = s.trace.filterMap f := by
  obtain ⟨tr, e1, e2⟩ := h.ext
  rw [e1, List.filterMap_append]
  have : tr.filterMap f = [] := by
    rw [List.filterMap_eq_nil_iff]
    intro e he
    exact hq e (e2 e he)
  rw [this, List.append_nil]

theorem indexOp_isQuiet (e : Event) (h : e.isIndexOp = true) : e.isQuiet = true := by
  cases e <;> simp [Event.isIndexOp, Event.isSearch, Event.isWrite] at h <;> rfl

theorem search_isQuiet (e : Event) (h : e.isSearch = true) : e.isQuiet = true :=
  indexOp_isQuiet e (search_isIndexOp e h)

theorem quiet_inLoop (e : Event) (h : e.isQuiet = true) : e.inLoop = true := by
  unfold Event.isQuiet at h
  unfold Event.inLoop
  simp only [Bool.and_eq_true] at h
  exact h.1

theorem searchForRid_step (p : Params) (rid : Nat) (s : Splicer) :
    Step Event.isQuiet s (searchForRid p rid s).2 :=
  step_emit _ _ _ rfl

theorem countKeyRows_step (p : Params) (s s' : Splicer) (n : Nat)
    (h : countKeyRows p s = .ok (n, s')) : Step Event.isQuiet s s' := by
  unfold countKeyRows at h
  obtain ⟨u, -, h⟩ := bind_ok_inv h
  have k0 := step_mono search_isQuiet (isEmpty_step s)
  generalize isEmpty s = r0 at h k0
  obtain ⟨e, s1⟩ := r0
  dsimp only at h k0
  split_ifs at h
  · simp only [pure, Except.pure, Except.ok.injEq, Prod.mk.injEq] at h
    obtain ⟨-, rfl⟩ := h
    exact k0
  · obtain ⟨⟨found, s2⟩, hf, h⟩ := bind_ok_inv h
    have k1 := step_trans k0 (step_mono search_isQuiet (findBTreeEntry_step p _ s1 s2 found hf))
    dsimp only at h
    have k2 := step_trans k1 (searchForRid_step p s2.bTreeTupleData.startRid s2)
    generalize searchForRid p s2.bTreeTupleData.startRid s2 = r2 at h k2
    obtain ⟨del, s3⟩ := r2
    dsimp only at h k2
    split_ifs at h <;> first
      | (simp only [pure, Except.pure, Except.ok.injEq, Prod.mk.injEq] at h
         obtain ⟨-, rfl⟩ := h
         exact k1)
      | (obtain ⟨u2, -, h⟩ := bind_ok_inv h
         simp only [pure, Except.pure, Except.ok.injEq, Prod.mk.injEq] at h
         obtain ⟨-, rfl⟩ := h
         exact k2)

theorem beginGroup_step (p : Params) (s s' : Splicer) (h : beginGroup p s = .ok s') :
    Step Event.isQuiet s s' := by
  unfold beginGroup at h
  split_ifs at h
  · obtain ⟨⟨n, s5⟩, h5, h⟩ := bind_ok_inv h
    have k5 := countKeyRows_step p _ s5 n h5
    have k2 : Step Event.isQuiet s s5 := by
      refine step_trans ?_ k5
      exact step_same _ rfl rfl rfl rfl rfl rfl rfl rfl rfl rfl
    dsimp only at h
    simp only [pure, Except.pure, Except.ok.injEq] at h
    subst h
    exact step_trans k2 (step_same _ rfl rfl rfl rfl rfl rfl rfl rfl rfl rfl)
  · simp only [pure, Except.pure, Except.ok.injEq] at h
    subst h
    exact step_refl _ _

theorem survivorLoop_step (p : Params) : ∀ (rest : List Nat) (rid : Nat) (s : Splicer),
    Step Event.isQuiet s (survivorLoop p rid rest s) := by
  intro rest
  induction rest with
  | nil =>
    intro rid s
    unfold survivorLoop
    have k := searchForRid_step p rid s
    generalize searchForRid p rid s = r at k
    obtain ⟨del, s1⟩ := r
    dsimp only at k ⊢
    split_ifs <;> exact step_trans k (step_same _ rfl rfl rfl rfl rfl rfl rfl rfl rfl rfl)
  | cons r rs ih =>
    intro rid s
    unfold survivorLoop
    have k := searchForRid_step p rid s
    generalize searchForRid p rid s = r0 at k
    obtain ⟨del, s1⟩ := r0
    dsimp only at k ⊢
    split_ifs
    · exact step_trans k (step_same _ rfl rfl rfl rfl rfl rfl rfl rfl rfl rfl)
    · exact step_trans k (ih r s1)

theorem chooseUpsertRid_step (p : Params) (s s' : Splicer) (h : chooseUpsertRid p s = .ok s') :
    Step Event.isQuiet s s' := by
  unfold chooseUpsertRid at h
  split_ifs at h
  · obtain ⟨u, -, h⟩ := bind_ok_inv h
    split at h
    · cases h
    · simp only [pure, Except.pure, Except.ok.injEq] at h
      subst h
      exact step_same _ rfl rfl rfl rfl rfl rfl rfl rfl rfl rfl
  · obtain ⟨u, -, h⟩ := bind_ok_inv h
    split at h
    · cases h
    · simp only [pure, Except.pure, Except.ok.injEq] at h
      subst h
      exact survivorLoop_step p _ _ s
  · simp only [pure, Except.pure, Except.ok.injEq] at h
    subst h
    exact step_refl _ _

theorem violationLoop_step (p : Params) : ∀ (l : List Nat) (s s' : Splicer) (b : Bool),
    violationLoop p l s = .ok (b, s') → Step Event.isQuiet s s' := by
  intro l
  induction l with
  | nil =>
    intro s s' b h
    unfold violationLoop at h
    simp only [pure, Except.pure, Except.ok.injEq, Prod.mk.injEq] at h
    obtain ⟨-, rfl⟩ := h
    exact step_same _ rfl rfl rfl rfl rfl rfl rfl rfl rfl rfl
  | cons rid rest ih =>
    intro s s' b h
    unfold violationLoop at h
    obtain ⟨u, -, h⟩ := bind_ok_inv h
    have k : Step Event.isQuiet s
        (if p.createNewIndex = true then searchForRid p rid s else (false, s)).2 := by
      split_ifs
      · exact searchForRid_step p rid s
      · exact step_refl _ _
    generalize (if p.createNewIndex = true then searchForRid p rid s else (false, s)) = r at h k
    obtain ⟨del, s1⟩ := r
    dsimp only at h k
    split_ifs at h
    · refine step_trans (step_trans k ?_) (ih _ s' b h)
      exact step_same _ rfl rfl rfl rfl rfl rfl rfl rfl rfl rfl
    · simp only [pure, Except.pure, Except.ok.injEq, Prod.mk.injEq] at h
      obtain ⟨-, rfl⟩ := h
      refine step_trans k (step_trans (step_emit _ s1 (.violationFull rid) rfl) ?_)
      exact step_same _ rfl rfl rfl rfl rfl rfl rfl rfl rfl rfl
    · refine step_trans (step_trans k ?_) (ih _ s' b h)
      refine ⟨⟨[.violationOut rid, .postError (s1.inputTuple.keys.take p.nIdxKeys) rid], ?_, ?_⟩,
        rfl, rfl, rfl, rfl, rfl, rfl, rfl, rfl, rfl⟩
      · simp [postViolation, Splicer.emit]
      · intro e he
        simp only [List.mem_cons, List.mem_singleton, List.not_mem_nil, or_false] at he
        rcases he with h | h <;> rw [h] <;> rfl

theorem tick_of_step {s s' : Splicer} (h : Step Event.isQuiet s s') : Tick s s' :=
  ⟨h.ext, h.done, h.eos, h.orig, h.param, h.rows⟩

theorem tick_same {s s' : Splicer} (h1 : s'.trace = s.trace) (h2 : s'.isDone = s.isDone)
    (h3 : s'.inEOS = s.inEOS) (h4 : s'.origRootPageId = s.origRootPageId)
    (h5 : s'.insertRowCountParam = s.insertRowCountParam)
    (h6 : s'.numRowsLoaded = s.numRowsLoaded) : Tick s s' :=
  ⟨⟨[], by rw [h1, List.append_nil], fun _ h => by cases h⟩, h2, h3, h4, h5, h6⟩

theorem tick_refl (s : Splicer) : Tick s s := tick_of_step (step_refl _ s)

theorem tick_trans {a b d : Splicer} (h1 : Tick a b) (h2 : Tick b d) : Tick a d := by
  obtain ⟨⟨t1, e1, q1⟩, a2, a3, a4, a5, a6⟩ := h1
  obtain ⟨⟨t2, e2, q2⟩, b2, b3, b4, b5, b6⟩ := h2
  refine ⟨⟨t1 ++ t2, by rw [e2, e1, List.append_assoc], ?_⟩, b2.trans a2, b3.trans a3,
    b4.trans a4, b5.trans a5, b6.trans a6⟩
  intro e he
  rcases List.mem_append.1 he with h | h
  · exact q1 e h
  · exact q2 e h

theorem consumeTuple_tick (s : Splicer) : Tick s (consumeTuple s) :=
  ⟨⟨[.consumeTuple], rfl, fun x hx => by rw [List.mem_singleton.1 hx]; rfl⟩, rfl, rfl, rfl, rfl,
    rfl⟩

/-- What the processing of a validated tuple leaves alone: it consumes the
tuple, and calls only the index. -/
theorem processTuple_spec (p : Params) (s s' : Splicer) (h : processTuple p s = .ok s') :
    Tick s s' ∧ s'.currValidation = s.currValidation ∧ s'.inBuf = s.inBuf.tail := by
  unfold processTuple at h
  obtain ⟨s1, h1, h⟩ := bind_ok_inv h
  simp only [pure, Except.pure, Except.ok.injEq] at h
  subst h
  have k := step_mono indexOp_isQuiet (routeTuple_step p s s1 h1)
  refine ⟨tick_trans (tick_of_step k) (consumeTuple_tick s1), k.val, ?_⟩
  show s1.inBuf.tail = _
  rw [k.buf]

/-- What the validation of the current tuple leaves alone, and how it ends: on
an overflow the tuple stays and the validation stays pending; on a yield the
tuple stays and the validation is over; otherwise the tuple is consumed. -/
theorem validateCurrent_spec (p : Params) (s s2 : Splicer) (res : Option ExecStreamResult)
    (h : validateCurrent p s = .ok (res, s2)) :
    Tick s s2 ∧
    ((res = some .EXECRC_BUF_OVERFLOW ∧ s2.inBuf = s.inBuf ∧
        s2.currValidation = s.currValidation) ∨
     (res = some .EXECRC_YIELD ∧ s2.inBuf = s.inBuf ∧ s2.currValidation = false) ∨
     (res = none ∧ s2.inBuf = s.inBuf.tail ∧ s2.currValidation = false)) := by
  unfold validateCurrent at h
  obtain ⟨s1, h1, h⟩ := bind_ok_inv h
  obtain ⟨⟨done, s3⟩, h3, h⟩ := bind_ok_inv h
  have k : Step Event.isQuiet s s3 :=
    step_trans (chooseUpsertRid_step p s s1 h1) (violationLoop_step p _ s1 s3 done h3)
  dsimp only at h
  split_ifs at h
  · simp only [pure, Except.pure, Except.ok.injEq, Prod.mk.injEq] at h
    obtain ⟨rfl, rfl⟩ := h
    exact ⟨tick_of_step k, Or.inl ⟨rfl, k.buf, k.val⟩⟩
  · split at h
    · simp only [pure, Except.pure, Except.ok.injEq, Prod.mk.injEq] at h
      obtain ⟨rfl, rfl⟩ := h
      refine ⟨?_, Or.inr (Or.inl ⟨rfl, k.buf, rfl⟩)⟩
      exact tick_trans (tick_of_step k) (tick_same rfl rfl rfl rfl rfl rfl)
    · simp only [pure, Except.pure, Except.ok.injEq, Prod.mk.injEq] at h
      obtain ⟨rfl, rfl⟩ := h
      refine ⟨?_, Or.inr (Or.inr ⟨rfl, ?_, rfl⟩)⟩
      · refine tick_trans ?_ (consumeTuple_tick _)
        exact tick_trans (tick_of_step k) (tick_same rfl rfl rfl rfl rfl rfl)
      · show s3.inBuf.tail = _
        rw [k.buf]

theorem read_facts (p : Params) (t : TupleData) (s : Splicer) :
    ∃ tr, (createDeferred p (unmarshalInput p t s)).trace = s.trace ++ .readTuple t :: tr ∧
      (∀ e ∈ tr, e.isQuiet = true) ∧
      (createDeferred p (unmarshalInput p t s)).isDone = s.isDone ∧
      (createDeferred p (unmarshalInput p t s)).inEOS = s.inEOS ∧
      (createDeferred p (unmarshalInput p t s)).origRootPageId = s.origRootPageId ∧
      (createDeferred p (unmarshalInput p t s)).insertRowCountParam = s.insertRowCountParam ∧
      (createDeferred p (unmarshalInput p t s)).numRowsLoaded =
        (if p.computeRowCount then (s.numRowsLoaded + 1) % 2 ^ 64 else s.numRowsLoaded) ∧
      (createDeferred p (unmarshalInput p t s)).inBuf = s.inBuf ∧
      (createDeferred p (unmarshalInput p t s)).currValidation = s.currValidation ∧
      (createDeferred p (unmarshalInput p t s)).inputTuple = tupleAsRead p t := by
  refine ⟨if (p.createNewIndex && !s.newIndexCreated) = true then [.createEmptyRoot] else [],
    ?_, ?_, ?_⟩
  · cases hc : p.computeRowCount <;> cases hd : (p.createNewIndex && !s.newIndexCreated) <;>
      simp [createDeferred, unmarshalInput, Splicer.emit, hc, hd]
  · intro e he
    split_ifs at he
    · rw [List.mem_singleton.1 he]; rfl
    · cases he
  · cases hc : p.computeRowCount <;> cases hd : (p.createNewIndex && !s.newIndexCreated) <;>
      simp [createDeferred, unmarshalInput, Splicer.emit, hc, hd, tupleAsRead]

/-- What the reading of the next input tuple does: nothing on an empty buffer;
otherwise it reads the head of the buffer (counting it when the row count is
computed locally), leaves the tuple in the buffer, and either yields it, when it
is not subject to the uniqueness constraint, or opens its validation. -/
theorem readInput_spec (p : Params) (s s1 : Splicer) (early : Option ExecStreamResult)
    (h : readInput p s = .ok (early, s1)) :
    (s.inBuf = [] ∧ early = some .EXECRC_BUF_UNDERFLOW ∧ s1 = s) ∨
    (∃ t rest tr, s.inBuf = t :: rest ∧ s1.trace = s.trace ++ .readTuple t :: tr ∧
      (∀ e ∈ tr, e.isQuiet = true) ∧ s1.isDone = s.isDone ∧ s1.inEOS = s.inEOS ∧
      s1.origRootPageId = s.origRootPageId ∧
      s1.insertRowCountParam = s.insertRowCountParam ∧
      s1.numRowsLoaded =
        (if p.computeRowCount then (s.numRowsLoaded + 1) % 2 ^ 64 else s.numRowsLoaded) ∧
      s1.inBuf = s.inBuf ∧
      ((early = some .EXECRC_YIELD ∧ s1.currValidation = s.currValidation ∧
          uniqueRequired p (tupleAsRead p t) = false) ∨
       (early = none ∧ s1.currValidation = true ∧
          uniqueRequired p (tupleAsRead p t) = true))) := by
  unfold readInput at h
  split at h
  · rename_i hb
    simp only [pure, Except.pure, Except.ok.injEq, Prod.mk.injEq] at h
    obtain ⟨rfl, rfl⟩ := h
    exact Or.inl ⟨hb, rfl, rfl⟩
  · rename_i t rest hb
    right
    obtain ⟨tr, r1, r2, r3, r4, r5, r6, r7, r8, r9, r10⟩ := read_facts p t s
    dsimp only at h
    split_ifs at h with hu
    · simp only [pure, Except.pure, Except.ok.injEq, Prod.mk.injEq] at h
      obtain ⟨rfl, rfl⟩ := h
      refine ⟨t, rest, tr, hb, r1, r2, r3, r4, r5, r6, r7, r8, Or.inl ⟨rfl, r9, ?_⟩⟩
      rw [r10] at hu
      simpa using hu
    · obtain ⟨s3, h3, h⟩ := bind_ok_inv h
      simp only [pure, Except.pure, Except.ok.injEq, Prod.mk.injEq] at h
      obtain ⟨rfl, rfl⟩ := h
      have k := beginGroup_step p _ s3 h3
      obtain ⟨tr2, e1, e2⟩ := k.ext
      refine ⟨t, rest, tr ++ tr2, hb, ?_, ?_, k.done.trans r3, k.eos.trans r4, k.orig.trans r5,
        k.param.trans r6, k.rows.trans r7, k.buf.trans r8, Or.inr ⟨rfl, rfl, ?_⟩⟩
      · show s3.trace = _
        rw [e1, r1]
        simp
      · intro e he
        rcases List.mem_append.1 he with h | h
        · exact r2 e h
        · exact e2 e h
      · rw [r10] at hu
        simpa using hu

/-! ## The bookkeeping of the input -/

theorem run_refl (s : Splicer) : Run s s :=
  ⟨⟨[], by rw [List.append_nil], fun _ h => by cases h⟩, rfl, rfl, rfl, rfl⟩

theorem run_trans {a b d : Splicer} (h1 : Run a b) (h2 : Run b d) : Run a d := by
  obtain ⟨⟨t1, e1, q1⟩, a2, a3, a4, a5⟩ := h1
  obtain ⟨⟨t2, e2, q2⟩, b2, b3, b4, b5⟩ := h2
  refine ⟨⟨t1 ++ t2, by rw [e2, e1, List.append_assoc], ?_⟩, b2.trans a2, b3.trans a3,
    b4.trans a4, b5.trans a5⟩
  intro e he
  rcases List.mem_append.1 he with h | h
  · exact q1 e h
  · exact q2 e h

theorem run_of_tick {s s' : Splicer} (h : Tick s s') : Run s s' := by
  obtain ⟨⟨t1, e1, q1⟩, a2, a3, a4, a5, -⟩ := h
  exact ⟨⟨t1, e1, fun e he => quiet_inLoop e (q1 e he)⟩, a2, a3, a4, a5⟩

theorem tick_reads {s s' : Splicer} (h : Tick s s') :
    readEvents s'.trace = readEvents s.trace := by
  obtain ⟨tr, e1, e2⟩ := h.ext
  unfold readEvents
  rw [e1, List.filterMap_append]
  have : tr.filterMap (fun e => match e with
      | .readTuple t => some t
      | _ => none) = [] := by
    rw [List.filterMap_eq_nil_iff]
    intro e he
    have := e2 e he
    cases e <;> simp [Event.isQuiet, Event.isRead, Event.isControl] at this ⊢
  rw [this, List.append_nil]

theorem reads_of_read (tr0 tr : List Event) (t : TupleData)
    (h : ∀ e ∈ tr, e.isQuiet = true) :
    readEvents (tr0 ++ .readTuple t :: tr) = readEvents tr0 ++ [t] := by
  unfold readEvents
  rw [List.filterMap_append, List.filterMap_cons]
  have : tr.filterMap (fun e => match e with
      | .readTuple t => some t
      | _ => none) = [] := by
    rw [List.filterMap_eq_nil_iff]
    intro e he
    have := h e he
    cases e <;> simp [Event.isQuiet, Event.isRead, Event.isControl] at this ⊢
  rw [this]

theorem rows_succ (p : Params) (n len : Nat)
    (h : n = if p.computeRowCount then len % 2 ^ 64 else 0) :
    (if p.computeRowCount then (n + 1) % 2 ^ 64 else n) =
      if p.computeRowCount then (len + 1) % 2 ^ 64 else 0 := by
  cases hc : p.computeRowCount with
  | false => rw [hc] at h; simpa using h
  | true =>
    rw [hc] at h
    simp only [if_true] at h ⊢
    rw [h, Nat.add_mod, Nat.mod_mod, ← Nat.add_mod]

theorem validate_rest (p : Params) (input pend : List TupleData) (s s2 : Splicer)
    (res : Option ExecStreamResult) (hr : Rest p input pend s) (hv : s.currValidation = true)
    (h : validateCurrent p s = .ok (res, s2)) :
    Run s s2 ∧
    ((res = some .EXECRC_BUF_OVERFLOW ∧ Rest p input pend s2) ∨
     (res = some .EXECRC_YIELD ∧ Yielded p input pend s2) ∨
     (res = none ∧ Rest p input pend s2)) := by
  obtain ⟨k, ho⟩ := validateCurrent_spec p s s2 res h
  have hreads := tick_reads k
  have r1 := hr.reads
  unfold unread at r1
  rw [hv] at r1
  simp only [if_true] at r1
  have hrow : s2.numRowsLoaded =
      if p.computeRowCount then (readEvents s2.trace).length % 2 ^ 64 else 0 := by
    rw [k.rows, hreads]; exact hr.rows
  refine ⟨run_of_tick k, ?_⟩
  rcases ho with ⟨e1, e2, e3⟩ | ⟨e1, e2, e3⟩ | ⟨e1, e2, e3⟩
  · refine Or.inl ⟨e1, ?_, ?_, hrow⟩
    · unfold unread
      rw [e3, hv, hreads, e2]
      exact r1
    · intro _
      rw [e2]; exact hr.head hv
  · refine Or.inr (Or.inl ⟨e1, ?_, ?_, e3, hrow⟩)
    · rw [hreads, e2]; exact r1
    · rw [e2]; exact hr.head hv
  · refine Or.inr (Or.inr ⟨e1, ?_, ?_, hrow⟩)
    · unfold unread
      rw [e3, hreads, e2]
      exact r1
    · intro hh
      rw [e3] at hh; cases hh

/-- The loop of `getValidatedTuple` keeps the bookkeeping of the input: when it
yields, the head of the buffer is read and validated; otherwise the stream is
between two tuples or suspended in a validation. -/
theorem gvLoop_rest (p : Params) (input pend : List TupleData) :
    ∀ (fuel : Nat) (s s' : Splicer) (rc : ExecStreamResult), Rest p input pend s →
      getValidatedTupleLoop p fuel s = .ok (rc, s') →
      Run s s' ∧ (rc = .EXECRC_YIELD → Yielded p input pend s') ∧
      (rc ≠ .EXECRC_YIELD → Rest p input pend s') := by
  intro fuel
  induction fuel with
  | zero =>
    intro s s' rc hr h
    unfold getValidatedTupleLoop at h
    simp only [pure, Except.pure, Except.ok.injEq, Prod.mk.injEq] at h
    obtain ⟨rfl, rfl⟩ := h
    exact ⟨run_refl _, fun hh => (by cases hh), fun _ => hr⟩
  | succ fuel ih =>
    intro s s' rc hr h
    have tail : ∀ (s1 : Splicer), Run s s1 → Rest p input pend s1 → s1.currValidation = true →
        (match validateCurrent p s1 with
          | .ok (some rc, s2) => Except.ok (rc, s2)
          | .ok (none, s2) => getValidatedTupleLoop p fuel s2
          | .error e => .error e) = Except.ok (rc, s') →
        Run s s' ∧ (rc = .EXECRC_YIELD → Yielded p input pend s') ∧
          (rc ≠ .EXECRC_YIELD → Rest p input pend s') := by
      intro s1 k1 hr1 hv1 h
      cases hvc : validateCurrent p s1 with
      | error e => rw [hvc] at h; cases h
      | ok x =>
        obtain ⟨res, s2⟩ := x
        rw [hvc] at h
        obtain ⟨k2, ho⟩ := validate_rest p input pend s1 s2 res hr1 hv1 hvc
        rcases ho with ⟨e1, e2⟩ | ⟨e1, e2⟩ | ⟨e1, e2⟩
        · subst e1
          simp only [Except.ok.injEq, Prod.mk.injEq] at h
          obtain ⟨rfl, rfl⟩ := h
          exact ⟨run_trans k1 k2, fun hh => (by cases hh), fun _ => e2⟩
        · subst e1
          simp only [Except.ok.injEq, Prod.mk.injEq] at h
          obtain ⟨rfl, rfl⟩ := h
          exact ⟨run_trans k1 k2, fun _ => e2, fun hh => absurd rfl hh⟩
        · subst e1
          obtain ⟨g1, g2, g3⟩ := ih s2 s' rc e2 h
          exact ⟨run_trans (run_trans k1 k2) g1, g2, g3⟩
    cases hcv : s.currValidation with
    | true =>
      rw [gvLoop_resume p fuel s hcv] at h
      exact tail s (run_refl s) hr hcv h
    | false =>
      cases hri : readInput p s with
      | error e =>
        unfold getValidatedTupleLoop at h
        rw [hcv] at h
        simp only [Bool.not_false, if_true, hri, bind, Except.bind] at h
        cases h
      | ok x =>
        obtain ⟨early, s1⟩ := x
        have r0 := hr.reads
        unfold unread at r0
        rw [hcv] at r0
        simp only [Bool.false_eq_true, if_false] at r0
        rcases readInput_spec p s s1 early hri with ⟨b1, b2, b3⟩ |
          ⟨t, rest, tr, b1, b2, b3, b4, b5, b6, b7, b8, b9, b10⟩
        · subst b2
          rw [b3] at hri
          rw [gvLoop_early p fuel s s _ hcv hri] at h
          simp only [Except.ok.injEq, Prod.mk.injEq] at h
          obtain ⟨rfl, rfl⟩ := h
          exact ⟨run_refl _, fun hh => (by cases hh), fun _ => hr⟩
        · have hreads : readEvents s1.trace = readEvents s.trace ++ [t] := by
            rw [b2]; exact reads_of_read _ _ _ b3
          have krun : Run s s1 := by
            refine ⟨⟨.readTuple t :: tr, b2, ?_⟩, b4, b5, b6, b7⟩
            intro e he
            rcases List.mem_cons.1 he with h | h
            · rw [h]; rfl
            · exact quiet_inLoop e (b3 e h)
          have hrow : s1.numRowsLoaded =
              if p.computeRowCount then (readEvents s1.trace).length % 2 ^ 64 else 0 := by
            rw [b8, hreads, List.length_append]
            exact rows_succ p _ _ hr.rows
          have hrd : readEvents s1.trace ++ s1.inBuf.tail ++ pend = input := by
            rw [hreads, b9, b1, List.tail_cons, ← r0, b1]
            simp
          have hne : s1.inBuf ≠ [] := by rw [b9, b1]; simp
          rcases b10 with ⟨c1, c2, -⟩ | ⟨c1, c2, -⟩
          · subst c1
            rw [gvLoop_early p fuel s s1 _ hcv hri] at h
            simp only [Except.ok.injEq, Prod.mk.injEq] at h
            obtain ⟨rfl, rfl⟩ := h
            exact ⟨krun, fun _ => ⟨hrd, hne, c2.trans hcv, hrow⟩, fun hh => absurd rfl hh⟩
          · subst c1
            rw [gvLoop_read p fuel s s1 hcv hri] at h
            refine tail s1 krun ⟨?_, fun _ => hne, hrow⟩ c2 h
            unfold unread
            rw [c2]
            exact hrd

theorem run_summaries {s s' : Splicer} (h : Run s s') :
    summaries s'.trace = summaries s.trace := by
  obtain ⟨tr, e1, e2⟩ := h.ext
  unfold summaries
  rw [e1, List.filterMap_append]
  have : tr.filterMap (fun e => match e with
      | .outputTuple n => some n
      | _ => none) = [] := by
    rw [List.filterMap_eq_nil_iff]
    intro e he
    have := e2 e he
    cases e <;> simp [Event.inLoop, Event.isControl] at this ⊢
  rw [this, List.append_nil]

theorem run_versions {s s' : Splicer} (h : Run s s') :
    versionCalls s'.trace = versionCalls s.trace := by
  obtain ⟨tr, e1, e2⟩ := h.ext
  unfold versionCalls
  rw [e1, List.filterMap_append]
  have : tr.filterMap (fun e => match e with
      | .versionPage a b => some (a, b)
      | _ => none) = [] := by
    rw [List.filterMap_eq_nil_iff]
    intro e he
    have := e2 e he
    cases e <;> simp [Event.inLoop, Event.isControl] at this ⊢
  rw [this, List.append_nil]

theorem readInput_run (p : Params) (s s1 : Splicer) (early : Option ExecStreamResult)
    (h : readInput p s = .ok (early, s1)) : Run s s1 := by
  rcases readInput_spec p s s1 early h with ⟨-, -, b3⟩ |
    ⟨t, rest, tr, -, b2, b3, b4, b5, b6, b7, -⟩
  · rw [b3]; exact run_refl _
  · refine ⟨⟨.readTuple t :: tr, b2, ?_⟩, b4, b5, b6, b7⟩
    intro e he
    rcases List.mem_cons.1 he with h | h
    · rw [h]; rfl
    · exact quiet_inLoop e (b3 e h)

/-- The loop of `getValidatedTuple` makes only the calls of the loop of
`execute`. -/
theorem gvLoop_run (p : Params) :
    ∀ (fuel : Nat) (s s' : Splicer) (rc : ExecStreamResult),
      getValidatedTupleLoop p fuel s = .ok (rc, s') → Run s s' := by
  intro fuel
  induction fuel with
  | zero =>
    intro s s' rc h
    unfold getValidatedTupleLoop at h
    simp only [pure, Except.pure, Except.ok.injEq, Prod.mk.injEq] at h
    rw [← h.2]; exact run_refl _
  | succ fuel ih =>
    intro s s' rc h
    have tail : ∀ (s1 : Splicer), Run s s1 →
        (match validateCurrent p s1 with
          | .ok (some rc, s2) => Except.ok (rc, s2)
          | .ok (none, s2) => getValidatedTupleLoop p fuel s2
          | .error e => .error e) = Except.ok (rc, s') → Run s s' := by
      intro s1 k1 h
      cases hvc : validateCurrent p s1 with
      | error e => rw [hvc] at h; cases h
      | ok x =>
        obtain ⟨res, s2⟩ := x
        rw [hvc] at h
        have k2 := run_of_tick (validateCurrent_spec p s1 s2 res hvc).1
        cases res with
        | some r =>
          simp only [Except.ok.injEq, Prod.mk.injEq] at h
          rw [← h.2]; exact run_trans k1 k2
        | none => exact run_trans (run_trans k1 k2) (ih s2 s' rc h)
    cases hcv : s.currValidation with
    | true =>
      rw [gvLoop_resume p fuel s hcv] at h
      exact tail s (run_refl s) h
    | false =>
      cases hri : readInput p s with
      | error e =>
        unfold getValidatedTupleLoop at h
        rw [hcv] at h
        simp only [Bool.not_false, if_true, hri, bind, Except.bind] at h
        cases h
      | ok x =>
        obtain ⟨early, s1⟩ := x
        have k1 := readInput_run p s s1 early hri
        cases early with
        | some r =>
          rw [gvLoop_early p fuel s s1 r hcv hri] at h
          simp only [Except.ok.injEq, Prod.mk.injEq] at h
          rw [← h.2]; exact k1
        | none =>
          rw [gvLoop_read p fuel s s1 hcv hri] at h
          exact tail s1 k1 h

/-- The loop of `execute` makes only the calls of the loop. -/
theorem executeLoop_run (p : Params) :
    ∀ (n : Nat) (s s' : Splicer) (rc : ExecStreamResult),
      executeLoop p n s = .ok (rc, s') → Run s s' := by
  intro n
  induction n with
  | zero =>
    intro s s' rc h
    unfold executeLoop at h
    simp only [pure, Except.pure, Except.ok.injEq, Prod.mk.injEq] at h
    rw [← h.2]; exact run_refl _
  | succ n ih =>
    intro s s' rc h
    unfold executeLoop at h
    obtain ⟨⟨r1, s1⟩, h1, h⟩ := bind_ok_inv h
    have k1 := gvLoop_run p _ s s1 r1 h1
    dsimp only at h
    split_ifs at h with hy
    · simp only [pure, Except.pure, Except.ok.injEq, Prod.mk.injEq] at h
      rw [← h.2]; exact k1
    · obtain ⟨s2, h2, h⟩ := bind_ok_inv h
      exact run_trans (run_trans k1 (run_of_tick (processTuple_spec p s1 s2 h2).1)) (ih s2 s' rc h)

/-- The loop of `execute` keeps the bookkeeping of the input. -/
theorem executeLoop_rest (p : Params) (input pend : List TupleData) :
    ∀ (n : Nat) (s s' : Splicer) (rc : ExecStreamResult), Rest p input pend s →
      executeLoop p n s = .ok (rc, s') → Rest p input pend s' := by
  intro n
  induction n with
  | zero =>
    intro s s' rc hr h
    unfold executeLoop at h
    simp only [pure, Except.pure, Except.ok.injEq, Prod.mk.injEq] at h
    rw [← h.2]; exact hr
  | succ n ih =>
    intro s s' rc hr h
    unfold executeLoop at h
    obtain ⟨⟨r1, s1⟩, h1, h⟩ := bind_ok_inv h
    obtain ⟨-, g2, g3⟩ := gvLoop_rest p input pend _ s s1 r1 hr h1
    dsimp only at h
    split_ifs at h with hy
    · simp only [pure, Except.pure, Except.ok.injEq, Prod.mk.injEq] at h
      rw [← h.2]; exact g3 hy
    · obtain ⟨s2, h2, h⟩ := bind_ok_inv h
      have hy2 : r1 = .EXECRC_YIELD := not_not.1 hy
      have y := g2 hy2
      obtain ⟨k, c1, c2⟩ := processTuple_spec p s1 s2 h2
      refine ih s2 s' rc ⟨?_, ?_, ?_⟩ h
      · unfold unread
        rw [c1, y.noVal, tick_reads k, c2]
        exact y.reads
      · intro hh
        rw [c1, y.noVal] at hh; cases hh
      · rw [k.rows, tick_reads k]; exact y.rows

theorem execute_when_done (p : Params) (q : Nat) (s : Splicer) (h : s.isDone = true) :
    execute p q s = .ok (.EXECRC_EOS,
      (if s.newIndexCreated then s.emit (.versionPage s.origRootPageId s.rootPageId)
        else s).emit .markEOS) := by
  unfold execute
  rw [if_pos h]
  rfl

theorem execute_in_loop (p : Params) (q : Nat) (s : Splicer) (h : s.isDone = false)
    (hl : ¬(s.inBuf.length = 0 ∧ s.inEOS = true)) :
    execute p q s = executeLoop p q s := by
  unfold execute
  rw [h, if_neg Bool.false_ne_true, if_neg hl]

/-- The call of `execute` that finds the input at end-of-stream: the pending
accumulator is flushed by one `insertBitmapEntry`, the row count is taken from
the member or from the shared parameter, written to the parameter asked for and
produced as the summary tuple, and the stream is done. -/
theorem execute_at_eos (p : Params) (q : Nat) (s s' : Splicer) (rc : ExecStreamResult)
    (h0 : s.isDone = false) (h1 : s.inBuf.length = 0 ∧ s.inEOS = true)
    (h : execute p q s = .ok (rc, s')) :
    ∃ s1, (if s.currEntry then insertBitmapEntry p s else pure s) = .ok s1 ∧
      Step Event.isIndexOp s s1 ∧ rc = .EXECRC_BUF_OVERFLOW ∧ s'.isDone = true ∧
      s'.index = s1.index ∧ s'.newIndexCreated = s.newIndexCreated ∧
      s'.rootPageId = s.rootPageId ∧ s'.origRootPageId = s.origRootPageId ∧
      s'.inBuf = s.inBuf ∧
      s'.trace = s1.trace ++
        (if p.writeRowCountParam then
          [.writeParam (if p.computeRowCount then s.numRowsLoaded else s.insertRowCountParam)]
          else []) ++
        [.outputTuple (if p.computeRowCount then s.numRowsLoaded else s.insertRowCountParam)] ∧
      s'.currValidation = s.currValidation ∧ s'.insertRowCountParam = s.insertRowCountParam ∧
      s'.currEntry = s1.currEntry ∧ s'.inEOS = s.inEOS ∧
      s'.numRowsLoaded =
        (if p.computeRowCount then s.numRowsLoaded else s.insertRowCountParam) ∧
      s'.currExistingEntry = s1.currExistingEntry := by
  unfold execute at h
  rw [h0, if_neg Bool.false_ne_true, if_pos h1] at h
  have fin : ∀ s1 : Splicer, (if s.currEntry then insertBitmapEntry p s else pure s) = .ok s1 →
      Step Event.isIndexOp s s1 →
      (Except.ok (ExecStreamResult.EXECRC_BUF_OVERFLOW,
        (let s2 := if !p.computeRowCount then
            { s1 with numRowsLoaded := s1.insertRowCountParam } else s1
         let s3 := if p.writeRowCountParam then s2.emit (.writeParam s2.numRowsLoaded) else s2
         { s3.emit (.outputTuple s3.numRowsLoaded) with isDone := true })) :
        Except Fatal (ExecStreamResult × Splicer)) = .ok (rc, s') →
      ∃ s1, (if s.currEntry then insertBitmapEntry p s else pure s) = .ok s1 ∧
      Step Event.isIndexOp s s1 ∧ rc = .EXECRC_BUF_OVERFLOW ∧ s'.isDone = true ∧
      s'.index = s1.index ∧ s'.newIndexCreated = s.newIndexCreated ∧
      s'.rootPageId = s.rootPageId ∧ s'.origRootPageId = s.origRootPageId ∧
      s'.inBuf = s.inBuf ∧
      s'.trace = s1.trace ++
        (if p.writeRowCountParam then
          [.writeParam (if p.computeRowCount then s.numRowsLoaded else s.insertRowCountParam)]
          else []) ++
        [.outputTuple (if p.computeRowCount then s.numRowsLoaded else s.insertRowCountParam)] ∧
      s'.currValidation = s.currValidation ∧ s'.insertRowCountParam = s.insertRowCountParam ∧
      s'.currEntry = s1.currEntry ∧ s'.inEOS = s.inEOS ∧
      s'.numRowsLoaded =
        (if p.computeRowCount then s.numRowsLoaded else s.insertRowCountParam) ∧
      s'.currExistingEntry = s1.currExistingEntry := by
    intro s1 e1 k h
    simp only [Except.ok.injEq, Prod.mk.injEq] at h
    obtain ⟨rfl, rfl⟩ := h
    refine ⟨s1, e1, k, rfl, rfl, ?_, ?_, ?_, ?_, ?_, ?_, ?_, ?_, ?_, ?_, ?_, ?_⟩
    · cases p.computeRowCount <;> cases p.writeRowCountParam <;> rfl
    · rw [← k.created]
      cases p.computeRowCount <;> cases p.writeRowCountParam <;> rfl
    · rw [← k.root]
      cases p.computeRowCount <;> cases p.writeRowCountParam <;> rfl
    · rw [← k.orig]
      cases p.computeRowCount <;> cases p.writeRowCountParam <;> rfl
    · rw [← k.buf]
      cases p.computeRowCount <;> cases p.writeRowCountParam <;> rfl
    · rw [← k.rows, ← k.param]
      cases p.computeRowCount <;> cases p.writeRowCountParam <;>
        simp [Splicer.emit]
    · rw [← k.val]
      cases p.computeRowCount <;> cases p.writeRowCountParam <;> rfl
    · rw [← k.param]
      cases p.computeRowCount <;> cases p.writeRowCountParam <;> rfl
    · cases p.computeRowCount <;> cases p.writeRowCountParam <;> rfl
    · rw [← k.eos]
      cases p.computeRowCount <;> cases p.writeRowCountParam <;> rfl
    · rw [← k.rows, ← k.param]
      cases p.computeRowCount <;> cases p.writeRowCountParam <;> rfl
    · cases p.computeRowCount <;> cases p.writeRowCountParam <;> rfl
  dsimp only at h
  by_cases hc : s.currEntry = true
  · rw [if_pos hc] at h
    obtain ⟨s1, e1, h⟩ := bind_ok_inv h
    exact fin s1 (by rw [if_pos hc]; exact e1) (insertBitmapEntry_step p s s1 e1) h
  · rw [if_neg hc] at h
    exact fin s (by rw [if_neg hc]; rfl) (step_refl _ _) h

/-! ## C22: the guard of `findBetterEntry` -/

/-- The branch of `findBetterEntry` taken on an on-disk match is the one under
`betterGuard`. -/
theorem findBetterEntry_uses_guard (p : Params) (bitmapEntry : TupleData) (s : Splicer) :
    findBetterEntry p bitmapEntry s = (do
      cAssert p p.computeRowCount
      let (e, s1) := isEmpty s
      if !e then
        let (found, s2) ← findBTreeEntry p bitmapEntry s1
        if found then
          if betterGuard (roundToByteBoundary s2.bTreeTupleData.startRid) bitmapEntry.startRid
              (roundToByteBoundary s2.pCurrentEntry.startRid) then
            let rc := p.codec.getRowCount s2.pCurrentEntry
            let rowCount := if rc = 1 then LbmOneByteSize else rc
            if roundToByteBoundary s2.bTreeTupleData.startRid ≥
                  roundToByteBoundary s2.pCurrentEntry.startRid ∧
                roundToByteBoundary s2.bTreeTupleData.startRid <
                  (roundToByteBoundary s2.pCurrentEntry.startRid + rowCount) % ridModulus then
              pure s2
            else
              let s3 ← insertBitmapEntry p s2
              pure (createNewBitmapEntry s3.bTreeTupleData { s3 with currExistingEntry := true })
          else pure s2
        else pure s2
      else pure s1) := rfl

/-- C22: the guard of `findBetterEntry` holds exactly in the three cases
documented above it: for all row-ids `b` (on-disk start), `n` (new row-id) and
`c` (accumulator start), `(c > n ∧ c > b) ∨ (n ≥ b ∧ b > c)` if and only if
`b ≤ n < c`, or `c < b ≤ n`, or `n ≤ b < c`; and the first and the third case
together are `c > n ∧ c > b`. -/
theorem betterGuard_iff_cases (b n c : Nat) :
    (betterGuard b n c ↔ betterCases b n c) ∧
    (((b ≤ n ∧ n < c) ∨ (n ≤ b ∧ b < c)) ↔ (c > n ∧ c > b)) := by
  unfold betterGuard betterCases
  constructor <;> constructor <;> intro h <;> omega

/-! ## C21: the rows of a key already on disk -/

theorem isEmpty_inputTuple (s : Splicer) : (isEmpty s).2.inputTuple = s.inputTuple := by
  unfold isEmpty searchFirst endSearch Splicer.emit
  dsimp only
  split_ifs <;> rfl

theorem isEmpty_unknown (s : Splicer) (hu : s.emptyTableUnknown = true) :
    (isEmpty s).1 = true ↔ s.index = [] := by
  rw [← List.length_eq_zero]
  by_cases h : s.index.length = 0
  · simp [isEmpty, searchFirst, endSearch, Splicer.emit, hu, h]
  · simp [isEmpty, searchFirst, endSearch, Splicer.emit, hu, h]

/-- C21: `countKeyRows` returns 0 or 1: 0 when `isEmpty` answers that the index
is empty (the actual emptiness while it is unknown), when `findBTreeEntry` finds
no on-disk entry for the input key, or when the start row-id of the entry found
is in the deletion index, and 1 otherwise.  The step of `getValidatedTuple` that
calls it leaves the state, hence `nKeyRows`, as it is when a validation took
place before and the input key equals the key validated last; otherwise it
records the key and sets `nKeyRows` to the count. -/
theorem countKeyRows_spec (p : Params) (s s' : Splicer) (n : Nat)
    (h : countKeyRows p s = .ok (n, s')) :
    (n = 0 ∨ n = 1) ∧
    ((isEmpty s).1 = true → n = 0) ∧
    ((isEmpty s).1 = false →
      ∃ found s2, findBTreeEntry p s.inputTuple (isEmpty s).2 = .ok (found, s2) ∧
        (found = false → n = 0) ∧
        (found = true → n = if s2.bTreeTupleData.startRid ∈ p.deleted then 0 else 1)) ∧
    (s.emptyTableUnknown = true → ((isEmpty s).1 = true ↔ s.index = [])) ∧
    (∀ t : Splicer, t.firstValidation = false →
      compareCols t.inputTuple.cols t.currUniqueKey p.nIdxKeys = 0 → beginGroup p t = .ok t) ∧
    (∀ t : Splicer,
      t.firstValidation = true ∨ compareCols t.inputTuple.cols t.currUniqueKey p.nIdxKeys ≠ 0 →
      beginGroup p t =
        (countKeyRows p { t with firstValidation := false,
                                 currUniqueKey := t.inputTuple.keys.take p.nIdxKeys }).map
          (fun r => { r.2 with nKeyRows := r.1 })) := by
  have main : (n = 0 ∨ n = 1) ∧ ((isEmpty s).1 = true → n = 0) ∧
      ((isEmpty s).1 = false →
        ∃ found s2, findBTreeEntry p s.inputTuple (isEmpty s).2 = .ok (found, s2) ∧
          (found = false → n = 0) ∧
          (found = true → n = if s2.bTreeTupleData.startRid ∈ p.deleted then 0 else 1)) := by
    unfold countKeyRows at h
    obtain ⟨u, -, h⟩ := bind_ok_inv h
    have hi := isEmpty_inputTuple s
    generalize isEmpty s = r0 at h hi ⊢
    obtain ⟨e, s1⟩ := r0
    dsimp only at h hi ⊢
    rw [hi] at h
    split_ifs at h with he
    · simp only [pure, Except.pure, Except.ok.injEq, Prod.mk.injEq] at h
      obtain ⟨rfl, -⟩ := h
      exact ⟨Or.inl rfl, fun _ => rfl, fun hh => (by simp [he] at hh)⟩
    · obtain ⟨⟨found, s2⟩, hf, h⟩ := bind_ok_inv h
      dsimp only at h
      have he2 : e = false := by cases e <;> simp at he ⊢
      cases found with
      | false =>
        simp only [Bool.not_false, if_true, pure, Except.pure, Except.ok.injEq,
          Prod.mk.injEq] at h
        obtain ⟨rfl, -⟩ := h
        exact ⟨Or.inl rfl, fun hh => (by simp [he2] at hh),
          fun _ => ⟨false, s2, hf, fun _ => rfl, fun hh => (by cases hh)⟩⟩
      | true =>
        simp only [Bool.not_true, Bool.false_eq_true, if_false] at h
        obtain ⟨u2, -, h⟩ := bind_ok_inv h
        unfold searchForRid at h
        dsimp only at h
        by_cases hd : s2.bTreeTupleData.startRid ∈ p.deleted
        · simp only [hd, decide_True, if_true, pure, Except.pure, Except.ok.injEq,
            Prod.mk.injEq] at h
          obtain ⟨rfl, -⟩ := h
          exact ⟨Or.inl rfl, fun hh => (by simp [he2] at hh),
            fun _ => ⟨true, s2, hf, fun hh => (by cases hh), fun _ => (by rw [if_pos hd])⟩⟩
        · simp only [hd, decide_False, Bool.false_eq_true, if_false, pure, Except.pure,
            Except.ok.injEq, Prod.mk.injEq] at h
          obtain ⟨rfl, -⟩ := h
          exact ⟨Or.inr rfl, fun hh => (by simp [he2] at hh),
            fun _ => ⟨true, s2, hf, fun hh => (by cases hh), fun _ => (by rw [if_neg hd])⟩⟩
  refine ⟨main.1, main.2.1, main.2.2, isEmpty_unknown s, ?_, ?_⟩
  · intro t h1 h2
    unfold beginGroup
    rw [h1, h2]
    rfl
  · intro t ht
    unfold beginGroup
    have hc : (t.firstValidation ||
        decide (compareCols t.inputTuple.cols t.currUniqueKey p.nIdxKeys ≠ 0)) = true := by
      rcases ht with h1 | h1
      · rw [h1]; rfl
      · simp [h1]
    rw [if_pos hc]
    dsimp only
    generalize countKeyRows p _ = r
    cases r <;> rfl

set_option maxHeartbeats 4000000 in
/-- C21 witness: the index holds the key 5 at row 3, not deleted; the count for
the input key 5 is 1. -/
theorem countKeyRows_spec_witness :
    countKeyRows (uniqueParams false []) keyFiveRead = .ok (1, keyFiveCounted) ∧
    (isEmpty keyFiveRead).1 = false ∧
    ∃ s2, findBTreeEntry (uniqueParams false []) keyFiveRead.inputTuple (isEmpty keyFiveRead).2
        = .ok (true, s2) ∧ s2.bTreeTupleData.startRid = 3 := by
  have h : countKeyRows (uniqueParams false []) keyFiveRead = .ok (1, keyFiveCounted) := by decide!
  have he : (isEmpty keyFiveRead).1 = false := by decide!
  obtain ⟨found, s2, k1, k2, k3⟩ :=
    (countKeyRows_spec (uniqueParams false []) keyFiveRead keyFiveCounted 1 h).2.2.1 he
  cases found with
  | false => exact absurd (k2 rfl) (by decide!)
  | true =>
    refine ⟨h, he, s2, k1, ?_⟩
    have k4 : (findBTreeEntry (uniqueParams false []) keyFiveRead.inputTuple
        (isEmpty keyFiveRead).2).map (fun r => r.2.bTreeTupleData.startRid) = .ok 3 := by decide!
    rw [k1] at k4
    exact Except.ok.inj k4

/-! ## C23: the cursor and the entry returned by `findBTreeEntry` -/

theorem setTuple_onReturned (s : Splicer) (d : TupleData) (h : s.current.isSome = true) :
    OnReturned { s with bTreeTupleData := unmarshal s d } := by
  show s.current = some (unmarshal s d)
  unfold unmarshal
  cases hc : s.current with
  | none => rw [hc] at h; cases h
  | some t => rfl

theorem glbIdx_lt_length (p : Params) (index : List TupleData) (key : TupleData)
    (hne : index ≠ []) : glbIdx p index key < index.length := by
  have hlen : 0 < index.length := List.length_pos.2 hne
  have hle : lubIdx p index key ≤ index.length := List.findIdx_le_length _
  unfold glbIdx
  dsimp only
  cases he : index.get? (lubIdx p index key) with
  | none => dsimp only; omega
  | some e =>
    have hlt : lubIdx p index key < index.length := by
      rw [List.get?_eq_getElem?] at he
      exact (List.getElem?_eq_some_iff.1 he).1
    dsimp only
    split_ifs <;> omega

theorem searchForKey_glb_current (p : Params) (key : TupleData) (s : Splicer)
    (hne : s.index ≠ []) : (searchForKey p key false s).2.current.isSome = true := by
  obtain ⟨h1, h2, -, -⟩ := searchForKey_glb p key s hne
  unfold Splicer.current
  rw [h1, h2]
  dsimp only
  have := glbIdx_lt_length p s.index key hne
  rw [List.get?_eq_getElem?, List.getElem?_eq_getElem this]
  rfl

theorem searchForKey_found_current (p : Params) (key : TupleData) (lu : Bool) (s : Splicer)
    (h : (searchForKey p key lu s).1 = true) :
    (searchForKey p key lu s).2.current.isSome = true := by
  obtain ⟨e, he, -⟩ := (searchForKey_spec p key lu s).2.2 h
  rw [he]; rfl

theorem searchNext_current (s : Splicer) :
    (searchNext s).2.index = s.index ∧
    (searchNext s).2.bTreeTupleData = s.bTreeTupleData ∧
    ((searchNext s).1 = true → (searchNext s).2.current.isSome = true) ∧
    ((searchNext s).1 = false → (searchNext s).2.cursor = none ∧
      (OnReturned s → s.index.getLast? = some s.bTreeTupleData)) := by
  unfold searchNext
  dsimp only
  cases hc : s.cursor with
  | none =>
    dsimp only
    refine ⟨rfl, rfl, fun h => (by cases h), fun _ => ⟨hc, fun ho => ?_⟩⟩
    unfold OnReturned Splicer.current at ho
    rw [hc] at ho
    cases ho
  | some i =>
    dsimp only
    split_ifs with hi
    · refine ⟨rfl, rfl, fun _ => ?_, fun h => (by cases h)⟩
      show (s.index.get? (i + 1)).isSome = true
      rw [List.get?_eq_getElem?, List.getElem?_eq_getElem hi]
      rfl
    · refine ⟨rfl, rfl, fun h => (by cases h), fun _ => ⟨rfl, fun ho => ?_⟩⟩
      unfold OnReturned Splicer.current at ho
      rw [hc] at ho
      dsimp only at ho
      rw [List.get?_eq_getElem?] at ho
      have hlt := (List.getElem?_eq_some_iff.1 ho).1
      have : i = s.index.length - 1 := by omega
      rw [List.getLast?_eq_getElem?, ← this]
      exact ho

/-- When `findBTreeEntry` returns true on a non-empty index, the writer is on
the entry returned in `bTreeTupleData`, except in the no-key case when the
greatest-lower-bound entry does not overlap the row-id and is the last entry of
the index: `searchNext` then fails, the entry is returned all the same, and the
writer is left unpositioned. -/
theorem findBTreeEntry_cursor (p : Params) (e : TupleData) (s s' : Splicer)
    (hne : s.index ≠ []) (h : findBTreeEntry p e s = .ok (true, s')) :
    OnReturned s' ∨
    (p.nIdxKeys = 0 ∧ s'.cursor = none ∧ s.index.getLast? = some s'.bTreeTupleData ∧
      ridOverlaps p e.startRid s'.bTreeTupleData false = false) := by
  have a0 := (searchForKey_spec p e (decide (p.nIdxKeys > 0)) s).1
  have a1 := searchForKey_found_current p e (decide (p.nIdxKeys > 0)) s
  have a2 : p.nIdxKeys = 0 →
      (searchForKey p e (decide (p.nIdxKeys > 0)) s).2.current.isSome = true := by
    intro hn
    rw [hn]
    exact searchForKey_glb_current p e s hne
  generalize hs1 : searchForKey p e (decide (p.nIdxKeys > 0)) s = r1 at a0 a1 a2
  obtain ⟨m, s1⟩ := r1
  dsimp only at a0 a1 a2
  simp only [findBTreeEntry, findMatchingBTreeEntry, hs1, cAssert, bind, Except.bind, pure,
    Except.pure] at h
  have b1 : s1.current.isSome = true →
      OnReturned { s1 with bTreeTupleData := unmarshal s1 s.bTreeTupleData } :=
    setTuple_onReturned s1 _
  have b2 : ({ s1 with bTreeTupleData := unmarshal s1 s.bTreeTupleData } : Splicer).index
      = s.index := a0
  have b3 : isSingular { s1 with bTreeTupleData := unmarshal s1 s.bTreeTupleData } = false →
      s1.current.isSome = true := by
    intro hh
    have : s1.current.isNone = false := hh
    cases hc : s1.current with
    | none => rw [hc] at this; cases this
    | some t => rfl
  have b4 : ({ s1 with bTreeTupleData := unmarshal s1 s.bTreeTupleData } : Splicer).bTreeTupleData
      = unmarshal s1 s.bTreeTupleData := rfl
  generalize hs2 : ({ s1 with bTreeTupleData := unmarshal s1 s.bTreeTupleData } : Splicer) = s2
    at h b1 b2 b3 b4
  obtain ⟨c0, c1, c2, c3⟩ := searchNext_current s2
  generalize hs3 : searchNext s2 = r3 at h c0 c1 c2 c3
  obtain ⟨m3, s3⟩ := r3
  dsimp only at c0 c1 c2 c3
  have d1 : s3.current.isSome = true →
      OnReturned { s3 with bTreeTupleData := unmarshal s3 s3.bTreeTupleData } :=
    setTuple_onReturned s3 _
  have d2 : ({ s3 with bTreeTupleData := unmarshal s3 s3.bTreeTupleData } : Splicer).index
      = s.index := c0.trans b2
  generalize hs4 : ({ s3 with bTreeTupleData := unmarshal s3 s3.bTreeTupleData } : Splicer) = s4
    at h d1 d2
  have e1 := searchForKey_glb_current p e s4 (by rw [d2]; exact hne)
  generalize hs5 : searchForKey p e false s4 = r5 at h e1
  obtain ⟨m5, s5⟩ := r5
  have f1 := searchForKey_glb_current p e s2 (by rw [b2]; exact hne)
  generalize hs6 : searchForKey p e false s2 = r6 at h f1
  obtain ⟨m6, s6⟩ := r6
  dsimp only at e1 f1
  have e2 := setTuple_onReturned s5 s5.bTreeTupleData e1
  have f2 := setTuple_onReturned s6 s6.bTreeTupleData f1
  split_ifs at h <;> simp only [Except.ok.injEq, Prod.mk.injEq] at h
  all_goals first
    | (obtain ⟨-, rfl⟩ := h; exact Or.inl e2)
    | (obtain ⟨-, rfl⟩ := h; exact Or.inl f2)
    | (obtain ⟨-, rfl⟩ := h; exact Or.inl (d1 (c2 (by assumption))))
    | (obtain ⟨-, rfl⟩ := h; exact Or.inl (b1 (a2 (by assumption))))
    | (obtain ⟨hm, rfl⟩ := h; exact Or.inl (b1 (a1 hm)))
    | skip
  · obtain ⟨-, rfl⟩ := h
    rename_i hn ho hm3
    have hm3' : m3 = false := by
      cases m3
      · rfl
      · exact absurd rfl hm3
    refine Or.inr ⟨hn, (c3 hm3').1, ?_, ?_⟩
    · rw [c1, ← b2]; exact (c3 hm3').2 (b1 (a2 hn))
    · rw [c1, b4]
      simpa using ho
  · obtain ⟨-, rfl⟩ := h
    rename_i hk _
    refine Or.inl (b1 (b3 ?_))
    simp only [Bool.and_eq_true, Bool.not_eq_true'] at hk
    exact hk.1

set_option maxHeartbeats 4000000 in
/-- C23 fails in the no-key case when the greatest-lower-bound entry is the last
entry of the index: the index holds the entry of rows 0 and 1, the fragment is
row 100; `findBTreeEntry` returns true with that entry in `bTreeTupleData` and
the writer unpositioned after the failed `searchNext`, the entry is adopted, and
the flush at end-of-stream, which performs no re-location, calls `deleteCurrent`
on the unpositioned writer. -/
theorem findBTreeEntry_unpositioned_on_last :
    (findBTreeEntry (keylessParams (listCodec 100)) (singleton [] 100) lastEntryStream).map
        (fun r => (r.1, r.2.bTreeTupleData, r.2.cursor, r.2.current)) =
      .ok (true, bitmap [] 0 [1], none, none) ∧
    (execute (keylessParams (listCodec 100)) 10
        (deliverSlice { deliver := 1, eos := true, room := 0, quantum := 10 } [singleton [] 100]
          lastEntryStream)).map
        (fun r => (r.2.currExistingEntry, r.2.bTreeWriterMoved, r.2.cursor,
          r.2.pCurrentEntry, r.2.index)) =
      .ok (true, false, none, bitmap [] 0 [1, 100], [bitmap [] 0 [1]]) ∧
    runSched (keylessParams (listCodec 100)) twoCalls [singleton [] 100] lastEntryStream =
      .error .notPositioned :=
  ⟨by decide!, by decide!, by decide!⟩

/-! ## C13: a run on an empty input stream -/

theorem readInput_empty (p : Params) (s : Splicer) (h : s.inBuf = []) :
    readInput p s = .ok (some .EXECRC_BUF_UNDERFLOW, s) := by
  unfold readInput
  rw [h]
  rfl

theorem executeLoop_empty (p : Params) (q : Nat) (s : Splicer) (hb : s.inBuf = [])
    (hv : s.currValidation = false) : ∃ rc, executeLoop p q s = .ok (rc, s) := by
  cases q with
  | zero => exact ⟨_, rfl⟩
  | succ n =>
    have h : getValidatedTuple p s = .ok (.EXECRC_BUF_UNDERFLOW, s) :=
      gvLoop_early p _ s s _ hv (readInput_empty p s hb)
    exact ⟨_, executeLoop_stop p n s s _ h (fun hh => by cases hh)⟩

theorem execute_eos_total (p : Params) (q : Nat) (s : Splicer) (h0 : s.isDone = false)
    (h1 : s.inBuf.length = 0 ∧ s.inEOS = true) (hc : s.currEntry = false) :
    ∃ s', execute p q s = .ok (.EXECRC_BUF_OVERFLOW, s') := by
  unfold execute
  rw [h0, if_neg Bool.false_ne_true, if_pos h1]
  dsimp only
  rw [hc, if_neg Bool.false_ne_true]
  exact ⟨_, rfl⟩

theorem versionCalls_emit (s : Splicer) (e : Event) (h : ∀ a b, e ≠ .versionPage a b) :
    versionCalls (s.emit e).trace = versionCalls s.trace := by
  show versionCalls (s.trace ++ [e]) = _
  unfold versionCalls
  rw [List.filterMap_append]
  cases e <;> first | exact absurd rfl (h _ _) | simp

theorem emptyRun_step (p : Params) (index : List TupleData) (root cnt : Nat) (sl : Slice)
    (s : Splicer) (h : EmptyRun p index root cnt s) :
    ∃ rc s', execute p sl.quantum (deliverSlice sl [] s) = .ok (rc, s') ∧
      EmptyRun p index root cnt s' ∧ s'.isDone = (s.isDone || sl.eos) := by
  have hb : (deliverSlice sl [] s).inBuf = [] := by
    show s.inBuf ++ List.take sl.deliver [] = []
    rw [h.buf]; simp
  have he : (deliverSlice sl [] s).inEOS = (s.inEOS || sl.eos) := by
    show (s.inEOS || (sl.eos && (List.drop sl.deliver ([] : List TupleData)).isEmpty)) = _
    simp
  cases hd : s.isDone with
  | true =>
    have hx := execute_when_done p sl.quantum (deliverSlice sl [] s) hd
    have hn : (deliverSlice sl [] s).newIndexCreated = false := h.notCreated
    rw [hn, if_neg Bool.false_ne_true] at hx
    refine ⟨_, _, hx, ⟨hb, h.noVal, h.noAcc, h.notCreated, h.rootId, h.idx, ?_, h.param,
      fun hh => ?_, fun hh => ?_, ?_⟩, ?_⟩
    · show versionCalls (s.trace ++ [Event.markEOS]) = []
      unfold versionCalls
      rw [List.filterMap_append]
      exact (congrArg (· ++ []) h.versions)
    · exact absurd (hd.symm.trans hh) (by decide)
    · exact absurd (hd.symm.trans hh) (by decide)
    · show summaries (s.trace ++ [Event.markEOS]) = if s.isDone then _ else _
      unfold summaries
      rw [List.filterMap_append]
      have := h.summary
      unfold summaries at this
      rw [this]
      simp
    · show s.isDone = _
      rw [hd]; rfl
  | false =>
    have hd' : (deliverSlice sl [] s).isDone = false := hd
    cases hs : sl.eos with
    | true =>
      have hE : (deliverSlice sl [] s).inBuf.length = 0 ∧ (deliverSlice sl [] s).inEOS = true := by
        rw [hb, he, hs]
        simp
      obtain ⟨s', hx⟩ := execute_eos_total p sl.quantum _ hd' hE h.noAcc
      obtain ⟨s1, e1, -, -, k1, k2, k3, k4, -, k6, k7, k8, k9, k10, -⟩ :=
        execute_at_eos p sl.quantum _ s' _ hd' hE hx
      have hc : (deliverSlice sl [] s).currEntry = false := h.noAcc
      rw [hc, if_neg Bool.false_ne_true] at e1
      simp only [pure, Except.pure, Except.ok.injEq] at e1
      subst e1
      have hr : (deliverSlice sl [] s).numRowsLoaded = 0 := h.rows hd
      have hp : (deliverSlice sl [] s).insertRowCountParam = cnt := h.param
      rw [hr, hp] at k7
      have ht : (deliverSlice sl [] s).trace = s.trace := rfl
      have hsum := h.summary
      rw [hd] at hsum
      simp only [Bool.false_eq_true, if_false] at hsum
      refine ⟨_, s', hx, ⟨by rw [k6]; exact hb, ?_, ?_, by rw [k3]; exact h.notCreated,
        by rw [k4]; exact h.rootId, by rw [k2]; exact h.idx, ?_, ?_,
        fun hh => absurd (k1.symm.trans hh) (by decide),
        fun hh => absurd (k1.symm.trans hh) (by decide), ?_⟩, by rw [k1]; rfl⟩
      · rw [k8]; exact h.noVal
      · rw [k10]; exact h.noAcc
      · rw [k7, ht]
        unfold versionCalls
        rw [List.filterMap_append, List.filterMap_append]
        have := h.versions
        unfold versionCalls at this
        rw [this]
        cases p.writeRowCountParam <;> simp
      · rw [k9]; exact h.param
      · rw [k7, ht, k1]
        unfold summaries
        rw [List.filterMap_append, List.filterMap_append]
        unfold summaries at hsum
        rw [hsum]
        cases p.writeRowCountParam <;> simp
    | false =>
      have hl : ¬((deliverSlice sl [] s).inBuf.length = 0 ∧ (deliverSlice sl [] s).inEOS = true) := by
        rw [he, h.eos hd, hs]
        simp
      obtain ⟨rc, hx⟩ := executeLoop_empty p sl.quantum (deliverSlice sl [] s) hb h.noVal
      rw [← execute_in_loop p sl.quantum _ hd' hl] at hx
      refine ⟨rc, _, hx, ⟨hb, h.noVal, h.noAcc, h.notCreated, h.rootId, h.idx, h.versions,
        h.param, h.rows, fun _ => ?_, h.summary⟩, ?_⟩
      · rw [he, h.eos hd, hs]; rfl
      · show s.isDone = _
        rw [hd]; rfl

theorem emptyRun_sched (p : Params) (index : List TupleData) (root cnt : Nat) :
    ∀ (sched : List Slice) (s : Splicer), EmptyRun p index root cnt s →
      ∃ sF, runSched p sched [] s = .ok sF ∧ EmptyRun p index root cnt sF ∧
        sF.isDone = (s.isDone || sched.any (fun sl => sl.eos)) := by
  intro sched
  induction sched with
  | nil =>
    intro s h
    exact ⟨s, rfl, h, by simp⟩
  | cons sl rest ih =>
    intro s h
    obtain ⟨rc, s1, h1, h2, h3⟩ := emptyRun_step p index root cnt sl s h
    obtain ⟨sF, g1, g2, g3⟩ := ih s1 h2
    refine ⟨sF, ?_, g2, ?_⟩
    · unfold runSched
      rw [h1]
      simpa using g1
    · rw [g3, h3, List.any_cons, Bool.or_assoc]

set_option maxHeartbeats 4000000 in
/-- C13, as stated, fails when the row count is read from the shared parameter:
in a rebuild whose input stream is empty and whose upstream producer wrote 7,
the summary tuple carries 7, not 0. -/
theorem empty_input_summary_is_parameter :
    (uniqueParams true []).createNewIndex = true ∧
    (runSched (uniqueParams true []) twoCalls [] (openStream [] 0 [] false 0 7)).map
        (fun s => (s.isDone, s.newIndexCreated, summaries s.trace)) = .ok (true, false, [7]) :=
  ⟨rfl, by decide!⟩

/-- C13 (amended): for a run whose input stream is empty, under every schedule
the calls return; no root page is allocated (`newIndexCreated` stays false, the
root page id and the index are as at `open`) and `versionPage` is never called;
the stream is done as soon as a call finds the input at end-of-stream, the
summary tuple produced then carries the row count 0 when the count is computed
locally and the value of the shared parameter otherwise, and every later call
returns `EXECRC_EOS`. -/
theorem empty_input_run (p : Params) (index : List TupleData) (root room cnt : Nat)
    (sched : List Slice) :
    ∃ sF, runSched p sched [] (openStream index root [] false room cnt) = .ok sF ∧
      sF.isDone = sched.any (fun sl => sl.eos) ∧
      sF.newIndexCreated = false ∧ sF.rootPageId = root ∧ sF.index = index ∧
      versionCalls sF.trace = [] ∧
      summaries sF.trace = (if sF.isDone then [if p.computeRowCount then 0 else cnt] else []) ∧
      (sF.isDone = true → ∀ q, ∃ s', execute p q sF = .ok (.EXECRC_EOS, s') ∧
        versionCalls s'.trace = [] ∧ s'.newIndexCreated = false) := by
  have h0 : EmptyRun p index root cnt (openStream index root [] false room cnt) :=
    ⟨rfl, rfl, rfl, rfl, rfl, rfl, rfl, rfl, fun _ => rfl, fun _ => rfl, rfl⟩
  obtain ⟨sF, h1, h2, h3⟩ := emptyRun_sched p index root cnt sched _ h0
  refine ⟨sF, h1, by rw [h3]; rfl, h2.notCreated, h2.rootId, h2.idx, h2.versions, h2.summary, ?_⟩
  intro hd q
  have hx := execute_when_done p q sF hd
  rw [h2.notCreated, if_neg Bool.false_ne_true] at hx
  refine ⟨_, hx, ?_, h2.notCreated⟩
  rw [versionCalls_emit sF .markEOS (fun _ _ hh => by cases hh)]
  exact h2.versions

/-! ## C15: versioning of the root page -/

theorem versionCalls_append (a b : List Event) :
    versionCalls (a ++ b) = versionCalls a ++ versionCalls b := by
  unfold versionCalls
  rw [List.filterMap_append]

theorem summaries_append (a b : List Event) :
    summaries (a ++ b) = summaries a ++ summaries b := by
  unfold summaries
  rw [List.filterMap_append]

theorem execute_run (p : Params) (q : Nat) (s s' : Splicer) (rc : ExecStreamResult)
    (h0 : s.isDone = false) (hl : ¬(s.inBuf.length = 0 ∧ s.inEOS = true))
    (h : execute p q s = .ok (rc, s')) : Run s s' := by
  rw [execute_in_loop p q s h0 hl] at h
  exact executeLoop_run p q s s' rc h

set_option maxHeartbeats 4000000 in
/-- C15, as stated, fails: in a rebuild of one tuple, a schedule that calls
`execute` twice after the summary tuple was produced makes two calls of
`versionPage(0, 1)`. -/
theorem versionPage_twice_when_called_twice :
    (runSched (uniqueParams true []) fourCalls [singleton [some 5] 10]
        (openStream [] 0 [] false 0 0)).map
        (fun s => (s.isDone, s.newIndexCreated, versionCalls s.trace)) =
      .ok (true, true, [(0, 1), (0, 1)]) := by
  decide!

/-- C15 (amended): a call of `execute` calls `versionPage(origRootPageId, root)`
exactly once when it finds the stream done (the summary tuple was produced by an
earlier call) and a new root was allocated in this run (`newIndexCreated`), and
not at all otherwise; such a call returns `EXECRC_EOS` and leaves the stream
done with the same roots, so the root is versioned once per call made after the
summary tuple: at most once in a run in which the scheduler makes one such
call. -/
theorem versionPage_calls (p : Params) (q : Nat) (s s' : Splicer) (rc : ExecStreamResult)
    (h : execute p q s = .ok (rc, s')) :
    versionCalls s'.trace = versionCalls s.trace ++
      (if s.isDone = true ∧ s.newIndexCreated = true then [(s.origRootPageId, s.rootPageId)]
        else []) ∧
    (s.isDone = true → rc = .EXECRC_EOS ∧ s'.isDone = true ∧
      s'.newIndexCreated = s.newIndexCreated ∧ s'.origRootPageId = s.origRootPageId ∧
      s'.rootPageId = s.rootPageId) := by
  cases hd : s.isDone with
  | true =>
    rw [execute_when_done p q s hd] at h
    simp only [Except.ok.injEq, Prod.mk.injEq] at h
    obtain ⟨rfl, rfl⟩ := h
    cases hn : s.newIndexCreated with
    | true =>
      refine ⟨?_, fun _ => ⟨rfl, hd, hn, rfl, rfl⟩⟩
      simp only [eq_self_iff_true, and_self, and_false, false_and, if_true, if_false,
        List.append_nil, Bool.false_eq_true]
      rw [versionCalls_emit _ .markEOS (fun _ _ hh => by cases hh)]
      show versionCalls (s.trace ++ [Event.versionPage s.origRootPageId s.rootPageId]) = _
      rw [versionCalls_append]
      rfl
    | false =>
      refine ⟨?_, fun _ => ⟨rfl, hd, hn, rfl, rfl⟩⟩
      simp only [eq_self_iff_true, and_self, and_false, false_and, if_true, if_false,
        List.append_nil, Bool.false_eq_true]
      exact versionCalls_emit _ .markEOS (fun _ _ hh => by cases hh)
  | false =>
    refine ⟨?_, fun hh => by cases hh⟩
    simp only [eq_self_iff_true, and_self, and_false, false_and, if_true, if_false,
      List.append_nil, Bool.false_eq_true]
    by_cases hE : s.inBuf.length = 0 ∧ s.inEOS = true
    · obtain ⟨s1, -, k, -, -, -, -, -, -, -, k7, -⟩ := execute_at_eos p q s s' rc hd hE h
      rw [k7, versionCalls_append, versionCalls_append,
        run_versions (run_of_tick (tick_of_step (step_mono indexOp_isQuiet k)))]
      cases p.writeRowCountParam <;> simp [versionCalls]
    · exact run_versions (execute_run p q s s' rc hd hE h)

set_option maxHeartbeats 4000000 in
/-- C15 witness: once the rebuild of one tuple is done, with no root versioned
so far, the next call versions the root once, `versionPage(0, 1)`. -/
theorem versionPage_calls_witness :
    rebuiltDone.isDone = true ∧ rebuiltDone.newIndexCreated = true ∧
    versionCalls rebuiltDone.trace = [] ∧
    ∃ s', execute (uniqueParams true []) 10 rebuiltDone = .ok (.EXECRC_EOS, s') ∧
      versionCalls s'.trace = [(0, 1)] := by
  have hd : rebuiltDone.isDone = true := by decide!
  have hn : rebuiltDone.newIndexCreated = true := by decide!
  have hv : versionCalls rebuiltDone.trace = [] := by decide!
  have hx := execute_when_done (uniqueParams true []) 10 rebuiltDone hd
  have k := (versionPage_calls (uniqueParams true []) 10 rebuiltDone _ _ hx).1
  rw [hv, if_pos hn, if_pos (And.intro hd hn)] at k
  refine ⟨hd, hn, hv, _, hx, ?_⟩
  rw [if_pos hn, k]
  decide!

/-! ## C16: one flush and one summary tuple at end-of-stream -/

theorem writeEvents_append (a b : List Event) :
    writeEvents (a ++ b) = writeEvents a ++ writeEvents b := by
  unfold writeEvents
  rw [List.filter_append]

/-- A call of `execute` on a stream that is done writes nothing to the index and
produces no summary tuple. -/
theorem execute_done_frame (p : Params) (q : Nat) (s : Splicer) (hd : s.isDone = true) :
    ∃ s', execute p q s = .ok (.EXECRC_EOS, s') ∧ s'.isDone = true ∧ s'.index = s.index ∧
      writeEvents s'.trace = writeEvents s.trace ∧ summaries s'.trace = summaries s.trace := by
  refine ⟨_, execute_when_done p q s hd, ?_⟩
  cases s.newIndexCreated with
  | true =>
    refine ⟨hd, rfl, ?_, ?_⟩
    · show writeEvents (s.trace ++ [Event.versionPage s.origRootPageId s.rootPageId]
        ++ [Event.markEOS]) = _
      rw [writeEvents_append, writeEvents_append]
      simp [writeEvents, Event.isWrite]
    · show summaries (s.trace ++ [Event.versionPage s.origRootPageId s.rootPageId]
        ++ [Event.markEOS]) = _
      rw [summaries_append, summaries_append]
      simp [summaries]
  | false =>
    refine ⟨hd, rfl, ?_, ?_⟩
    · show writeEvents (s.trace ++ [Event.markEOS]) = _
      rw [writeEvents_append]
      simp [writeEvents, Event.isWrite]
    · show summaries (s.trace ++ [Event.markEOS]) = _
      rw [summaries_append]
      simp [summaries]

theorem runSched_when_done (p : Params) :
    ∀ (sched : List Slice) (pending : List TupleData) (s : Splicer), s.isDone = true →
      ∃ sF, runSched p sched pending s = .ok sF ∧ sF.isDone = true ∧ sF.index = s.index ∧
        writeEvents sF.trace = writeEvents s.trace ∧
        summaries sF.trace = summaries s.trace := by
  intro sched
  induction sched with
  | nil => intro pending s hd; exact ⟨s, rfl, hd, rfl, rfl, rfl⟩
  | cons sl rest ih =>
    intro pending s hd
    obtain ⟨s1, h1, h2, h3, h4, h5⟩ :=
      execute_done_frame p sl.quantum (deliverSlice sl pending s) hd
    obtain ⟨sF, g1, g2, g3, g4, g5⟩ := ih (pending.drop sl.deliver) s1 h2
    refine ⟨sF, ?_, g2, g3.trans h3, g4.trans h4, g5.trans h5⟩
    unfold runSched
    rw [h1]
    exact g1

/-- C16: over every sequence of `execute` calls of a run, a summary tuple is
produced exactly when the stream becomes done, and only once; the call that
finds the input at end-of-stream flushes the pending accumulator (if `currEntry`
is true) by one `insertBitmapEntry`, and the calls after it leave the index and
its writes as that flush left them, so the accumulator is not flushed again. -/
theorem flush_once (p : Params) :
    ∀ (sched : List Slice) (pending : List TupleData) (s sF : Splicer),
      s.isDone = false → summaries s.trace = [] → runSched p sched pending s = .ok sF →
      (summaries sF.trace).length = (if sF.isDone then 1 else 0) ∧
      (sF.isDone = true →
        ∃ (pre post : List Slice) (sl : Slice) (s0 s1 : Splicer),
          sched = pre ++ sl :: post ∧ runSched p pre pending s = .ok s0 ∧ s0.isDone = false ∧
          (deliverSlice sl (pending.drop (pre.map (fun x => x.deliver)).sum) s0).inBuf = [] ∧
          (deliverSlice sl (pending.drop (pre.map (fun x => x.deliver)).sum) s0).inEOS = true ∧
          (if (deliverSlice sl (pending.drop (pre.map (fun x => x.deliver)).sum) s0).currEntry
            then insertBitmapEntry p
              (deliverSlice sl (pending.drop (pre.map (fun x => x.deliver)).sum) s0)
            else pure (deliverSlice sl (pending.drop (pre.map (fun x => x.deliver)).sum) s0))
            = .ok s1 ∧
          sF.index = s1.index ∧ writeEvents sF.trace = writeEvents s1.trace) := by
  intro sched
  induction sched with
  | nil =>
    intro pending s sF h0 hs h
    simp only [runSched, Except.ok.injEq] at h
    subst h
    rw [h0, hs]
    exact ⟨rfl, fun hh => (by cases hh)⟩
  | cons sl rest ih =>
    intro pending s sF h0 hs h
    unfold runSched at h
    cases hx : execute p sl.quantum (deliverSlice sl pending s) with
    | error e => rw [hx] at h; cases h
    | ok r =>
      obtain ⟨rc, s1⟩ := r
      rw [hx] at h
      dsimp only at h
      have hd : (deliverSlice sl pending s).isDone = false := h0
      have ht : (deliverSlice sl pending s).trace = s.trace := rfl
      by_cases hE : (deliverSlice sl pending s).inBuf.length = 0 ∧
          (deliverSlice sl pending s).inEOS = true
      · obtain ⟨t, e1, k, -, k1, k2, -, -, -, -, k7, -⟩ :=
          execute_at_eos p sl.quantum _ s1 rc hd hE hx
        obtain ⟨sF', g1, g2, g3, g4, g5⟩ := runSched_when_done p rest (pending.drop sl.deliver) s1 k1
        rw [g1] at h
        simp only [Except.ok.injEq] at h
        subst h
        have hsum : summaries t.trace = [] := by
          rw [run_summaries (run_of_tick (tick_of_step (step_mono indexOp_isQuiet k))), ht]
          exact hs
        refine ⟨?_, fun _ => ⟨[], rest, sl, s, t, rfl, rfl, h0, ?_, hE.2, e1, g3.trans k2, ?_⟩⟩
        · rw [g2, g5, k7, summaries_append, summaries_append, hsum]
          cases p.writeRowCountParam <;> simp [summaries]
        · exact List.length_eq_zero.1 hE.1
        · rw [g4, k7, writeEvents_append, writeEvents_append]
          cases p.writeRowCountParam <;> simp [writeEvents, Event.isWrite]
      · have kr := execute_run p sl.quantum _ s1 rc hd hE hx
        have h1 : s1.isDone = false := kr.done.trans hd
        have h2 : summaries s1.trace = [] := by
          rw [run_summaries kr, ht]; exact hs
        obtain ⟨c1, c2⟩ := ih (pending.drop sl.deliver) s1 sF h1 h2 h
        refine ⟨c1, fun hF => ?_⟩
        obtain ⟨pre, post, sl', s0, s1', d1, d2, d3, d4, d5, d6, d7, d8⟩ := c2 hF
        have hdrop : pending.drop ((sl :: pre).map (fun x => x.deliver)).sum =
            (pending.drop sl.deliver).drop (pre.map (fun x => x.deliver)).sum := by
          rw [List.map_cons, List.sum_cons, List.drop_drop, Nat.add_comm]
        refine ⟨sl :: pre, post, sl', s0, s1', by rw [d1]; rfl, ?_, d3, ?_, ?_, ?_, d7, d8⟩
        · unfold runSched
          rw [hx]
          exact d2
        · rw [hdrop]; exact d4
        · rw [hdrop]; exact d5
        · rw [hdrop]; exact d6

set_option maxHeartbeats 4000000 in
/-- C16 witness: two fragments of a keyless index whose merge is refused, four
calls: the first fragment is written when the second arrives, the second is
flushed by the call that finds end-of-stream, one summary tuple is produced, and
the two calls after it write nothing. -/
theorem flush_once_witness :
    (openStream [] 0 [] false 0 0).isDone = false ∧
    summaries (openStream [] 0 [] false 0 0).trace = [] ∧
    runSched (keylessParams (listCodec 2)) fourCalls [bitmap [] 0 [1], singleton [] 2]
      (openStream [] 0 [] false 0 0) = .ok flushedRun ∧
    flushedRun.isDone = true ∧ (summaries flushedRun.trace).length = 1 ∧
    writeEvents flushedRun.trace =
      [.insertTuple (bitmap [] 0 [1]), .insertTuple (singleton [] 2)] := by
  have h : runSched (keylessParams (listCodec 2)) fourCalls [bitmap [] 0 [1], singleton [] 2]
      (openStream [] 0 [] false 0 0) = .ok flushedRun := by decide!
  have hd : flushedRun.isDone = true := by decide!
  have c := (flush_once (keylessParams (listCodec 2)) fourCalls [bitmap [] 0 [1], singleton [] 2]
    (openStream [] 0 [] false 0 0) flushedRun rfl rfl h).1
  rw [hd] at c
  exact ⟨rfl, rfl, h, hd, c, by decide!⟩

/-! ## C17: the quantum -/

theorem getValidatedTuple_nonunique (p : Params) (s s1 : Splicer) (rc : ExecStreamResult)
    (hu : p.uniqueKey = false) (hv : s.currValidation = false)
    (h : getValidatedTuple p s = .ok (rc, s1)) :
    s1.inBuf = s.inBuf ∧ s1.currValidation = false := by
  unfold getValidatedTuple at h
  cases hri : readInput p s with
  | error e =>
    unfold getValidatedTupleLoop at h
    rw [hv] at h
    simp only [Bool.not_false, if_true, hri, bind, Except.bind] at h
    cases h
  | ok x =>
    obtain ⟨early, s2⟩ := x
    rcases readInput_spec p s s2 early hri with ⟨-, b2, b3⟩ |
      ⟨t, rest, tr, -, -, -, -, -, -, -, -, b9, b10⟩
    · subst b2
      rw [gvLoop_early p _ s s2 _ hv hri] at h
      simp only [Except.ok.injEq, Prod.mk.injEq] at h
      rw [← h.2, b3]
      exact ⟨rfl, hv⟩
    · rcases b10 with ⟨c1, c2, -⟩ | ⟨-, -, c3⟩
      · subst c1
        rw [gvLoop_early p _ s s2 _ hv hri] at h
        simp only [Except.ok.injEq, Prod.mk.injEq] at h
        rw [← h.2]
        exact ⟨b9, c2.trans hv⟩
      · unfold uniqueRequired at c3
        rw [hu] at c3
        cases c3

theorem executeLoop_nonunique (p : Params) (hu : p.uniqueKey = false) :
    ∀ (n : Nat) (s s' : Splicer) (rc : ExecStreamResult), s.currValidation = false →
      executeLoop p n s = .ok (rc, s') →
      ∃ k, k ≤ n ∧ s'.inBuf = s.inBuf.drop k ∧ s'.currValidation = false := by
  intro n
  induction n with
  | zero =>
    intro s s' rc hv h
    unfold executeLoop at h
    simp only [pure, Except.pure, Except.ok.injEq, Prod.mk.injEq] at h
    rw [← h.2]
    exact ⟨0, Nat.le_refl _, rfl, hv⟩
  | succ n ih =>
    intro s s' rc hv h
    unfold executeLoop at h
    obtain ⟨⟨r1, s1⟩, h1, h⟩ := bind_ok_inv h
    obtain ⟨g1, g2⟩ := getValidatedTuple_nonunique p s s1 r1 hu hv h1
    dsimp only at h
    split_ifs at h with hy
    · simp only [pure, Except.pure, Except.ok.injEq, Prod.mk.injEq] at h
      rw [← h.2]
      exact ⟨0, Nat.zero_le _, g1, g2⟩
    · obtain ⟨s2, h2, h⟩ := bind_ok_inv h
      obtain ⟨-, c1, c2⟩ := processTuple_spec p s1 s2 h2
      obtain ⟨k, k1, k2, k3⟩ := ih s2 s' rc (c1.trans g2) h
      refine ⟨k + 1, Nat.succ_le_succ k1, ?_, k3⟩
      rw [k2, c2, g1, List.drop_tail]

set_option maxHeartbeats 4000000 in
/-- C17, as stated, fails under a uniqueness constraint: with three tuples of
key 5 buffered and a quantum of 2, one call of `execute` consumes all three:
row 10 is accepted and routed, and the tuples of rows 11 and 12, rejected whole,
are consumed inside `getValidatedTuple`. -/
theorem quantum_exceeded_by_rejected_tuples :
    threeOfKeyFive.inBuf.length = 3 ∧
    (execute (uniqueParams false []) 2 threeOfKeyFive).map
        (fun r => (r.1, r.2.inBuf, violationRids r.2.trace, r.2.index)) =
      .ok (.EXECRC_BUF_UNDERFLOW, [], [11, 12], [singleton [some 5] 10]) :=
  ⟨rfl, by decide!⟩

/-- C17 (amended): for an index without uniqueness constraint, a call of
`execute` with quantum `q` made between two tuples consumes at most `q` input
tuples, from the head of the buffer.  (Under a uniqueness constraint the tuples
whose row-ids are all rejected or skipped are consumed inside
`getValidatedTuple` and are not counted against the quantum.) -/
theorem quantum_bound (p : Params) (q : Nat) (s s' : Splicer) (rc : ExecStreamResult)
    (hu : p.uniqueKey = false) (hv : s.currValidation = false)
    (h : execute p q s = .ok (rc, s')) :
    ∃ k, k ≤ q ∧ s'.inBuf = s.inBuf.drop k ∧ s'.currValidation = false := by
  cases hd : s.isDone with
  | true =>
    rw [execute_when_done p q s hd] at h
    simp only [Except.ok.injEq, Prod.mk.injEq] at h
    rw [← h.2]
    refine ⟨0, Nat.zero_le _, ?_, ?_⟩
    · cases s.newIndexCreated <;> rfl
    · cases s.newIndexCreated <;> exact hv
  | false =>
    by_cases hE : s.inBuf.length = 0 ∧ s.inEOS = true
    · obtain ⟨s1, -, -, -, -, -, -, -, -, k6, -, k8, -⟩ := execute_at_eos p q s s' rc hd hE h
      exact ⟨0, Nat.zero_le _, k6, k8.trans hv⟩
    · rw [execute_in_loop p q s hd hE] at h
      exact executeLoop_nonunique p hu q s s' rc hv h

set_option maxHeartbeats 4000000 in
/-- C17 witness: three fragments of a keyless index are buffered; a call with
quantum 2 consumes two of them. -/
theorem quantum_bound_witness :
    (keylessParams (listCodec 2)).uniqueKey = false ∧ threeFragments.currValidation = false ∧
    (execute (keylessParams (listCodec 2)) 2 threeFragments).map (fun r => (r.1, r.2.inBuf)) =
      .ok (.EXECRC_QUANTUM_EXPIRED, [singleton [] 200]) ∧
    ∃ s' k, execute (keylessParams (listCodec 2)) 2 threeFragments =
        .ok (.EXECRC_QUANTUM_EXPIRED, s') ∧ k ≤ 2 ∧ s'.inBuf = threeFragments.inBuf.drop k := by
  have h : execute (keylessParams (listCodec 2)) 2 threeFragments =
      .ok (.EXECRC_QUANTUM_EXPIRED,
        stateAfter (execute (keylessParams (listCodec 2)) 2 threeFragments) threeFragments) := by
    decide!
  obtain ⟨k, k1, k2, -⟩ := quantum_bound (keylessParams (listCodec 2)) 2 threeFragments _ _
    rfl rfl h
  exact ⟨rfl, rfl, by decide!, _, k, h, k1, k2⟩

/-! ## C14: the row count of the summary tuple -/

theorem deliver_rest (p : Params) (input pend : List TupleData) (sl : Slice) (s : Splicer)
    (h : Rest p input pend s) :
    Rest p input (pend.drop sl.deliver) (deliverSlice sl pend s) := by
  refine ⟨?_, ?_, h.rows⟩
  · have hr := h.reads
    unfold unread at hr ⊢
    show readEvents s.trace ++
      (if s.currValidation then (s.inBuf ++ pend.take sl.deliver).tail
        else s.inBuf ++ pend.take sl.deliver) ++ pend.drop sl.deliver = input
    cases hv : s.currValidation with
    | true =>
      rw [hv] at hr
      simp only [if_true] at hr ⊢
      rw [List.tail_append_of_ne_nil (h.head hv), ← hr]
      simp only [List.append_assoc, List.take_append_drop]
    | false =>
      rw [hv] at hr
      simp only [Bool.false_eq_true, if_false] at hr ⊢
      rw [← hr]
      simp only [List.append_assoc, List.take_append_drop]
  · intro hv
    show s.inBuf ++ pend.take sl.deliver ≠ []
    intro hh
    exact h.head hv (List.append_eq_nil.1 hh).1

theorem book_step (p : Params) (input : List TupleData) (cnt : Nat) (pend : List TupleData)
    (sl : Slice) (s s1 : Splicer) (rc : ExecStreamResult) (h : Book p input cnt pend s)
    (hx : execute p sl.quantum (deliverSlice sl pend s) = .ok (rc, s1)) :
    Book p input cnt (pend.drop sl.deliver) s1 := by
  cases hd : s.isDone with
  | true =>
    have hd' : (deliverSlice sl pend s).isDone = true := hd
    rw [execute_when_done p sl.quantum _ hd'] at hx
    simp only [Except.ok.injEq, Prod.mk.injEq] at hx
    obtain ⟨-, rfl⟩ := hx
    have e1 : ∀ hh : Bool, ((if hh then (deliverSlice sl pend s).emit
        (.versionPage (deliverSlice sl pend s).origRootPageId (deliverSlice sl pend s).rootPageId)
        else deliverSlice sl pend s).emit .markEOS).isDone = true := by
      intro hh; cases hh <;> exact hd
    have e2 : ∀ hh : Bool, summaries ((if hh then (deliverSlice sl pend s).emit
        (.versionPage (deliverSlice sl pend s).origRootPageId (deliverSlice sl pend s).rootPageId)
        else deliverSlice sl pend s).emit .markEOS).trace = summaries s.trace := by
      intro hh
      cases hh
      · show summaries (s.trace ++ [Event.markEOS]) = _
        rw [summaries_append]; simp [summaries]
      · show summaries (s.trace ++ [Event.versionPage s.origRootPageId s.rootPageId]
          ++ [Event.markEOS]) = _
        rw [summaries_append, summaries_append]; simp [summaries]
    refine ⟨?_, fun hh => ?_, fun hh => ?_, fun hh => ?_, fun _ => ?_, fun _ => ?_⟩
    · cases (deliverSlice sl pend s).newIndexCreated <;> exact h.param
    · rw [e1] at hh; cases hh
    · rw [e1] at hh; cases hh
    · rw [e1] at hh; cases hh
    · rw [e2]; exact h.summary hd
    · cases (deliverSlice sl pend s).newIndexCreated <;> exact h.rows hd
  | false =>
    have hd' : (deliverSlice sl pend s).isDone = false := hd
    have hr := deliver_rest p input pend sl s (h.rest hd)
    have ht : (deliverSlice sl pend s).trace = s.trace := rfl
    have hp : (deliverSlice sl pend s).insertRowCountParam = cnt := h.param
    have he : (deliverSlice sl pend s).inEOS = true → pend.drop sl.deliver = [] := by
      intro hh
      have hh' : (s.inEOS || (sl.eos && (pend.drop sl.deliver).isEmpty)) = true := hh
      rcases Bool.or_eq_true_iff.1 hh' with c | c
      · rw [h.eos hd c]; simp
      · exact List.isEmpty_iff.1 (Bool.and_eq_true_iff.1 c).2
    by_cases hE : (deliverSlice sl pend s).inBuf.length = 0 ∧ (deliverSlice sl pend s).inEOS = true
    · obtain ⟨t, -, k, -, k1, -, -, -, -, -, k7, -, k9, -, -, k12, -⟩ :=
        execute_at_eos p sl.quantum _ s1 rc hd' hE hx
      have hb : (deliverSlice sl pend s).inBuf = [] := List.length_eq_zero.1 hE.1
      have hreads : readEvents s.trace = input := by
        have := hr.reads
        unfold unread at this
        rw [hb, he hE.2, ht] at this
        simpa using this
      have hn : (if p.computeRowCount then (deliverSlice sl pend s).numRowsLoaded
          else (deliverSlice sl pend s).insertRowCountParam) =
          if p.computeRowCount then input.length % 2 ^ 64 else cnt := by
        cases hc : p.computeRowCount with
        | true =>
          have := hr.rows
          rw [hc, ht, hreads] at this
          simpa using this
        | false => simpa using hp
      have hsum : summaries t.trace = [] := by
        rw [run_summaries (run_of_tick (tick_of_step (step_mono indexOp_isQuiet k))), ht]
        exact h.none hd
      refine ⟨k9.trans hp, fun hh => ?_, fun hh => ?_, fun hh => ?_, fun _ => ?_, fun _ => ?_⟩
      · rw [k1] at hh; cases hh
      · rw [k1] at hh; cases hh
      · rw [k1] at hh; cases hh
      · rw [k7, summaries_append, summaries_append, hsum, hn]
        cases p.writeRowCountParam <;> simp [summaries]
      · rw [k12, hn]
    · have kr := execute_run p sl.quantum _ s1 rc hd' hE hx
      rw [execute_in_loop p sl.quantum _ hd' hE] at hx
      have hr1 := executeLoop_rest p input _ sl.quantum _ s1 rc hr hx
      have h1 : s1.isDone = false := kr.done.trans hd'
      refine ⟨kr.param.trans hp, fun _ => hr1, fun _ => ?_, fun _ hh => ?_, fun hh => ?_,
        fun hh => ?_⟩
      · rw [run_summaries kr, ht]; exact h.none hd
      · exact he (kr.eos.symm.trans hh)
      · rw [h1] at hh; cases hh
      · rw [h1] at hh; cases hh

theorem book_sched (p : Params) (input : List TupleData) (cnt : Nat) :
    ∀ (sched : List Slice) (pend : List TupleData) (s sF : Splicer), Book p input cnt pend s →
      runSched p sched pend s = .ok sF → ∃ pend', Book p input cnt pend' sF := by
  intro sched
  induction sched with
  | nil =>
    intro pend s sF h hx
    simp only [runSched, Except.ok.injEq] at hx
    subst hx
    exact ⟨pend, h⟩
  | cons sl rest ih =>
    intro pend s sF h hx
    unfold runSched at hx
    cases he : execute p sl.quantum (deliverSlice sl pend s) with
    | error e => rw [he] at hx; cases hx
    | ok r =>
      obtain ⟨rc, s1⟩ := r
      rw [he] at hx
      exact ih _ s1 sF (book_step p input cnt pend sl s s1 rc h he) hx

theorem book_open (p : Params) (input index : List TupleData) (root room cnt : Nat) :
    Book p input cnt input (openStream index root [] false room cnt) := by
  refine ⟨rfl, fun _ => ⟨?_, fun hh => (by cases hh), ?_⟩, fun _ => rfl,
    fun _ hh => (by cases hh), fun hh => (by cases hh), fun hh => (by cases hh)⟩
  · show readEvents [] ++ unread (openStream index root [] false room cnt) ++ input = input
    rfl
  · show (0 : Nat) = if p.computeRowCount then (readEvents []).length % 2 ^ 64 else 0
    cases p.computeRowCount <;> rfl

set_option maxHeartbeats 4000000 in
/-- C14, as stated, fails when rows are rejected while the count is computed
locally: a keyless index with a uniqueness constraint is fed the row-ids 10 and
11; row 10 is accepted, row 11 is reported as a violation, and the summary tuple
carries the row count 2. -/
theorem count_includes_rejected_rows :
    countingUniqueParams.computeRowCount = true ∧
    (runSched countingUniqueParams fourCalls [singleton [] 10, singleton [] 11]
        (openStream [] 0 [] false 0 0)).map
        (fun s => (s.isDone, summaries s.trace, violationRids s.trace, s.index)) =
      .ok (true, [2], [11], [singleton [] 10]) :=
  ⟨rfl, by decide!⟩

/-- C14 (amended): for every run from `open` that reaches end-of-stream, the
summary tuple is the only one and carries, when the count is computed locally,
the number of input tuples read (each a singleton row-id, counted when it is
read and before it is validated, in 64-bit arithmetic), and otherwise the value
of the shared parameter; until then no summary tuple is produced and
`numRowsLoaded` is the number of tuples read so far when the count is computed
locally, and stays 0 otherwise. -/
theorem row_count_modes (p : Params) (input index : List TupleData) (root room cnt : Nat)
    (sched : List Slice) (sF : Splicer)
    (h : runSched p sched input (openStream index root [] false room cnt) = .ok sF) :
    (sF.isDone = true →
      summaries sF.trace = [if p.computeRowCount then input.length % 2 ^ 64 else cnt] ∧
      sF.numRowsLoaded = (if p.computeRowCount then input.length % 2 ^ 64 else cnt)) ∧
    (sF.isDone = false →
      summaries sF.trace = [] ∧
      sF.numRowsLoaded =
        (if p.computeRowCount then (readEvents sF.trace).length % 2 ^ 64 else 0)) := by
  obtain ⟨pend', hb⟩ := book_sched p input cnt sched input _ sF
    (book_open p input index root room cnt) h
  exact ⟨fun hd => ⟨hb.summary hd, hb.rows hd⟩, fun hd => ⟨hb.none hd, (hb.rest hd).rows⟩⟩

set_option maxHeartbeats 4000000 in
/-- C14 witness: two row-ids spliced into a keyless index are counted as 2. -/
theorem row_count_modes_witness :
    runSched randomRidParams fourCalls [singleton [] 10, singleton [] 300]
      (openStream [] 0 [] false 0 0) = .ok countedRun ∧
    countedRun.isDone = true ∧ summaries countedRun.trace = [2] ∧
    countedRun.numRowsLoaded = 2 := by
  have h : runSched randomRidParams fourCalls [singleton [] 10, singleton [] 300]
      (openStream [] 0 [] false 0 0) = .ok countedRun := by decide!
  have hd : countedRun.isDone = true := by decide!
  obtain ⟨k1, k2⟩ := (row_count_modes randomRidParams [singleton [] 10, singleton [] 300] []
    0 0 0 fourCalls countedRun h).1 hd
  exact ⟨h, hd, k1, k2⟩

/-! ## C20: resumption -/

theorem uniqueIdx_of_subperm (p : Params) (l l' : List TupleData) (h : UniqueIdx p l)
    (hs : l'.Subperm l) : UniqueIdx p l' := by
  intro K hK
  obtain ⟨h1, h2⟩ := h K hK
  refine ⟨le_trans (List.Subperm.length_le (hs.filter _)) h1, fun e he hk => ?_⟩
  exact h2 e (hs.subset he) hk

theorem refFlush_extends (p : Params) (r r' : Ref) (h : refFlush p r = .ok r') :
    r.inserted <+: r'.inserted := by
  cases ha : r.acc with
  | none =>
    rw [refFlush_none p r ha] at h
    cases h
    exact List.prefix_refl _
  | some a =>
    obtain ⟨ins, h1, h2⟩ := refFlush_some p r r' a ha h
    rw [h2, (refInsert_ok p a _ _ h1).1]
    exact List.prefix_append _ _

theorem refProcess_extends (p : Params) (r r' : Ref) (x : TupleData)
    (h : refProcess p r x = .ok r') : r.inserted <+: r'.inserted := by
  unfold refProcess at h
  split_ifs at h with h1
  · cases hf : refFlush p r with
    | error e => rw [hf] at h; cases h
    | ok r2 =>
      rw [hf] at h
      dsimp only at h
      cases hi : refInsert p x r2.inserted with
      | error e => rw [hi] at h; cases h
      | ok ins =>
        rw [hi] at h
        cases h
        refine (refFlush_extends p r r2 hf).trans ?_
        show r2.inserted <+: ins
        rw [(refInsert_ok p x _ _ hi).1]
        exact List.prefix_append _ _
  · have restart : ∀ r1 : Ref, refFlush p r = .ok r1 →
        r.inserted <+: ({ r1 with acc := some x } : Ref).inserted :=
      fun r1 hf => refFlush_extends p r r1 hf
    cases ha : r.acc with
    | none =>
      rw [ha] at h
      cases h
      exact List.prefix_refl _
    | some a =>
      rw [ha] at h
      dsimp only at h
      split_ifs at h with h2 h3
      · cases hm : p.codec.mergeEntry a x with
        | none =>
          rw [hm] at h
          dsimp only at h
          cases hf : refFlush p r with
          | error e => rw [hf] at h; cases h
          | ok r1 =>
            rw [hf] at h
            cases h
            exact restart r1 hf
        | some m =>
          rw [hm] at h
          cases h
          exact List.prefix_refl _
      · cases hf : refFlush p r with
        | error e => rw [hf] at h; cases h
        | ok r1 =>
          rw [hf] at h
          cases h
          exact restart r1 hf

theorem refTuple_extends (p : Params) (r r' : Ref) (t : TupleData)
    (h : refTuple p r t = .ok r') : r.inserted <+: r'.inserted := by
  unfold refTuple at h
  split_ifs at h with h1 h2 h3
  · cases ho : (refOutcome p r t).1 with
    | none =>
      rw [ho] at h
      cases h
      exact List.prefix_refl _
    | some rid =>
      rw [ho] at h
      exact refProcess_extends p (refValidated p r t) r' _ h
  · exact refProcess_extends p r r' t h

theorem refRun_extends (p : Params) : ∀ (l : List TupleData) (r r' : Ref),
    refRun p r l = .ok r' → r.inserted <+: r'.inserted := by
  intro l
  induction l with
  | nil =>
    intro r r' h
    cases h
    exact List.prefix_refl _
  | cons t ts ih =>
    intro r r' h
    unfold refRun at h
    cases ht : refTuple p r t with
    | error e => rw [ht] at h; cases h
    | ok r1 =>
      rw [ht] at h
      exact (refTuple_extends p r r1 t ht).trans (ih r1 r' h)

theorem uniqueIdx_of_uInv (p : Params) (done : List TupleData) (r : Ref)
    (h : UInv p done r) : UniqueIdx p r.inserted := by
  intro K hK
  have hs := h.surv K hK
  refine ⟨?_, fun e he hk => ?_⟩
  · rw [hs]
    cases (eligible p K done).head? <;> simp
  · have hm : e ∈ r.inserted.filter (fun e => decide (e.keys = K)) := by
      rw [List.mem_filter]
      exact ⟨he, by simpa using hk⟩
    rw [hs] at hm
    cases hh : (eligible p K done).head? with
    | none => rw [hh] at hm; simp at hm
    | some x =>
      rw [hh] at hm
      simp only [Option.toList_some, List.map_cons, List.map_nil, List.mem_singleton] at hm
      rw [hm]
      rfl

theorem suspended_perm (p : Params) (r : Ref) (s : Splicer) (h : Suspended p r s) :
    s.index.Perm r.inserted ∧ s.currExistingEntry = false := by
  rcases h with h | ⟨t, h, -⟩
  · exact ⟨h.core.idx.perm, h.core.idx.notExisting⟩
  · exact ⟨h.core.idx.perm, h.core.idx.notExisting⟩

theorem runSched_inv_existing (p : Params) (rEnd rF : Ref) (hf : refFlush p rEnd = .ok rF) :
    ∀ (sched : List Slice) (pend : List TupleData) (s : Splicer), RunInv p rEnd rF pend s →
      s.currExistingEntry = false →
      ∃ sF pend', runSched p sched pend s = .ok sF ∧ RunInv p rEnd rF pend' sF ∧
        sF.currExistingEntry = false := by
  intro sched
  induction sched with
  | nil => intro pend s h hn; exact ⟨s, pend, rfl, h, hn⟩
  | cons sl rest ih =>
    intro pend s h hn
    have hd := runInv_deliver p rEnd rF sl pend s h
    have hn' : (deliverSlice sl pend s).currExistingEntry = false := hn
    have hstep : ∃ rc s1, execute p sl.quantum (deliverSlice sl pend s) = .ok (rc, s1) ∧
        RunInv p rEnd rF (pend.drop sl.deliver) s1 ∧ s1.currExistingEntry = false := by
      rcases hd with ⟨hi, he⟩ | hfin
      · obtain ⟨rc, s1, k1, k2⟩ := execute_sim p sl.quantum rEnd rF _ _ hi he hf
        rcases k2 with ⟨k2, k3⟩ | k2
        · refine ⟨rc, s1, k1, Or.inl ⟨k2, ?_⟩, ?_⟩
          · rw [k3]; exact he
          · obtain ⟨r, hS, -⟩ := k2
            exact (suspended_perm p r s1 hS).2
        · refine ⟨rc, s1, k1, Or.inr k2, ?_⟩
          obtain ⟨r, hS, -⟩ := hi
          have hnd := suspended_notDone p r _ hS
          by_cases hE : (deliverSlice sl pend s).inBuf.length = 0 ∧
              (deliverSlice sl pend s).inEOS = true
          · obtain ⟨t, e1, -, -, -, -, -, -, -, -, -, -, -, -, -, -, k13⟩ :=
              execute_at_eos p sl.quantum _ s1 rc hnd hE k1
            rw [k13]
            cases hce : (deliverSlice sl pend s).currEntry with
            | true =>
              rw [hce, if_pos rfl] at e1
              exact (insertBitmapEntry_ok p _ t e1).1
            | false =>
              rw [hce, if_neg Bool.false_ne_true] at e1
              simp only [pure, Except.pure, Except.ok.injEq] at e1
              rw [← e1]; exact hn'
          · have kr := execute_run p sl.quantum _ s1 rc hnd hE k1
            have := k2.1
            rw [kr.done, hnd] at this
            cases this
      · have hx := execute_when_done p sl.quantum (deliverSlice sl pend s) hfin.1
        obtain ⟨s1, k1, k2⟩ := execute_done p sl.quantum rF _ hfin
        refine ⟨_, s1, k1, Or.inr k2, ?_⟩
        rw [hx] at k1
        simp only [Except.ok.injEq, Prod.mk.injEq, true_and] at k1
        rw [← k1]
        cases (deliverSlice sl pend s).newIndexCreated <;> exact hn'
    obtain ⟨rc, s1, k1, k2, k3⟩ := hstep
    obtain ⟨sF, pend', m1, m2, m3⟩ := ih _ s1 k2 k3
    refine ⟨sF, pend', ?_, m2, m3⟩
    unfold runSched
    rw [k1]
    exact m1

/-- Loads into an index that is empty at `open`: under every schedule the run
returns, every key subject to the uniqueness constraint has at most one entry,
a singleton, and no on-disk entry is adopted. -/
theorem unique_from_empty (p : Params) (hc : CodecOk p) (input : List TupleData)
    (hin : InputOk p (input.map (tupleAsRead p))) (sched : List Slice) (root room cnt : Nat) :
    ∃ sF, runSched p sched input (openStream [] root [] false room cnt) = .ok sF ∧
      UniqueIdx p sF.index ∧ sF.currExistingEntry = false := by
  obtain ⟨rEnd, rF, k1, k2, k3, -, -⟩ := refRun_total p hc _ hin
  have hU := uniqueIdx_of_uInv p _ rF k3
  have h0 : RunInv p rEnd rF input (openStream [] root [] false room cnt) := by
    left
    refine ⟨⟨Ref.init, Or.inl (simT_open p root [] false room cnt), k1⟩, ?_⟩
    intro h; cases h
  obtain ⟨sF, pend', m1, m2, m3⟩ := runSched_inv_existing p rEnd rF k2 sched input _ h0 rfl
  refine ⟨sF, m1, ?_, m3⟩
  rcases m2 with ⟨⟨r, hS, href⟩, -⟩ | ⟨-, f2, -, -⟩
  · have hp := (suspended_perm p r sF hS).1
    have hpre : r.inserted <+: rF.inserted :=
      (refRun_extends p _ r rEnd href).trans (refFlush_extends p rEnd rF k2)
    exact uniqueIdx_of_subperm p _ _ hU (hp.subperm.trans hpre.sublist.subperm)
  · exact uniqueIdx_of_subperm p _ _ hU f2.subperm

theorem createDeferred_withIndex (p : Params) (i : List TupleData) (t : TupleData)
    (s : Splicer) (h1 : p.createNewIndex = true) (h2 : s.newIndexCreated = false) :
    createDeferred p (unmarshalInput p t (withIndex i s)) =
      createDeferred p (unmarshalInput p t s) := by
  unfold createDeferred unmarshalInput
  cases hc : p.computeRowCount <;> simp [withIndex, Splicer.emit, h1, h2]

theorem readInput_withIndex (p : Params) (i : List TupleData) (s : Splicer) (t : TupleData)
    (rest : List TupleData) (h : PreCreate p s) (hb : s.inBuf = t :: rest) :
    readInput p (withIndex i s) = readInput p s := by
  have hb' : (withIndex i s).inBuf = t :: rest := hb
  unfold readInput
  rw [hb, hb']
  dsimp only
  rw [createDeferred_withIndex p i t s h.rebuild h.notCreated]

theorem getValidatedTuple_withIndex (p : Params) (i : List TupleData) (s : Splicer)
    (t : TupleData) (rest : List TupleData) (h : PreCreate p s) (hb : s.inBuf = t :: rest) :
    getValidatedTuple p (withIndex i s) = getValidatedTuple p s := by
  unfold getValidatedTuple
  show getValidatedTupleLoop p (s.inBuf.length + 1) (withIndex i s) = _
  unfold getValidatedTupleLoop
  have hv : (withIndex i s).currValidation = false := h.noVal
  rw [hv, h.noVal]
  simp only [Bool.not_false, if_true]
  rw [readInput_withIndex p i s t rest h hb]

theorem executeLoop_withIndex (p : Params) (i : List TupleData) (n : Nat) (s : Splicer)
    (t : TupleData) (rest : List TupleData) (h : PreCreate p s) (hb : s.inBuf = t :: rest) :
    executeLoop p (n + 1) (withIndex i s) = executeLoop p (n + 1) s := by
  unfold executeLoop
  rw [getValidatedTuple_withIndex p i s t rest h hb]

theorem executeLoop_underflow (p : Params) (n : Nat) (s : Splicer) (hb : s.inBuf = [])
    (hv : s.currValidation = false) :
    executeLoop p (n + 1) s = .ok (.EXECRC_BUF_UNDERFLOW, s) :=
  executeLoop_stop p n s s _ (gvLoop_early p _ s s _ hv (readInput_empty p s hb))
    (fun hh => by cases hh)

theorem execute_eos_value (p : Params) (q : Nat) (s : Splicer) (h0 : s.isDone = false)
    (h1 : s.inBuf.length = 0 ∧ s.inEOS = true) (hc : s.currEntry = false) :
    execute p q s = .ok (.EXECRC_BUF_OVERFLOW,
      (let s2 := if !p.computeRowCount then
          { s with numRowsLoaded := s.insertRowCountParam } else s
       let s3 := if p.writeRowCountParam then s2.emit (.writeParam s2.numRowsLoaded) else s2
       { s3.emit (.outputTuple s3.numRowsLoaded) with isDone := true })) := by
  unfold execute
  rw [h0, if_neg Bool.false_ne_true, if_pos h1]
  dsimp only
  rw [if_neg (show ¬ s.currEntry = true from fun hh => Bool.false_ne_true (hc.symm.trans hh))]
  simp only [pure, Except.pure, bind, Except.bind]
  cases p.computeRowCount <;> cases p.writeRowCountParam <;> rfl

/-- Before the first tuple of a rebuild is read, a call of `execute` does not
look at the index: started on another index it does the same, and the index
differs only until the new root is created. -/
theorem execute_preCreate (p : Params) (i : List TupleData) (q : Nat) (s t' : Splicer)
    (rc : ExecStreamResult) (h : PreCreate p s)
    (hx : execute p q (withIndex i s) = .ok (rc, t')) :
    ∃ t, execute p q s = .ok (rc, t) ∧ (t' = t ∨ (PreCreate p t ∧ t' = withIndex i t)) := by
  cases hd : s.isDone with
  | true =>
    have hd' : (withIndex i s).isDone = true := hd
    rw [execute_when_done p q _ hd'] at hx
    have hn : (withIndex i s).newIndexCreated = false := h.notCreated
    rw [hn, if_neg Bool.false_ne_true] at hx
    simp only [Except.ok.injEq, Prod.mk.injEq] at hx
    obtain ⟨rfl, rfl⟩ := hx
    refine ⟨_, execute_when_done p q s hd, Or.inr ?_⟩
    rw [h.notCreated, if_neg Bool.false_ne_true]
    exact ⟨⟨h.rebuild, h.notCreated, h.noVal, h.noAcc, h.noExisting⟩, rfl⟩
  | false =>
    have hd' : (withIndex i s).isDone = false := hd
    by_cases hE : s.inBuf.length = 0 ∧ s.inEOS = true
    · have hE' : (withIndex i s).inBuf.length = 0 ∧ (withIndex i s).inEOS = true := hE
      have hc' : (withIndex i s).currEntry = false := h.noAcc
      rw [execute_eos_value p q _ hd' hE' hc'] at hx
      simp only [Except.ok.injEq, Prod.mk.injEq] at hx
      obtain ⟨rfl, rfl⟩ := hx
      refine ⟨_, execute_eos_value p q s hd hE h.noAcc, Or.inr ⟨?_, ?_⟩⟩
      · refine ⟨h.rebuild, ?_, ?_, ?_, ?_⟩
        · cases p.computeRowCount <;> cases p.writeRowCountParam <;> exact h.notCreated
        · cases p.computeRowCount <;> cases p.writeRowCountParam <;> exact h.noVal
        · cases p.computeRowCount <;> cases p.writeRowCountParam <;> exact h.noAcc
        · cases p.computeRowCount <;> cases p.writeRowCountParam <;> exact h.noExisting
      · cases p.computeRowCount <;> cases p.writeRowCountParam <;> rfl
    · have hE' : ¬((withIndex i s).inBuf.length = 0 ∧ (withIndex i s).inEOS = true) := hE
      rw [execute_in_loop p q _ hd' hE'] at hx
      rw [execute_in_loop p q s hd hE]
      cases q with
      | zero =>
        simp only [executeLoop, pure, Except.pure, Except.ok.injEq, Prod.mk.injEq] at hx
        obtain ⟨rfl, rfl⟩ := hx
        exact ⟨s, rfl, Or.inr ⟨h, rfl⟩⟩
      | succ n =>
        cases hb : s.inBuf with
        | nil =>
          have hb' : (withIndex i s).inBuf = [] := hb
          have hv' : (withIndex i s).currValidation = false := h.noVal
          rw [executeLoop_underflow p n _ hb' hv'] at hx
          simp only [Except.ok.injEq, Prod.mk.injEq] at hx
          obtain ⟨rfl, rfl⟩ := hx
          exact ⟨s, executeLoop_underflow p n s hb h.noVal, Or.inr ⟨h, rfl⟩⟩
        | cons t rest =>
          rw [executeLoop_withIndex p i n s t rest h hb] at hx
          exact ⟨t', hx, Or.inl rfl⟩

theorem runSched_preCreate (p : Params) (i : List TupleData) :
    ∀ (sched : List Slice) (pend : List TupleData) (s sF' : Splicer), PreCreate p s →
      runSched p sched pend (withIndex i s) = .ok sF' →
      ∃ sF, runSched p sched pend s = .ok sF ∧
        (sF' = sF ∨ (PreCreate p sF ∧ sF' = withIndex i sF)) := by
  intro sched
  induction sched with
  | nil =>
    intro pend s sF' h hx
    simp only [runSched, Except.ok.injEq] at hx
    exact ⟨s, rfl, Or.inr ⟨h, hx.symm⟩⟩
  | cons sl rest ih =>
    intro pend s sF' h hx
    unfold runSched at hx
    have hdl : deliverSlice sl pend (withIndex i s) = withIndex i (deliverSlice sl pend s) := rfl
    have hpd : PreCreate p (deliverSlice sl pend s) :=
      ⟨h.rebuild, h.notCreated, h.noVal, h.noAcc, h.noExisting⟩
    rw [hdl] at hx
    cases he : execute p sl.quantum (withIndex i (deliverSlice sl pend s)) with
    | error e => rw [he] at hx; cases hx
    | ok r =>
      obtain ⟨rc, t'⟩ := r
      rw [he] at hx
      dsimp only at hx
      obtain ⟨t, k1, k2⟩ := execute_preCreate p i sl.quantum _ t' rc hpd he
      rcases k2 with rfl | ⟨k2, rfl⟩
      · refine ⟨sF', ?_, Or.inl rfl⟩
        unfold runSched
        rw [k1]
        exact hx
      · obtain ⟨sF, m1, m2⟩ := ih _ t sF' k2 hx
        refine ⟨sF, ?_, m2⟩
        unfold runSched
        rw [k1]
        exact m1

/-- Keyed positioning that returns: it reports a match exactly when the index
holds an entry with the key columns of the fragment, and the entry returned has
these key columns. -/
theorem findBTreeEntry_keyed_result (p : Params) (frag : TupleData) (s s' : Splicer) (b : Bool)
    (hn : 0 < p.nIdxKeys) (hne : s.index ≠ []) (ho : IndexOrdered p s.index)
    (hw : WellFormed p frag) (h : findBTreeEntry p frag s = .ok (b, s')) :
    (b = true ↔ ∃ e ∈ s.index, e.keys = frag.keys) ∧
    (b = true → s'.bTreeTupleData.keys = frag.keys ∧ s'.bTreeTupleData ∈ s.index) := by
  obtain ⟨k1, k2⟩ := findBTreeEntry_keyed_aux p frag s hn hne ho hw
  by_cases ha : p.checkAsserts = true ∧ ∃ e, s.index.get? (lubIdx p s.index frag) = some e ∧
      e.keys = frag.keys ∧
      roundToByteBoundary e.startRid ≠ roundToByteBoundary frag.startRid
  · rw [k1 ha] at h
    cases h
  · obtain ⟨b0, s0, e1, e2, e3⟩ := k2 ha
    rw [e1] at h
    simp only [Except.ok.injEq, Prod.mk.injEq] at h
    obtain ⟨rfl, rfl⟩ := h
    exact ⟨e2, fun hb => ⟨(e3 hb).1, (e3 hb).2.1⟩⟩

theorem findBTreeEntry_nokey_true (p : Params) (frag : TupleData) (s s' : Splicer) (b : Bool)
    (hn : p.nIdxKeys = 0) (h : findBTreeEntry p frag s = .ok (b, s')) : b = true := by
  generalize hs1 : searchForKey p frag (decide (p.nIdxKeys > 0)) s = r1
  obtain ⟨m, s1⟩ := r1
  simp only [findBTreeEntry, findMatchingBTreeEntry, hs1, cAssert, bind, Except.bind, pure,
    Except.pure, hn] at h
  generalize hs3 : searchNext { s1 with bTreeTupleData := unmarshal s1 s.bTreeTupleData } = r3
    at h
  obtain ⟨m3, s3⟩ := r3
  generalize hs5 : searchForKey p frag false
    { s3 with bTreeTupleData := unmarshal s3 s3.bTreeTupleData } = r5 at h
  obtain ⟨m5, s5⟩ := r5
  split_ifs at h <;> simp only [Except.ok.injEq, Prod.mk.injEq] at h
  all_goals first
    | exact h.1.symm
    | (obtain ⟨rfl, -⟩ := h; rename_i hm; simpa using hm)

/-! ## C24: the uniqueness constraint as an invariant of an append -/

theorem ordered_erase (p : Params) (l : List TupleData) (i : Nat) (h : IndexOrdered p l) :
    IndexOrdered p (l.eraseIdx i) := by
  refine ⟨h.1.sublist (List.eraseIdx_sublist l i), fun e he => ?_⟩
  exact h.2 e ((List.eraseIdx_sublist l i).subset he)

theorem uniqueIdx_erase (p : Params) (l : List TupleData) (i : Nat) (h : UniqueIdx p l) :
    UniqueIdx p (l.eraseIdx i) :=
  uniqueIdx_of_subperm p l _ h (List.eraseIdx_sublist l i).subperm

theorem perm_eraseIdx (l : List TupleData) : ∀ (i : Nat) (d : TupleData),
    l.get? i = some d → l.Perm (d :: l.eraseIdx i) := by
  induction l with
  | nil => intro i d h; simp at h
  | cons a l ih =>
    intro i d h
    cases i with
    | zero =>
      simp only [List.get?_cons_zero, Option.some.injEq] at h
      subst h
      simp
    | succ i =>
      simp only [List.get?_cons_succ] at h
      simp only [List.eraseIdx_cons_succ]
      exact ((ih i d h).cons a).trans (List.Perm.swap d a _)

theorem uniqueIdx_erase_none (p : Params) (l : List TupleData) (i : Nat) (d : TupleData)
    (h : UniqueIdx p l) (hd : l.get? i = some d) (hK : uniqueKeyCols p d.keys = true) :
    ∀ e ∈ l.eraseIdx i, e.keys ≠ d.keys := by
  intro e he hk
  have h1 := (h d.keys hK).1
  have h2 := ((perm_eraseIdx l i d hd).filter (fun e => decide (e.keys = d.keys))).length_eq
  rw [h2] at h1
  simp only [List.filter_cons, decide_True, if_true, List.length_cons] at h1
  have h3 : e ∈ (l.eraseIdx i).filter (fun e => decide (e.keys = d.keys)) := by
    rw [List.mem_filter]
    exact ⟨he, by simp [hk]⟩
  have h4 := List.length_pos_of_mem h3
  omega

theorem uniqueIdx_insert_non (p : Params) (l : List TupleData) (t : TupleData)
    (h : UniqueIdx p l) (hw : WellFormed p t) (hu : uniqueRequired p t = false) :
    UniqueIdx p (l.take (lubIdx p l t) ++ t :: l.drop (lubIdx p l t)) := by
  refine uniqueIdx_of_subperm p (t :: l) _ ?_ (insert_perm p t l).subperm
  intro K hK
  have hne := keys_ne_of_nonunique p t K hw hu hK
  obtain ⟨h1, h2⟩ := h K hK
  refine ⟨?_, fun e he hk => ?_⟩
  · rw [List.filter_cons_of_neg (by simpa using hne)]
    exact h1
  · rcases List.mem_cons.1 he with rfl | he
    · exact absurd hk hne
    · exact h2 e he hk

theorem uniqueIdx_insert_new (p : Params) (l : List TupleData) (t : TupleData)
    (h : UniqueIdx p l) (hs : isSingleton t = true) (hn : ∀ e ∈ l, e.keys ≠ t.keys) :
    UniqueIdx p (l.take (lubIdx p l t) ++ t :: l.drop (lubIdx p l t)) := by
  refine uniqueIdx_of_subperm p (t :: l) _ ?_ (insert_perm p t l).subperm
  intro K hK
  obtain ⟨h1, h2⟩ := h K hK
  by_cases hk : t.keys = K
  · refine ⟨?_, fun e he _ => ?_⟩
    · have h3 : l.filter (fun e => decide (e.keys = K)) = [] := by
        rw [List.filter_eq_nil_iff]
        intro e he
        simpa using fun h4 => hn e he (h4.trans hk.symm)
      rw [List.filter_cons_of_pos (by simpa using hk), h3]
      simp
    · rcases List.mem_cons.1 he with rfl | he
      · exact hs
      · exact h2 e he (by assumption)
  · refine ⟨?_, fun e he hke => ?_⟩
    · rw [List.filter_cons_of_neg (by simpa using hk)]
      exact h1
    · rcases List.mem_cons.1 he with rfl | he
      · exact absurd hke hk
      · exact h2 e he hke

theorem compareTuplesKey_lt_of_lt_of_le (p : Params) (a b c : TupleData) (ha : WellFormed p a)
    (hb : WellFormed p b) (hc : WellFormed p c)
    (h1 : compareTuplesKey a b (p.nIdxKeys + 1) < 0)
    (h2 : compareTuplesKey b c (p.nIdxKeys + 1) ≤ 0) :
    compareTuplesKey a c (p.nIdxKeys + 1) < 0 := by
  unfold compareTuplesKey at *
  unfold WellFormed at ha hb hc
  exact (compareCols_trans a.cols b.cols c.cols (p.nIdxKeys + 1)
    (by rw [cols_length, ha]) (by rw [cols_length, hb]) (by rw [cols_length, hc])
    (le_of_lt h1) h2).2 (Or.inl h1)

theorem ordered_insert (p : Params) (l : List TupleData) (t : TupleData)
    (h : IndexOrdered p l) (hw : WellFormed p t)
    (hd : ∀ e, l.get? (lubIdx p l t) = some e → compareTuplesKey e t (p.nIdxKeys + 1) ≠ 0) :
    IndexOrdered p (l.take (lubIdx p l t) ++ t :: l.drop (lubIdx p l t)) := by
  generalize hi : lubIdx p l t = i at hd
  have hlt : ∀ b ∈ l.drop i, compareTuplesKey t b (p.nIdxKeys + 1) < 0 := by
    intro b hb
    obtain ⟨k, hk⟩ := List.get?_of_mem hb
    rw [List.get?_eq_getElem?, List.getElem?_drop, ← List.get?_eq_getElem?] at hk
    have hlen : i < l.length := by
      by_contra hc
      rw [List.get?_eq_none.2 (by omega)] at hk
      cases hk
    obtain ⟨e0, he0⟩ : ∃ e0, l.get? i = some e0 := ⟨l.get ⟨i, hlen⟩, List.get?_eq_get hlen⟩
    have h1 : 0 ≤ compareTuplesKey e0 t (p.nIdxKeys + 1) := by
      apply lubIdx_ge p l t e0
      rw [hi]
      exact he0
    have h2 := hd e0 he0
    have h3 : compareTuplesKey t e0 (p.nIdxKeys + 1) < 0 := by
      unfold compareTuplesKey at *
      rw [compareCols_swap]
      omega
    have h4 := ordered_get_le p l i (i + k) e0 b h (by omega) he0 hk
    exact compareTuplesKey_lt_of_lt_of_le p t e0 b hw
      (h.2 e0 (List.get?_mem he0)) (h.2 b (List.mem_of_mem_drop hb)) h3 h4
  refine ⟨?_, fun e he => ?_⟩
  · rw [List.pairwise_append]
    refine ⟨h.1.sublist (List.take_sublist _ _), ?_, ?_⟩
    · rw [List.pairwise_cons]
      exact ⟨hlt, h.1.sublist (List.drop_sublist _ _)⟩
    · intro a ha b hb
      obtain ⟨j, hj⟩ := List.get?_of_mem ha
      have hjl : j < i := by
        by_contra hc
        rw [List.get?_eq_getElem?, List.getElem?_take_eq_none (by omega)] at hj
        cases hj
      rw [List.get?_eq_getElem?, List.getElem?_take_of_lt hjl, ← List.get?_eq_getElem?] at hj
      have h1 : compareTuplesKey a t (p.nIdxKeys + 1) < 0 :=
        lubIdx_lt p l t j a (by rw [hi]; exact hjl) hj
      rcases List.mem_cons.1 hb with rfl | hb
      · exact h1
      · exact compareTuplesKey_lt_of_lt_of_le p a t b (h.2 a (List.get?_mem hj)) hw
          (h.2 b (List.mem_of_mem_drop hb)) h1 (le_of_lt (hlt b hb))
  · rcases List.mem_append.1 he with he | he
    · exact h.2 e (List.mem_of_mem_take he)
    · rcases List.mem_cons.1 he with rfl | he
      · exact hw
      · exact h.2 e (List.mem_of_mem_drop he)

theorem sameEmptiness_refl (s : Splicer) : SameEmptiness s s := ⟨rfl, rfl⟩

theorem sameEmptiness_trans {a b c : Splicer} (h1 : SameEmptiness a b) (h2 : SameEmptiness b c) :
    SameEmptiness a c := ⟨h2.1.trans h1.1, h2.2.trans h1.2⟩

theorem searchForKey_sameEmptiness (p : Params) (key : TupleData) (lu : Bool) (s : Splicer) :
    SameEmptiness s (searchForKey p key lu s).2 := by
  unfold searchForKey
  dsimp only
  split_ifs <;> exact ⟨rfl, rfl⟩

theorem searchNext_sameEmptiness (s : Splicer) : SameEmptiness s (searchNext s).2 := by
  unfold searchNext
  dsimp only
  split <;> [split_ifs; skip] <;> exact ⟨rfl, rfl⟩

theorem findBTreeEntry_sameEmptiness (p : Params) (e : TupleData) (s s' : Splicer) (b : Bool)
    (h : findBTreeEntry p e s = .ok (b, s')) : SameEmptiness s s' := by
  have k1 := searchForKey_sameEmptiness p e (decide (p.nIdxKeys > 0)) s
  generalize hs1 : searchForKey p e (decide (p.nIdxKeys > 0)) s = r1 at k1
  obtain ⟨m, s1⟩ := r1
  simp only [findBTreeEntry, findMatchingBTreeEntry, hs1, cAssert, bind, Except.bind, pure,
    Except.pure] at h
  have k2 : SameEmptiness s { s1 with bTreeTupleData := unmarshal s1 s.bTreeTupleData } := k1
  generalize hs2 : ({ s1 with bTreeTupleData := unmarshal s1 s.bTreeTupleData } : Splicer) = s2
    at h k2
  have k3 : SameEmptiness s (searchNext s2).2 :=
    sameEmptiness_trans k2 (searchNext_sameEmptiness s2)
  generalize hs3 : searchNext s2 = r3 at h k3
  obtain ⟨m3, s3⟩ := r3
  have k4 : SameEmptiness s { s3 with bTreeTupleData := unmarshal s3 s3.bTreeTupleData } := k3
  generalize hs4 : ({ s3 with bTreeTupleData := unmarshal s3 s3.bTreeTupleData } : Splicer) = s4
    at h k4
  have k5 : SameEmptiness s (searchForKey p e false s4).2 :=
    sameEmptiness_trans k4 (searchForKey_sameEmptiness p e false s4)
  generalize hs5 : searchForKey p e false s4 = r5 at h k5
  obtain ⟨m5, s5⟩ := r5
  have k6 : SameEmptiness s (searchForKey p e false s2).2 :=
    sameEmptiness_trans k2 (searchForKey_sameEmptiness p e false s2)
  generalize hs6 : searchForKey p e false s2 = r6 at h k6
  obtain ⟨m6, s6⟩ := r6
  have k7 : SameEmptiness s { s6 with bTreeTupleData := unmarshal s6 s6.bTreeTupleData } := k6
  have k8 : SameEmptiness s { s5 with bTreeTupleData := unmarshal s5 s5.bTreeTupleData } := k5
  split_ifs at h <;>
    (simp only [Except.ok.injEq, Prod.mk.injEq] at h
     obtain ⟨-, rfl⟩ := h
     assumption)

theorem app_congr (p : Params) (s s' : Splicer) (h : App p s) (h1 : s'.index = s.index)
    (h2 : SameEmptiness s s') (h3 : s'.currEntry = s.currEntry)
    (h4 : s'.pCurrentEntry = s.pCurrentEntry) (h5 : s'.currExistingEntry = s.currExistingEntry)
    (h6 : s'.inBuf = s.inBuf) (h7 : s'.currValidation = s.currValidation)
    (h8 : s'.inputTuple = s.inputTuple) : App p s' := by
  obtain ⟨a1, a2, a3, a4, a5, a6, a7, a8, a9⟩ := h
  obtain ⟨e1, e2⟩ := h2
  constructor
  · rw [h1]; exact a1
  · rw [h1]; exact a2
  · rw [h1]; exact a3
  · rw [e1, e2]; exact a4
  · rw [h3, h4]; exact a5
  · rw [h3, h4]; exact a6
  · rw [h3, h5]; exact a7
  · rw [h6]; exact a8
  · rw [h7, h8]; exact a9

theorem app_of_search (p : Params) (s s' : Splicer) (h : App p s) (hs : SearchOnly s s')
    (he : SameEmptiness s s') : App p s' := by
  obtain ⟨f1, f2, f3, f4, f5, f6, f7⟩ := hs.search_fields
  exact app_congr p s s' h f5 he f4 f1 f2 f6 (procOnly_fields (procOnly_of_search hs)).2.2.2.1 f7

theorem isEmpty_app (p : Params) (s : Splicer) (h : App p s) :
    (isEmpty s).1 = false ∧ App p (isEmpty s).2 ∧ (isEmpty s).2.emptyTableUnknown = false ∧
    (isEmpty s).2.inputTuple = s.inputTuple := by
  have hso := isEmpty_searchOnly s
  obtain ⟨f1, f2, f3, f4, f5, f6, f7⟩ := hso.search_fields
  have hv := (procOnly_fields (procOnly_of_search hso)).2.2.2.1
  by_cases hu : s.emptyTableUnknown = true
  · have h1 : (isEmpty s).1 = false := by
      cases hb : (isEmpty s).1
      · rfl
      · exact absurd ((isEmpty_unknown s hu).1 hb) h.nonEmpty
    have h2 : (isEmpty s).2.emptyTableUnknown = false ∧
        (isEmpty s).2.emptyTable = (isEmpty s).1 := by
      unfold isEmpty searchFirst endSearch
      rw [if_pos hu]
      dsimp only
      split_ifs <;> exact ⟨rfl, rfl⟩
    refine ⟨h1, ?_, h2.1, f7⟩
    obtain ⟨a1, a2, a3, a4, a5, a6, a7, a8, a9⟩ := h
    constructor
    · rw [f5]; exact a1
    · rw [f5]; exact a2
    · rw [f5]; exact a3
    · intro _; rw [h2.2]; exact h1
    · rw [f4, f1]; exact a5
    · rw [f4, f1]; exact a6
    · rw [f4, f2]; exact a7
    · rw [f6]; exact a8
    · rw [hv, f7]; exact a9
  · have hu2 : s.emptyTableUnknown = false := by simpa using hu
    rw [isEmpty_known s hu2]
    exact ⟨h.cached hu2, h, hu2, rfl⟩

theorem findBTreeEntry_app (p : Params) (x : TupleData) (s s' : Splicer) (b : Bool)
    (hne : s.index ≠ []) (ho : IndexOrdered p s.index) (hw : WellFormed p x)
    (h : findBTreeEntry p x s = .ok (b, s')) :
    SearchOnly s s' ∧ SameEmptiness s s' ∧
    (b = true → s'.bTreeTupleData ∈ s.index ∧ s'.bTreeTupleData.keys = x.keys ∧
      (s'.cursor = none ∨ s'.current = some s'.bTreeTupleData)) ∧
    (b = false → ∀ e ∈ s.index, e.keys ≠ x.keys) := by
  have hso := findBTreeEntry_searchOnly p x s s' b h
  have hidx : s'.index = s.index := hso.search_fields.2.2.2.2.1
  refine ⟨hso, findBTreeEntry_sameEmptiness p x s s' b h, ?_, ?_⟩
  · intro hb
    subst hb
    have hc := findBTreeEntry_cursor p x s s' hne h
    have hmem : s'.bTreeTupleData ∈ s.index := by
      rcases hc with hc | ⟨-, -, hl, -⟩
      · unfold OnReturned Splicer.current at hc
        rw [← hidx]
        cases hcur : s'.cursor with
        | none => rw [hcur] at hc; cases hc
        | some i => rw [hcur] at hc; exact List.get?_mem hc
      · exact List.mem_of_mem_getLast? hl
    have hcur : s'.cursor = none ∨ s'.current = some s'.bTreeTupleData := by
      rcases hc with hc | ⟨-, hc, -, -⟩
      · exact Or.inr hc
      · exact Or.inl hc
    refine ⟨hmem, ?_, hcur⟩
    rcases Nat.eq_zero_or_pos p.nIdxKeys with hn | hn
    · have h1 := ho.2 _ hmem
      unfold WellFormed at h1 hw
      rw [hn] at h1 hw
      rw [List.length_eq_zero.1 h1, List.length_eq_zero.1 hw]
    · exact ((findBTreeEntry_keyed_result p x s s' true hn hne ho hw h).2 rfl).1
  · intro hb
    subst hb
    rcases Nat.eq_zero_or_pos p.nIdxKeys with hn | hn
    · have := findBTreeEntry_nokey_true p x s s' false hn h
      cases this
    · intro e he hk
      have := (findBTreeEntry_keyed_result p x s s' false hn hne ho hw h).1.2 ⟨e, he, hk⟩
      cases this

theorem app_of_write (p : Params) (s s' : Splicer) (h : App p s) (hw : WriteOnly s s')
    (h1 : IndexOrdered p s'.index) (h2 : UniqueIdx p s'.index) (h3 : s'.index ≠ [])
    (h4 : s'.currExistingEntry = true → s'.currEntry = true) : App p s' := by
  obtain ⟨f1, -, -, f4, f5, f6, f7, f8⟩ := hw.write_fields
  have hv := (procOnly_fields (procOnly_of_write hw)).2.2.2.1
  obtain ⟨-, -, -, a4, a5, a6, -, a8, a9⟩ := h
  constructor
  · exact h1
  · exact h2
  · exact h3
  · rw [f7, f8]; exact a4
  · rw [f4, f1]; exact a5
  · rw [f4, f1]; exact a6
  · exact h4
  · rw [f5]; exact a8
  · rw [hv, f6]; exact a9

theorem insertTupleData_ordered (p : Params) (t : TupleData) (s s' : Splicer)
    (ho : IndexOrdered p s.index) (hw : WellFormed p t)
    (h : insertTupleData p t s = .ok s') :
    s'.index = s.index.take (lubIdx p s.index t) ++ t :: s.index.drop (lubIdx p s.index t) ∧
    IndexOrdered p s'.index ∧ s'.index ≠ [] := by
  obtain ⟨-, t2, -, t4⟩ := insertTupleData_ok p t s s' h
  refine ⟨t2, ?_, ?_⟩
  · rw [t2]
    refine ordered_insert p s.index t ho hw (fun e he => ?_)
    rcases t4 e (List.get?_mem he) with h1 | h1
    · exact h1
    · exact absurd he h1
  · rw [t2]
    simp

theorem insertBitmapEntry_app (p : Params) (s s' : Splicer) (h : App p s)
    (hc : s.currEntry = true) (hi : insertBitmapEntry p s = .ok s') :
    App p s' ∧ WriteOnly s s' ∧ s'.currExistingEntry = false := by
  have hw := insertBitmapEntry_writeOnly p s s' hi
  have hx := (insertBitmapEntry_ok p s s' hi).1
  refine ⟨?_, hw, hx⟩
  have fin : ∀ (y : Splicer), IndexOrdered p y.index → UniqueIdx p y.index →
      insertTupleData p s.pCurrentEntry y = .ok s' → App p s' := by
    intro y y1 y2 hy
    obtain ⟨t1, t2, t3⟩ := insertTupleData_ordered p _ y s' y1 (h.accWf hc) hy
    refine app_of_write p s s' h hw t2 ?_ t3 (fun hh => ?_)
    · rw [t1]
      exact uniqueIdx_insert_non p y.index _ y2 (h.accWf hc) (h.accNon hc)
    · rw [hx] at hh
      cases hh
  unfold insertBitmapEntry at hi
  dsimp only at hi
  split_ifs at hi
  · obtain ⟨s2, h2, hi⟩ := bind_ok_inv hi
    obtain ⟨s4, h4, hi⟩ := bind_ok_inv hi
    have k2 := (relocateEntry_writeOnly p s s2 h2).2.1
    obtain ⟨i, d, -, -, -, d4, -⟩ := deleteCurrent_ok s2 s4 h4
    have e4 : s4.index = s.index.eraseIdx i := by rw [d4, k2]
    refine fin _ ?_ ?_ hi
    · show IndexOrdered p s4.index
      rw [e4]
      exact ordered_erase p _ i h.ordered
    · show UniqueIdx p s4.index
      rw [e4]
      exact uniqueIdx_erase p _ i h.unique
  · exact fin s h.ordered h.unique hi

theorem upsertSingleton_app (p : Params) (x : TupleData) (s s' : Splicer) (h : App p s)
    (hw : WellFormed p x) (hu : uniqueRequired p x = true) (hs : isSingleton x = true)
    (hup : upsertSingleton p x s = .ok s') :
    App p s' ∧ s'.inputTuple = s.inputTuple ∧ s'.currEntry = s.currEntry ∧
    s'.currExistingEntry = s.currExistingEntry := by
  obtain ⟨c1, c2, -, -, -⟩ := upsertSingleton_spec p x s s' hup
  have hK : uniqueKeyCols p x.keys = true := by rw [← uniqueRequired_wf p x hw]; exact hu
  unfold upsertSingleton at hup
  obtain ⟨e1, e2, -, e4⟩ := isEmpty_app p s h
  generalize isEmpty s = r0 at hup e1 e2 e4
  obtain ⟨e, s1⟩ := r0
  dsimp only at hup e1 e2 e4
  subst e1
  have fin : ∀ (z y : Splicer), App p z → WriteOnly z y → IndexOrdered p y.index →
      UniqueIdx p y.index → (∀ e ∈ y.index, e.keys ≠ x.keys) →
      insertTupleData p x y = .ok s' → App p s' ∧ s'.inputTuple = z.inputTuple := by
    intro z y hz hzy y1 y2 y3 hy
    obtain ⟨t1, t2, t3⟩ := insertTupleData_ordered p _ y s' y1 hw hy
    have hzs := hzy.write_trans (insertTupleData_writeOnly p x y s' hy)
    refine ⟨app_of_write p z s' hz hzs t2 ?_ t3 (fun hh => ?_), hzs.write_fields.2.2.2.2.2.1⟩
    · rw [t1]
      exact uniqueIdx_insert_new p y.index x y2 hs y3
    · rw [c1]
      rw [c2] at hh
      exact h.existing hh
  simp only [Bool.not_false, if_true] at hup
  obtain ⟨⟨found, s3⟩, hf, hup⟩ := bind_ok_inv hup
  obtain ⟨g1, g2, g3, g4⟩ := findBTreeEntry_app p x s1 s3 found e2.nonEmpty e2.ordered hw hf
  have h3 : App p s3 := app_of_search p s1 s3 e2 g1 g2
  have hin : s3.inputTuple = s.inputTuple := by rw [g1.search_fields.2.2.2.2.2.2, e4]
  have hidx : s3.index = s1.index := g1.search_fields.2.2.2.2.1
  dsimp only at hup
  split_ifs at hup with hfound
  · obtain ⟨u, -, hup⟩ := bind_ok_inv hup
    obtain ⟨y, hy, hup⟩ := bind_ok_inv hup
    obtain ⟨i, d, d1, d2, -, d4, -⟩ := deleteCurrent_ok s3 y hy
    obtain ⟨m1, m2, m3⟩ := g3 hfound
    have hcur : s3.current = some d := by
      unfold Splicer.current
      rw [d1]
      exact d2
    have hd : d = s3.bTreeTupleData := by
      rcases m3 with m3 | m3
      · rw [d1] at m3
        cases m3
      · rw [hcur] at m3
        exact Option.some.inj m3
    have hdk : d.keys = x.keys := by rw [hd]; exact m2
    obtain ⟨r1, r2⟩ := fin s3 y h3 (deleteCurrent_writeOnly s3 y hy)
      (by rw [d4]; exact ordered_erase p _ i h3.ordered)
      (by rw [d4]; exact uniqueIdx_erase p _ i h3.unique)
      (by
        rw [d4, ← hdk]
        exact uniqueIdx_erase_none p s3.index i d h3.unique d2 (by rw [hdk]; exact hK)) hup
    exact ⟨r1, by rw [r2, hin], c1, c2⟩
  · obtain ⟨y, hy, hup⟩ := bind_ok_inv hup
    cases hy
    have hnf : found = false := by simpa using hfound
    obtain ⟨r1, r2⟩ := fin s3 s3 h3 (WriteOnly.write_refl s3) h3.ordered h3.unique
      (by rw [hidx]; exact g4 hnf) hup
    exact ⟨r1, by rw [r2, hin], c1, c2⟩

theorem app_setAcc (p : Params) (s : Splicer) (h : App p s) (t : TupleData) (b : Bool)
    (hw : WellFormed p t) (hu : uniqueRequired p t = false) :
    App p (createNewBitmapEntry t { s with currExistingEntry := b }) := by
  obtain ⟨a1, a2, a3, a4, -, -, -, a8, a9⟩ := h
  exact ⟨a1, a2, a3, a4, fun _ => hw, fun _ => hu, fun _ => rfl, a8, a9⟩

theorem existingEntry_app (p : Params) (x : TupleData) (s s' : Splicer) (b : Bool)
    (h : App p s) (hw : WellFormed p x) (hu : uniqueRequired p x = false)
    (he : existingEntry p x s = .ok (b, s')) :
    App p s' ∧ s'.currEntry = true ∧ s'.inputTuple = s.inputTuple := by
  unfold existingEntry at he
  obtain ⟨e1, e2, -, e4⟩ := isEmpty_app p s h
  generalize isEmpty s = r0 at he e1 e2 e4
  obtain ⟨e, s1⟩ := r0
  dsimp only at he e1 e2 e4
  subst e1
  simp only [Bool.not_false, if_true] at he
  obtain ⟨⟨found, s2⟩, hf, he⟩ := bind_ok_inv he
  obtain ⟨g1, g2, g3, -⟩ := findBTreeEntry_app p x s1 s2 found e2.nonEmpty e2.ordered hw hf
  have h2 : App p s2 := app_of_search p s1 s2 e2 g1 g2
  have hin : s2.inputTuple = s.inputTuple := by rw [g1.search_fields.2.2.2.2.2.2, e4]
  dsimp only at he
  split_ifs at he with hfound
  · simp only [pure, Except.pure, Except.ok.injEq, Prod.mk.injEq] at he
    obtain ⟨-, rfl⟩ := he
    obtain ⟨m1, m2, -⟩ := g3 hfound
    have hwb : WellFormed p s2.bTreeTupleData := e2.ordered.2 _ m1
    have hub : uniqueRequired p s2.bTreeTupleData = false := by
      rw [uniqueRequired_congr p _ x hwb hw m2]
      exact hu
    obtain ⟨a1, a2, a3, a4, -, -, -, a8, a9⟩ := h2
    exact ⟨⟨a1, a2, a3, a4, fun _ => hwb, fun _ => hub, fun _ => rfl, a8, a9⟩, rfl, hin⟩
  · simp only [pure, Except.pure, Except.ok.injEq, Prod.mk.injEq] at he
    obtain ⟨-, rfl⟩ := he
    exact ⟨app_setAcc p s2 h2 x false hw hu, rfl, hin⟩

theorem spliceEntry_app (p : Params) (x : TupleData) (s s' : Splicer) (hco : CodecOk p)
    (h : App p s) (hc : s.currEntry = true) (hw : WellFormed p x)
    (hu : uniqueRequired p x = false) (hsp : spliceEntry p x s = .ok s') :
    App p s' ∧ s'.currEntry = true ∧ s'.inputTuple = s.inputTuple := by
  unfold spliceEntry at hsp
  split at hsp
  · rename_i merged hm
    simp only [pure, Except.pure, Except.ok.injEq] at hsp
    subst hsp
    obtain ⟨k1, -⟩ := hco.mergeCols _ _ _ hm
    have hwm : WellFormed p merged := by
      unfold WellFormed
      rw [k1]
      exact h.accWf hc
    have hum : uniqueRequired p merged = false := by
      rw [uniqueRequired_congr p merged s.pCurrentEntry hwm (h.accWf hc) k1]
      exact h.accNon hc
    obtain ⟨a1, a2, a3, a4, -, -, a7, a8, a9⟩ := h
    exact ⟨⟨a1, a2, a3, a4, fun _ => hwm, fun _ => hum, a7, a8, a9⟩, hc, rfl⟩
  · obtain ⟨s1, h1, hsp⟩ := bind_ok_inv hsp
    simp only [pure, Except.pure, Except.ok.injEq] at hsp
    subst hsp
    obtain ⟨b1, b2, b3⟩ := insertBitmapEntry_app p s s1 h hc h1
    have hh := app_setAcc p s1 b1 x false hw hu
    have e : ({ s1 with currExistingEntry := false } : Splicer) = s1 := by
      rw [← b3]
    rw [e] at hh
    exact ⟨hh, rfl, b2.write_fields.2.2.2.2.2.1⟩

theorem findBetterEntry_app (p : Params) (x : TupleData) (s s' : Splicer)
    (h : App p s) (hc : s.currEntry = true) (hw : WellFormed p x)
    (hu : uniqueRequired p x = false) (hf : findBetterEntry p x s = .ok s') :
    App p s' ∧ s'.currEntry = true ∧ s'.inputTuple = s.inputTuple := by
  unfold findBetterEntry at hf
  obtain ⟨u, -, hf⟩ := bind_ok_inv hf
  obtain ⟨e1, e2, -, e4⟩ := isEmpty_app p s h
  have ec : (isEmpty s).2.currEntry = s.currEntry := (isEmpty_searchOnly s).search_fields.2.2.2.1
  generalize isEmpty s = r0 at hf e1 e2 e4 ec
  obtain ⟨e, s1⟩ := r0
  dsimp only at hf e1 e2 e4 ec
  subst e1
  simp only [Bool.not_false, if_true] at hf
  obtain ⟨⟨found, s2⟩, hfb, hf⟩ := bind_ok_inv hf
  obtain ⟨g1, g2, g3, -⟩ := findBTreeEntry_app p x s1 s2 found e2.nonEmpty e2.ordered hw hfb
  have h2 : App p s2 := app_of_search p s1 s2 e2 g1 g2
  have hin : s2.inputTuple = s.inputTuple := by rw [g1.search_fields.2.2.2.2.2.2, e4]
  have hc2 : s2.currEntry = true := by rw [g1.search_fields.2.2.2.1, ec, hc]
  dsimp only at hf
  split_ifs at hf with hfound <;> first
    | (simp only [pure, Except.pure, Except.ok.injEq] at hf
       subst hf
       exact ⟨h2, hc2, hin⟩)
    | (obtain ⟨s3, h3, hf⟩ := bind_ok_inv hf
       simp only [pure, Except.pure, Except.ok.injEq] at hf
       subst hf
       obtain ⟨b1, b2, -⟩ := insertBitmapEntry_app p s2 s3 h2 hc2 h3
       obtain ⟨m1, m2, -⟩ := g3 hfound
       have hbt : s3.bTreeTupleData = s2.bTreeTupleData := b2.write_fields.2.1
       have hwb : WellFormed p s3.bTreeTupleData := by
         rw [hbt]
         exact e2.ordered.2 _ m1
       have hub : uniqueRequired p s3.bTreeTupleData = false := by
         rw [uniqueRequired_congr p _ x hwb hw (by rw [hbt]; exact m2)]
         exact hu
       exact ⟨app_setAcc p s3 b1 _ true hwb hub, rfl,
         by
           show s3.inputTuple = s.inputTuple
           rw [b2.write_fields.2.2.2.2.2.1, hin]⟩)

theorem adoptOrSplice_app (p : Params) (s s' : Splicer) (hco : CodecOk p) (h : App p s)
    (hw : WellFormed p s.inputTuple) (hu : uniqueRequired p s.inputTuple = false)
    (hr : (do
      let (found, s2) ← existingEntry p s.inputTuple s
      if found then spliceEntry p s2.inputTuple s2 else pure s2) = Except.ok s') :
    App p s' ∧ s'.inputTuple = s.inputTuple := by
  obtain ⟨⟨found, s2⟩, h1, hr⟩ := bind_ok_inv hr
  obtain ⟨b1, b2, b3⟩ := existingEntry_app p _ s s2 found h hw hu h1
  dsimp only at hr
  split_ifs at hr
  · obtain ⟨c1, -, c3⟩ := spliceEntry_app p _ s2 s' hco b1 b2 (by rw [b3]; exact hw)
      (by rw [b3]; exact hu) hr
    exact ⟨c1, by rw [c3, b3]⟩
  · simp only [pure, Except.pure, Except.ok.injEq] at hr
    subst hr
    exact ⟨b1, b3⟩

theorem app_clearAcc (p : Params) (s : Splicer) (h : App p s)
    (hx : s.currExistingEntry = false) : App p { s with currEntry := false } := by
  obtain ⟨a1, a2, a3, a4, -, -, -, a8, a9⟩ := h
  exact ⟨a1, a2, a3, a4, fun hh => (by cases hh), fun hh => (by cases hh),
    fun hh => (by rw [hx] at hh; cases hh), a8, a9⟩

theorem routeTuple_app (p : Params) (s s' : Splicer) (hco : CodecOk p) (h : App p s)
    (hw : WellFormed p s.inputTuple)
    (hs : uniqueRequired p s.inputTuple = true → isSingleton s.inputTuple = true)
    (hr : routeTuple p s = .ok s') : App p s' ∧ s'.inputTuple = s.inputTuple := by
  unfold routeTuple at hr
  have flushed : ∀ s2, insertBitmapEntry p s = .ok s2 → s.currEntry = true →
      App p s2 ∧ s2.inputTuple = s.inputTuple ∧ s2.currExistingEntry = false := by
    intro s2 h2 hc
    obtain ⟨b1, b2, b3⟩ := insertBitmapEntry_app p s s2 h hc h2
    exact ⟨b1, b2.write_fields.2.2.2.2.2.1, b3⟩
  split_ifs at hr with h1 h2
  · obtain ⟨s3, h3, hr⟩ := bind_ok_inv hr
    obtain ⟨b1, b2, b3⟩ := flushed s3 h3 h2
    have hin : ({ s3 with currEntry := false } : Splicer).inputTuple = s.inputTuple := b2
    obtain ⟨c1, c2, -, -⟩ := upsertSingleton_app p _ _ s' (app_clearAcc p s3 b1 b3)
      (by rw [hin]; exact hw) (by rw [hin]; exact h1) (by rw [hin]; exact hs h1) hr
    exact ⟨c1, by rw [c2, hin]⟩
  · obtain ⟨c1, c2, -, -⟩ := upsertSingleton_app p _ _ s' h hw h1 (hs h1) hr
    exact ⟨c1, c2⟩
  · exact adoptOrSplice_app p s s' hco h hw (by simpa using h1) hr
  · rename_i h2 h3
    have hu : uniqueRequired p s.inputTuple = false := by simpa using h1
    have hc : s.currEntry = true := by simpa using h2
    dsimp only at hr
    obtain ⟨u, -, hr⟩ := bind_ok_inv hr
    split_ifs at hr
    · obtain ⟨s2, hs2, hr⟩ := bind_ok_inv hr
      obtain ⟨b1, b2, b3⟩ := findBetterEntry_app p _ s s2 h hc hw hu hs2
      obtain ⟨c1, -, c3⟩ := spliceEntry_app p _ s2 s' hco b1 b2 (by rw [b3]; exact hw)
        (by rw [b3]; exact hu) hr
      exact ⟨c1, by rw [c3, b3]⟩
    · obtain ⟨s2, hs2, hr⟩ := bind_ok_inv hr
      obtain ⟨b1, b2, -⟩ := flushed s2 hs2 hc
      obtain ⟨c1, c2⟩ := adoptOrSplice_app p s2 s' hco b1 (by rw [b2]; exact hw)
        (by rw [b2]; exact hu) hr
      exact ⟨c1, by rw [c2, b2]⟩
  · rename_i h2 h3
    have hu : uniqueRequired p s.inputTuple = false := by simpa using h1
    have hc : s.currEntry = true := by simpa using h2
    dsimp only at hr
    obtain ⟨u, -, hr⟩ := bind_ok_inv hr
    split_ifs at hr
    · obtain ⟨c1, -, c3⟩ := spliceEntry_app p _ s s' hco h hc hw hu hr
      exact ⟨c1, c3⟩
    · obtain ⟨s2, hs2, hr⟩ := bind_ok_inv hr
      obtain ⟨b1, b2, -⟩ := flushed s2 hs2 hc
      obtain ⟨c1, c2⟩ := adoptOrSplice_app p s2 s' hco b1 (by rw [b2]; exact hw)
        (by rw [b2]; exact hu) hr
      exact ⟨c1, by rw [c2, b2]⟩

theorem processTuple_app (p : Params) (s s' : Splicer) (hco : CodecOk p) (h : App p s)
    (hw : WellFormed p s.inputTuple)
    (hs : uniqueRequired p s.inputTuple = true → isSingleton s.inputTuple = true)
    (hr : processTuple p s = .ok s') : App p s' := by
  unfold processTuple at hr
  obtain ⟨s1, h1, hr⟩ := bind_ok_inv hr
  simp only [pure, Except.pure, Except.ok.injEq] at hr
  subst hr
  obtain ⟨b1, b2⟩ := routeTuple_app p s s1 hco h hw hs h1
  obtain ⟨a1, a2, a3, a4, a5, a6, a7, a8, -⟩ := b1
  exact ⟨a1, a2, a3, a4, a5, a6, a7, fun t ht => a8 t (List.mem_of_mem_tail ht),
    fun _ => (by
      show WellFormed p s1.inputTuple
      rw [b2]
      exact hw)⟩

theorem violationLoop_valOnly (p : Params) (L : List Nat) (s s' : Splicer) (d : Bool)
    (h : violationLoop p L s = .ok (d, s')) : ValOnly s s' := by
  have hv : L ≠ [] → p.hasViolationOutput = true := by
    intro hne
    cases L with
    | nil => exact absurd rfl hne
    | cons rid rest =>
      unfold violationLoop at h
      obtain ⟨u, hu, -⟩ := bind_ok_inv h
      unfold permAssert at hu
      split_ifs at hu with hh
      exact hh
  obtain ⟨d2, s2, pre, post, k1, -, -, -, -, k2, -⟩ := violationLoop_spec p L s hv
  rw [h] at k1
  simp only [Except.ok.injEq, Prod.mk.injEq] at k1
  rw [k1.2]
  exact k2

theorem chooseUpsertRid_valOnly (p : Params) (s s' : Splicer) (hn : p.createNewIndex = false)
    (h : chooseUpsertRid p s = .ok s') : ValOnly s s' := by
  unfold chooseUpsertRid at h
  rw [hn] at h
  simp only [Bool.not_false, if_true] at h
  split_ifs at h
  · obtain ⟨u, -, h⟩ := bind_ok_inv h
    split at h
    · cases h
    · simp only [pure, Except.pure, Except.ok.injEq] at h
      subst h
      unfold ValOnly
      rfl
  · simp only [pure, Except.pure, Except.ok.injEq] at h
    subst h
    exact valOnly_refl s

theorem app_of_valOnly (p : Params) (s s' : Splicer) (h : App p s) (hv : ValOnly s s') :
    App p s' := by
  obtain ⟨-, -, -, f4, -, -, -, f8, f9, f10, f11, f12, f13, f14, f15⟩ := valOnly_fields hv
  exact app_congr p s s' h f10 ⟨f14, f15⟩ f11 f12 f13 f8 f4 f9

theorem countKeyRows_app (p : Params) (s s' : Splicer) (n : Nat) (h : App p s)
    (hw : WellFormed p s.inputTuple) (hc : countKeyRows p s = .ok (n, s')) :
    App p s' ∧ s'.inputTuple = s.inputTuple ∧ s'.inBuf = s.inBuf := by
  unfold countKeyRows at hc
  obtain ⟨u, -, hc⟩ := bind_ok_inv hc
  obtain ⟨e1, e2, -, e4⟩ := isEmpty_app p s h
  have e5 : (isEmpty s).2.inBuf = s.inBuf := (isEmpty_searchOnly s).search_fields.2.2.2.2.2.1
  generalize isEmpty s = r0 at hc e1 e2 e4 e5
  obtain ⟨e, s1⟩ := r0
  dsimp only at hc e1 e2 e4 e5
  subst e1
  simp only [Bool.false_eq_true, if_false] at hc
  obtain ⟨⟨found, s2⟩, hf, hc⟩ := bind_ok_inv hc
  obtain ⟨g1, g2, -, -⟩ := findBTreeEntry_app p _ s1 s2 found e2.nonEmpty e2.ordered
    (by rw [e4]; exact hw) hf
  have h2 : App p s2 := app_of_search p s1 s2 e2 g1 g2
  have hin : s2.inputTuple = s.inputTuple := by rw [g1.search_fields.2.2.2.2.2.2, e4]
  have hbuf : s2.inBuf = s.inBuf := by rw [g1.search_fields.2.2.2.2.2.1, e5]
  dsimp only at hc
  split_ifs at hc
  · simp only [pure, Except.pure, Except.ok.injEq, Prod.mk.injEq] at hc
    obtain ⟨-, rfl⟩ := hc
    exact ⟨h2, hin, hbuf⟩
  all_goals
    obtain ⟨u2, -, hc⟩ := bind_ok_inv hc
    simp only [pure, Except.pure, Except.ok.injEq, Prod.mk.injEq] at hc
    obtain ⟨-, rfl⟩ := hc
    exact ⟨app_congr p s2 _ h2 rfl ⟨rfl, rfl⟩ rfl rfl rfl rfl rfl rfl, hin, hbuf⟩

theorem beginGroup_app (p : Params) (s s' : Splicer) (h : App p s)
    (hw : WellFormed p s.inputTuple) (hb : beginGroup p s = .ok s') :
    App p s' ∧ s'.inputTuple = s.inputTuple ∧ s'.inBuf = s.inBuf := by
  unfold beginGroup at hb
  split_ifs at hb
  · obtain ⟨⟨n, s5⟩, h5, hb⟩ := bind_ok_inv hb
    have key := fun a w => countKeyRows_app p _ s5 n a w h5
    obtain ⟨b1, b2, b3⟩ := key (app_congr p s _ h rfl ⟨rfl, rfl⟩ rfl rfl rfl rfl rfl rfl) hw
    dsimp only at hb
    simp only [pure, Except.pure, Except.ok.injEq] at hb
    subst hb
    exact ⟨app_congr p s5 _ b1 rfl ⟨rfl, rfl⟩ rfl rfl rfl rfl rfl rfl, b2, b3⟩
  · simp only [pure, Except.pure, Except.ok.injEq] at hb
    subst hb
    exact ⟨h, rfl, rfl⟩

theorem readInput_app (p : Params) (s s1 : Splicer) (early : Option ExecStreamResult)
    (hn : p.createNewIndex = false) (h : App p s) (hr : readInput p s = .ok (early, s1)) :
    App p s1 ∧
    (early = some .EXECRC_YIELD →
      WellFormed p s1.inputTuple ∧ uniqueRequired p s1.inputTuple = false) ∧
    (early = none → WellFormed p s1.inputTuple) := by
  unfold readInput at hr
  split at hr
  · simp only [pure, Except.pure, Except.ok.injEq, Prod.mk.injEq] at hr
    obtain ⟨rfl, rfl⟩ := hr
    exact ⟨h, fun hh => (by cases hh), fun hh => (by cases hh)⟩
  · rename_i t rest hb
    have hwt := h.bufWf t (by rw [hb]; exact List.mem_cons_self _ _)
    have hcd : ∀ x, createDeferred p x = x := by
      intro x
      unfold createDeferred
      rw [hn]
      rfl
    have hA : App p (unmarshalInput p t s) ∧ WellFormed p (unmarshalInput p t s).inputTuple := by
      obtain ⟨a1, a2, a3, a4, a5, a6, a7, a8, -⟩ := h
      unfold unmarshalInput
      unfold tupleAsRead at hwt
      split_ifs at hwt ⊢ <;> exact ⟨⟨a1, a2, a3, a4, a5, a6, a7, a8, fun _ => hwt⟩, hwt⟩
    dsimp only at hr
    rw [hcd] at hr
    generalize unmarshalInput p t s = s2 at hr hA
    obtain ⟨hA, hW⟩ := hA
    split_ifs at hr with hu
    · simp only [pure, Except.pure, Except.ok.injEq, Prod.mk.injEq] at hr
      obtain ⟨rfl, rfl⟩ := hr
      exact ⟨hA, fun _ => ⟨hW, by simpa using hu⟩, fun hh => (by cases hh)⟩
    · obtain ⟨s3, h3, hr⟩ := bind_ok_inv hr
      simp only [pure, Except.pure, Except.ok.injEq, Prod.mk.injEq] at hr
      obtain ⟨rfl, rfl⟩ := hr
      obtain ⟨b1, b2, -⟩ := beginGroup_app p s2 s3 hA hW h3
      have hW3 : WellFormed p s3.inputTuple := by rw [b2]; exact hW
      obtain ⟨a1, a2, a3, a4, a5, a6, a7, a8, -⟩ := b1
      exact ⟨⟨a1, a2, a3, a4, a5, a6, a7, a8, fun _ => hW3⟩, fun hh => (by cases hh),
        fun _ => hW3⟩

theorem validateCurrent_app (p : Params) (s s' : Splicer) (res : Option ExecStreamResult)
    (hn : p.createNewIndex = false) (h : App p s) (hw : WellFormed p s.inputTuple)
    (hv : validateCurrent p s = .ok (res, s')) :
    App p s' ∧
    (res = some .EXECRC_YIELD → WellFormed p s'.inputTuple ∧ isSingleton s'.inputTuple = true) := by
  unfold validateCurrent at hv
  obtain ⟨s1, h1, hv⟩ := bind_ok_inv hv
  obtain ⟨⟨done, s3⟩, h3, hv⟩ := bind_ok_inv hv
  have k : ValOnly s s3 :=
    valOnly_trans (chooseUpsertRid_valOnly p s s1 hn h1) (violationLoop_valOnly p _ s1 s3 done h3)
  have h3a : App p s3 := app_of_valOnly p s s3 h k
  have hin : s3.inputTuple = s.inputTuple := (valOnly_fields k).2.2.2.2.2.2.2.2.1
  obtain ⟨a1, a2, a3, a4, a5, a6, a7, a8, a9⟩ := h3a
  dsimp only at hv
  split_ifs at hv
  · simp only [pure, Except.pure, Except.ok.injEq, Prod.mk.injEq] at hv
    obtain ⟨rfl, rfl⟩ := hv
    exact ⟨⟨a1, a2, a3, a4, a5, a6, a7, a8, a9⟩, fun hh => (by cases hh)⟩
  · split at hv
    · simp only [pure, Except.pure, Except.ok.injEq, Prod.mk.injEq] at hv
      obtain ⟨rfl, rfl⟩ := hv
      refine ⟨⟨a1, a2, a3, a4, a5, a6, a7, a8, fun hh => (by cases hh)⟩, fun _ => ⟨?_, rfl⟩⟩
      show s3.inputTuple.keys.length = p.nIdxKeys
      rw [hin]
      exact hw
    · simp only [pure, Except.pure, Except.ok.injEq, Prod.mk.injEq] at hv
      obtain ⟨rfl, rfl⟩ := hv
      exact ⟨⟨a1, a2, a3, a4, a5, a6, a7, fun t ht => a8 t (List.mem_of_mem_tail ht),
        fun hh => (by cases hh)⟩, fun hh => (by cases hh)⟩

theorem gvLoop_app (p : Params) (hn : p.createNewIndex = false) :
    ∀ (fuel : Nat) (s s' : Splicer) (rc : ExecStreamResult), App p s →
      getValidatedTupleLoop p fuel s = .ok (rc, s') →
      App p s' ∧ (rc = .EXECRC_YIELD → WellFormed p s'.inputTuple ∧
        (uniqueRequired p s'.inputTuple = true → isSingleton s'.inputTuple = true)) := by
  intro fuel
  induction fuel with
  | zero =>
    intro s s' rc ha h
    unfold getValidatedTupleLoop at h
    simp only [pure, Except.pure, Except.ok.injEq, Prod.mk.injEq] at h
    obtain ⟨rfl, rfl⟩ := h
    exact ⟨ha, fun hh => (by cases hh)⟩
  | succ fuel ih =>
    intro s s' rc ha h
    have tail : ∀ (s1 : Splicer), App p s1 → WellFormed p s1.inputTuple →
        (match validateCurrent p s1 with
          | .ok (some rc, s2) => Except.ok (rc, s2)
          | .ok (none, s2) => getValidatedTupleLoop p fuel s2
          | .error e => .error e) = Except.ok (rc, s') →
        App p s' ∧ (rc = .EXECRC_YIELD → WellFormed p s'.inputTuple ∧
          (uniqueRequired p s'.inputTuple = true → isSingleton s'.inputTuple = true)) := by
      intro s1 a1 w1 h
      cases hvc : validateCurrent p s1 with
      | error e => rw [hvc] at h; cases h
      | ok x =>
        obtain ⟨res, s2⟩ := x
        rw [hvc] at h
        obtain ⟨k1, k2⟩ := validateCurrent_app p s1 s2 res hn a1 w1 hvc
        cases res with
        | some r =>
          simp only [Except.ok.injEq, Prod.mk.injEq] at h
          obtain ⟨rfl, rfl⟩ := h
          exact ⟨k1, fun hh => ⟨(k2 (by rw [hh])).1, fun _ => (k2 (by rw [hh])).2⟩⟩
        | none => exact ih s2 s' rc k1 h
    cases hcv : s.currValidation with
    | true =>
      rw [gvLoop_resume p fuel s hcv] at h
      exact tail s ha (ha.valWf hcv) h
    | false =>
      cases hri : readInput p s with
      | error e =>
        unfold getValidatedTupleLoop at h
        rw [hcv] at h
        simp only [Bool.not_false, if_true, hri, bind, Except.bind] at h
        cases h
      | ok x =>
        obtain ⟨early, s1⟩ := x
        obtain ⟨k1, k2, k3⟩ := readInput_app p s s1 early hn ha hri
        cases early with
        | some r =>
          rw [gvLoop_early p fuel s s1 r hcv hri] at h
          simp only [Except.ok.injEq, Prod.mk.injEq] at h
          obtain ⟨rfl, rfl⟩ := h
          refine ⟨k1, fun hh => ?_⟩
          obtain ⟨w, u⟩ := k2 (by rw [hh])
          exact ⟨w, fun hu => (by rw [u] at hu; cases hu)⟩
        | none =>
          rw [gvLoop_read p fuel s s1 hcv hri] at h
          exact tail s1 k1 (k3 rfl) h

theorem executeLoop_app (p : Params) (hn : p.createNewIndex = false) (hco : CodecOk p) :
    ∀ (n : Nat) (s s' : Splicer) (rc : ExecStreamResult), App p s →
      executeLoop p n s = .ok (rc, s') → App p s' := by
  intro n
  induction n with
  | zero =>
    intro s s' rc ha h
    unfold executeLoop at h
    simp only [pure, Except.pure, Except.ok.injEq, Prod.mk.injEq] at h
    rw [← h.2]; exact ha
  | succ n ih =>
    intro s s' rc ha h
    unfold executeLoop at h
    obtain ⟨⟨r1, s1⟩, h1, h⟩ := bind_ok_inv h
    obtain ⟨k1, k2⟩ := gvLoop_app p hn _ s s1 r1 ha h1
    dsimp only at h
    split_ifs at h with hy
    · simp only [pure, Except.pure, Except.ok.injEq, Prod.mk.injEq] at h
      rw [← h.2]; exact k1
    · obtain ⟨s2, h2, h⟩ := bind_ok_inv h
      have hy2 : r1 = .EXECRC_YIELD := by simpa using hy
      obtain ⟨w, u⟩ := k2 hy2
      exact ih s2 s' rc (processTuple_app p s1 s2 hco k1 w u h2) h

theorem execute_app (p : Params) (hn : p.createNewIndex = false) (hco : CodecOk p) (q : Nat)
    (s s' : Splicer) (rc : ExecStreamResult) (ha : App p s)
    (h : execute p q s = .ok (rc, s')) : App p s' := by
  unfold execute at h
  by_cases hd : s.isDone = true
  · rw [if_pos hd] at h
    simp only [pure, Except.pure, Except.ok.injEq, Prod.mk.injEq] at h
    obtain ⟨-, rfl⟩ := h
    refine app_congr p s _ ha ?_ ⟨?_, ?_⟩ ?_ ?_ ?_ ?_ ?_ ?_ <;>
      cases s.newIndexCreated <;> rfl
  rw [if_neg hd] at h
  by_cases he : s.inBuf.length = 0 ∧ s.inEOS = true
  · rw [if_pos he] at h
    have fin : ∀ s1 : Splicer, App p s1 →
        (Except.ok (ExecStreamResult.EXECRC_BUF_OVERFLOW,
          (let s2 := if !p.computeRowCount then
              { s1 with numRowsLoaded := s1.insertRowCountParam } else s1
           let s3 := if p.writeRowCountParam then s2.emit (.writeParam s2.numRowsLoaded) else s2
           { s3.emit (.outputTuple s3.numRowsLoaded) with isDone := true })) :
          Except Fatal (ExecStreamResult × Splicer)) = .ok (rc, s') → App p s' := by
      intro s1 a1 h
      simp only [Except.ok.injEq, Prod.mk.injEq] at h
      obtain ⟨-, rfl⟩ := h
      refine app_congr p s1 _ a1 ?_ ⟨?_, ?_⟩ ?_ ?_ ?_ ?_ ?_ ?_ <;>
        cases p.computeRowCount <;> cases p.writeRowCountParam <;> rfl
    dsimp only at h
    by_cases hc : s.currEntry = true
    · rw [if_pos hc] at h
      obtain ⟨s1, e1, h⟩ := bind_ok_inv h
      exact fin s1 (insertBitmapEntry_app p s s1 ha hc e1).1 h
    · rw [if_neg hc] at h
      exact fin s ha h
  · rw [if_neg he] at h
    exact executeLoop_app p hn hco q s s' rc ha h

theorem app_deliver (p : Params) (sl : Slice) (pend : List TupleData) (s : Splicer)
    (ha : App p s) (hp : ∀ t ∈ pend, WellFormed p (tupleAsRead p t)) :
    App p (deliverSlice sl pend s) := by
  obtain ⟨a1, a2, a3, a4, a5, a6, a7, a8, a9⟩ := ha
  refine ⟨a1, a2, a3, a4, a5, a6, a7, fun t ht => ?_, a9⟩
  rcases List.mem_append.1 ht with ht | ht
  · exact a8 t ht
  · exact hp t (List.mem_of_mem_take ht)

theorem runSched_app (p : Params) (hn : p.createNewIndex = false) (hco : CodecOk p) :
    ∀ (sched : List Slice) (pend : List TupleData) (s sF : Splicer), App p s →
      (∀ t ∈ pend, WellFormed p (tupleAsRead p t)) →
      runSched p sched pend s = .ok sF → App p sF := by
  intro sched
  induction sched with
  | nil =>
    intro pend s sF ha _ h
    unfold runSched at h
    simp only [Except.ok.injEq] at h
    rw [← h]; exact ha
  | cons sl rest ih =>
    intro pend s sF ha hp h
    unfold runSched at h
    cases hx : execute p sl.quantum (deliverSlice sl pend s) with
    | error e => rw [hx] at h; cases h
    | ok x =>
      obtain ⟨rc, s1⟩ := x
      rw [hx] at h
      exact ih _ s1 sF (execute_app p hn hco _ _ s1 rc (app_deliver p sl pend s ha hp) hx)
        (fun t ht => hp t (List.mem_of_mem_drop ht)) h

theorem app_open (p : Params) (index0 : List TupleData) (root room cnt : Nat)
    (ho : IndexOrdered p index0) (hu : UniqueIdx p index0) (hne : index0 ≠ []) :
    App p (openStream index0 root [] false room cnt) :=
  ⟨ho, hu, hne, fun hh => (by cases hh), fun hh => (by cases hh), fun hh => (by cases hh),
    fun hh => (by cases hh), fun _ ht => (by cases ht), fun hh => (by cases hh)⟩

/-- C24: on a unique index the uniqueness constraint is an invariant of a run.
If the index a run starts on is ordered and holds, for every key of `nIdxKeys`
columns none of which is null, at most one entry and that entry a singleton,
then for an input that is well formed and sorted by key, under every schedule
of `execute` calls (so after every call of a run), the index still holds at
most one entry for every such key, a singleton, and `currExistingEntry` implies
`currEntry`.  On an index without uniqueness constraint no key is subject to
the constraint and the first part is empty. -/
theorem unique_index_invariant (p : Params) (hc : CodecOk p) (index0 input : List TupleData)
    (hin : InputOk p (input.map (tupleAsRead p)))
    (ho : IndexOrdered p index0) (hu : UniqueIdx p index0)
    (sched : List Slice) (root room cnt : Nat) (sF : Splicer)
    (h : runSched p sched input (openStream index0 root [] false room cnt) = .ok sF) :
    UniqueIdx p sF.index ∧ (sF.currExistingEntry = true → sF.currEntry = true) := by
  obtain ⟨s0, e0, u0, x0⟩ := unique_from_empty p hc input hin sched root room cnt
  by_cases hne : index0 = []
  · subst hne
    rw [e0] at h
    cases h
    exact ⟨u0, fun hh => (by rw [x0] at hh; cases hh)⟩
  cases hn : p.createNewIndex with
  | true =>
    have hpre : PreCreate p (openStream [] root [] false room cnt) := ⟨hn, rfl, rfl, rfl, rfl⟩
    have h2 : runSched p sched input
        (withIndex index0 (openStream [] root [] false room cnt)) = .ok sF := h
    obtain ⟨s1, e1, hs⟩ := runSched_preCreate p index0 sched input _ sF hpre h2
    rw [e0] at e1
    cases e1
    rcases hs with rfl | ⟨-, rfl⟩
    · exact ⟨u0, fun hh => (by rw [x0] at hh; cases hh)⟩
    · exact ⟨hu, fun hh => (by
        have : s0.currExistingEntry = true := hh
        rw [x0] at this
        cases this)⟩
  | false =>
    have ha := runSched_app p hn hc sched input _ sF (app_open p index0 root room cnt ho hu hne)
      (fun t ht => hin.wf _ (List.mem_map_of_mem _ ht)) h
    exact ⟨ha.unique, ha.existing⟩

set_option maxHeartbeats 4000000 in
theorem unique_index_invariant_witness :
    runSched (uniqueParams false [3]) twoCalls [bitmap [some 5] 10 [11, 12]]
      (openStream [singleton [some 5] 3] 0 [] false 0 0) = .ok appendedRun ∧
    appendedRun.index = [singleton [some 5] 10] ∧
    UniqueIdx (uniqueParams false [3]) appendedRun.index ∧
    (appendedRun.currExistingEntry = true → appendedRun.currEntry = true) := by
  have h : runSched (uniqueParams false [3]) twoCalls [bitmap [some 5] 10 [11, 12]]
      (openStream [singleton [some 5] 3] 0 [] false 0 0) = .ok appendedRun := by decide!
  have ho : IndexOrdered (uniqueParams false [3]) [singleton [some 5] 3] :=
    ⟨List.pairwise_singleton _ _, fun e he => (by
      rw [List.mem_singleton] at he
      subst he
      rfl)⟩
  have hu : UniqueIdx (uniqueParams false [3]) [singleton [some 5] 3] := by
    intro K _
    refine ⟨(List.length_filter_le _ _).trans (le_refl 1), fun e he _ => ?_⟩
    rw [List.mem_singleton] at he
    subst he
    rfl
  exact ⟨h, by decide!,
    unique_index_invariant (uniqueParams false [3]) (codecOk_list _ 100 rfl)
      [singleton [some 5] 3] [bitmap [some 5] 10 [11, 12]] (inputOk_unique_one false [3])
      ho hu twoCalls 0 0 0 appendedRun h⟩

end LbmSplicer
